import Mathlib

/-! # Explicit-free-list allocator (`mm.c`): shallow embedding and verification

The C translation unit is embedded as pure functions over an explicit heap
state.  Memory is a byte map; the 8-byte words of the allocator are read and
written little-endian.  Pointers and `size_t` values are natural numbers below
`2 ^ 64`, with the wrap-around of the C arithmetic written out where the
source performs an unsigned operation.  `NULL` is address `0`.
-/

namespace MM

/-! ## Memory and page provider -/

/-- Little-endian read of the 8-byte word at byte address `a`. -/
def load64 (m : Nat → Nat) (a : Nat) : Nat :=
  m a % 256 + 256 * (m (a + 1) % 256 + 256 * (m (a + 2) % 256 + 256 * (m (a + 3) % 256
    + 256 * (m (a + 4) % 256 + 256 * (m (a + 5) % 256 + 256 * (m (a + 6) % 256
    + 256 * (m (a + 7) % 256)))))))

/-- Little-endian write of the 8-byte word `v` at byte address `a`. -/
def store64 (m : Nat → Nat) (a v : Nat) : Nat → Nat :=
  fun x => if a ≤ x ∧ x < a + 8 then v / 256 ^ (x - a) % 256 else m x

/-- The allocator state: the byte memory, the page provider's bounds
(`lo = mem_heap_lo()`, `brk = mem_heap_hi() + 1`, `limit` the highest break the
provider grants) and the two globals of `mm.c`. -/
structure Heap where
  mem : Nat → Nat
  lo : Nat
  brk : Nat
  limit : Nat
  heap_listp : Nat
  root : Nat

/-- Modelled from the spec: the page provider `mem_sbrk` of `memlib.c`, which is
not part of the sources.  It extends the heap by `n` bytes and returns the old
top, or refuses (the C `(void *)-1`, here `none`) when the request would pass
the provider's limit.  `heap_lo` is constant, `heap_hi` follows the break. -/
def mem_sbrk (s : Heap) (n : Nat) : Option (Nat × Heap) :=
  if s.brk + n ≤ s.limit then some (s.brk, { s with brk := s.brk + n }) else none

/-- Modelled from the spec: `mem_heap_lo()` of the page provider. -/
def mem_heap_lo (s : Heap) : Nat := s.lo

/-- Modelled from the spec: `mem_heap_hi()` of the page provider, the address of
the last heap byte (pointer arithmetic wraps at `2 ^ 64`). -/
def mem_heap_hi (s : Heap) : Nat := (s.brk + 2 ^ 64 - 1) % 2 ^ 64

/-! ## Constants and arithmetic helpers -/

def wsize : Nat := 8
def dsize : Nat := 2 * wsize
def min_block_size : Nat := 2 * dsize
def chunksize : Nat := 2 ^ 11

/-- `max`: returns x if x > y, and y otherwise. -/
def max (x y : Nat) : Nat := if x > y then x else y

/-- `round_up`: `n * ((size + (n - 1)) / n)` in 64-bit unsigned arithmetic. -/
def round_up (size n : Nat) : Nat :=
  (n * (((size + (n - 1)) % 2 ^ 64) / n)) % 2 ^ 64

/-- `pack`: `size | alloc | (alloc_of_prev << 1)`. -/
def pack (size : Nat) (alloc alloc_of_prev : Bool) : Nat :=
  size ||| (if alloc then 1 else 0) ||| (if alloc_of_prev then 2 else 0)

/-- `extract_size`: `word & ~0xF`. -/
def extract_size (word : Nat) : Nat := word &&& 0xFFFFFFFFFFFFFFF0

/-- `extract_alloc`: `(bool)(word & 0x1)`. -/
def extract_alloc (word : Nat) : Bool := (word &&& 1) != 0

/-! ## Block accessors -/

def get_size (s : Heap) (block : Nat) : Nat := extract_size (load64 s.mem block)

def get_payload_size (s : Heap) (block : Nat) : Nat :=
  (get_size s block + 2 ^ 64 - wsize) % 2 ^ 64

def get_alloc (s : Heap) (block : Nat) : Bool := extract_alloc (load64 s.mem block)

def get_alloc_of_prev (s : Heap) (block : Nat) : Bool := (load64 s.mem block &&& 2) != 0

def write_header (s : Heap) (block size : Nat) (alloc alloc_of_prev : Bool) : Heap :=
  { s with mem := store64 s.mem block (pack size alloc alloc_of_prev) }

/-- `write_footer`: the footer position is computed from the size stored in the
header, `block->payload + get_size(block) - dsize`. -/
def write_footer (s : Heap) (block size : Nat) (alloc : Bool) : Heap :=
  let footerp := (block + wsize + get_size s block + 2 ^ 64 - dsize) % 2 ^ 64
  { s with mem := store64 s.mem footerp (pack size alloc false) }

def find_next (s : Heap) (block : Nat) : Nat := (block + get_size s block) % 2 ^ 64

def find_prev_footer (block : Nat) : Nat := (block + 2 ^ 64 - wsize) % 2 ^ 64

def find_prev (s : Heap) (block : Nat) : Nat :=
  (block + 2 ^ 64 - extract_size (load64 s.mem (find_prev_footer block))) % 2 ^ 64

def payload_to_header (bp : Nat) : Nat := (bp + 2 ^ 64 - wsize) % 2 ^ 64

def header_to_payload (block : Nat) : Nat := (block + wsize) % 2 ^ 64

/-- `prev_make`: sets or clears bit 1 of the block's header. -/
def prev_make (s : Heap) (block : Nat) (al_prev : Bool) : Heap :=
  if al_prev then
    { s with mem := store64 s.mem block (load64 s.mem block ||| 2) }
  else
    { s with mem := store64 s.mem block (load64 s.mem block &&& 0xFFFFFFFFFFFFFFFD) }

/-! ## Free list

`struct block` declares `prev` before `next`, so `block->prev` is the word at
`block + 8` and `block->next` the word at `block + 16`. -/

def blk_prev (s : Heap) (block : Nat) : Nat := load64 s.mem (block + 8)

def blk_next (s : Heap) (block : Nat) : Nat := load64 s.mem (block + 16)

def set_prev (s : Heap) (block v : Nat) : Heap := { s with mem := store64 s.mem (block + 8) v }

def set_next (s : Heap) (block v : Nat) : Heap := { s with mem := store64 s.mem (block + 16) v }

/-- `add`: head insertion into the free list. -/
def add (s : Heap) (block : Nat) : Heap :=
  if block ≠ s.root then
    let s1 := set_next s block s.root
    let s2 := if s1.root ≠ 0 then set_prev s1 s1.root block else s1
    let s3 := { s2 with root := block }
    set_prev s3 s3.root 0
  else s

/-- `list_remove`: unlink a block from the free list. -/
def list_remove (s : Heap) (block : Nat) : Heap :=
  if block = s.root then
    let s1 := { s with root := blk_next s s.root }
    if s1.root ≠ 0 ∧ blk_prev s1 s1.root ≠ 0 then set_prev s1 s1.root 0 else s1
  else
    let s1 := set_next s (blk_prev s block) (blk_next s block)
    if blk_next s1 block ≠ 0 then set_prev s1 (blk_next s1 block) (blk_prev s1 block) else s1

/-- The `while` loop of `find_fit`; the first argument is `num_checked`. -/
def find_fit_loop (s : Heap) (asize : Nat) : Nat → Nat → Nat → Nat → Nat
  | 0, _, best_fit_block, _ => best_fit_block
  | num_checked + 1, block, best_fit_block, size_fit =>
    if block = 0 then best_fit_block
    else
      let blockSize := get_size s block
      if blockSize = asize then block
      else if asize ≤ blockSize ∧ blockSize < size_fit then
        find_fit_loop s asize num_checked (blk_next s block) block blockSize
      else
        find_fit_loop s asize num_checked (blk_next s block) best_fit_block size_fit

/-- `find_fit`: bounded best fit over the free list. -/
def find_fit (s : Heap) (asize : Nat) : Nat :=
  find_fit_loop s asize 200 s.root 0 (2 ^ 64 - 1)

/-! ## Coalescing, placement, heap growth -/

/-- `coalesce`: boundary-tag merge of a block that was just marked free. -/
def coalesce (s : Heap) (block : Nat) : Nat × Heap :=
  let block_next := find_next s block
  let prev_alloc := get_alloc_of_prev s block
  let next_alloc := get_alloc s block_next
  let size := get_size s block
  if prev_alloc ∧ next_alloc then
    let s1 := write_header s block size false (get_alloc_of_prev s block)
    let s2 := write_footer s1 block size false
    let s3 := prev_make s2 block_next false
    (block, add s3 block)
  else if prev_alloc ∧ ¬ next_alloc then
    let size := (size + get_size s block_next) % 2 ^ 64
    let s1 := write_header s block size false true
    let s2 := write_footer s1 block size false
    let s3 := list_remove s2 block_next
    (block, add s3 block)
  else if ¬ prev_alloc ∧ next_alloc then
    let block_prev := find_prev s block
    let size := (size + get_size s block_prev) % 2 ^ 64
    let s1 := write_header s block_prev size false true
    let s2 := write_footer s1 block_prev size false
    let s3 := list_remove s2 block_prev
    let s4 := prev_make s3 block_next false
    (block_prev, add s4 block_prev)
  else
    let block_prev := find_prev s block
    let size := (size + (get_size s block_next + get_size s block_prev) % 2 ^ 64) % 2 ^ 64
    let s1 := write_header s block_prev size false true
    let s2 := write_footer s1 block_prev size false
    let s3 := list_remove s2 block_prev
    let s4 := list_remove s3 block_next
    (block_prev, add s4 block_prev)

/-- `place`: allocate `asize` bytes at the start of a free block, splitting off
the remainder when it can hold a minimum block. -/
def place (s : Heap) (block asize : Nat) : Heap :=
  let csize := get_size s block
  let rest := (csize + 2 ^ 64 - asize) % 2 ^ 64
  if rest ≥ min_block_size then
    let s1 := write_header s block asize true true
    let block_next := find_next s1 block
    let s2 := write_header s1 block_next rest false true
    let s3 := write_footer s2 block_next rest false
    let s4 := add s3 block_next
    list_remove s4 block
  else
    let s1 := write_header s block csize true true
    let s2 := prev_make s1 (find_next s1 block) true
    list_remove s2 block

/-- `extend_heap`: grow the heap, install the new free block and epilogue, and
coalesce.  Returns `0` (`NULL`) when the provider refuses. -/
def extend_heap (s : Heap) (size : Nat) : Nat × Heap :=
  let old_alloc := get_alloc_of_prev s ((mem_heap_hi s + 2 ^ 64 - 7) % 2 ^ 64)
  let size := round_up size dsize
  match mem_sbrk s size with
  | none => (0, s)
  | some (bp, s1) =>
    let block := payload_to_header bp
    let s2 := write_header s1 block size false old_alloc
    let s3 := write_footer s2 block size false
    let block_next := find_next s3 block
    let s4 := write_header s3 block_next 0 true false
    coalesce s4 block

/-! ## Public surface -/

/-- `mm_init`. -/
def mm_init (s : Heap) : Bool × Heap :=
  match mem_sbrk s (2 * wsize) with
  | none => (false, s)
  | some (start, s1) =>
    let s2 := { s1 with mem := store64 s1.mem start (pack 0 true true) }
    let s3 := { s2 with mem := store64 s2.mem (start + 8) (pack 0 true true) }
    let s4 := { s3 with heap_listp := start + 8 }
    let r := extend_heap s4 chunksize
    if r.1 = 0 then (false, r.2) else (true, r.2)

/-- The adjusted block size of `malloc`:
`asize = max(round_up(size + wsize, dsize), 32)` in 64-bit unsigned arithmetic. -/
def adjust (size : Nat) : Nat := max (round_up ((size + wsize) % 2 ^ 64) dsize) 32

/-- `malloc`.  The result of the lazy `mm_init()` call is discarded, as in the
source. -/
def malloc (s : Heap) (size : Nat) : Nat × Heap :=
  let s1 := if s.heap_listp = 0 then (mm_init s).2 else s
  if size = 0 then (0, s1)
  else
    let asize := adjust size
    let block := find_fit s1 asize
    if block = 0 then
      let extendsize := max asize chunksize
      let r := extend_heap s1 extendsize
      if r.1 = 0 then (0, r.2)
      else (header_to_payload r.1, place r.2 r.1 asize)
    else (header_to_payload block, place s1 block asize)

/-- `free`. -/
def free (s : Heap) (bp : Nat) : Heap :=
  if bp = 0 then s
  else
    let block := payload_to_header bp
    let size := get_size s block
    let s1 := write_header s block size false (get_alloc_of_prev s block)
    let s2 := write_footer s1 block size false
    (coalesce s2 block).2

/-- `memcpy` over non-overlapping regions. -/
def memcpy (m : Nat → Nat) (dst src n : Nat) : Nat → Nat :=
  fun x => if dst ≤ x ∧ x < dst + n then m (src + (x - dst)) else m x

/-- `memset`. -/
def memset (m : Nat → Nat) (dst c n : Nat) : Nat → Nat :=
  fun x => if dst ≤ x ∧ x < dst + n then c % 256 else m x

/-- `realloc`. -/
def realloc (s : Heap) (ptr size : Nat) : Nat × Heap :=
  let block := payload_to_header ptr
  if size = 0 then (0, free s ptr)
  else if ptr = 0 then malloc s size
  else
    let r := malloc s size
    if r.1 = 0 then (0, r.2)
    else
      let copysize := get_payload_size r.2 block
      let copysize := if size < copysize then size else copysize
      let s2 := { r.2 with mem := memcpy r.2.mem r.1 ptr copysize }
      (r.1, free s2 ptr)

/-- Run-time faults of the C program that the embedding makes explicit. -/
inductive Fault where
  | division_by_zero
  deriving DecidableEq, Repr

/-- The overflow test of `calloc`: `asize / nmemb != size` with
`asize = nmemb * size` wrapped to 64 bits. -/
def calloc_overflowed (nmemb size : Nat) : Bool :=
  ((nmemb * size) % 2 ^ 64) / nmemb != size

/-- `calloc`.  The division `asize / nmemb` is evaluated unconditionally; with
`nmemb = 0` it is a division by zero. -/
def calloc (s : Heap) (nmemb size : Nat) : Except Fault (Nat × Heap) :=
  let asize := (nmemb * size) % 2 ^ 64
  if nmemb = 0 then .error Fault.division_by_zero
  else if calloc_overflowed nmemb size then .ok (0, s)
  else
    let r := malloc s asize
    if r.1 = 0 then .ok (0, r.2)
    else .ok (r.1, { r.2 with mem := memset r.2.mem r.1 0 asize })

/-! ## Heap checker

The loops of the checker are written with a bound on the number of iterations
(`fuel`); `none` is returned when the bound is exhausted.  The unused argument
`line_number` of `mm_checkheap` is left out. -/

/-- `check_block`: `extract_size(block->header) == 0 && get_alloc(block) == 1`. -/
def check_block (s : Heap) (block : Nat) : Bool :=
  extract_size (load64 s.mem block) == 0 && get_alloc s block == true

/-- The `while` loop of `check_adj_free_blocks`. -/
def check_adj_loop (s : Heap) : Nat → Nat → Bool → Option Bool
  | 0, _, _ => none
  | fuel + 1, current_blk, prev_free =>
    if get_size s current_blk > 0 then
      let curr_alloc := get_alloc s current_blk
      if !curr_alloc && prev_free then some false
      else check_adj_loop s fuel (find_next s current_blk) (!curr_alloc)
    else some true

/-- `check_adj_free_blocks`: no two consecutive free blocks from `current_blk`
on. -/
def check_adj_free_blocks (s : Heap) (fuel current_blk : Nat) : Option Bool :=
  check_adj_loop s fuel current_blk false

/-- `check_alignment_min_size`. -/
def check_alignment_min_size (s : Heap) (current_blk : Nat) : Bool :=
  let blk_address := (current_blk + 2 ^ 64 - wsize) % 2 ^ 64
  let blk_size := extract_size (load64 s.mem current_blk)
  blk_address % dsize == 0 && decide (blk_size ≥ min_block_size)

/-- `check_within_heap`. -/
def check_within_heap (s : Heap) (current_blk : Nat) : Bool :=
  decide (current_blk ≤ mem_heap_hi s) && decide (mem_heap_lo s ≤ current_blk)

/-- The `for` loop of `check_free_list`; `free_list_count` is a `uint64_t`. -/
def check_free_list_loop (s : Heap) (count_expected : Nat) : Nat → Nat → Nat → Option Bool
  | 0, _, _ => none
  | fuel + 1, current, free_list_count =>
    if current = 0 then some (free_list_count == count_expected)
    else
      let free_list_count := (free_list_count + 1) % 2 ^ 64
      if (blk_next s current ≠ 0 ∧ check_within_heap s (blk_next s current) = false) ∨
          (blk_prev s current ≠ 0 ∧ check_within_heap s (blk_prev s current) = false) then
        some false
      else check_free_list_loop s count_expected fuel (blk_next s current) free_list_count

/-- `check_free_list`. -/
def check_free_list (s : Heap) (fuel start_free_blk count_expected : Nat) : Option Bool :=
  check_free_list_loop s count_expected fuel start_free_blk 0

/-- The `for` loop of `mm_checkheap` over the blocks of the heap, followed by
the free-list check; `inner` bounds the loops of the helpers. -/
def mm_checkheap_loop (s : Heap) (inner : Nat) : Nat → Nat → Nat → Option Bool
  | 0, _, _ => none
  | fuel + 1, current_blk, free_blk_count =>
    if get_size s current_blk > 0 then
      match check_adj_free_blocks s inner current_blk with
      | none => none
      | some false => some false
      | some true =>
        if check_within_heap s current_blk = false then some false
        else if check_alignment_min_size s current_blk = false then some false
        else
          mm_checkheap_loop s inner fuel (find_next s current_blk)
            (if get_alloc s current_blk = false then (free_blk_count + 1) % 2 ^ 64
             else free_blk_count)
    else
      match check_free_list s inner s.root free_blk_count with
      | none => none
      | some false => some false
      | some true => some true

/-- `mm_checkheap`. -/
def mm_checkheap (s : Heap) (fuel : Nat) : Option Bool :=
  let start_blk := mem_heap_lo s
  let end_blk := (mem_heap_hi s + 2 ^ 64 - 7) % 2 ^ 64
  if (check_block s end_blk && check_block s start_blk) = false then some false
  else mm_checkheap_loop s fuel fuel s.heap_listp 0

/-! ## Heap words read by `malloc`

For each function on the path of `malloc`, the addresses of the 8-byte heap
words it loads, in program order, on the state it is called on.  The globals
`heap_listp` and `root` are not heap words; `write_header` and `add` load
nothing. -/

/-- Words loaded by `list_remove`: `root->next` and, when the new root is not
`NULL`, `root->prev`; otherwise `block->prev`, `block->next`, the test
`block->next != NULL` and, when it holds, `block->next` and `block->prev`. -/
def list_remove_reads (s : Heap) (block : Nat) : List Nat :=
  if block = s.root then
    let s1 := { s with root := blk_next s s.root }
    (s.root + 16) :: (if s1.root ≠ 0 then [s1.root + 8] else [])
  else
    let s1 := set_next s (blk_prev s block) (blk_next s block)
    [block + 8, block + 16, block + 16] ++
      (if blk_next s1 block ≠ 0 then [block + 16, block + 8] else [])

/-- Words loaded by the `while` loop of `find_fit`: the header of each visited
node and, unless it is an exact fit, its `next` word. -/
def find_fit_loop_reads (s : Heap) (asize : Nat) : Nat → Nat → Nat → List Nat
  | 0, _, _ => []
  | num_checked + 1, block, size_fit =>
    if block = 0 then []
    else
      let blockSize := get_size s block
      if blockSize = asize then [block]
      else if asize ≤ blockSize ∧ blockSize < size_fit then
        block :: (block + 16) :: find_fit_loop_reads s asize num_checked (blk_next s block) blockSize
      else
        block :: (block + 16) :: find_fit_loop_reads s asize num_checked (blk_next s block) size_fit

/-- Words loaded by `find_fit`. -/
def find_fit_reads (s : Heap) (asize : Nat) : List Nat :=
  find_fit_loop_reads s asize 200 s.root (2 ^ 64 - 1)

/-- Words loaded by `coalesce`: the header of `block` (for `find_next`,
`get_alloc_of_prev` and `get_size`) and of the next block, then what the case
at hand loads. -/
def coalesce_reads (s : Heap) (block : Nat) : List Nat :=
  let block_next := find_next s block
  let prev_alloc := get_alloc_of_prev s block
  let next_alloc := get_alloc s block_next
  let size := get_size s block
  [block, block, block_next, block] ++
  if prev_alloc ∧ next_alloc then
    [block, block, block_next]
  else if prev_alloc ∧ ¬ next_alloc then
    let size := (size + get_size s block_next) % 2 ^ 64
    let s1 := write_header s block size false true
    let s2 := write_footer s1 block size false
    [block_next, block] ++ list_remove_reads s2 block_next
  else if ¬ prev_alloc ∧ next_alloc then
    let block_prev := find_prev s block
    let size := (size + get_size s block_prev) % 2 ^ 64
    let s1 := write_header s block_prev size false true
    let s2 := write_footer s1 block_prev size false
    [find_prev_footer block, block_prev, block_prev] ++ list_remove_reads s2 block_prev ++
      [block_next]
  else
    let block_prev := find_prev s block
    let size := (size + (get_size s block_next + get_size s block_prev) % 2 ^ 64) % 2 ^ 64
    let s1 := write_header s block_prev size false true
    let s2 := write_footer s1 block_prev size false
    let s3 := list_remove s2 block_prev
    [find_prev_footer block, block_next, block_prev, block_prev] ++
      list_remove_reads s2 block_prev ++ list_remove_reads s3 block_next

/-- Words loaded by `place`: the header of `block` (for `get_size` and
`find_next`), the header of the next block (for `write_footer` or
`prev_make`), then what `list_remove` loads. -/
def place_reads (s : Heap) (block asize : Nat) : List Nat :=
  let csize := get_size s block
  let rest := (csize + 2 ^ 64 - asize) % 2 ^ 64
  if rest ≥ min_block_size then
    let s1 := write_header s block asize true true
    let block_next := find_next s1 block
    let s2 := write_header s1 block_next rest false true
    let s3 := write_footer s2 block_next rest false
    let s4 := add s3 block_next
    [block, block, block_next] ++ list_remove_reads s4 block
  else
    let s1 := write_header s block csize true true
    let s2 := prev_make s1 (find_next s1 block) true
    [block, block, find_next s1 block] ++ list_remove_reads s2 block

/-- Words loaded by `extend_heap`: first the word at `mem_heap_hi() - 7`, read
for `old_alloc` before `mem_sbrk` is called; when the provider grants the
request, the header of the new block (for `write_footer` and `find_next`) and
what `coalesce` loads. -/
def extend_heap_reads (s : Heap) (size : Nat) : List Nat :=
  let old_alloc := get_alloc_of_prev s ((mem_heap_hi s + 2 ^ 64 - 7) % 2 ^ 64)
  let size := round_up size dsize
  ((mem_heap_hi s + 2 ^ 64 - 7) % 2 ^ 64) ::
    match mem_sbrk s size with
    | none => []
    | some (bp, s1) =>
      let block := payload_to_header bp
      let s2 := write_header s1 block size false old_alloc
      let s3 := write_footer s2 block size false
      let block_next := find_next s3 block
      let s4 := write_header s3 block_next 0 true false
      [block, block] ++ coalesce_reads s4 block

/-- Words loaded by `mm_init`: none when the provider refuses the first 16
bytes, otherwise what `extend_heap(chunksize)` loads. -/
def mm_init_reads (s : Heap) : List Nat :=
  match mem_sbrk s (2 * wsize) with
  | none => []
  | some (start, s1) =>
    let s2 := { s1 with mem := store64 s1.mem start (pack 0 true true) }
    let s3 := { s2 with mem := store64 s2.mem (start + 8) (pack 0 true true) }
    let s4 := { s3 with heap_listp := start + 8 }
    extend_heap_reads s4 chunksize

/-- Words loaded by `malloc`, the lazy `mm_init()` included. -/
def malloc_reads (s : Heap) (size : Nat) : List Nat :=
  let s1 := if s.heap_listp = 0 then (mm_init s).2 else s
  let r0 := if s.heap_listp = 0 then mm_init_reads s else []
  if size = 0 then r0
  else
    let asize := adjust size
    let block := find_fit s1 asize
    if block = 0 then
      let extendsize := max asize chunksize
      let r := extend_heap s1 extendsize
      if r.1 = 0 then r0 ++ find_fit_reads s1 asize ++ extend_heap_reads s1 extendsize
      else
        r0 ++ find_fit_reads s1 asize ++ extend_heap_reads s1 extendsize ++
          place_reads r.2 r.1 asize
    else r0 ++ find_fit_reads s1 asize ++ place_reads s1 block asize

/-! ## Concrete heaps used for evaluation -/

/-- An untouched provider: empty heap at address 4096, one mebibyte available,
both globals `NULL`. -/
def fresh : Heap :=
  { mem := fun _ => 0, lo := 4096, brk := 4096, limit := 4096 + 2 ^ 20, heap_listp := 0, root := 0 }

/-- The heap right after `mm_init` on `fresh`. -/
def heap0 : Heap := (mm_init fresh).2

/-- A provider that grants nothing: empty heap at address 4096, both globals
`NULL`. -/
def refusing : Heap :=
  { mem := fun _ => 0, lo := 4096, brk := 4096, limit := 4096, heap_listp := 0, root := 0 }

/-- A provider that grants the first 16 bytes and nothing more. -/
def grudging : Heap :=
  { mem := fun _ => 0, lo := 4096, brk := 4096, limit := 4096 + 16, heap_listp := 0, root := 0 }

/-! ## Abstract description of a heap -/

/-- Sum of the sizes of a run of blocks, each given as `(size, alloc)`. -/
def total : List (Nat × Bool) → Nat
  | [] => 0
  | b :: bs => b.1 + total bs

/-- Allocation state of the last block of a run, `pa` for the empty run. -/
def lastAlloc (pa : Bool) : List (Nat × Bool) → Bool
  | [] => pa
  | b :: bs => lastAlloc b.2 bs

/-- Allocation state of the first block of a run; the epilogue (allocated) for
the empty run. -/
def headAlloc : List (Nat × Bool) → Bool
  | [] => true
  | b :: _ => b.2

/-- The blocks `bs` are laid out in memory from address `a`; `pa` is the
allocation state of the block before `a`.  Every header is
`pack size alloc prev_alloc`, sizes are multiples of 16 and at least 32, a free
block follows an allocated one and carries the footer `pack size 0 0`. -/
def Seg (m : Nat → Nat) : Nat → Bool → List (Nat × Bool) → Prop
  | _, _, [] => True
  | a, pa, b :: bs =>
    load64 m a = pack b.1 b.2 pa ∧ b.1 % 16 = 0 ∧ 32 ≤ b.1 ∧
    (b.2 = false → pa = true ∧ load64 m (a + b.1 - 8) = pack b.1 false false) ∧
    Seg m (a + b.1) b.2 bs

/-- Every block of the run has a size that is a multiple of 16 and at least 32. -/
def Sizes (bs : List (Nat × Bool)) : Prop := ∀ b ∈ bs, b.1 % 16 = 0 ∧ 32 ≤ b.1

/-- Addresses, sizes and allocation states of the blocks laid out from `a`. -/
def layout : Nat → List (Nat × Bool) → List (Nat × Nat × Bool)
  | _, [] => []
  | a, b :: bs => (a, b.1, b.2) :: layout (a + b.1) bs

/-- Addresses of the free blocks of a run laid out from `a`. -/
def freeAddrs : Nat → List (Nat × Bool) → List Nat
  | _, [] => []
  | a, b :: bs => if b.2 then freeAddrs (a + b.1) bs else a :: freeAddrs (a + b.1) bs

/-- Addresses and sizes of the allocated blocks of a run laid out from `a`. -/
def allocd : Nat → List (Nat × Bool) → List (Nat × Nat)
  | _, [] => []
  | a, b :: bs => if b.2 then (a, b.1) :: allocd (a + b.1) bs else allocd (a + b.1) bs

/-- A doubly linked list in memory: starting at `cur`, the nodes are `fl` in
order, each node's `prev` word is its predecessor (`prev` for the first) and
the last node's `next` word is `NULL`. -/
def Chain (m : Nat → Nat) : Nat → Nat → List Nat → Prop
  | _, cur, [] => cur = 0
  | prev, cur, b :: fl =>
    cur = b ∧ b ≠ 0 ∧ load64 m (b + 8) = prev ∧ Chain m b (load64 m (b + 16)) fl

/-- The state `s` represents the block sequence `bs` with free list `fl`:
the section-3 invariants of the heap. -/
structure Repr (s : Heap) (bs : List (Nat × Bool)) (fl : List Nat) : Prop where
  lo_align : s.lo % 16 = 0
  limit_le : s.limit ≤ 2 ^ 64
  brk_le : s.brk ≤ s.limit
  listp : s.heap_listp = s.lo + 8
  brk_eq : s.brk = s.lo + 16 + total bs
  prologue : load64 s.mem s.lo = pack 0 true true
  seg : Seg s.mem (s.lo + 8) true bs
  epilogue : load64 s.mem (s.lo + 8 + total bs) = pack 0 true (lastAlloc true bs)
  chain : Chain s.mem 0 s.root fl
  perm : fl.Perm (freeAddrs (s.lo + 8) bs)

/-- A heap is well formed when it represents some block sequence and free
list. -/
def WF (s : Heap) : Prop := ∃ bs fl, Repr s bs fl

/-- A heap whose blocks are in order except for the span of `w` bytes after
the run `pre`, which is being rewritten.  `q` is the previous-allocated bit
carried by the first header after the span, `ex` lists the free-list nodes
that lie inside the span. -/
structure Hole (s : Heap) (pre : List (Nat × Bool)) (w : Nat) (q : Bool)
    (post : List (Nat × Bool)) (fl ex : List Nat) : Prop where
  lo_align : s.lo % 16 = 0
  limit_le : s.limit ≤ 2 ^ 64
  brk_le : s.brk ≤ s.limit
  listp : s.heap_listp = s.lo + 8
  brk_eq : s.brk = s.lo + 16 + total pre + w + total post
  prologue : load64 s.mem s.lo = pack 0 true true
  segpre : Seg s.mem (s.lo + 8) true pre
  segpost : Seg s.mem (s.lo + 8 + total pre + w) q post
  epilogue : load64 s.mem (s.lo + 8 + total pre + w + total post) = pack 0 true (lastAlloc q post)
  chain : Chain s.mem 0 s.root fl
  perm : fl.Perm (ex ++ (freeAddrs (s.lo + 8) pre ++ freeAddrs (s.lo + 8 + total pre + w) post))
  exin : ∀ y ∈ ex, s.lo + 8 + total pre ≤ y ∧ y + 32 ≤ s.lo + 8 + total pre + w ∧ y % 16 = 8
  exsep : ex.Pairwise (fun x y => x + 32 ≤ y ∨ y + 32 ≤ x)
  wmod : w % 16 = 0

/-- The byte `x` belongs to the payload of an allocated block of the run `bs`
laid out from `a`. -/
def Owned (a : Nat) (bs : List (Nat × Bool)) (x : Nat) : Prop :=
  ∃ p ∈ allocd a bs, p.1 + 8 ≤ x ∧ x < p.1 + p.2

/-! ## Observations on the concrete heap -/

/-- The heap walk of `mm_checkheap`: from `a`, follow `find_next` until a header
of size 0 is met.  Each entry is `(address, size, alloc)`; the first argument
bounds the number of steps. -/
def walk (s : Heap) : Nat → Nat → List (Nat × Nat × Bool)
  | 0, _ => []
  | fuel + 1, a =>
    if get_size s a = 0 then [] else (a, get_size s a, get_alloc s a) :: walk s fuel (find_next s a)

/-- The blocks of the heap, walked from `heap_listp`. -/
def heap_blocks (s : Heap) : List (Nat × Nat × Bool) := walk s (s.brk - s.lo) s.heap_listp

/-- The blocks `es` tile the address range from `a` to `e` without gaps. -/
def Tiling : Nat → List (Nat × Nat × Bool) → Nat → Prop
  | a, [], e => a = e
  | a, x :: xs, e => x.1 = a ∧ Tiling (a + x.2.1) xs e

/-- No two consecutive blocks of the walk are both free. -/
def NoAdjacentFree : List (Nat × Nat × Bool) → Prop
  | [] => True
  | [_] => True
  | x :: y :: rest => ¬ (x.2.2 = false ∧ y.2.2 = false) ∧ NoAdjacentFree (y :: rest)

/-- Bit 1 of every header of the walk equals the allocation state of the
block before it; `pa` is the state of the block before the first. -/
def PrevBits (s : Heap) : Bool → List (Nat × Nat × Bool) → Prop
  | _, [] => True
  | pa, x :: xs => get_alloc_of_prev s x.1 = pa ∧ PrevBits s x.2.2 xs

/-- Allocation state of the last block of the walk, `pa` for an empty walk. -/
def lastState (pa : Bool) : List (Nat × Nat × Bool) → Bool
  | [] => pa
  | x :: xs => lastState x.2.2 xs

/-- The nodes met when following `next` from `cur` are exactly `fl`, ending at
`NULL`. -/
def ListFrom (s : Heap) : Nat → List Nat → Prop
  | cur, [] => cur = 0
  | cur, b :: fl => cur = b ∧ b ≠ 0 ∧ ListFrom s (blk_next s b) fl

/-- `p` is the payload pointer of an allocated block of the heap. -/
def Live (s : Heap) (p : Nat) : Prop := 8 ≤ p ∧ ∃ sz, (p - 8, sz, true) ∈ heap_blocks s

/-- A client's store of the byte `v` at address `x`. -/
def client_store (s : Heap) (x v : Nat) : Heap :=
  { s with mem := fun y => if y = x then v else s.mem y }

/-- The states a client can reach: a successful `mm_init` on an untouched
provider, followed by calls of the public functions with valid arguments and by
the client's own stores into payloads it holds.  Only requests to `realloc`
and `calloc` whose byte count does not wrap in the size adjustment are
included: a wrapping request is a separate step in the theorems below. -/
inductive Reachable : Heap → Prop
  | init (s : Heap) : s.brk = s.lo → s.lo % 16 = 0 → s.root = 0 → s.limit ≤ 2 ^ 64 →
      (mm_init s).1 = true → Reachable (mm_init s).2
  | malloc (s : Heap) (size : Nat) : Reachable s → Reachable (malloc s size).2
  | free (s : Heap) (p : Nat) : Reachable s → p = 0 ∨ Live s p → Reachable (free s p)
  | realloc (s : Heap) (p size : Nat) : Reachable s → p = 0 ∨ Live s p → size + 24 ≤ 2 ^ 64 →
      Reachable (realloc s p size).2
  | calloc (s : Heap) (nmemb size : Nat) (r : Nat × Heap) : Reachable s →
      nmemb * size + 24 ≤ 2 ^ 64 → calloc s nmemb size = .ok r → Reachable r.2
  | store (s : Heap) (p x v : Nat) : Reachable s → Live s p → p ≤ x →
      x < p + get_payload_size s (p - 8) →
      Reachable (client_store s x v)

/-- Previous-allocated bits are consistent along the walk, the epilogue
included; the prologue counts as allocated. -/
def PrevAllocOK (s : Heap) : Prop :=
  PrevBits s true (heap_blocks s) ∧
  get_alloc_of_prev s (mem_heap_hi s - 7) = lastState true (heap_blocks s)

/-- Free-list consistency: the walk from `root` via `next` is a finite list
without repetition, its nodes are exactly the free blocks of the heap walk,
and the `prev`/`next` words link it both ways. -/
def FreeListOK (s : Heap) : Prop :=
  ∃ fl : List Nat,
    ListFrom s s.root fl ∧ fl.Nodup ∧
    (∀ a, a ∈ fl ↔ ∃ sz, (a, sz, false) ∈ heap_blocks s) ∧
    fl.length = ((heap_blocks s).filter (fun e => !e.2.2)).length ∧
    (s.root ≠ 0 → blk_prev s s.root = 0) ∧
    ∀ n ∈ fl, (blk_next s n ≠ 0 → blk_prev s (blk_next s n) = n) ∧
      (blk_prev s n ≠ 0 → blk_next s (blk_prev s n) = n)

/-- Heap bounds and tiling: prologue and epilogue are intact, every block has
a legal size and lies inside the heap, and the walk from `heap_lo + 8` tiles
the heap up to the epilogue. -/
def HeapTiled (s : Heap) : Prop :=
  get_size s (mem_heap_lo s) = 0 ∧ get_alloc s (mem_heap_lo s) = true ∧
  get_size s (mem_heap_hi s - 7) = 0 ∧ get_alloc s (mem_heap_hi s - 7) = true ∧
  s.heap_listp = mem_heap_lo s + 8 ∧
  (∀ e ∈ heap_blocks s, e.2.1 % 16 = 0 ∧ 32 ≤ e.2.1 ∧ mem_heap_lo s ≤ e.1 ∧
    e.1 + e.2.1 ≤ mem_heap_hi s + 1) ∧
  Tiling (mem_heap_lo s + 8) (heap_blocks s) (mem_heap_hi s - 7) ∧
  ((heap_blocks s).map (fun e => e.2.1)).sum = mem_heap_hi s + 1 - mem_heap_lo s - 16

/-- The result `r` of a bounded best-fit search for `asize` over the visited
nodes `V`: `NULL` when no node of `V` is large enough, otherwise the earliest
node of `V` whose size is the least size that is at least `asize`. -/
def BestFit (s : Heap) (asize : Nat) (V : List Nat) (r : Nat) : Prop :=
  (r = 0 ∧ ∀ n ∈ V, get_size s n < asize) ∨
  (r ≠ 0 ∧ ∃ pre post, V = pre ++ r :: post ∧ asize ≤ get_size s r ∧
    (∀ n ∈ V, asize ≤ get_size s n → get_size s r ≤ get_size s n) ∧
    ∀ n ∈ pre, get_size s n ≠ get_size s r)

/-- The complete heap walk from `a`: the blocks met by `find_next` until a
header of size 0, on any heap, well formed or not. -/
def Walk (s : Heap) : Nat → List (Nat × Nat × Bool) → Prop
  | a, [] => get_size s a = 0
  | a, e :: es =>
    get_size s a ≠ 0 ∧ e = (a, get_size s a, get_alloc s a) ∧ Walk s (find_next s a) es

/-- `p` is `NULL` or lies within `[mem_heap_lo, mem_heap_hi]`. -/
def NullOrInHeap (s : Heap) (p : Nat) : Prop :=
  p ≠ 0 → p ≤ mem_heap_hi s ∧ mem_heap_lo s ≤ p

/-- What `mm_checkheap` examines: the two sentinel words have size 0 and
alloc 1; the walk from `heap_listp` reaches a header of size 0, each block on
it lies in `[mem_heap_lo, mem_heap_hi]`, has `(address - 8) % 16 = 0` and size
at least 32, and no two consecutive blocks are free; the list from `root`
reaches `NULL`, every `next` and `prev` word of a node is `NULL` or within the
heap bounds, and the two 64-bit counters (list nodes, free blocks of the walk)
agree. -/
def Audited (s : Heap) : Prop :=
  (get_size s ((mem_heap_hi s + 2 ^ 64 - 7) % 2 ^ 64) = 0 ∧
    get_alloc s ((mem_heap_hi s + 2 ^ 64 - 7) % 2 ^ 64) = true) ∧
  (get_size s (mem_heap_lo s) = 0 ∧ get_alloc s (mem_heap_lo s) = true) ∧
  ∃ es fl, Walk s s.heap_listp es ∧ NoAdjacentFree es ∧
    (∀ e ∈ es, e.1 ≤ mem_heap_hi s ∧ mem_heap_lo s ≤ e.1 ∧
      (e.1 + 2 ^ 64 - 8) % 2 ^ 64 % 16 = 0 ∧ 32 ≤ e.2.1) ∧
    ListFrom s s.root fl ∧
    (∀ n ∈ fl, NullOrInHeap s (blk_next s n) ∧ NullOrInHeap s (blk_prev s n)) ∧
    fl.length % 2 ^ 64 = (es.filter (fun e => !e.2.2)).length % 2 ^ 64

/-- A doubly linked list read with the given field offsets: starting at `cur`,
the nodes are `fl` in order; the word `onext` bytes into a node is its
successor (`NULL` for the last node) and the word `oprev` bytes into a node is
its predecessor (`prev` for the first node). -/
def LinkedAt (m : Nat → Nat) (onext oprev : Nat) : Nat → Nat → List Nat → Prop
  | _, cur, [] => cur = 0
  | prev, cur, b :: fl =>
    cur = b ∧ b ≠ 0 ∧ load64 m (b + oprev) = prev ∧
      LinkedAt m onext oprev b (load64 m (b + onext)) fl

/-- Modelled from the spec: the adjusted size of a request, "the request
rounded up to include overhead and to satisfy alignment and minimum-block
constraints": `size + 8` rounded up to a multiple of 16, at least 32, in
unbounded arithmetic.  The source's `adjust` computes it modulo `2 ^ 64`. -/
def adjusted_size (size : Nat) : Nat := max (16 * ((size + 8 + 15) / 16)) 32

/-- The session `a = malloc(s1); b = malloc(s2); free(a); free(b)`. -/
def two_allocs_freed (s : Heap) (s1 s2 : Nat) : Heap :=
  free (free (malloc (malloc s s1).2 s2).2 (malloc s s1).1) (malloc (malloc s s1).2 s2).1

/-! ## Concrete client sessions used for evaluation -/

/-- The heap after `p0 = malloc(100)` on `heap0`; `p0 = 4112`. -/
def heap1 : Heap := (malloc heap0 100).2

/-- The client stores the byte `0x22` at `p0 + 24` and at `p0 + 56`. -/
def heap1_marked : Heap := client_store (client_store heap1 4136 34) 4168 34

/-- The heap after a second `p = malloc(100)`; `p = 4224`. -/
def heap2 : Heap := (malloc heap1 100).2

/-- The client stores the word `50` at `p0 + 16`, the word `4360` at `p0 + 24`
and the word `4128` at `p + 40`, byte by byte. -/
def heap2_marked : Heap :=
  client_store (client_store (client_store (client_store (client_store heap2
    4128 50) 4136 8) 4137 17) 4264 32) 4265 16

/-- A provider with room for the initial heap and nothing more. -/
def tight : Heap :=
  { mem := fun _ => 0, lo := 4096, brk := 4096, limit := 4096 + 2064, heap_listp := 0, root := 0 }

/-- The heap right after `mm_init` on `tight`. -/
def tight0 : Heap := (mm_init tight).2

/-- An earlier use of the allocator (`heap1`) left `root = 4216`; the provider
was then reset to an empty heap without clearing memory. -/
def stale : Heap :=
  { mem := heap1.mem, lo := 4096, brk := 4096, limit := 4096 + 2 ^ 20, heap_listp := 0, root := heap1.root }

/-- The session of scenario S4 before the large request: `a = malloc(24)`,
`b = malloc(24)`, `free(a)`. -/
def heap_s4 : Heap := free (malloc (malloc heap0 24).2 24).2 4112

/-- The heap `heap1` while `free(4112)` is under way: header and footer of the
block at `4104` are rewritten as free, `coalesce` has not run yet. -/
def heap1_freeing : Heap :=
  write_footer (write_header heap1 4104 112 false true) 4104 112 false

/-- The heap after `p = malloc(100)` and `realloc(p, 2^64 - 8)` on `heap0`. -/
def heap_wrapped : Heap := (realloc heap1 4112 (2 ^ 64 - 8)).2

end MM

/-! # Verification -/

namespace MM

/-! ## Bytes and words -/

theorem load64_lt (m : Nat → Nat) (a : Nat) : load64 m a < 2 ^ 64 := by
  unfold load64; omega

theorem store64_outside (m : Nat → Nat) (a v x : Nat) (h : x < a ∨ a + 8 ≤ x) :
    store64 m a v x = m x := by
  unfold store64; rw [if_neg]; omega

theorem load64_congr (m m1 : Nat → Nat) (a : Nat)
    (h : ∀ x, a ≤ x → x < a + 8 → m1 x = m x) : load64 m1 a = load64 m a := by
  unfold load64
  rw [h a (by omega) (by omega), h (a+1) (by omega) (by omega), h (a+2) (by omega) (by omega),
    h (a+3) (by omega) (by omega), h (a+4) (by omega) (by omega), h (a+5) (by omega) (by omega),
    h (a+6) (by omega) (by omega), h (a+7) (by omega) (by omega)]

theorem load64_store64_disj (m : Nat → Nat) (a v b : Nat) (h : a + 8 ≤ b ∨ b + 8 ≤ a) :
    load64 (store64 m a v) b = load64 m b := by
  apply load64_congr; intro x h1 h2; apply store64_outside; omega

theorem load64_store64_same (m : Nat → Nat) (a v : Nat) :
    load64 (store64 m a v) a = v % 2 ^ 64 := by
  unfold load64 store64
  have e1 : a + 1 - a = 1 := by omega
  have e2 : a + 2 - a = 2 := by omega
  have e3 : a + 3 - a = 3 := by omega
  have e4 : a + 4 - a = 4 := by omega
  have e5 : a + 5 - a = 5 := by omega
  have e6 : a + 6 - a = 6 := by omega
  have e7 : a + 7 - a = 7 := by omega
  simp only [Nat.le_refl, Nat.lt_add_of_pos_right, Nat.le_add_right, Nat.add_lt_add_iff_left,
    and_self, if_true, Nat.sub_self, e1, e2, e3, e4, e5, e6, e7, true_and, Nat.reduceLT,
    Nat.reducePow, Nat.lt_add_right_iff_pos, Nat.div_one]
  omega

theorem load64_store64_eq (m : Nat → Nat) (a v : Nat) (h : v < 2 ^ 64) :
    load64 (store64 m a v) a = v := by
  rw [load64_store64_same]; omega

theorem load64_store64_zero (m : Nat → Nat) (a : Nat) : load64 (store64 m a 0) a = 0 :=
  load64_store64_eq m a 0 (by decide)

/-! ## The header codec -/

theorem extract_size_eq (w : Nat) : extract_size w = (w / 16 % 2 ^ 60) * 16 := by
  unfold extract_size
  apply Nat.eq_of_testBit_eq
  intro i
  have h : (0xFFFFFFFFFFFFFFF0 : Nat) = (2^60 - 1) <<< 4 := by decide
  rw [Nat.testBit_land, h, Nat.testBit_shiftLeft, Nat.testBit_two_pow_sub_one]
  have h2 : w / 16 % 2^60 * 16 = (w >>> 4 % 2^60) <<< 4 := by
    rw [Nat.shiftLeft_eq, Nat.shiftRight_eq_div_pow]
  rw [h2, Nat.testBit_shiftLeft, Nat.testBit_mod_two_pow, Nat.testBit_shiftRight]
  by_cases h4 : 4 ≤ i
  · have : 4 + (i - 4) = i := by omega
    simp [h4, this, Bool.and_comm]
  · simp [h4]

theorem and_one_eq (w : Nat) : w &&& 1 = w % 2 := Nat.and_pow_two_sub_one_eq_mod w 1

theorem and_two_eq (w : Nat) : w &&& 2 = (w / 2 % 2) * 2 := by
  apply Nat.eq_of_testBit_eq
  intro i
  have h : (2 : Nat) = 2 ^ 1 := by decide
  have h2 : w / 2 % 2 * 2 = (w >>> 1 % 2 ^ 1) <<< 1 := by
    rw [Nat.shiftLeft_eq, Nat.shiftRight_eq_div_pow]; norm_num
  rw [h2, Nat.testBit_land, Nat.testBit_shiftLeft, Nat.testBit_mod_two_pow, Nat.testBit_shiftRight]
  nth_rewrite 1 [h]
  rw [Nat.testBit_two_pow]
  by_cases h1 : i = 1
  · subst h1; simp
  · have : ¬ (1 = i) := fun h => h1 h.symm
    simp [this]; omega

theorem and_fd_eq (w : Nat) : w &&& 0xFFFFFFFFFFFFFFFD = w % 2 + (w / 4 % 2 ^ 62) * 4 := by
  have h2 : w % 2 + w / 4 % 2^62 * 4 = 2 ^ 2 * (w / 4 % 2 ^ 62) ||| w % 2 := by
    rw [← Nat.mul_add_lt_is_or (by omega)]; omega
  rw [h2]
  apply Nat.eq_of_testBit_eq
  intro i
  have h : (0xFFFFFFFFFFFFFFFD : Nat) = (2^62 - 1) <<< 2 ||| (2 ^ 1 - 1) := by decide
  have h3 : 2 ^ 2 * (w / 4 % 2 ^ 62) = (w >>> 2 % 2 ^ 62) <<< 2 := by
    rw [Nat.shiftLeft_eq, Nat.shiftRight_eq_div_pow]; ring
  have h4 : w % 2 = w % 2 ^ 1 := by simp
  rw [h3, h4, h, Nat.testBit_land, Nat.testBit_lor, Nat.testBit_lor, Nat.testBit_shiftLeft,
    Nat.testBit_shiftLeft, Nat.testBit_mod_two_pow, Nat.testBit_mod_two_pow,
    Nat.testBit_shiftRight, Nat.testBit_two_pow_sub_one, Nat.testBit_two_pow_sub_one]
  by_cases h5 : 2 ≤ i
  · have : 2 + (i - 2) = i := by omega
    have h6 : ¬ (i < 1) := by omega
    simp [h5, this, h6, Bool.and_comm]
  · by_cases h6 : i < 1
    · simp [h5, h6]
    · simp [h5, h6]

theorem or_two_eq (w : Nat) : w ||| 2 = w + 2 - (w / 2 % 2) * 2 := by
  have h2 : w = 2 ^ 2 * (w / 4) ||| w % 4 := by
    rw [← Nat.mul_add_lt_is_or (by omega)]; omega
  have h3 : w ||| 2 = 2 ^ 2 * (w / 4) ||| (w % 4 ||| 2) := by
    nth_rewrite 1 [h2]; rw [Nat.lor_assoc]
  have h4 : w % 4 ||| 2 = w % 4 + 2 - (w / 2 % 2) * 2 := by
    have : w % 4 < 4 := by omega
    have h5 : w / 2 % 2 = (w % 4) / 2 := by omega
    rw [h5]
    generalize w % 4 = r at *
    interval_cases r <;> decide
  have h6 : w % 4 ||| 2 < 2 ^ 2 := by
    rw [h4]; omega
  rw [h3, ← Nat.mul_add_lt_is_or h6, h4]; omega

theorem pack_eq (sz : Nat) (al pa : Bool) (h : sz % 16 = 0) :
    pack sz al pa = sz + (if al then 1 else 0) + (if pa then 2 else 0) := by
  unfold pack
  have hk : sz = 2 ^ 4 * (sz / 16) := by omega
  rw [Nat.lor_assoc, hk]
  cases al <;> cases pa <;> simp only [Bool.false_eq_true, if_false, if_true]
  · rw [show (0 ||| 0 : Nat) = 0 by decide, ← Nat.mul_add_lt_is_or (by decide)]
  · rw [show (0 ||| 2 : Nat) = 2 by decide, ← Nat.mul_add_lt_is_or (by decide)]
  · rw [show (1 ||| 0 : Nat) = 1 by decide, ← Nat.mul_add_lt_is_or (by decide)]
  · rw [show (1 ||| 2 : Nat) = 3 by decide, ← Nat.mul_add_lt_is_or (by decide)]

/-! ## Size adjustment -/

theorem adjust_spec (size : Nat) (h : size + 24 ≤ 2 ^ 64) :
    adjust size % 16 = 0 ∧ 32 ≤ adjust size ∧ size + 8 ≤ adjust size ∧ adjust size ≤ size + 32
      ∧ adjust size < 2 ^ 64 := by
  simp only [adjust, max, round_up, wsize, dsize, Nat.reduceMul, Nat.reduceSub]
  split_ifs <;> omega

theorem adjust_bounds (size : Nat) :
    adjust size % 16 = 0 ∧ 32 ≤ adjust size ∧ adjust size < 2 ^ 64 := by
  simp only [adjust, max, round_up, wsize, dsize, Nat.reduceMul, Nat.reduceSub]
  split <;> omega


/-! ## Runs of blocks -/

theorem total_append (l1 l2 : List (Nat × Bool)) : total (l1 ++ l2) = total l1 + total l2 := by
  induction l1 with
  | nil => simp [total]
  | cons b bs ih => simp [total, ih]; omega

theorem lastAlloc_append (pa : Bool) (l1 l2 : List (Nat × Bool)) :
    lastAlloc pa (l1 ++ l2) = lastAlloc (lastAlloc pa l1) l2 := by
  induction l1 generalizing pa with
  | nil => simp [lastAlloc]
  | cons b bs ih => simp [lastAlloc, ih]

theorem freeAddrs_append (a : Nat) (l1 l2 : List (Nat × Bool)) :
    freeAddrs a (l1 ++ l2) = freeAddrs a l1 ++ freeAddrs (a + total l1) l2 := by
  induction l1 generalizing a with
  | nil => simp [freeAddrs, total]
  | cons b bs ih =>
    simp only [List.cons_append, freeAddrs, total, ← Nat.add_assoc, List.append_eq]
    rw [ih]
    split <;> simp

theorem allocd_append (a : Nat) (l1 l2 : List (Nat × Bool)) :
    allocd a (l1 ++ l2) = allocd a l1 ++ allocd (a + total l1) l2 := by
  induction l1 generalizing a with
  | nil => simp [allocd, total]
  | cons b bs ih =>
    simp only [List.cons_append, allocd, total, ← Nat.add_assoc, List.append_eq]
    rw [ih]
    split <;> simp

theorem layout_append (a : Nat) (l1 l2 : List (Nat × Bool)) :
    layout a (l1 ++ l2) = layout a l1 ++ layout (a + total l1) l2 := by
  induction l1 generalizing a with
  | nil => simp [layout, total]
  | cons b bs ih =>
    simp only [List.cons_append, layout, total, ← Nat.add_assoc, List.append_eq]
    rw [ih]

theorem seg_append (m : Nat → Nat) (a : Nat) (pa : Bool) (l1 l2 : List (Nat × Bool)) :
    Seg m a pa (l1 ++ l2) ↔ Seg m a pa l1 ∧ Seg m (a + total l1) (lastAlloc pa l1) l2 := by
  induction l1 generalizing a pa with
  | nil => simp [Seg, total, lastAlloc]
  | cons b bs ih =>
    simp only [List.cons_append, Seg, total, lastAlloc, ← Nat.add_assoc, List.append_eq]
    rw [ih]
    simp only [and_assoc]

theorem seg_sizes {m : Nat → Nat} {a : Nat} {pa : Bool} {bs : List (Nat × Bool)}
    (h : Seg m a pa bs) : Sizes bs := by
  induction bs generalizing a pa with
  | nil => intro b hb; simp at hb
  | cons b bs ih =>
    intro c hc
    simp only [Seg] at h
    rcases List.mem_cons.mp hc with rfl | hc
    · exact ⟨h.2.1, h.2.2.1⟩
    · exact ih h.2.2.2.2 c hc

theorem sizes_cons {b : Nat × Bool} {bs : List (Nat × Bool)} :
    Sizes (b :: bs) ↔ (b.1 % 16 = 0 ∧ 32 ≤ b.1) ∧ Sizes bs := by
  simp [Sizes]

theorem sizes_append {l1 l2 : List (Nat × Bool)} :
    Sizes (l1 ++ l2) ↔ Sizes l1 ∧ Sizes l2 := by
  simp only [Sizes, List.mem_append]
  constructor
  · intro h; exact ⟨fun b hb => h b (Or.inl hb), fun b hb => h b (Or.inr hb)⟩
  · rintro ⟨h1, h2⟩ b (hb | hb)
    · exact h1 b hb
    · exact h2 b hb

theorem total_mod {bs : List (Nat × Bool)} (h : Sizes bs) : total bs % 16 = 0 := by
  induction bs with
  | nil => simp [total]
  | cons b bs ih =>
    rw [sizes_cons] at h
    have := ih h.2
    simp only [total]; omega

theorem freeAddrs_bounds {bs : List (Nat × Bool)} (h : Sizes bs) {a x : Nat}
    (hx : x ∈ freeAddrs a bs) : a ≤ x ∧ x + 32 ≤ a + total bs ∧ x % 16 = a % 16 := by
  induction bs generalizing a with
  | nil => simp [freeAddrs] at hx
  | cons b bs ih =>
    rw [sizes_cons] at h
    have ht := total_mod h.2
    simp only [freeAddrs] at hx
    simp only [total]
    split at hx
    · have := ih h.2 hx; omega
    · rcases List.mem_cons.mp hx with rfl | hx
      · omega
      · have := ih h.2 hx; omega

theorem allocd_bounds {bs : List (Nat × Bool)} (h : Sizes bs) {a x sz : Nat}
    (hx : (x, sz) ∈ allocd a bs) :
    a ≤ x ∧ x + sz ≤ a + total bs ∧ x % 16 = a % 16 ∧ sz % 16 = 0 ∧ 32 ≤ sz := by
  induction bs generalizing a with
  | nil => simp [allocd] at hx
  | cons b bs ih =>
    rw [sizes_cons] at h
    have ht := total_mod h.2
    simp only [allocd] at hx
    simp only [total]
    split at hx
    · rcases List.mem_cons.mp hx with heq | hx
      · simp only [Prod.mk.injEq] at heq
        obtain ⟨rfl, rfl⟩ := heq
        omega
      · have := ih h.2 hx; omega
    · have := ih h.2 hx; omega

theorem freeAddrs_pairwise {bs : List (Nat × Bool)} (h : Sizes bs) (a : Nat) :
    (freeAddrs a bs).Pairwise (fun x y => x + 32 ≤ y ∨ y + 32 ≤ x) := by
  induction bs generalizing a with
  | nil => simp [freeAddrs]
  | cons b bs ih =>
    rw [sizes_cons] at h
    simp only [freeAddrs]
    split
    · exact ih h.2 _
    · rw [List.pairwise_cons]
      refine ⟨?_, ih h.2 _⟩
      intro y hy
      have := freeAddrs_bounds h.2 hy
      omega

theorem free_allocd_disj {bs : List (Nat × Bool)} (h : Sizes bs) {a x y sz : Nat}
    (hx : x ∈ freeAddrs a bs) (hy : (y, sz) ∈ allocd a bs) : x + 32 ≤ y ∨ y + sz ≤ x := by
  induction bs generalizing a with
  | nil => simp [freeAddrs] at hx
  | cons b bs ih =>
    rw [sizes_cons] at h
    simp only [freeAddrs] at hx
    simp only [allocd] at hy
    split at hx
    · rename_i hb
      rw [if_pos hb] at hy
      rcases List.mem_cons.mp hy with heq | hy
      · simp only [Prod.mk.injEq] at heq
        obtain ⟨rfl, rfl⟩ := heq
        have := freeAddrs_bounds h.2 hx
        omega
      · exact ih h.2 hx hy
    · rename_i hb
      rw [if_neg hb] at hy
      rcases List.mem_cons.mp hx with rfl | hx
      · have := allocd_bounds h.2 hy
        omega
      · exact ih h.2 hx hy

theorem pairwise_sep_nodup {l : List Nat} (h : l.Pairwise (fun x y => x + 32 ≤ y ∨ y + 32 ≤ x)) :
    l.Nodup := by
  apply List.Pairwise.imp _ h
  intro x y hxy; omega

/-! ## Frames -/

/-- A run of blocks only depends on the bytes of its headers and footers:
a memory that differs at most inside the pointer fields of the run's free
blocks represents the same run. -/
theorem seg_congr {m m1 : Nat → Nat} {a : Nat} {pa : Bool} {bs : List (Nat × Bool)}
    (h : Seg m a pa bs)
    (hm : ∀ x, a ≤ x → x < a + total bs →
      (∀ y ∈ freeAddrs a bs, x < y + 8 ∨ y + 24 ≤ x) → m1 x = m x) :
    Seg m1 a pa bs := by
  induction bs generalizing a pa with
  | nil => trivial
  | cons b bs ih =>
    have hs := seg_sizes h
    rw [sizes_cons] at hs
    simp only [Seg] at h ⊢
    obtain ⟨h1, h2, h3, h4, h5⟩ := h
    simp only [total] at hm
    have hdr : load64 m1 a = load64 m a := by
      apply load64_congr
      intro x hx1 hx2
      apply hm x hx1 (by omega)
      intro y hy
      simp only [freeAddrs] at hy
      split at hy
      · have := freeAddrs_bounds hs.2 hy; omega
      · rcases List.mem_cons.mp hy with rfl | hy
        · omega
        · have := freeAddrs_bounds hs.2 hy; omega
    refine ⟨by rw [hdr]; exact h1, h2, h3, ?_, ?_⟩
    · intro hf
      refine ⟨(h4 hf).1, ?_⟩
      rw [← (h4 hf).2]
      apply load64_congr
      intro x hx1 hx2
      apply hm x (by omega) (by omega)
      intro y hy
      simp only [freeAddrs, hf] at hy
      rcases List.mem_cons.mp hy with rfl | hy
      · omega
      · have := freeAddrs_bounds hs.2 hy; omega
    · apply ih h5
      intro x hx1 hx2 hx3
      apply hm x (by omega) (by omega)
      intro y hy
      simp only [freeAddrs] at hy
      split at hy
      · exact hx3 y hy
      · rcases List.mem_cons.mp hy with rfl | hy
        · omega
        · exact hx3 y hy

/-- A memory that agrees on the whole range of a run represents the same
run. -/
theorem seg_congr_range {m m1 : Nat → Nat} {a : Nat} {pa : Bool} {bs : List (Nat × Bool)}
    (h : Seg m a pa bs) (hm : ∀ x, a ≤ x → x < a + total bs → m1 x = m x) :
    Seg m1 a pa bs :=
  seg_congr h (fun x h1 h2 _ => hm x h1 h2)

theorem chain_congr {m m1 : Nat → Nat} {p c : Nat} {fl : List Nat}
    (h : Chain m p c fl)
    (hm : ∀ y ∈ fl, ∀ x, y + 8 ≤ x → x < y + 24 → m1 x = m x) :
    Chain m1 p c fl := by
  induction fl generalizing p c with
  | nil => exact h
  | cons b fl ih =>
    simp only [Chain] at h ⊢
    obtain ⟨h1, h2, h3, h4⟩ := h
    have e1 : load64 m1 (b + 8) = load64 m (b + 8) :=
      load64_congr _ _ _ (fun x hx1 hx2 => hm b (List.mem_cons_self _ _) x (by omega) (by omega))
    have e2 : load64 m1 (b + 16) = load64 m (b + 16) :=
      load64_congr _ _ _ (fun x hx1 hx2 => hm b (List.mem_cons_self _ _) x (by omega) (by omega))
    refine ⟨h1, h2, by rw [e1]; exact h3, ?_⟩
    rw [e2]
    exact ih h4 (fun y hy => hm y (List.mem_cons_of_mem _ hy))

theorem chain_root {m : Nat → Nat} {p c : Nat} {fl : List Nat} (h : Chain m p c fl) :
    c = fl.headD 0 := by
  cases fl with
  | nil => exact h
  | cons b fl => exact h.1

theorem chain_ne_zero {m : Nat → Nat} {p c : Nat} {fl : List Nat} (h : Chain m p c fl) :
    ∀ y ∈ fl, y ≠ 0 := by
  induction fl generalizing p c with
  | nil => intro y hy; simp at hy
  | cons b fl ih =>
    intro y hy
    rcases List.mem_cons.mp hy with rfl | hy
    · exact h.2.1
    · exact ih h.2.2.2 y hy

/-! ## Header words -/

theorem pack_lt {sz : Nat} (al pa : Bool) (h : sz % 16 = 0) (hlt : sz < 2 ^ 64) :
    pack sz al pa < 2 ^ 64 := by
  rw [pack_eq sz al pa h]
  cases al <;> cases pa <;> simp <;> omega

theorem extract_size_pack {sz : Nat} (al pa : Bool) (h : sz % 16 = 0) (hlt : sz < 2 ^ 64) :
    extract_size (pack sz al pa) = sz := by
  rw [extract_size_eq, pack_eq sz al pa h]
  cases al <;> cases pa <;> simp <;> omega

theorem extract_alloc_pack {sz : Nat} (al pa : Bool) (h : sz % 16 = 0) :
    extract_alloc (pack sz al pa) = al := by
  unfold extract_alloc
  rw [and_one_eq, pack_eq sz al pa h]
  cases al <;> cases pa <;> simp <;> omega

theorem prev_bit_pack {sz : Nat} (al pa : Bool) (h : sz % 16 = 0) :
    ((pack sz al pa &&& 2) != 0) = pa := by
  rw [and_two_eq, pack_eq sz al pa h]
  cases al <;> cases pa <;> simp <;> omega

theorem pack_or_two {sz : Nat} (al pa : Bool) (h : sz % 16 = 0) :
    pack sz al pa ||| 2 = pack sz al true := by
  rw [or_two_eq, pack_eq sz al pa h, pack_eq sz al true h]
  cases al <;> cases pa <;> simp <;> omega

theorem pack_and_fd {sz : Nat} (al pa : Bool) (h : sz % 16 = 0) (hlt : sz < 2 ^ 64) :
    pack sz al pa &&& 0xFFFFFFFFFFFFFFFD = pack sz al false := by
  rw [and_fd_eq, pack_eq sz al pa h, pack_eq sz al false h]
  cases al <;> cases pa <;> simp <;> omega

theorem get_size_of {s : Heap} {a sz : Nat} {al pa : Bool} (h : load64 s.mem a = pack sz al pa)
    (h16 : sz % 16 = 0) (hlt : sz < 2 ^ 64) : get_size s a = sz := by
  unfold get_size; rw [h, extract_size_pack al pa h16 hlt]

theorem get_alloc_of {s : Heap} {a sz : Nat} {al pa : Bool} (h : load64 s.mem a = pack sz al pa)
    (h16 : sz % 16 = 0) : get_alloc s a = al := by
  unfold get_alloc; rw [h, extract_alloc_pack al pa h16]

theorem get_alloc_of_prev_of {s : Heap} {a sz : Nat} {al pa : Bool}
    (h : load64 s.mem a = pack sz al pa) (h16 : sz % 16 = 0) : get_alloc_of_prev s a = pa := by
  unfold get_alloc_of_prev; rw [h, prev_bit_pack al pa h16]

/-! ## Free-list operations -/

theorem pairwise_sep_mem {l : List Nat} (h : l.Pairwise (fun x y => x + 32 ≤ y ∨ y + 32 ≤ x))
    {x y : Nat} (hx : x ∈ l) (hy : y ∈ l) : x = y ∨ x + 32 ≤ y ∨ y + 32 ≤ x := by
  induction l with
  | nil => simp at hx
  | cons a l ih =>
    rw [List.pairwise_cons] at h
    rcases List.mem_cons.mp hx with hxa | hx
    · rcases List.mem_cons.mp hy with hya | hy
      · left; rw [hxa, hya]
      · have := h.1 y hy; omega
    · rcases List.mem_cons.mp hy with hya | hy
      · have := h.1 x hx; omega
      · exact ih h.2 hx hy

theorem chain_prev_mem {m : Nat → Nat} {p c : Nat} {fl : List Nat} (h : Chain m p c fl)
    (hpw : fl.Pairwise (fun x y => x + 32 ≤ y ∨ y + 32 ≤ x))
    {b : Nat} (hb : b ∈ fl) :
    (b = c ∧ load64 m (b + 8) = p) ∨ (load64 m (b + 8) ∈ fl ∧ load64 m (b + 8) ≠ b) := by
  induction fl generalizing p c with
  | nil => simp at hb
  | cons d fl ih =>
    obtain ⟨h1, _, h3, h4⟩ := h
    rw [List.pairwise_cons] at hpw
    rcases List.mem_cons.mp hb with rfl | hb
    · exact Or.inl ⟨h1.symm, h3⟩
    · have hdb := hpw.1 b hb
      rcases ih h4 hpw.2 hb with ⟨_, h6⟩ | ⟨h5, h7⟩
      · right; rw [h6]; exact ⟨List.mem_cons_self _ _, by omega⟩
      · right; exact ⟨List.mem_cons_of_mem _ h5, h7⟩

theorem chain_next_mem {m : Nat → Nat} {p c : Nat} {fl : List Nat} (h : Chain m p c fl)
    {b : Nat} (hb : b ∈ fl) : load64 m (b + 16) = 0 ∨ load64 m (b + 16) ∈ fl := by
  induction fl generalizing p c with
  | nil => simp at hb
  | cons d fl ih =>
    obtain ⟨_, _, _, h4⟩ := h
    rcases List.mem_cons.mp hb with rfl | hb
    · cases fl with
      | nil => left; exact h4
      | cons e fl => right; rw [h4.1]; simp
    · rcases ih h4 hb with h5 | h5
      · exact Or.inl h5
      · exact Or.inr (List.mem_cons_of_mem _ h5)

theorem add_eq (s : Heap) (b : Nat) : add s b =
    if b = s.root then s else
      { s with
        mem := store64 (if s.root = 0 then store64 s.mem (b + 16) s.root
          else store64 (store64 s.mem (b + 16) s.root) (s.root + 8) b) (b + 8) 0
        root := b } := by
  unfold add set_next set_prev
  by_cases h1 : b = s.root
  · simp [h1]
  · by_cases h2 : s.root = 0
    · simp [h1, h2]
    · simp [h1, h2]

theorem add_lo (s : Heap) (b : Nat) : (add s b).lo = s.lo := by
  rw [add_eq]; split <;> rfl

theorem add_brk (s : Heap) (b : Nat) : (add s b).brk = s.brk := by
  rw [add_eq]; split <;> rfl

theorem add_limit (s : Heap) (b : Nat) : (add s b).limit = s.limit := by
  rw [add_eq]; split <;> rfl

theorem add_listp (s : Heap) (b : Nat) : (add s b).heap_listp = s.heap_listp := by
  rw [add_eq]; split <;> rfl

theorem add_root (s : Heap) (b : Nat) : (add s b).root = b := by
  rw [add_eq]; split
  · rename_i h; exact h.symm
  · rfl

/-- `add` only writes the pointer fields of the inserted block and the `prev`
field of the old root. -/
theorem add_frame (s : Heap) (b x : Nat) (h1 : x < b + 8 ∨ b + 24 ≤ x)
    (h2 : s.root = 0 ∨ x < s.root + 8 ∨ s.root + 16 ≤ x) : (add s b).mem x = s.mem x := by
  rw [add_eq]
  split
  · rfl
  · show store64 _ _ _ x = _
    rw [store64_outside _ _ _ _ (by omega)]
    split
    · rw [store64_outside _ _ _ _ (by omega)]
    · rw [store64_outside _ _ _ _ (by omega), store64_outside _ _ _ _ (by omega)]

theorem add_chain {s : Heap} {fl : List Nat} (b : Nat) (h : Chain s.mem 0 s.root fl)
    (hpw : fl.Pairwise (fun x y => x + 32 ≤ y ∨ y + 32 ≤ x))
    (hsep : ∀ y ∈ fl, y + 32 ≤ b ∨ b + 32 ≤ y) (hlt : ∀ y ∈ fl, y < 2 ^ 64)
    (hb0 : b ≠ 0) (hb : b < 2 ^ 64) : Chain (add s b).mem 0 (add s b).root (b :: fl) := by
  rw [add_root]
  cases fl with
  | nil =>
    have hr : s.root = 0 := h
    have hne : ¬ b = s.root := by rw [hr]; exact hb0
    rw [add_eq, if_neg hne]
    simp only [hr, if_true]
    refine ⟨rfl, hb0, ?_, ?_⟩
    · rw [load64_store64_zero]
    · show load64 _ (b + 16) = 0
      rw [load64_store64_disj _ _ _ _ (by omega), load64_store64_eq _ _ _ (by decide)]
  | cons r fl =>
    obtain ⟨h1, h2, h3, h4⟩ := h
    have hrb := hsep r (List.mem_cons_self _ _)
    have hrlt := hlt r (List.mem_cons_self _ _)
    have hne : ¬ b = s.root := by rw [h1]; omega
    have hr0 : ¬ s.root = 0 := by rw [h1]; exact h2
    rw [add_eq, if_neg hne]
    simp only [h1, if_neg h2]
    rw [List.pairwise_cons] at hpw
    simp only [Chain]
    refine ⟨trivial, hb0, ?_, ?_, h2, ?_, ?_⟩
    · rw [load64_store64_zero]
    · rw [load64_store64_disj _ _ _ _ (by omega), load64_store64_disj _ _ _ _ (by omega),
        load64_store64_eq _ _ _ hrlt]
    · rw [load64_store64_disj _ _ _ _ (by omega), load64_store64_eq _ _ _ hb]
    · rw [load64_store64_disj _ _ _ _ (by omega), load64_store64_disj _ _ _ _ (by omega),
        load64_store64_disj _ _ _ _ (by omega)]
      apply chain_congr h4
      intro y hy x hx1 hx2
      have := hsep y (List.mem_cons_of_mem _ hy)
      have := hpw.1 y hy
      rw [store64_outside _ _ _ _ (by omega), store64_outside _ _ _ _ (by omega),
        store64_outside _ _ _ _ (by omega)]

/-- The memory after the `else` branch of `list_remove`. -/
theorem list_remove_eq (s : Heap) (b : Nat) : list_remove s b =
    if b = s.root then
      (if load64 s.mem (s.root + 16) ≠ 0 ∧ load64 s.mem (load64 s.mem (s.root + 16) + 8) ≠ 0 then
        { s with
          mem := store64 s.mem (load64 s.mem (s.root + 16) + 8) 0
          root := load64 s.mem (s.root + 16) }
      else { s with root := load64 s.mem (s.root + 16) })
    else
      { s with
        mem :=
          if load64 (store64 s.mem (load64 s.mem (b + 8) + 16) (load64 s.mem (b + 16))) (b + 16) ≠ 0
          then store64 (store64 s.mem (load64 s.mem (b + 8) + 16) (load64 s.mem (b + 16)))
            (load64 (store64 s.mem (load64 s.mem (b + 8) + 16) (load64 s.mem (b + 16))) (b + 16) + 8)
            (load64 (store64 s.mem (load64 s.mem (b + 8) + 16) (load64 s.mem (b + 16))) (b + 8))
          else store64 s.mem (load64 s.mem (b + 8) + 16) (load64 s.mem (b + 16)) } := by
  unfold list_remove set_next set_prev blk_next blk_prev
  by_cases h1 : b = s.root
  · simp only [if_pos h1]
  · simp only [if_neg h1]
    split <;> rfl

theorem list_remove_lo (s : Heap) (b : Nat) : (list_remove s b).lo = s.lo := by
  rw [list_remove_eq]; split <;> [split; skip] <;> rfl

theorem list_remove_brk (s : Heap) (b : Nat) : (list_remove s b).brk = s.brk := by
  rw [list_remove_eq]; split <;> [split; skip] <;> rfl

theorem list_remove_limit (s : Heap) (b : Nat) : (list_remove s b).limit = s.limit := by
  rw [list_remove_eq]; split <;> [split; skip] <;> rfl

theorem list_remove_listp (s : Heap) (b : Nat) :
    (list_remove s b).heap_listp = s.heap_listp := by
  rw [list_remove_eq]; split <;> [split; skip] <;> rfl

/-- Unlinking an interior node: the two stores of the `else` branch of
`list_remove`. -/
theorem remove_inner {m : Nat → Nat} {p c : Nat} {fl : List Nat} {b : Nat}
    (h : Chain m p c fl) (hpw : fl.Pairwise (fun x y => x + 32 ≤ y ∨ y + 32 ≤ x))
    (hlt : ∀ y ∈ fl, y < 2 ^ 64) (hb : b ∈ fl) (hc : c ≠ b) :
    Chain (if load64 m (b + 16) ≠ 0 then
        store64 (store64 m (load64 m (b + 8) + 16) (load64 m (b + 16)))
          (load64 m (b + 16) + 8) (load64 m (b + 8))
      else store64 m (load64 m (b + 8) + 16) (load64 m (b + 16))) p c (fl.erase b) := by
  induction fl generalizing p c with
  | nil => simp at hb
  | cons c1 rest ih =>
    obtain ⟨h1, h2, h3, h4⟩ := h
    subst h1
    have hb2 : b ∈ rest := by
      rcases List.mem_cons.mp hb with h | h
      · exact absurd h.symm hc
      · exact h
    rw [List.erase_cons_tail (by simpa using hc)]
    rw [List.pairwise_cons] at hpw
    have hcb := hpw.1 b hb2
    have hclt := hlt c (List.mem_cons_self _ _)
    -- where the predecessor and successor of `b` live
    have hnext := chain_next_mem h4 hb2
    have hsepc : ∀ y ∈ rest, c + 32 ≤ y ∨ y + 32 ≤ c := hpw.1
    cases rest with
    | nil => simp at hb2
    | cons d rest1 =>
      obtain ⟨g1, g2, g3, g4⟩ := h4
      by_cases hd : d = b
      · -- `b` follows `c` directly
        subst hd
        rw [List.erase_cons_head]
        rw [g3]
        have hpw2 := hpw.2
        rw [List.pairwise_cons] at hpw2
        cases rest1 with
        | nil =>
          have hn0 : load64 m (d + 16) = 0 := g4
          simp only [hn0, ne_eq, not_true, if_false]
          exact ⟨rfl, h2, by rw [load64_store64_disj _ _ _ _ (by omega)]; exact h3,
            by show load64 _ (c + 16) = 0; rw [load64_store64_zero]⟩
        | cons n rest2 =>
          obtain ⟨k1, k2, k3, k4⟩ := g4
          have hn : load64 m (d + 16) = n := k1
          have hcn := hsepc n (by simp)
          have hdn := hpw2.1 n (by simp)
          have hnlt := hlt n (by simp)
          simp only [hn, ne_eq, k2, not_false_eq_true, if_true]
          refine ⟨rfl, h2, ?_, ?_, k2, ?_, ?_⟩
          · rw [load64_store64_disj _ _ _ _ (by omega), load64_store64_disj _ _ _ _ (by omega)]
            exact h3
          · rw [load64_store64_disj _ _ _ _ (by omega), load64_store64_eq _ _ _ hnlt]
          · rw [load64_store64_eq _ _ _ hclt]
          · rw [load64_store64_disj _ _ _ _ (by omega), load64_store64_disj _ _ _ _ (by omega)]
            apply chain_congr k4
            intro y hy x hx1 hx2
            have := hsepc y (by simp [hy])
            have hpw3 := hpw2.2
            rw [List.pairwise_cons] at hpw3
            have := hpw3.1 y hy
            rw [store64_outside _ _ _ _ (by omega), store64_outside _ _ _ _ (by omega)]
      · -- `b` lies deeper in the list
        have hdc : d ≠ b := hd
        have hcd : load64 m (c + 16) = d := g1
        have hrec := ih (p := c) (c := load64 m (c + 16)) ⟨g1, g2, g3, g4⟩ hpw.2
          (fun y hy => hlt y (List.mem_cons_of_mem _ hy)) hb2 (by rw [hcd]; exact hdc)
        have hbp2 : load64 m (b + 8) ∈ d :: rest1 := by
          rcases chain_prev_mem (show Chain m c (load64 m (c + 16)) (d :: rest1) from
            ⟨g1, g2, g3, g4⟩) hpw.2 hb2 with ⟨h5, _⟩ | ⟨h5, _⟩
          · rw [hcd] at h5; exact absurd h5.symm hdc
          · exact h5
        have hbpsep := hsepc _ hbp2
        have key : ∀ mm : Nat → Nat, (∀ x, c + 8 ≤ x → x < c + 24 → mm x = m x) →
            Chain mm c (load64 m (c + 16)) ((d :: rest1).erase b) →
            Chain mm p c (c :: (d :: rest1).erase b) := by
          intro mm hmm hch
          refine ⟨rfl, h2, ?_, ?_⟩
          · rw [load64_congr m mm (c + 8) (fun x h1 h2 => hmm x (by omega) (by omega))]
            exact h3
          · rw [load64_congr m mm (c + 16) (fun x h1 h2 => hmm x (by omega) (by omega))]
            exact hch
        apply key _ _ hrec
        intro x hx1 hx2
        rcases hnext with hn0 | hnm
        · simp only [hn0, ne_eq, not_true, if_false]
          rw [store64_outside _ _ _ _ (by omega)]
        · have hnsep := hsepc _ hnm
          have hnn : load64 m (b + 16) ≠ 0 :=
            chain_ne_zero (show Chain m c (load64 m (c + 16)) (d :: rest1) from
              ⟨g1, g2, g3, g4⟩) _ hnm
          simp only [ne_eq, hnn, not_false_eq_true, if_true]
          rw [store64_outside _ _ _ _ (by omega), store64_outside _ _ _ _ (by omega)]

theorem list_remove_chain {s : Heap} {fl : List Nat} {b : Nat} (h : Chain s.mem 0 s.root fl)
    (hpw : fl.Pairwise (fun x y => x + 32 ≤ y ∨ y + 32 ≤ x))
    (hlt : ∀ y ∈ fl, y < 2 ^ 64) (hb : b ∈ fl) :
    Chain (list_remove s b).mem 0 (list_remove s b).root (fl.erase b) := by
  by_cases hr : b = s.root
  · cases fl with
    | nil => simp at hb
    | cons c rest =>
      obtain ⟨h1, h2, h3, h4⟩ := h
      have hbc : b = c := by rw [hr, h1]
      subst hbc
      rw [List.erase_cons_head]
      unfold list_remove blk_next blk_prev set_prev
      simp only [if_pos hr, ← hr]
      rw [List.pairwise_cons] at hpw
      cases rest with
      | nil =>
        have hn0 : load64 s.mem (b + 16) = 0 := h4
        simp only [hn0, ne_eq, not_true, false_and, if_false]
        rfl
      | cons n rest1 =>
        obtain ⟨k1, k2, k3, k4⟩ := h4
        have hp : load64 s.mem (load64 s.mem (b + 16) + 8) ≠ 0 := by rw [k1, k3]; exact h2
        have hn : load64 s.mem (b + 16) ≠ 0 := by rw [k1]; exact k2
        simp only [ne_eq, hn, not_false_eq_true, hp, and_self, if_true]
        rw [k1]
        refine ⟨rfl, k2, by rw [load64_store64_zero], ?_⟩
        rw [load64_store64_disj _ _ _ _ (by omega)]
        apply chain_congr k4
        intro y hy x hx1 hx2
        have hpw2 := hpw.2
        rw [List.pairwise_cons] at hpw2
        have := hpw2.1 y hy
        rw [store64_outside _ _ _ _ (by omega)]
  · have hcr : s.root ≠ b := fun h => hr h.symm
    obtain ⟨hbp, hbpne⟩ : load64 s.mem (b + 8) ∈ fl ∧ load64 s.mem (b + 8) ≠ b := by
      rcases chain_prev_mem h hpw hb with ⟨h5, _⟩ | h5
      · exact absurd h5 hr
      · exact h5
    have hsep : load64 s.mem (b + 8) + 32 ≤ b ∨ b + 32 ≤ load64 s.mem (b + 8) := by
      have := pairwise_sep_mem hpw hbp hb
      omega
    have hin := remove_inner h hpw hlt hb hcr
    have hblt := load64_lt s.mem (b + 16)
    rw [list_remove_eq, if_neg hr]
    simp only [load64_store64_disj _ _ _ _ (show load64 s.mem (b + 8) + 16 + 8 ≤ b + 16 ∨
      b + 16 + 8 ≤ load64 s.mem (b + 8) + 16 by omega),
      load64_store64_disj _ _ _ _ (show load64 s.mem (b + 8) + 16 + 8 ≤ b + 8 ∨
      b + 8 + 8 ≤ load64 s.mem (b + 8) + 16 by omega)]
    exact hin

/-- `list_remove` only writes pointer fields of list nodes. -/
theorem list_remove_frame {s : Heap} {fl : List Nat} {b : Nat} (h : Chain s.mem 0 s.root fl)
    (hpw : fl.Pairwise (fun x y => x + 32 ≤ y ∨ y + 32 ≤ x)) (hb : b ∈ fl) (x : Nat)
    (hx : ∀ y ∈ fl, x < y + 8 ∨ y + 24 ≤ x) : (list_remove s b).mem x = s.mem x := by
  rw [list_remove_eq]
  by_cases hr : b = s.root
  · rw [if_pos hr]
    split
    · rename_i hc
      show store64 _ _ _ x = _
      have hrm : s.root ∈ fl := hr ▸ hb
      rcases chain_next_mem h hrm with h0 | hm
      · exact absurd h0 hc.1
      · have := hx _ hm
        rw [store64_outside _ _ _ _ (by omega)]
    · rfl
  · rw [if_neg hr]
    obtain ⟨hbp, hbpne⟩ : load64 s.mem (b + 8) ∈ fl ∧ load64 s.mem (b + 8) ≠ b := by
      rcases chain_prev_mem h hpw hb with ⟨h5, _⟩ | h5
      · exact absurd h5 hr
      · exact h5
    have hsep : load64 s.mem (b + 8) + 32 ≤ b ∨ b + 32 ≤ load64 s.mem (b + 8) := by
      have := pairwise_sep_mem hpw hbp hb
      omega
    have e1 := hx _ hbp
    dsimp only
    simp only [load64_store64_disj _ _ _ _ (show load64 s.mem (b + 8) + 16 + 8 ≤ b + 16 ∨
      b + 16 + 8 ≤ load64 s.mem (b + 8) + 16 by omega),
      load64_store64_disj _ _ _ _ (show load64 s.mem (b + 8) + 16 + 8 ≤ b + 8 ∨
      b + 8 + 8 ≤ load64 s.mem (b + 8) + 16 by omega)]
    split
    · rename_i hn
      rcases chain_next_mem h hb with h0 | hm
      · exact absurd h0 hn
      · have := hx _ hm
        rw [store64_outside _ _ _ _ (by omega), store64_outside _ _ _ _ (by omega)]
    · rw [store64_outside _ _ _ _ (by omega)]

/-! ## Heaps with a span under construction -/

theorem sep_symm : ∀ x y : Nat, (x + 32 ≤ y ∨ y + 32 ≤ x) → (y + 32 ≤ x ∨ x + 32 ≤ y) := by
  intro x y h; omega

theorem pairwise_sep_perm {l1 l2 : List Nat} (hp : l1.Perm l2)
    (h : l2.Pairwise (fun x y => x + 32 ≤ y ∨ y + 32 ≤ x)) :
    l1.Pairwise (fun x y => x + 32 ≤ y ∨ y + 32 ≤ x) :=
  (hp.pairwise_iff (fun {x y} hxy => sep_symm x y hxy)).mpr h

section hole

variable {s : Heap} {pre post : List (Nat × Bool)} {w : Nat} {q : Bool} {fl ex : List Nat}

/-- Where a free-list node of a heap under construction lies. -/
theorem Hole.mem_cases (h : Hole s pre w q post fl ex) {y : Nat} (hy : y ∈ fl) :
    (y ∈ ex ∧ s.lo + 8 + total pre ≤ y ∧ y + 32 ≤ s.lo + 8 + total pre + w) ∨
    (y ∈ freeAddrs (s.lo + 8) pre ∧ s.lo + 8 ≤ y ∧ y + 32 ≤ s.lo + 8 + total pre) ∨
    (y ∈ freeAddrs (s.lo + 8 + total pre + w) post ∧ s.lo + 8 + total pre + w ≤ y ∧
      y + 32 ≤ s.lo + 8 + total pre + w + total post) := by
  have hm := h.perm.mem_iff.mp hy
  rw [List.mem_append, List.mem_append] at hm
  rcases hm with hm | hm | hm
  · exact Or.inl ⟨hm, (h.exin y hm).1, (h.exin y hm).2.1⟩
  · have := freeAddrs_bounds (seg_sizes h.segpre) hm
    exact Or.inr (Or.inl ⟨hm, by omega, by omega⟩)
  · have := freeAddrs_bounds (seg_sizes h.segpost) hm
    exact Or.inr (Or.inr ⟨hm, by omega, by omega⟩)

theorem Hole.mem_mod (h : Hole s pre w q post fl ex) {y : Nat} (hy : y ∈ fl) : y % 16 = 8 := by
  have hm := h.perm.mem_iff.mp hy
  have h1 := h.lo_align
  have h2 := total_mod (seg_sizes h.segpre)
  have h3 := h.wmod
  rw [List.mem_append, List.mem_append] at hm
  rcases hm with hm | hm | hm
  · exact (h.exin y hm).2.2
  · have := freeAddrs_bounds (seg_sizes h.segpre) hm
    omega
  · have := freeAddrs_bounds (seg_sizes h.segpost) hm
    omega

theorem Hole.mem_range (h : Hole s pre w q post fl ex) {y : Nat} (hy : y ∈ fl) :
    s.lo + 8 ≤ y ∧ y + 32 ≤ s.brk - 8 ∧ y < 2 ^ 64 ∧ y ≠ 0 := by
  have h1 := h.brk_eq
  have h2 := h.brk_le
  have h3 := h.limit_le
  rcases h.mem_cases hy with ⟨_, h4, h5⟩ | ⟨_, h4, h5⟩ | ⟨_, h4, h5⟩ <;>
    exact ⟨by omega, by omega, by omega, by omega⟩

theorem Hole.fl_pairwise (h : Hole s pre w q post fl ex) :
    fl.Pairwise (fun x y => x + 32 ≤ y ∨ y + 32 ≤ x) := by
  apply pairwise_sep_perm h.perm
  rw [List.pairwise_append]
  refine ⟨h.exsep, ?_, ?_⟩
  · rw [List.pairwise_append]
    refine ⟨freeAddrs_pairwise (seg_sizes h.segpre) _, freeAddrs_pairwise (seg_sizes h.segpost) _, ?_⟩
    intro x hx y hy
    have := freeAddrs_bounds (seg_sizes h.segpre) hx
    have := freeAddrs_bounds (seg_sizes h.segpost) hy
    omega
  · intro x hx y hy
    have := h.exin x hx
    rw [List.mem_append] at hy
    rcases hy with hy | hy
    · have := freeAddrs_bounds (seg_sizes h.segpre) hy
      omega
    · have := freeAddrs_bounds (seg_sizes h.segpost) hy
      omega

theorem Hole.fl_lt (h : Hole s pre w q post fl ex) : ∀ y ∈ fl, y < 2 ^ 64 :=
  fun _ hy => (h.mem_range hy).2.2.1

/-- The root of the free list is `NULL` or a node. -/
theorem Hole.root_cases (h : Hole s pre w q post fl ex) : s.root = 0 ∨ s.root ∈ fl := by
  have := chain_root h.chain
  cases fl with
  | nil => left; exact this
  | cons b fl => right; rw [this]; simp

/-- Rewriting bytes of the span, away from the pointer fields of the nodes
inside it, keeps the rest of the heap. -/
theorem Hole.write (h : Hole s pre w q post fl ex) (m1 : Nat → Nat)
    (hout : ∀ x, x < s.lo + 8 + total pre ∨ s.lo + 8 + total pre + w ≤ x → m1 x = s.mem x)
    (hex : ∀ y ∈ ex, ∀ x, y + 8 ≤ x → x < y + 24 → m1 x = s.mem x) :
    Hole { s with mem := m1 } pre w q post fl ex := by
  refine ⟨h.lo_align, h.limit_le, h.brk_le, h.listp, h.brk_eq, ?_, ?_, ?_, ?_, ?_, h.perm,
    h.exin, h.exsep, h.wmod⟩
  · show load64 m1 s.lo = _
    rw [← h.prologue]
    exact load64_congr _ _ _ (fun x h1 h2 => hout x (by omega))
  · show Seg m1 (s.lo + 8) true pre
    exact seg_congr_range h.segpre (fun x h1 h2 => hout x (by omega))
  · show Seg m1 (s.lo + 8 + total pre + w) q post
    exact seg_congr_range h.segpost (fun x h1 h2 => hout x (by omega))
  · show load64 m1 (s.lo + 8 + total pre + w + total post) = _
    rw [← h.epilogue]
    exact load64_congr _ _ _ (fun x h1 h2 => hout x (by omega))
  · apply chain_congr h.chain
    intro y hy x hx1 hx2
    rcases h.mem_cases hy with ⟨h3, _, _⟩ | ⟨_, h4, h5⟩ | ⟨_, h4, h5⟩
    · exact hex y h3 x hx1 hx2
    · exact hout x (by omega)
    · exact hout x (by omega)

/-- `add` of a block inside the span. -/
theorem Hole.add (h : Hole s pre w q post fl ex) {y : Nat}
    (hy1 : s.lo + 8 + total pre ≤ y) (hy2 : y + 32 ≤ s.lo + 8 + total pre + w)
    (hy3 : y % 16 = 8) (hsep : ∀ z ∈ ex, z + 32 ≤ y ∨ y + 32 ≤ z) :
    Hole (add s y) pre w q post (y :: fl) (y :: ex) := by
  have hb1 := h.brk_eq
  have hb2 := h.brk_le
  have hb3 := h.limit_le
  have hfr : ∀ x, (x < y + 8 ∨ y + 24 ≤ x) → (∀ z ∈ fl, x < z + 8 ∨ z + 24 ≤ x) →
      (MM.add s y).mem x = s.mem x := by
    intro x hx1 hx2
    apply add_frame s y x hx1
    rcases h.root_cases with h0 | hr
    · exact Or.inl h0
    · have := hx2 _ hr; omega
  refine ⟨by rw [add_lo]; exact h.lo_align, by rw [add_limit]; exact h.limit_le,
    by rw [add_brk, add_limit]; exact h.brk_le, by rw [add_listp, add_lo]; exact h.listp,
    by rw [add_brk, add_lo]; exact h.brk_eq, ?_, ?_, ?_, ?_, ?_, ?_, ?_, ?_, h.wmod⟩
  · rw [add_lo, ← h.prologue]
    apply load64_congr
    intro x h1 h2
    apply hfr x (by omega)
    intro z hz
    have := h.mem_range hz
    omega
  · rw [add_lo]
    apply seg_congr h.segpre
    intro x h1 h2 h3
    apply hfr x (by omega)
    intro z hz
    rcases h.mem_cases hz with ⟨_, h4, h5⟩ | ⟨h6, h4, h5⟩ | ⟨_, h4, h5⟩
    · omega
    · exact h3 z h6
    · omega
  · rw [add_lo]
    apply seg_congr h.segpost
    intro x h1 h2 h3
    apply hfr x (by omega)
    intro z hz
    rcases h.mem_cases hz with ⟨_, h4, h5⟩ | ⟨_, h4, h5⟩ | ⟨h6, h4, h5⟩
    · omega
    · omega
    · exact h3 z h6
  · rw [add_lo, ← h.epilogue]
    apply load64_congr
    intro x h1 h2
    apply hfr x (by omega)
    intro z hz
    rcases h.mem_cases hz with ⟨_, h4, h5⟩ | ⟨_, h4, h5⟩ | ⟨_, h4, h5⟩ <;> omega
  · apply add_chain y h.chain h.fl_pairwise _ h.fl_lt (by omega) (by omega)
    intro z hz
    rcases h.mem_cases hz with ⟨h6, h4, h5⟩ | ⟨_, h4, h5⟩ | ⟨_, h4, h5⟩
    · exact hsep z h6
    · omega
    · omega
  · rw [add_lo]
    exact List.Perm.cons y h.perm
  · rw [add_lo]
    intro z hz
    rcases List.mem_cons.mp hz with rfl | hz
    · exact ⟨hy1, hy2, hy3⟩
    · exact h.exin z hz
  · rw [List.pairwise_cons]
    refine ⟨?_, h.exsep⟩
    intro z hz
    have := hsep z hz
    omega

/-- `add` keeps the words of the span that are not pointer fields. -/
theorem Hole.add_load (h : Hole s pre w q post fl ex) {y : Nat} (a : Nat)
    (ha1 : s.lo + 8 + total pre ≤ a) (ha2 : a + 8 ≤ s.lo + 8 + total pre + w)
    (hy : a + 8 ≤ y + 8 ∨ y + 24 ≤ a)
    (hex : ∀ z ∈ ex, a + 8 ≤ z + 8 ∨ z + 24 ≤ a) :
    load64 (MM.add s y).mem a = load64 s.mem a := by
  apply load64_congr
  intro x h1 h2
  apply add_frame s y x (by omega)
  rcases h.root_cases with h0 | hr
  · exact Or.inl h0
  · rcases h.mem_cases hr with ⟨h6, h4, h5⟩ | ⟨_, h4, h5⟩ | ⟨_, h4, h5⟩
    · have := hex _ h6; omega
    · omega
    · omega

/-- `list_remove` of a node inside the span. -/
theorem Hole.remove (h : Hole s pre w q post fl ex) {y : Nat} (hy : y ∈ ex) :
    Hole (list_remove s y) pre w q post (fl.erase y) (ex.erase y) := by
  have hyfl : y ∈ fl := h.perm.mem_iff.mpr (List.mem_append_left _ hy)
  have hfr : ∀ x, (∀ z ∈ fl, x < z + 8 ∨ z + 24 ≤ x) → (list_remove s y).mem x = s.mem x :=
    fun x hx => list_remove_frame h.chain h.fl_pairwise hyfl x hx
  refine ⟨by rw [list_remove_lo]; exact h.lo_align, by rw [list_remove_limit]; exact h.limit_le,
    by rw [list_remove_brk, list_remove_limit]; exact h.brk_le,
    by rw [list_remove_listp, list_remove_lo]; exact h.listp,
    by rw [list_remove_brk, list_remove_lo]; exact h.brk_eq, ?_, ?_, ?_, ?_, ?_, ?_, ?_, ?_,
    h.wmod⟩
  · rw [list_remove_lo, ← h.prologue]
    apply load64_congr
    intro x h1 h2
    apply hfr x
    intro z hz
    have := h.mem_range hz
    omega
  · rw [list_remove_lo]
    apply seg_congr h.segpre
    intro x h1 h2 h3
    apply hfr x
    intro z hz
    rcases h.mem_cases hz with ⟨_, h4, h5⟩ | ⟨h6, h4, h5⟩ | ⟨_, h4, h5⟩
    · omega
    · exact h3 z h6
    · omega
  · rw [list_remove_lo]
    apply seg_congr h.segpost
    intro x h1 h2 h3
    apply hfr x
    intro z hz
    rcases h.mem_cases hz with ⟨_, h4, h5⟩ | ⟨_, h4, h5⟩ | ⟨h6, h4, h5⟩
    · omega
    · omega
    · exact h3 z h6
  · rw [list_remove_lo, ← h.epilogue]
    apply load64_congr
    intro x h1 h2
    apply hfr x
    intro z hz
    rcases h.mem_cases hz with ⟨_, h4, h5⟩ | ⟨_, h4, h5⟩ | ⟨_, h4, h5⟩ <;> omega
  · exact list_remove_chain h.chain h.fl_pairwise h.fl_lt hyfl
  · rw [list_remove_lo]
    have := h.perm.erase y
    rw [List.erase_append_left _ hy] at this
    exact this
  · rw [list_remove_lo]
    intro z hz
    exact h.exin z (List.mem_of_mem_erase hz)
  · exact h.exsep.sublist (List.erase_sublist y ex)

/-- `list_remove` keeps the words of the span that are not pointer fields. -/
theorem Hole.remove_load (h : Hole s pre w q post fl ex) {y : Nat} (hy : y ∈ ex) (a : Nat)
    (ha1 : s.lo + 8 + total pre ≤ a) (ha2 : a + 8 ≤ s.lo + 8 + total pre + w)
    (hex : ∀ z ∈ ex, a + 8 ≤ z + 8 ∨ z + 24 ≤ a) :
    load64 (list_remove s y).mem a = load64 s.mem a := by
  have hyfl : y ∈ fl := h.perm.mem_iff.mpr (List.mem_append_left _ hy)
  apply load64_congr
  intro x h1 h2
  apply list_remove_frame h.chain h.fl_pairwise hyfl x
  intro z hz
  rcases h.mem_cases hz with ⟨h6, h4, h5⟩ | ⟨_, h4, h5⟩ | ⟨_, h4, h5⟩
  · have := hex _ h6; omega
  · omega
  · omega

end hole

section hole2

variable {s : Heap} {pre post : List (Nat × Bool)} {w : Nat} {q : Bool} {fl ex : List Nat}

theorem prev_make_lo (s : Heap) (b : Nat) (v : Bool) : (prev_make s b v).lo = s.lo := by
  unfold prev_make; split <;> rfl

theorem prev_make_brk (s : Heap) (b : Nat) (v : Bool) : (prev_make s b v).brk = s.brk := by
  unfold prev_make; split <;> rfl

theorem prev_make_limit (s : Heap) (b : Nat) (v : Bool) : (prev_make s b v).limit = s.limit := by
  unfold prev_make; split <;> rfl

theorem prev_make_listp (s : Heap) (b : Nat) (v : Bool) :
    (prev_make s b v).heap_listp = s.heap_listp := by
  unfold prev_make; split <;> rfl

theorem prev_make_root (s : Heap) (b : Nat) (v : Bool) : (prev_make s b v).root = s.root := by
  unfold prev_make; split <;> rfl

/-- On a packed header `prev_make` replaces the previous-allocated bit. -/
theorem prev_make_mem {s : Heap} {b sz : Nat} {al pa : Bool} (v : Bool)
    (h : load64 s.mem b = pack sz al pa) (h16 : sz % 16 = 0) (hlt : sz < 2 ^ 64) :
    (prev_make s b v).mem = store64 s.mem b (pack sz al v) := by
  unfold prev_make
  cases v
  · simp only [Bool.false_eq_true, if_false, h, pack_and_fd al pa h16 hlt]
  · simp only [if_true, h, pack_or_two al pa h16]

/-- The run before the span of a heap under construction ends below `2 ^ 64`. -/
theorem Hole.bounds (h : Hole s pre w q post fl ex) :
    s.lo + 16 + total pre + w + total post ≤ 2 ^ 64 := by
  have h1 := h.brk_eq
  have h2 := h.brk_le
  have h3 := h.limit_le
  omega

/-- The header that follows the span. -/
theorem Hole.next_header (h : Hole s pre w q post fl ex) :
    ∃ sz, load64 s.mem (s.lo + 8 + total pre + w) = pack sz (headAlloc post) q ∧
      sz % 16 = 0 ∧ sz < 2 ^ 64 ∧ sz ≤ total post ∧ (post = [] → sz = 0) ∧
      (∀ b rest, post = b :: rest → sz = b.1) := by
  have hb := h.bounds
  cases post with
  | nil =>
    refine ⟨0, ?_, by decide, by decide, by simp [total], fun _ => rfl, by simp⟩
    have := h.epilogue
    simpa [total, lastAlloc, headAlloc] using this
  | cons b rest =>
    have hs := h.segpost
    simp only [Seg] at hs
    simp only [total] at hb
    refine ⟨b.1, hs.1, hs.2.1, by omega, by simp [total], by simp, ?_⟩
    intro b1 rest1 heq
    simp only [List.cons.injEq] at heq
    rw [heq.1]

/-- Updating the previous-allocated bit of the header that follows the span. -/
theorem Hole.next_bit (h : Hole s pre w q post fl ex) (v : Bool)
    (hv : v = true ∨ headAlloc post = true) :
    Hole (prev_make s (s.lo + 8 + total pre + w) v) pre w v post fl ex := by
  obtain ⟨sz, hsz, h16, hlt, hle, hnil, hcons⟩ := h.next_header
  have hmem := prev_make_mem v hsz h16 hlt
  have hb := h.bounds
  have hfr : ∀ x, (x < s.lo + 8 + total pre + w ∨ s.lo + 8 + total pre + w + 8 ≤ x) →
      (prev_make s (s.lo + 8 + total pre + w) v).mem x = s.mem x := by
    intro x hx
    rw [hmem, store64_outside _ _ _ _ hx]
  refine ⟨by rw [prev_make_lo]; exact h.lo_align, by rw [prev_make_limit]; exact h.limit_le,
    by rw [prev_make_brk, prev_make_limit]; exact h.brk_le,
    by rw [prev_make_listp, prev_make_lo]; exact h.listp,
    by rw [prev_make_brk, prev_make_lo]; exact h.brk_eq, ?_, ?_, ?_, ?_, ?_, ?_, ?_, h.exsep,
    h.wmod⟩
  · rw [prev_make_lo, ← h.prologue]
    exact load64_congr _ _ _ (fun x h1 h2 => hfr x (by omega))
  · rw [prev_make_lo]
    exact seg_congr_range h.segpre (fun x h1 h2 => hfr x (by omega))
  · rw [prev_make_lo]
    cases post with
    | nil => trivial
    | cons b rest =>
      have hs := h.segpost
      simp only [Seg] at hs ⊢
      have hsz2 := hcons b rest rfl
      subst hsz2
      simp only [headAlloc] at hv hsz
      refine ⟨?_, hs.2.1, hs.2.2.1, ?_, ?_⟩
      · rw [hmem, load64_store64_eq _ _ _ (pack_lt _ _ h16 hlt)]
        rfl
      · intro hf
        refine ⟨by rcases hv with hv | hv; exact hv; rw [hf] at hv; exact absurd hv (by decide), ?_⟩
        rw [← (hs.2.2.2.1 hf).2]
        exact load64_congr _ _ _ (fun x h1 h2 => hfr x (by omega))
      · exact seg_congr_range hs.2.2.2.2 (fun x h1 h2 => hfr x (by omega))
  · rw [prev_make_lo]
    cases post with
    | nil =>
      simp only [total, lastAlloc, Nat.add_zero]
      have := hnil rfl
      subst this
      rw [hmem, load64_store64_eq _ _ _ (pack_lt _ _ h16 hlt)]
      rfl
    | cons b rest =>
      have hs := seg_sizes h.segpost
      rw [sizes_cons] at hs
      simp only [total, lastAlloc]
      have he := h.epilogue
      simp only [total, lastAlloc] at he
      rw [← he]
      exact load64_congr _ _ _ (fun x h1 h2 => hfr x (by omega))
  · rw [prev_make_root]
    apply chain_congr h.chain
    intro y hy x hx1 hx2
    apply hfr
    rcases h.mem_cases hy with ⟨_, h4, h5⟩ | ⟨_, h4, h5⟩ | ⟨_, h4, h5⟩ <;> omega
  · rw [prev_make_lo]; exact h.perm
  · rw [prev_make_lo]; exact h.exin

/-- Opening a well-formed heap around the run `mid`. -/
theorem Repr.open_at {s : Heap} {fl : List Nat} (pre mid post : List (Nat × Bool))
    (h : Repr s (pre ++ mid ++ post) fl) :
    Hole s pre (total mid) (lastAlloc (lastAlloc true pre) mid) post fl
      (freeAddrs (s.lo + 8 + total pre) mid) := by
  have hseg := h.seg
  rw [seg_append, seg_append] at hseg
  have hsz := seg_sizes hseg.1.2
  refine ⟨h.lo_align, h.limit_le, h.brk_le, h.listp, ?_, h.prologue, hseg.1.1, ?_, ?_, h.chain,
    ?_, ?_, freeAddrs_pairwise hsz _, total_mod hsz⟩
  · rw [h.brk_eq, total_append, total_append]; omega
  · have := hseg.2
    rw [total_append, lastAlloc_append, ← Nat.add_assoc] at this
    exact this
  · have := h.epilogue
    rw [total_append, total_append, lastAlloc_append, lastAlloc_append] at this
    rw [← this]; congr 1; omega
  · have := h.perm
    rw [freeAddrs_append, freeAddrs_append, total_append, ← Nat.add_assoc] at this
    rw [List.perm_iff_count] at this ⊢
    intro a
    have := this a
    simp only [List.count_append] at this ⊢
    omega
  · intro y hy
    have := freeAddrs_bounds hsz hy
    have := h.lo_align
    have := total_mod (seg_sizes hseg.1.1)
    omega

/-- Closing the span with the run `mid`. -/
theorem Hole.close (h : Hole s pre w q post fl ex) (mid : List (Nat × Bool))
    (hseg : Seg s.mem (s.lo + 8 + total pre) (lastAlloc true pre) mid) (ht : total mid = w)
    (hq : lastAlloc (lastAlloc true pre) mid = q)
    (hex : ex.Perm (freeAddrs (s.lo + 8 + total pre) mid)) :
    Repr s (pre ++ mid ++ post) fl := by
  subst ht hq
  refine ⟨h.lo_align, h.limit_le, h.brk_le, h.listp, ?_, h.prologue, ?_, ?_, h.chain, ?_⟩
  · rw [h.brk_eq, total_append, total_append]; omega
  · rw [seg_append, seg_append]
    refine ⟨⟨h.segpre, hseg⟩, ?_⟩
    have := h.segpost
    rw [total_append, lastAlloc_append, ← Nat.add_assoc]
    exact this
  · have := h.epilogue
    rw [total_append, total_append, lastAlloc_append, lastAlloc_append]
    rw [← this]; congr 1; omega
  · rw [freeAddrs_append, freeAddrs_append, total_append, ← Nat.add_assoc]
    have h1 := h.perm
    rw [List.perm_iff_count] at h1 hex ⊢
    intro a
    have := h1 a
    have := hex a
    simp only [List.count_append] at *
    omega

/-- Extending the span downwards over the last blocks of the run before it. -/
theorem Hole.absorb_pre {pre1 mid : List (Nat × Bool)} (h : Hole s (pre1 ++ mid) w q post fl ex) :
    Hole s pre1 (total mid + w) q post fl (freeAddrs (s.lo + 8 + total pre1) mid ++ ex) := by
  have hseg := h.segpre
  rw [seg_append] at hseg
  have hsz := seg_sizes hseg.2
  have hsz1 := seg_sizes hseg.1
  have hb := h.brk_eq
  rw [total_append] at hb
  refine ⟨h.lo_align, h.limit_le, h.brk_le, h.listp, by omega, h.prologue, hseg.1, ?_, ?_,
    h.chain, ?_, ?_, ?_, ?_⟩
  · have := h.segpost
    rw [total_append] at this
    rw [show s.lo + 8 + total pre1 + (total mid + w) = s.lo + 8 + (total pre1 + total mid) + w by
      omega]
    exact this
  · have := h.epilogue
    rw [total_append] at this
    rw [show s.lo + 8 + total pre1 + (total mid + w) = s.lo + 8 + (total pre1 + total mid) + w by
      omega]
    exact this
  · have := h.perm
    rw [freeAddrs_append, total_append] at this
    rw [show s.lo + 8 + total pre1 + (total mid + w) = s.lo + 8 + (total pre1 + total mid) + w by
      omega]
    rw [List.perm_iff_count] at this ⊢
    intro a
    have := this a
    simp only [List.count_append] at this ⊢
    omega
  · intro y hy
    rw [List.mem_append] at hy
    have := h.lo_align
    have := total_mod hsz1
    rcases hy with hy | hy
    · have := freeAddrs_bounds hsz hy
      omega
    · have := h.exin y hy
      rw [total_append] at this
      omega
  · rw [List.pairwise_append]
    refine ⟨freeAddrs_pairwise hsz _, h.exsep, ?_⟩
    intro x hx y hy
    have := freeAddrs_bounds hsz hx
    have := h.exin y hy
    rw [total_append] at this
    omega
  · have := total_mod hsz
    have := h.wmod
    omega

/-- Extending the span upwards over the first block of the run after it. -/
theorem Hole.absorb_post {b : Nat × Bool} {post1 : List (Nat × Bool)}
    (h : Hole s pre w q (b :: post1) fl ex) :
    Hole s pre (w + b.1) b.2 post1 fl
      (freeAddrs (s.lo + 8 + total pre + w) [b] ++ ex) := by
  have hseg := h.segpost
  simp only [Seg] at hseg
  have hb := h.brk_eq
  simp only [total] at hb
  refine ⟨h.lo_align, h.limit_le, h.brk_le, h.listp, by omega, h.prologue, h.segpre, ?_, ?_,
    h.chain, ?_, ?_, ?_, ?_⟩
  · rw [← Nat.add_assoc]; exact hseg.2.2.2.2
  · have := h.epilogue
    simp only [total, lastAlloc] at this
    rw [← this]; congr 1; omega
  · have := h.perm
    simp only [freeAddrs] at this ⊢
    rw [← Nat.add_assoc]
    rw [List.perm_iff_count] at this ⊢
    intro a
    have := this a
    cases hb2 : b.2 <;> simp only [hb2, List.count_append, List.count_cons, List.count_nil,
      if_true, if_false, Bool.false_eq_true] at this ⊢ <;> omega
  · intro y hy
    rw [List.mem_append] at hy
    have := h.lo_align
    have := total_mod (seg_sizes h.segpre)
    have := h.wmod
    rcases hy with hy | hy
    · simp only [freeAddrs] at hy
      split at hy
      · simp at hy
      · simp only [List.mem_singleton] at hy
        omega
    · have := h.exin y hy
      omega
  · rw [List.pairwise_append]
    refine ⟨?_, h.exsep, ?_⟩
    · simp only [freeAddrs]; split <;> simp
    · intro x hx y hy
      have := h.exin y hy
      simp only [freeAddrs] at hx
      split at hx
      · simp at hx
      · simp only [List.mem_singleton] at hx
        omega
  · have := h.wmod
    omega

end hole2

/-! ## Payloads of allocated blocks -/

theorem owned_append {a : Nat} {l1 l2 : List (Nat × Bool)} {x : Nat} :
    Owned a (l1 ++ l2) x ↔ Owned a l1 x ∨ Owned (a + total l1) l2 x := by
  unfold Owned
  rw [allocd_append]
  constructor
  · rintro ⟨p, hp, h1⟩
    rcases List.mem_append.mp hp with hp | hp
    · exact Or.inl ⟨p, hp, h1⟩
    · exact Or.inr ⟨p, hp, h1⟩
  · rintro (⟨p, hp, h1⟩ | ⟨p, hp, h1⟩)
    · exact ⟨p, List.mem_append_left _ hp, h1⟩
    · exact ⟨p, List.mem_append_right _ hp, h1⟩

theorem owned_range {a : Nat} {bs : List (Nat × Bool)} (hs : Sizes bs) {x : Nat}
    (h : Owned a bs x) : a + 8 ≤ x ∧ x < a + total bs := by
  obtain ⟨p, hp, h1, h2⟩ := h
  have := allocd_bounds hs (show (p.1, p.2) ∈ allocd a bs from hp)
  omega

theorem owned_not_field {a : Nat} {bs : List (Nat × Bool)} (hs : Sizes bs) {x y : Nat}
    (h : Owned a bs x) (hy : y ∈ freeAddrs a bs) : x < y ∨ y + 32 ≤ x := by
  obtain ⟨p, hp, h1, h2⟩ := h
  have := free_allocd_disj hs hy (show (p.1, p.2) ∈ allocd a bs from hp)
  omega

theorem owned_free_single {a sz x : Nat} : ¬ Owned a [(sz, false)] x := by
  rintro ⟨p, hp, _⟩
  simp [allocd] at hp

section hole3

variable {s : Heap} {pre post : List (Nat × Bool)} {w : Nat} {q : Bool} {fl ex : List Nat}

/-- A payload byte of an allocated block outside the span is outside every
pointer field of the free list and outside the span itself. -/
theorem Hole.owned_facts (h : Hole s pre w q post fl ex) {x : Nat}
    (hx : Owned (s.lo + 8) pre x ∨ Owned (s.lo + 8 + total pre + w) post x) :
    (∀ z ∈ fl, x < z + 8 ∨ z + 24 ≤ x) ∧
    (x < s.lo + 8 + total pre ∨ s.lo + 8 + total pre + w + 8 ≤ x) ∧ s.lo + 16 ≤ x ∧
    x < s.lo + 8 + total pre + w + total post := by
  have hs1 := seg_sizes h.segpre
  have hs2 := seg_sizes h.segpost
  rcases hx with hx | hx
  · have hr := owned_range hs1 hx
    refine ⟨?_, by omega, by omega, by omega⟩
    intro z hz
    rcases h.mem_cases hz with ⟨_, h4, h5⟩ | ⟨h6, h4, h5⟩ | ⟨_, h4, h5⟩
    · omega
    · have := owned_not_field hs1 hx h6; omega
    · omega
  · have hr := owned_range hs2 hx
    refine ⟨?_, by omega, by omega, by omega⟩
    intro z hz
    rcases h.mem_cases hz with ⟨_, h4, h5⟩ | ⟨_, h4, h5⟩ | ⟨h6, h4, h5⟩
    · omega
    · omega
    · have := owned_not_field hs2 hx h6; omega

theorem Hole.add_owned (h : Hole s pre w q post fl ex) {y : Nat}
    (hy1 : s.lo + 8 + total pre ≤ y) (hy2 : y + 32 ≤ s.lo + 8 + total pre + w) {x : Nat}
    (hx : Owned (s.lo + 8) pre x ∨ Owned (s.lo + 8 + total pre + w) post x) :
    (MM.add s y).mem x = s.mem x := by
  obtain ⟨h1, h2, h3, h4⟩ := h.owned_facts hx
  apply add_frame s y x (by omega)
  rcases h.root_cases with h0 | hr
  · exact Or.inl h0
  · have := h1 _ hr; omega

theorem Hole.remove_owned (h : Hole s pre w q post fl ex) {y : Nat} (hy : y ∈ ex) {x : Nat}
    (hx : Owned (s.lo + 8) pre x ∨ Owned (s.lo + 8 + total pre + w) post x) :
    (list_remove s y).mem x = s.mem x := by
  obtain ⟨h1, h2, h3, h4⟩ := h.owned_facts hx
  have hyfl : y ∈ fl := h.perm.mem_iff.mpr (List.mem_append_left _ hy)
  exact list_remove_frame h.chain h.fl_pairwise hyfl x h1

theorem Hole.next_bit_owned (h : Hole s pre w q post fl ex) (v : Bool) {x : Nat}
    (hx : Owned (s.lo + 8) pre x ∨ Owned (s.lo + 8 + total pre + w) post x) :
    (prev_make s (s.lo + 8 + total pre + w) v).mem x = s.mem x := by
  obtain ⟨h1, h2, h3, h4⟩ := h.owned_facts hx
  obtain ⟨sz, hsz, h16, hlt, _, _, _⟩ := h.next_header
  rw [prev_make_mem v hsz h16 hlt, store64_outside _ _ _ _ (by omega)]

end hole3

/-! ## `place` -/

theorem find_next_of {s : Heap} {a sz : Nat} {al pa : Bool} (h : load64 s.mem a = pack sz al pa)
    (h16 : sz % 16 = 0) (hlt : a + sz < 2 ^ 64) : find_next s a = a + sz := by
  unfold find_next
  rw [get_size_of h h16 (by omega)]
  omega

theorem write_footer_of {s : Heap} {a sz : Nat} {al pa : Bool} (size : Nat) (alloc : Bool)
    (h : load64 s.mem a = pack sz al pa) (h16 : sz % 16 = 0) (h8 : 8 ≤ a + sz)
    (hlt : a + sz < 2 ^ 64) :
    write_footer s a size alloc =
      { s with mem := store64 s.mem (a + sz - 8) (pack size alloc false) } := by
  unfold write_footer
  rw [get_size_of h h16 (by omega)]
  have : (a + wsize + sz + 2 ^ 64 - dsize) % 2 ^ 64 = a + sz - 8 := by
    simp only [wsize, dsize]; omega
  simp only [this]

theorem prev_make_frame (s : Heap) (a : Nat) (v : Bool) (x : Nat) (hx : x < a ∨ a + 8 ≤ x) :
    (prev_make s a v).mem x = s.mem x := by
  unfold prev_make
  split <;> exact store64_outside _ _ _ _ hx

theorem write_footer_lo (s : Heap) (b sz : Nat) (al : Bool) :
    (write_footer s b sz al).lo = s.lo := by
  unfold write_footer; rfl

theorem write_footer_brk (s : Heap) (b sz : Nat) (al : Bool) :
    (write_footer s b sz al).brk = s.brk := by
  unfold write_footer; rfl

theorem write_footer_limit (s : Heap) (b sz : Nat) (al : Bool) :
    (write_footer s b sz al).limit = s.limit := by
  unfold write_footer; rfl

theorem write_footer_listp (s : Heap) (b sz : Nat) (al : Bool) :
    (write_footer s b sz al).heap_listp = s.heap_listp := by
  unfold write_footer; rfl

theorem write_header_lo (s : Heap) (b sz : Nat) (al pa : Bool) :
    (write_header s b sz al pa).lo = s.lo := rfl

theorem write_header_brk (s : Heap) (b sz : Nat) (al pa : Bool) :
    (write_header s b sz al pa).brk = s.brk := rfl

theorem write_header_limit (s : Heap) (b sz : Nat) (al pa : Bool) :
    (write_header s b sz al pa).limit = s.limit := rfl

theorem write_header_listp (s : Heap) (b sz : Nat) (al pa : Bool) :
    (write_header s b sz al pa).heap_listp = s.heap_listp := rfl

theorem place_lo (s : Heap) (b asize : Nat) : (place s b asize).lo = s.lo := by
  unfold place; dsimp only
  split
  · rw [list_remove_lo, add_lo, write_footer_lo, write_header_lo, write_header_lo]
  · rw [list_remove_lo, prev_make_lo, write_header_lo]

theorem place_brk (s : Heap) (b asize : Nat) : (place s b asize).brk = s.brk := by
  unfold place; dsimp only
  split
  · rw [list_remove_brk, add_brk, write_footer_brk, write_header_brk, write_header_brk]
  · rw [list_remove_brk, prev_make_brk, write_header_brk]

theorem place_limit (s : Heap) (b asize : Nat) : (place s b asize).limit = s.limit := by
  unfold place; dsimp only
  split
  · rw [list_remove_limit, add_limit, write_footer_limit, write_header_limit, write_header_limit]
  · rw [list_remove_limit, prev_make_limit, write_header_limit]

theorem place_listp (s : Heap) (b asize : Nat) : (place s b asize).heap_listp = s.heap_listp := by
  unfold place; dsimp only
  split
  · rw [list_remove_listp, add_listp, write_footer_listp, write_header_listp, write_header_listp]
  · rw [list_remove_listp, prev_make_listp, write_header_listp]

/-- The facts about a free block that `place` relies on. -/
theorem Repr.free_block {s : Heap} {pre post : List (Nat × Bool)} {csz : Nat} {fl : List Nat}
    (h : Repr s (pre ++ [(csz, false)] ++ post) fl) :
    load64 s.mem (s.lo + 8 + total pre) = pack csz false true ∧ csz % 16 = 0 ∧ 32 ≤ csz ∧
    lastAlloc true pre = true ∧
    load64 s.mem (s.lo + 8 + total pre + csz - 8) = pack csz false false ∧
    s.lo + 16 + total pre + csz + total post ≤ 2 ^ 64 ∧ s.lo + 8 + total pre ∈ fl ∧
    (s.lo + 8 + total pre) % 16 = 8 := by
  have hseg := h.seg
  rw [seg_append, seg_append] at hseg
  have h1 := hseg.1.2
  simp only [Seg] at h1
  obtain ⟨h2, h3, h4, h5, _⟩ := h1
  have h6 := h5 trivial
  have hb := h.brk_eq
  have hb2 := h.brk_le
  have hb3 := h.limit_le
  rw [total_append, total_append] at hb
  simp only [total] at hb
  have hal := h.lo_align
  have htm := total_mod (seg_sizes hseg.1.1)
  refine ⟨by rw [h2, h6.1], h3, h4, h6.1, h6.2, by omega, ?_, by omega⟩
  apply h.perm.mem_iff.mpr
  rw [freeAddrs_append, freeAddrs_append]
  simp [freeAddrs]

/-- `place` in the splitting case. -/
theorem place_split {s : Heap} {pre post : List (Nat × Bool)} {csz asize : Nat} {fl : List Nat}
    (h : Repr s (pre ++ [(csz, false)] ++ post) fl)
    (ha16 : asize % 16 = 0) (ha32 : 32 ≤ asize) (hrest : asize + 32 ≤ csz) :
    Repr (place s (s.lo + 8 + total pre) asize)
      (pre ++ [(asize, true), (csz - asize, false)] ++ post)
      ((s.lo + 8 + total pre + asize) :: fl.erase (s.lo + 8 + total pre)) ∧
    ∀ x, Owned (s.lo + 8) pre x ∨ Owned (s.lo + 8 + total pre + csz) post x →
      (place s (s.lo + 8 + total pre) asize).mem x = s.mem x := by
  obtain ⟨hhdr, hc16, hc32, hpa, hftr, hbnd, hbfl, hbmod⟩ := h.free_block
  have hH := h.open_at pre [(csz, false)] post
  simp only [total, lastAlloc, freeAddrs, Nat.add_zero, Bool.false_eq_true, if_false] at hH
  have hrest_eq : (csz + 2 ^ 64 - asize) % 2 ^ 64 = csz - asize := by omega
  have hr16 : (csz - asize) % 16 = 0 := by omega
  -- the three header and footer stores
  have hs1 : load64 (write_header s (s.lo + 8 + total pre) asize true true).mem
      (s.lo + 8 + total pre) = pack asize true true :=
    load64_store64_eq _ _ _ (pack_lt _ _ ha16 (by omega))
  have hnext := find_next_of hs1 ha16 (by omega)
  have hs2 : load64 (write_header (write_header s (s.lo + 8 + total pre) asize true true)
      (s.lo + 8 + total pre + asize) (csz - asize) false true).mem
      (s.lo + 8 + total pre + asize) = pack (csz - asize) false true :=
    load64_store64_eq _ _ _ (pack_lt _ _ hr16 (by omega))
  have hfoot := write_footer_of (csz - asize) false hs2 hr16 (by omega) (by omega)
  rw [show s.lo + 8 + total pre + asize + (csz - asize) - 8 = s.lo + 8 + total pre + csz - 8 by
    omega] at hfoot
  obtain ⟨m3, hm3⟩ : ∃ m3 : Nat → Nat, m3 = store64 (store64 (store64 s.mem
      (s.lo + 8 + total pre) (pack asize true true)) (s.lo + 8 + total pre + asize)
      (pack (csz - asize) false true)) (s.lo + 8 + total pre + csz - 8)
      (pack (csz - asize) false false) := ⟨_, rfl⟩
  have hplace : place s (s.lo + 8 + total pre) asize =
      list_remove (add { s with mem := m3 } (s.lo + 8 + total pre + asize))
        (s.lo + 8 + total pre) := by
    unfold place
    simp only [get_size_of hhdr hc16 (by omega), hrest_eq, min_block_size, dsize, wsize]
    rw [if_pos (by omega)]
    simp only [hnext, hfoot, hm3]
    rfl
  have hout : ∀ x, x < s.lo + 8 + total pre ∨ s.lo + 8 + total pre + csz ≤ x →
      m3 x = s.mem x := by
    intro x hx
    rw [hm3, store64_outside _ _ _ _ (by omega), store64_outside _ _ _ _ (by omega),
      store64_outside _ _ _ _ (by omega)]
  have hin : ∀ x, s.lo + 8 + total pre + 8 ≤ x → x < s.lo + 8 + total pre + 24 →
      m3 x = s.mem x := by
    intro x hx1 hx2
    rw [hm3, store64_outside _ _ _ _ (by omega), store64_outside _ _ _ _ (by omega),
      store64_outside _ _ _ _ (by omega)]
  have hl1 : load64 m3 (s.lo + 8 + total pre) = pack asize true true := by
    rw [hm3, load64_store64_disj _ _ _ _ (by omega), load64_store64_disj _ _ _ _ (by omega),
      load64_store64_eq _ _ _ (pack_lt _ _ ha16 (by omega))]
  have hl2 : load64 m3 (s.lo + 8 + total pre + asize) = pack (csz - asize) false true := by
    rw [hm3, load64_store64_disj _ _ _ _ (by omega),
      load64_store64_eq _ _ _ (pack_lt _ _ hr16 (by omega))]
  have hl3 : load64 m3 (s.lo + 8 + total pre + csz - 8) = pack (csz - asize) false false := by
    rw [hm3, load64_store64_eq _ _ _ (pack_lt _ _ hr16 (by omega))]
  clear hm3 hfoot hs2 hnext hs1
  have hH3 : Hole { s with mem := m3 } pre csz false post fl [s.lo + 8 + total pre] :=
    hH.write m3 hout (by
      intro y hy x hx1 hx2
      simp only [List.mem_singleton] at hy
      subst hy
      exact hin x hx1 hx2)
  have hH4 := hH3.add (y := s.lo + 8 + total pre + asize)
    (by show s.lo + 8 + total pre ≤ _; omega)
    (by show _ ≤ s.lo + 8 + total pre + csz; omega) (by omega) (by
      intro z hz
      simp only [List.mem_singleton] at hz
      omega)
  have hmem5 : s.lo + 8 + total pre ∈ [s.lo + 8 + total pre + asize, s.lo + 8 + total pre] := by
    simp
  have hH5 := hH4.remove hmem5
  rw [← hplace] at hH5
  have hne2 : ¬ (s.lo + 8 + total pre + asize == s.lo + 8 + total pre) = true := by
    rw [beq_iff_eq]; omega
  rw [List.erase_cons_tail hne2, List.erase_cons_tail hne2, List.erase_cons_head] at hH5
  have hlo5 : (place s (s.lo + 8 + total pre) asize).lo = s.lo := place_lo _ _ _
  -- the words written survive the two list operations
  have hkeep : ∀ a, s.lo + 8 + total pre ≤ a → a + 8 ≤ s.lo + 8 + total pre + csz →
      (a + 8 ≤ s.lo + 8 + total pre + 8 ∨ s.lo + 8 + total pre + 24 ≤ a) →
      (a + 8 ≤ s.lo + 8 + total pre + asize + 8 ∨ s.lo + 8 + total pre + asize + 24 ≤ a) →
      load64 (place s (s.lo + 8 + total pre) asize).mem a = load64 m3 a := by
    intro a ha1 ha2 ha3 ha4
    rw [hplace, hH4.remove_load hmem5 a (by rw [add_lo]; exact ha1) (by rw [add_lo]; exact ha2)
      (by
        intro z hz
        simp only [List.mem_cons, List.mem_singleton, List.not_mem_nil, or_false] at hz
        rcases hz with rfl | rfl <;> omega)]
    rw [hH3.add_load a ha1 ha2 (by omega) (by
        intro z hz
        simp only [List.mem_singleton] at hz
        omega)]
  constructor
  · have hcl := hH5.close [(asize, true), (csz - asize, false)] ?_ ?_ ?_ ?_
    · exact hcl
    · rw [hlo5, hpa]
      simp only [Seg]
      refine ⟨?_, ha16, ha32, by simp, ?_, hr16, by omega, ?_, trivial⟩
      · rw [hkeep _ (by omega) (by omega) (by omega) (by omega), hl1]
      · rw [hkeep _ (by omega) (by omega) (by omega) (by omega), hl2]
      · rw [show s.lo + 8 + total pre + asize + (csz - asize) - 8 = s.lo + 8 + total pre + csz - 8
          by omega]
        rw [hkeep _ (by omega) (by omega) (by omega) (by omega), hl3]
        exact fun _ => ⟨trivial, rfl⟩
    · simp only [total]; omega
    · simp only [lastAlloc]
    · rw [hlo5]
      simp [freeAddrs]
  · intro x hx
    rw [hplace, hH4.remove_owned hmem5 (by rw [add_lo]; exact hx),
      hH3.add_owned (by show s.lo + 8 + total pre ≤ _; omega)
        (by show _ ≤ s.lo + 8 + total pre + csz; omega) hx]
    obtain ⟨_, h2, _, _⟩ := hH.owned_facts hx
    exact hout x (by omega)

/-- `place` when the whole block is taken. -/
theorem place_whole {s : Heap} {pre post : List (Nat × Bool)} {csz asize : Nat} {fl : List Nat}
    (h : Repr s (pre ++ [(csz, false)] ++ post) fl)
    (hle : asize ≤ csz) (hrest : csz < asize + 32) :
    Repr (place s (s.lo + 8 + total pre) asize) (pre ++ [(csz, true)] ++ post)
      (fl.erase (s.lo + 8 + total pre)) ∧
    ∀ x, Owned (s.lo + 8) pre x ∨ Owned (s.lo + 8 + total pre + csz) post x →
      (place s (s.lo + 8 + total pre) asize).mem x = s.mem x := by
  obtain ⟨hhdr, hc16, hc32, hpa, hftr, hbnd, hbfl, hbmod⟩ := h.free_block
  have hH := h.open_at pre [(csz, false)] post
  simp only [total, lastAlloc, freeAddrs, Nat.add_zero, Bool.false_eq_true, if_false] at hH
  have hrest_eq : (csz + 2 ^ 64 - asize) % 2 ^ 64 = csz - asize := by omega
  have hs1 : load64 (write_header s (s.lo + 8 + total pre) csz true true).mem
      (s.lo + 8 + total pre) = pack csz true true :=
    load64_store64_eq _ _ _ (pack_lt _ _ hc16 (by omega))
  have hnext := find_next_of hs1 hc16 (by omega)
  obtain ⟨m1, hm1⟩ : ∃ m1 : Nat → Nat, m1 = store64 s.mem (s.lo + 8 + total pre)
      (pack csz true true) := ⟨_, rfl⟩
  have hplace : place s (s.lo + 8 + total pre) asize =
      list_remove (prev_make { s with mem := m1 } (s.lo + 8 + total pre + csz) true)
        (s.lo + 8 + total pre) := by
    unfold place
    simp only [get_size_of hhdr hc16 (by omega), hrest_eq, min_block_size, dsize, wsize]
    rw [if_neg (by omega)]
    simp only [hnext, hm1]
    rfl
  have hout : ∀ x, x < s.lo + 8 + total pre ∨ s.lo + 8 + total pre + 8 ≤ x →
      m1 x = s.mem x := by
    intro x hx
    rw [hm1, store64_outside _ _ _ _ hx]
  have hl1 : load64 m1 (s.lo + 8 + total pre) = pack csz true true := by
    rw [hm1]; exact hs1
  clear hm1 hs1 hnext
  have hH1 : Hole { s with mem := m1 } pre csz false post fl [s.lo + 8 + total pre] :=
    hH.write m1 (fun x hx => hout x (by omega)) (by
      intro y hy x hx1 hx2
      simp only [List.mem_singleton] at hy
      subst hy
      exact hout x (by omega))
  have hH2 := hH1.next_bit true (Or.inl rfl)
  have hmem3 : s.lo + 8 + total pre ∈ [s.lo + 8 + total pre] := by simp
  have hH3 := hH2.remove hmem3
  rw [List.erase_cons_head] at hH3
  have hH3b : Hole (place s (s.lo + 8 + total pre) asize) pre csz true post
      (fl.erase (s.lo + 8 + total pre)) [] := by
    rw [hplace]; exact hH3
  have hlo5 : (place s (s.lo + 8 + total pre) asize).lo = s.lo := place_lo _ _ _
  constructor
  · have hcl := hH3b.close [(csz, true)] ?_ ?_ ?_ ?_
    · exact hcl
    · rw [hlo5, hpa]
      simp only [Seg]
      refine ⟨?_, hc16, hc32, by simp, trivial⟩
      rw [hplace]
      have e1 := hH2.remove_load hmem3 (s.lo + 8 + total pre) (by rw [prev_make_lo])
        (by rw [prev_make_lo]; show _ ≤ s.lo + 8 + total pre + csz; omega) (by
          intro z hz
          simp only [List.mem_singleton] at hz
          omega)
      rw [show (prev_make { s with mem := m1 } (s.lo + 8 + total pre + csz) true) =
        (prev_make { s with mem := m1 } ({ s with mem := m1 }.lo + 8 + total pre + csz) true)
        from rfl, e1]
      rw [load64_congr _ _ _ (fun x h1 h2 => prev_make_frame _ _ _ x (by
        show x < s.lo + 8 + total pre + csz ∨ _; omega))]
      exact hl1
    · simp only [total]; omega
    · simp only [lastAlloc]
    · rw [hlo5]
      simp [freeAddrs]
  · intro x hx
    rw [hplace]
    have e1 := hH2.remove_owned hmem3 (x := x) (by rw [prev_make_lo]; exact hx)
    have e2 := hH1.next_bit_owned true (x := x) hx
    obtain ⟨_, h2, _, _⟩ := hH.owned_facts hx
    have e3 := hout x (by omega)
    rw [show (prev_make { s with mem := m1 } (s.lo + 8 + total pre + csz) true) =
        (prev_make { s with mem := m1 } ({ s with mem := m1 }.lo + 8 + total pre + csz) true)
        from rfl, e1, e2]
    exact e3

/-! ## `coalesce` -/

theorem coalesce_lo (s : Heap) (b : Nat) : (coalesce s b).2.lo = s.lo := by
  unfold coalesce; dsimp only
  split
  · rw [add_lo, prev_make_lo, write_footer_lo, write_header_lo]
  · split
    · rw [add_lo, list_remove_lo, write_footer_lo, write_header_lo]
    · split
      · rw [add_lo, prev_make_lo, list_remove_lo, write_footer_lo, write_header_lo]
      · rw [add_lo, list_remove_lo, list_remove_lo, write_footer_lo, write_header_lo]

theorem coalesce_brk (s : Heap) (b : Nat) : (coalesce s b).2.brk = s.brk := by
  unfold coalesce; dsimp only
  split
  · rw [add_brk, prev_make_brk, write_footer_brk, write_header_brk]
  · split
    · rw [add_brk, list_remove_brk, write_footer_brk, write_header_brk]
    · split
      · rw [add_brk, prev_make_brk, list_remove_brk, write_footer_brk, write_header_brk]
      · rw [add_brk, list_remove_brk, list_remove_brk, write_footer_brk, write_header_brk]

theorem coalesce_limit (s : Heap) (b : Nat) : (coalesce s b).2.limit = s.limit := by
  unfold coalesce; dsimp only
  split
  · rw [add_limit, prev_make_limit, write_footer_limit, write_header_limit]
  · split
    · rw [add_limit, list_remove_limit, write_footer_limit, write_header_limit]
    · split
      · rw [add_limit, prev_make_limit, list_remove_limit, write_footer_limit, write_header_limit]
      · rw [add_limit, list_remove_limit, list_remove_limit, write_footer_limit,
          write_header_limit]

theorem coalesce_listp (s : Heap) (b : Nat) : (coalesce s b).2.heap_listp = s.heap_listp := by
  unfold coalesce; dsimp only
  split
  · rw [add_listp, prev_make_listp, write_footer_listp, write_header_listp]
  · split
    · rw [add_listp, list_remove_listp, write_footer_listp, write_header_listp]
    · split
      · rw [add_listp, prev_make_listp, list_remove_listp, write_footer_listp, write_header_listp]
      · rw [add_listp, list_remove_listp, list_remove_listp, write_footer_listp,
          write_header_listp]

theorem lastAlloc_false_split {pa : Bool} {pre : List (Nat × Bool)} (hpa : pa = true)
    (h : lastAlloc pa pre = false) : ∃ pre1 psz, pre = pre1 ++ [(psz, false)] := by
  induction pre generalizing pa with
  | nil => simp only [lastAlloc] at h; rw [hpa] at h; exact absurd h (by decide)
  | cons b bs ih =>
    simp only [lastAlloc] at h
    cases bs with
    | nil =>
      simp only [lastAlloc] at h
      exact ⟨[], b.1, by rw [← h]; rfl⟩
    | cons c cs =>
      by_cases hb : b.2 = true
      · obtain ⟨pre1, psz, he⟩ := ih hb h
        exact ⟨b :: pre1, psz, by rw [he]; rfl⟩
      · -- the block after a free block is allocated or absent; either way recurse
        have h2 : lastAlloc true (c :: cs) = false := by
          simp only [lastAlloc] at h ⊢; exact h
        obtain ⟨pre1, psz, he⟩ := ih rfl h2
        exact ⟨b :: pre1, psz, by rw [he]; rfl⟩

theorem headAlloc_false_split {post : List (Nat × Bool)} (h : headAlloc post = false) :
    ∃ nsz post1, post = (nsz, false) :: post1 := by
  cases post with
  | nil => simp [headAlloc] at h
  | cons b bs =>
    simp only [headAlloc] at h
    exact ⟨b.1, bs, by rw [← h]⟩

section coalesce

variable {s : Heap} {pre post : List (Nat × Bool)} {sz : Nat} {q : Bool} {fl : List Nat}

/-- What `coalesce` reads of the block it is given. -/
theorem Hole.coalesce_reads (hH : Hole s pre sz q post fl [])
    (hhdr : load64 s.mem (s.lo + 8 + total pre) = pack sz false (lastAlloc true pre))
    (h16 : sz % 16 = 0) :
    get_size s (s.lo + 8 + total pre) = sz ∧
    find_next s (s.lo + 8 + total pre) = s.lo + 8 + total pre + sz ∧
    get_alloc_of_prev s (s.lo + 8 + total pre) = lastAlloc true pre ∧
    get_alloc s (s.lo + 8 + total pre + sz) = headAlloc post := by
  have hb := hH.bounds
  obtain ⟨nsz, hn, hn16, _, _, _, _⟩ := hH.next_header
  exact ⟨get_size_of hhdr h16 (by omega), find_next_of hhdr h16 (by omega),
    get_alloc_of_prev_of hhdr h16, get_alloc_of hn hn16⟩

/-- Case 1 of `coalesce`: both neighbours allocated. -/
theorem coalesce_case1 (hH : Hole s pre sz q post fl [])
    (hhdr : load64 s.mem (s.lo + 8 + total pre) = pack sz false (lastAlloc true pre))
    (h16 : sz % 16 = 0) (h32 : 32 ≤ sz)
    (hp : lastAlloc true pre = true) (hn : headAlloc post = true) :
    (coalesce s (s.lo + 8 + total pre)).1 = s.lo + 8 + total pre ∧
    Repr (coalesce s (s.lo + 8 + total pre)).2 (pre ++ [(sz, false)] ++ post)
      ((s.lo + 8 + total pre) :: fl) ∧
    ∀ x, Owned (s.lo + 8) pre x ∨ Owned (s.lo + 8 + total pre + sz) post x →
      (coalesce s (s.lo + 8 + total pre)).2.mem x = s.mem x := by
  obtain ⟨hgs, hfn, hgp, hga⟩ := hH.coalesce_reads hhdr h16
  have hb := hH.bounds
  have hbmod : (s.lo + 8 + total pre) % 16 = 8 := by
    have := hH.lo_align
    have := total_mod (seg_sizes hH.segpre)
    omega
  have hs1 : load64 (write_header s (s.lo + 8 + total pre) sz false true).mem
      (s.lo + 8 + total pre) = pack sz false true :=
    load64_store64_eq _ _ _ (pack_lt _ _ h16 (by omega))
  have hfoot := write_footer_of sz false hs1 h16 (by omega) (by omega)
  obtain ⟨m2, hm2⟩ : ∃ m2 : Nat → Nat, m2 = store64 (store64 s.mem (s.lo + 8 + total pre)
      (pack sz false true)) (s.lo + 8 + total pre + sz - 8) (pack sz false false) := ⟨_, rfl⟩
  have hco : coalesce s (s.lo + 8 + total pre) = (s.lo + 8 + total pre,
      add (prev_make { s with mem := m2 } (s.lo + 8 + total pre + sz) false)
        (s.lo + 8 + total pre)) := by
    unfold coalesce
    simp only [hgs, hfn, hgp, hga, hp, hn, and_self, if_true, hfoot, hm2]
    rfl
  have hout : ∀ x, x < s.lo + 8 + total pre ∨ s.lo + 8 + total pre + sz ≤ x →
      m2 x = s.mem x := by
    intro x hx
    rw [hm2, store64_outside _ _ _ _ (by omega), store64_outside _ _ _ _ (by omega)]
  have hl1 : load64 m2 (s.lo + 8 + total pre) = pack sz false true := by
    rw [hm2, load64_store64_disj _ _ _ _ (by omega),
      load64_store64_eq _ _ _ (pack_lt _ _ h16 (by omega))]
  have hl2 : load64 m2 (s.lo + 8 + total pre + sz - 8) = pack sz false false := by
    rw [hm2, load64_store64_eq _ _ _ (pack_lt _ _ h16 (by omega))]
  clear hm2 hfoot hs1
  have hH2 : Hole { s with mem := m2 } pre sz q post fl [] :=
    hH.write m2 hout (by intro y hy; simp at hy)
  have hH3 := hH2.next_bit false (Or.inr hn)
  have hH4 := hH3.add (y := s.lo + 8 + total pre) (by rw [prev_make_lo])
    (by rw [prev_make_lo]; show _ ≤ s.lo + 8 + total pre + sz; omega) hbmod
    (by intro z hz; simp at hz)
  have hst : (prev_make { s with mem := m2 } (s.lo + 8 + total pre + sz) false) =
      (prev_make { s with mem := m2 } ({ s with mem := m2 }.lo + 8 + total pre + sz) false) := rfl
  have hlo : (coalesce s (s.lo + 8 + total pre)).2.lo = s.lo := coalesce_lo _ _
  have hkeep : ∀ a, s.lo + 8 + total pre ≤ a → a + 8 ≤ s.lo + 8 + total pre + sz →
      (a + 8 ≤ s.lo + 8 + total pre + 8 ∨ s.lo + 8 + total pre + 24 ≤ a) →
      load64 (coalesce s (s.lo + 8 + total pre)).2.mem a = load64 m2 a := by
    intro a ha1 ha2 ha3
    rw [hco]
    show load64 (MM.add _ _).mem a = _
    rw [hst, hH3.add_load a (by rw [prev_make_lo]; exact ha1)
      (by rw [prev_make_lo]; exact ha2) ha3 (by intro z hz; simp at hz)]
    exact load64_congr _ _ _ (fun x h1 h2 => prev_make_frame _ _ _ x (by
      show x < s.lo + 8 + total pre + sz ∨ _; omega))
  refine ⟨by rw [hco], ?_, ?_⟩
  · have hH5 : Hole (coalesce s (s.lo + 8 + total pre)).2 pre sz false post
        ((s.lo + 8 + total pre) :: fl) [s.lo + 8 + total pre] := by
      rw [hco]; exact hH4
    have hcl := hH5.close [(sz, false)] ?_ ?_ ?_ ?_
    · exact hcl
    · rw [hlo, hp]
      simp only [Seg]
      refine ⟨?_, h16, h32, ?_, trivial⟩
      · rw [hkeep _ (by omega) (by omega) (by omega), hl1]
      · intro _
        refine ⟨trivial, ?_⟩
        rw [hkeep _ (by omega) (by omega) (by omega), hl2]
    · simp only [total]; omega
    · simp only [lastAlloc]
    · rw [hlo]
      simp [freeAddrs]
  · intro x hx
    rw [hco]
    show (MM.add _ _).mem x = _
    rw [hst, hH3.add_owned (by rw [prev_make_lo])
      (by rw [prev_make_lo]; show _ ≤ s.lo + 8 + total pre + sz; omega)
      (by rw [prev_make_lo]; exact hx), hH2.next_bit_owned false hx]
    obtain ⟨_, h2, _, _⟩ := hH.owned_facts hx
    exact hout x (by omega)

/-- Case 2 of `coalesce`: previous block allocated, next block free. -/
theorem coalesce_case2 {nsz : Nat} {post1 : List (Nat × Bool)}
    (hH : Hole s pre sz q ((nsz, false) :: post1) fl [])
    (hhdr : load64 s.mem (s.lo + 8 + total pre) = pack sz false (lastAlloc true pre))
    (h16 : sz % 16 = 0) (h32 : 32 ≤ sz) (hp : lastAlloc true pre = true) :
    (coalesce s (s.lo + 8 + total pre)).1 = s.lo + 8 + total pre ∧
    Repr (coalesce s (s.lo + 8 + total pre)).2 (pre ++ [(sz + nsz, false)] ++ post1)
      ((s.lo + 8 + total pre) :: fl.erase (s.lo + 8 + total pre + sz)) ∧
    ∀ x, Owned (s.lo + 8) pre x ∨ Owned (s.lo + 8 + total pre + (sz + nsz)) post1 x →
      (coalesce s (s.lo + 8 + total pre)).2.mem x = s.mem x := by
  obtain ⟨hgs, hfn, hgp, hga⟩ := hH.coalesce_reads hhdr h16
  simp only [headAlloc] at hga
  have hb := hH.bounds
  simp only [total] at hb
  have hsp := hH.segpost
  simp only [Seg] at hsp
  obtain ⟨hnh, hn16, hn32, _, _⟩ := hsp
  have hgn : get_size s (s.lo + 8 + total pre + sz) = nsz := get_size_of hnh hn16 (by omega)
  have hbmod : (s.lo + 8 + total pre) % 16 = 8 := by
    have := hH.lo_align
    have := total_mod (seg_sizes hH.segpre)
    omega
  have hsum : (sz + nsz) % 2 ^ 64 = sz + nsz := by omega
  have hs16 : (sz + nsz) % 16 = 0 := by omega
  have hs1 : load64 (write_header s (s.lo + 8 + total pre) (sz + nsz) false true).mem
      (s.lo + 8 + total pre) = pack (sz + nsz) false true :=
    load64_store64_eq _ _ _ (pack_lt _ _ hs16 (by omega))
  have hfoot := write_footer_of (sz + nsz) false hs1 hs16 (by omega) (by omega)
  obtain ⟨m2, hm2⟩ : ∃ m2 : Nat → Nat, m2 = store64 (store64 s.mem (s.lo + 8 + total pre)
      (pack (sz + nsz) false true)) (s.lo + 8 + total pre + (sz + nsz) - 8)
      (pack (sz + nsz) false false) := ⟨_, rfl⟩
  have hco : coalesce s (s.lo + 8 + total pre) = (s.lo + 8 + total pre,
      add (list_remove { s with mem := m2 } (s.lo + 8 + total pre + sz))
        (s.lo + 8 + total pre)) := by
    unfold coalesce
    simp only [hgs, hfn, hgp, hga, hp, hgn, hsum, Bool.false_eq_true, and_false, if_false,
      not_false_eq_true, and_self, if_true, hfoot, hm2]
    rfl
  have hout : ∀ x, x < s.lo + 8 + total pre ∨ s.lo + 8 + total pre + (sz + nsz) ≤ x →
      m2 x = s.mem x := by
    intro x hx
    rw [hm2, store64_outside _ _ _ _ (by omega), store64_outside _ _ _ _ (by omega)]
  have hin : ∀ x, s.lo + 8 + total pre + sz + 8 ≤ x → x < s.lo + 8 + total pre + sz + 24 →
      m2 x = s.mem x := by
    intro x hx1 hx2
    rw [hm2, store64_outside _ _ _ _ (by omega), store64_outside _ _ _ _ (by omega)]
  have hl1 : load64 m2 (s.lo + 8 + total pre) = pack (sz + nsz) false true := by
    rw [hm2, load64_store64_disj _ _ _ _ (by omega),
      load64_store64_eq _ _ _ (pack_lt _ _ hs16 (by omega))]
  have hl2 : load64 m2 (s.lo + 8 + total pre + (sz + nsz) - 8) = pack (sz + nsz) false false := by
    rw [hm2, load64_store64_eq _ _ _ (pack_lt _ _ hs16 (by omega))]
  clear hm2 hfoot hs1
  have hA : Hole s pre (sz + nsz) false post1 fl [s.lo + 8 + total pre + sz] := by
    have := hH.absorb_post
    simpa [freeAddrs] using this
  have hH2 : Hole { s with mem := m2 } pre (sz + nsz) false post1 fl
      [s.lo + 8 + total pre + sz] :=
    hA.write m2 hout (by
      intro y hy x hx1 hx2
      simp only [List.mem_singleton] at hy
      subst hy
      exact hin x hx1 hx2)
  have hmem : s.lo + 8 + total pre + sz ∈ [s.lo + 8 + total pre + sz] := by simp
  have hH3 := hH2.remove hmem
  rw [List.erase_cons_head] at hH3
  have hH4 := hH3.add (y := s.lo + 8 + total pre) (by rw [list_remove_lo])
    (by rw [list_remove_lo]; show _ ≤ s.lo + 8 + total pre + (sz + nsz); omega) hbmod
    (by intro z hz; simp at hz)
  have hlo : (coalesce s (s.lo + 8 + total pre)).2.lo = s.lo := coalesce_lo _ _
  have hkeep : ∀ a, s.lo + 8 + total pre ≤ a → a + 8 ≤ s.lo + 8 + total pre + (sz + nsz) →
      (a + 8 ≤ s.lo + 8 + total pre + 8 ∨ s.lo + 8 + total pre + 24 ≤ a) →
      (a + 8 ≤ s.lo + 8 + total pre + sz + 8 ∨ s.lo + 8 + total pre + sz + 24 ≤ a) →
      load64 (coalesce s (s.lo + 8 + total pre)).2.mem a = load64 m2 a := by
    intro a ha1 ha2 ha3 ha4
    rw [hco]
    show load64 (MM.add _ _).mem a = _
    rw [hH3.add_load a (by rw [list_remove_lo]; exact ha1)
      (by rw [list_remove_lo]; exact ha2) ha3 (by intro z hz; simp at hz)]
    exact hH2.remove_load hmem a ha1 ha2 (by
      intro z hz
      simp only [List.mem_singleton] at hz
      subst hz
      exact ha4)
  refine ⟨by rw [hco], ?_, ?_⟩
  · have hH5 : Hole (coalesce s (s.lo + 8 + total pre)).2 pre (sz + nsz) false post1
        ((s.lo + 8 + total pre) :: fl.erase (s.lo + 8 + total pre + sz))
        [s.lo + 8 + total pre] := by
      rw [hco]; exact hH4
    have hcl := hH5.close [(sz + nsz, false)] ?_ ?_ ?_ ?_
    · exact hcl
    · rw [hlo, hp]
      simp only [Seg]
      refine ⟨?_, hs16, by omega, ?_, trivial⟩
      · rw [hkeep _ (by omega) (by omega) (by omega) (by omega), hl1]
      · intro _
        refine ⟨trivial, ?_⟩
        rw [hkeep _ (by omega) (by omega) (by omega) (by omega), hl2]
    · simp only [total]; omega
    · simp only [lastAlloc]
    · rw [hlo]
      simp [freeAddrs]
  · intro x hx
    rw [hco]
    show (MM.add _ _).mem x = _
    rw [hH3.add_owned (by rw [list_remove_lo])
      (by rw [list_remove_lo]; show _ ≤ s.lo + 8 + total pre + (sz + nsz); omega)
      (by rw [list_remove_lo]; exact hx), hH2.remove_owned hmem hx]
    obtain ⟨_, h2, _, _⟩ := hA.owned_facts hx
    exact hout x (by omega)

end coalesce

section coalesce2

variable {s : Heap} {pre1 post : List (Nat × Bool)} {sz psz : Nat} {q : Bool} {fl : List Nat}

theorem total_snoc (pre1 : List (Nat × Bool)) (b : Nat × Bool) :
    total (pre1 ++ [b]) = total pre1 + b.1 := by
  rw [total_append]; simp [total]

theorem lastAlloc_snoc (pa : Bool) (pre1 : List (Nat × Bool)) (b : Nat × Bool) :
    lastAlloc pa (pre1 ++ [b]) = b.2 := by
  rw [lastAlloc_append]; simp [lastAlloc]

/-- What `coalesce` reads when the block before the one it is given is free. -/
theorem Hole.coalesce_reads_prev (hH : Hole s (pre1 ++ [(psz, false)]) sz q post fl [])
    (hhdr : load64 s.mem (s.lo + 8 + total pre1 + psz) = pack sz false false)
    (h16 : sz % 16 = 0) :
    get_size s (s.lo + 8 + total pre1 + psz) = sz ∧
    find_next s (s.lo + 8 + total pre1 + psz) = s.lo + 8 + total pre1 + (sz + psz) ∧
    get_alloc_of_prev s (s.lo + 8 + total pre1 + psz) = false ∧
    get_alloc s (s.lo + 8 + total pre1 + (sz + psz)) = headAlloc post ∧
    find_prev s (s.lo + 8 + total pre1 + psz) = s.lo + 8 + total pre1 ∧
    get_size s (s.lo + 8 + total pre1) = psz ∧
    psz % 16 = 0 ∧ 32 ≤ psz ∧ lastAlloc true pre1 = true ∧
    s.lo + 16 + total pre1 + psz + sz + total post ≤ 2 ^ 64 ∧
    (s.lo + 8 + total pre1) % 16 = 8 ∧
    Hole s pre1 (sz + psz) q post fl [s.lo + 8 + total pre1] := by
  have hb := hH.bounds
  rw [total_snoc] at hb
  simp only at hb
  obtain ⟨nsz, hn, hn16, _, _, _, _⟩ := hH.next_header
  rw [total_snoc] at hn
  simp only at hn
  rw [show s.lo + 8 + (total pre1 + psz) + sz = s.lo + 8 + total pre1 + psz + sz by omega] at hn
  have hsp := hH.segpre
  rw [seg_append] at hsp
  obtain ⟨hsp1, hsp2⟩ := hsp
  simp only [Seg] at hsp2
  obtain ⟨hph, hp16, hp32, hpf, _⟩ := hsp2
  obtain ⟨hpa, hpft⟩ := hpf trivial
  rw [hpa] at hph
  have hfn := find_next_of hhdr h16 (by omega)
  have hmod : (s.lo + 8 + total pre1) % 16 = 8 := by
    have := hH.lo_align
    have := total_mod (seg_sizes hsp1)
    omega
  have hfp : find_prev s (s.lo + 8 + total pre1 + psz) = s.lo + 8 + total pre1 := by
    unfold find_prev find_prev_footer
    have e1 : (s.lo + 8 + total pre1 + psz + 2 ^ 64 - wsize) % 2 ^ 64 =
        s.lo + 8 + total pre1 + psz - 8 := by
      simp only [wsize]; omega
    rw [e1, hpft, extract_size_pack _ _ hp16 (by omega)]
    omega
  have hA : Hole s pre1 (sz + psz) q post fl [s.lo + 8 + total pre1] := by
    have := hH.absorb_pre
    simp only [total, freeAddrs, Nat.add_zero, Bool.false_eq_true, if_false,
      List.append_nil] at this
    rw [Nat.add_comm psz sz] at this
    exact this
  refine ⟨get_size_of hhdr h16 (by omega), by rw [hfn]; omega, get_alloc_of_prev_of hhdr h16,
    ?_, hfp, get_size_of hph hp16 (by omega), hp16, hp32, hpa, by omega, hmod, hA⟩
  rw [show s.lo + 8 + total pre1 + (sz + psz) = s.lo + 8 + total pre1 + psz + sz by omega]
  exact get_alloc_of hn hn16

/-- Case 3 of `coalesce`: previous block free, next block allocated. -/
theorem coalesce_case3 (hH : Hole s (pre1 ++ [(psz, false)]) sz q post fl [])
    (hhdr : load64 s.mem (s.lo + 8 + total pre1 + psz) = pack sz false false)
    (h16 : sz % 16 = 0) (h32 : 32 ≤ sz) (hn : headAlloc post = true) :
    (coalesce s (s.lo + 8 + total pre1 + psz)).1 = s.lo + 8 + total pre1 ∧
    Repr (coalesce s (s.lo + 8 + total pre1 + psz)).2 (pre1 ++ [(sz + psz, false)] ++ post)
      ((s.lo + 8 + total pre1) :: fl.erase (s.lo + 8 + total pre1)) ∧
    ∀ x, Owned (s.lo + 8) pre1 x ∨ Owned (s.lo + 8 + total pre1 + (sz + psz)) post x →
      (coalesce s (s.lo + 8 + total pre1 + psz)).2.mem x = s.mem x := by
  obtain ⟨hgs, hfn, hgp, hga, hfp, hgsp, hp16, hp32, hpa, hb, hbmod, hA⟩ :=
    hH.coalesce_reads_prev hhdr h16
  have hsum : (sz + psz) % 2 ^ 64 = sz + psz := by omega
  have hs16 : (sz + psz) % 16 = 0 := by omega
  have hs1 : load64 (write_header s (s.lo + 8 + total pre1) (sz + psz) false true).mem
      (s.lo + 8 + total pre1) = pack (sz + psz) false true :=
    load64_store64_eq _ _ _ (pack_lt _ _ hs16 (by omega))
  have hfoot := write_footer_of (sz + psz) false hs1 hs16 (by omega) (by omega)
  obtain ⟨m2, hm2⟩ : ∃ m2 : Nat → Nat, m2 = store64 (store64 s.mem (s.lo + 8 + total pre1)
      (pack (sz + psz) false true)) (s.lo + 8 + total pre1 + (sz + psz) - 8)
      (pack (sz + psz) false false) := ⟨_, rfl⟩
  have hco : coalesce s (s.lo + 8 + total pre1 + psz) = (s.lo + 8 + total pre1,
      add (prev_make (list_remove { s with mem := m2 } (s.lo + 8 + total pre1))
        (s.lo + 8 + total pre1 + (sz + psz)) false) (s.lo + 8 + total pre1)) := by
    unfold coalesce
    simp only [hgs, hfn, hgp, hga, hn, hfp, hgsp, hsum, Bool.false_eq_true, false_and, if_false,
      not_false_eq_true, and_self, if_true, not_true_eq_false, and_false, hfoot, hm2]
    rfl
  have hout : ∀ x, x < s.lo + 8 + total pre1 ∨ s.lo + 8 + total pre1 + (sz + psz) ≤ x →
      m2 x = s.mem x := by
    intro x hx
    rw [hm2, store64_outside _ _ _ _ (by omega), store64_outside _ _ _ _ (by omega)]
  have hin : ∀ x, s.lo + 8 + total pre1 + 8 ≤ x → x < s.lo + 8 + total pre1 + 24 →
      m2 x = s.mem x := by
    intro x hx1 hx2
    rw [hm2, store64_outside _ _ _ _ (by omega), store64_outside _ _ _ _ (by omega)]
  have hl1 : load64 m2 (s.lo + 8 + total pre1) = pack (sz + psz) false true := by
    rw [hm2, load64_store64_disj _ _ _ _ (by omega),
      load64_store64_eq _ _ _ (pack_lt _ _ hs16 (by omega))]
  have hl2 : load64 m2 (s.lo + 8 + total pre1 + (sz + psz) - 8) = pack (sz + psz) false false := by
    rw [hm2, load64_store64_eq _ _ _ (pack_lt _ _ hs16 (by omega))]
  clear hm2 hfoot hs1
  have hH2 : Hole { s with mem := m2 } pre1 (sz + psz) q post fl [s.lo + 8 + total pre1] :=
    hA.write m2 hout (by
      intro y hy x hx1 hx2
      simp only [List.mem_singleton] at hy
      subst hy
      exact hin x hx1 hx2)
  have hmem : s.lo + 8 + total pre1 ∈ [s.lo + 8 + total pre1] := by simp
  have hH3 := hH2.remove hmem
  rw [List.erase_cons_head] at hH3
  have hH4 := hH3.next_bit false (Or.inr hn)
  have hst : prev_make (list_remove { s with mem := m2 } (s.lo + 8 + total pre1))
        (s.lo + 8 + total pre1 + (sz + psz)) false =
      prev_make (list_remove { s with mem := m2 } (s.lo + 8 + total pre1))
        ((list_remove { s with mem := m2 } (s.lo + 8 + total pre1)).lo + 8 + total pre1 +
          (sz + psz)) false := by
    rw [list_remove_lo]
  have hH5 := hH4.add (y := s.lo + 8 + total pre1) (by rw [prev_make_lo, list_remove_lo])
    (by rw [prev_make_lo, list_remove_lo]; show _ ≤ s.lo + 8 + total pre1 + (sz + psz); omega)
    hbmod (by intro z hz; simp at hz)
  have hlo : (coalesce s (s.lo + 8 + total pre1 + psz)).2.lo = s.lo := coalesce_lo _ _
  have hkeep : ∀ a, s.lo + 8 + total pre1 ≤ a → a + 8 ≤ s.lo + 8 + total pre1 + (sz + psz) →
      (a + 8 ≤ s.lo + 8 + total pre1 + 8 ∨ s.lo + 8 + total pre1 + 24 ≤ a) →
      load64 (coalesce s (s.lo + 8 + total pre1 + psz)).2.mem a = load64 m2 a := by
    intro a ha1 ha2 ha3
    rw [hco]
    show load64 (MM.add _ _).mem a = _
    rw [hst, hH4.add_load a (by rw [prev_make_lo, list_remove_lo]; exact ha1)
      (by rw [prev_make_lo, list_remove_lo]; exact ha2) ha3 (by intro z hz; simp at hz)]
    rw [load64_congr _ _ _ (fun x h1 h2 => prev_make_frame _ _ _ x (by
      rw [list_remove_lo]
      show x < s.lo + 8 + total pre1 + (sz + psz) ∨ _; omega))]
    exact hH2.remove_load hmem a ha1 ha2 (by
      intro z hz
      simp only [List.mem_singleton] at hz
      subst hz
      exact ha3)
  refine ⟨by rw [hco], ?_, ?_⟩
  · have hH6 : Hole (coalesce s (s.lo + 8 + total pre1 + psz)).2 pre1 (sz + psz) false post
        ((s.lo + 8 + total pre1) :: fl.erase (s.lo + 8 + total pre1))
        [s.lo + 8 + total pre1] := by
      rw [hco]; show Hole (MM.add _ _) _ _ _ _ _ _; rw [hst]; exact hH5
    have hcl := hH6.close [(sz + psz, false)] ?_ ?_ ?_ ?_
    · exact hcl
    · rw [hlo, hpa]
      simp only [Seg]
      refine ⟨?_, hs16, by omega, ?_, trivial⟩
      · rw [hkeep _ (by omega) (by omega) (by omega), hl1]
      · intro _
        refine ⟨trivial, ?_⟩
        rw [hkeep _ (by omega) (by omega) (by omega), hl2]
    · simp only [total]; omega
    · simp only [lastAlloc]
    · rw [hlo]
      simp [freeAddrs]
  · intro x hx
    rw [hco]
    show (MM.add _ _).mem x = _
    rw [hst, hH4.add_owned (by rw [prev_make_lo, list_remove_lo])
      (by rw [prev_make_lo, list_remove_lo]; show _ ≤ s.lo + 8 + total pre1 + (sz + psz); omega)
      (by rw [prev_make_lo, list_remove_lo]; exact hx),
      hH3.next_bit_owned false (by rw [list_remove_lo]; exact hx), hH2.remove_owned hmem hx]
    obtain ⟨_, h2, _, _⟩ := hA.owned_facts hx
    exact hout x (by omega)

/-- Case 4 of `coalesce`: both neighbours free. -/
theorem coalesce_case4 {nsz : Nat} {post1 : List (Nat × Bool)}
    (hH : Hole s (pre1 ++ [(psz, false)]) sz q ((nsz, false) :: post1) fl [])
    (hhdr : load64 s.mem (s.lo + 8 + total pre1 + psz) = pack sz false false)
    (h16 : sz % 16 = 0) (h32 : 32 ≤ sz) :
    (coalesce s (s.lo + 8 + total pre1 + psz)).1 = s.lo + 8 + total pre1 ∧
    Repr (coalesce s (s.lo + 8 + total pre1 + psz)).2
      (pre1 ++ [(sz + psz + nsz, false)] ++ post1)
      ((s.lo + 8 + total pre1) ::
        (fl.erase (s.lo + 8 + total pre1)).erase (s.lo + 8 + total pre1 + (sz + psz))) ∧
    ∀ x, Owned (s.lo + 8) pre1 x ∨ Owned (s.lo + 8 + total pre1 + (sz + psz + nsz)) post1 x →
      (coalesce s (s.lo + 8 + total pre1 + psz)).2.mem x = s.mem x := by
  obtain ⟨hgs, hfn, hgp, hga, hfp, hgsp, hp16, hp32, hpa, hb, hbmod, hA⟩ :=
    hH.coalesce_reads_prev hhdr h16
  simp only [headAlloc] at hga
  simp only [total] at hb
  have hsp := hA.segpost
  simp only [Seg] at hsp
  obtain ⟨hnh, hn16, hn32, _, _⟩ := hsp
  have hgn : get_size s (s.lo + 8 + total pre1 + (sz + psz)) = nsz :=
    get_size_of hnh hn16 (by omega)
  have hsum : (sz + (nsz + psz) % 2 ^ 64) % 2 ^ 64 = sz + psz + nsz := by omega
  have hs16 : (sz + psz + nsz) % 16 = 0 := by omega
  have hs1 : load64 (write_header s (s.lo + 8 + total pre1) (sz + psz + nsz) false true).mem
      (s.lo + 8 + total pre1) = pack (sz + psz + nsz) false true :=
    load64_store64_eq _ _ _ (pack_lt _ _ hs16 (by omega))
  have hfoot := write_footer_of (sz + psz + nsz) false hs1 hs16 (by omega) (by omega)
  obtain ⟨m2, hm2⟩ : ∃ m2 : Nat → Nat, m2 = store64 (store64 s.mem (s.lo + 8 + total pre1)
      (pack (sz + psz + nsz) false true)) (s.lo + 8 + total pre1 + (sz + psz + nsz) - 8)
      (pack (sz + psz + nsz) false false) := ⟨_, rfl⟩
  have hco : coalesce s (s.lo + 8 + total pre1 + psz) = (s.lo + 8 + total pre1,
      add (list_remove (list_remove { s with mem := m2 } (s.lo + 8 + total pre1))
        (s.lo + 8 + total pre1 + (sz + psz))) (s.lo + 8 + total pre1)) := by
    unfold coalesce
    simp only [hgs, hfn, hgp, hga, hfp, hgsp, hgn, hsum, Bool.false_eq_true, false_and, if_false,
      not_false_eq_true, and_self, if_true, not_true_eq_false, and_false, hfoot, hm2]
    rfl
  have hout : ∀ x, x < s.lo + 8 + total pre1 ∨ s.lo + 8 + total pre1 + (sz + psz + nsz) ≤ x →
      m2 x = s.mem x := by
    intro x hx
    rw [hm2, store64_outside _ _ _ _ (by omega), store64_outside _ _ _ _ (by omega)]
  have hin : ∀ x, s.lo + 8 + total pre1 + 8 ≤ x → x < s.lo + 8 + total pre1 + 24 →
      m2 x = s.mem x := by
    intro x hx1 hx2
    rw [hm2, store64_outside _ _ _ _ (by omega), store64_outside _ _ _ _ (by omega)]
  have hin2 : ∀ x, s.lo + 8 + total pre1 + (sz + psz) + 8 ≤ x →
      x < s.lo + 8 + total pre1 + (sz + psz) + 24 → m2 x = s.mem x := by
    intro x hx1 hx2
    rw [hm2, store64_outside _ _ _ _ (by omega), store64_outside _ _ _ _ (by omega)]
  have hl1 : load64 m2 (s.lo + 8 + total pre1) = pack (sz + psz + nsz) false true := by
    rw [hm2, load64_store64_disj _ _ _ _ (by omega),
      load64_store64_eq _ _ _ (pack_lt _ _ hs16 (by omega))]
  have hl2 : load64 m2 (s.lo + 8 + total pre1 + (sz + psz + nsz) - 8) =
      pack (sz + psz + nsz) false false := by
    rw [hm2, load64_store64_eq _ _ _ (pack_lt _ _ hs16 (by omega))]
  clear hm2 hfoot hs1
  have hA2 : Hole s pre1 (sz + psz + nsz) false post1 fl
      [s.lo + 8 + total pre1 + (sz + psz), s.lo + 8 + total pre1] := by
    have := hA.absorb_post
    simpa [freeAddrs] using this
  have hH2 : Hole { s with mem := m2 } pre1 (sz + psz + nsz) false post1 fl
      [s.lo + 8 + total pre1 + (sz + psz), s.lo + 8 + total pre1] :=
    hA2.write m2 hout (by
      intro y hy x hx1 hx2
      simp only [List.mem_cons, List.mem_singleton, List.not_mem_nil, or_false] at hy
      rcases hy with rfl | rfl
      · exact hin2 x hx1 hx2
      · exact hin x hx1 hx2)
  have hmem : s.lo + 8 + total pre1 ∈
      [s.lo + 8 + total pre1 + (sz + psz), s.lo + 8 + total pre1] := by simp
  have hH3 := hH2.remove hmem
  have hne : ¬ (s.lo + 8 + total pre1 + (sz + psz) == s.lo + 8 + total pre1) = true := by
    rw [beq_iff_eq]; omega
  rw [List.erase_cons_tail hne, List.erase_cons_head] at hH3
  have hmem2 : s.lo + 8 + total pre1 + (sz + psz) ∈ [s.lo + 8 + total pre1 + (sz + psz)] := by
    simp
  have hH4 := hH3.remove hmem2
  rw [List.erase_cons_head] at hH4
  have hH5 := hH4.add (y := s.lo + 8 + total pre1) (by rw [list_remove_lo, list_remove_lo])
    (by rw [list_remove_lo, list_remove_lo]
        show _ ≤ s.lo + 8 + total pre1 + (sz + psz + nsz); omega)
    hbmod (by intro z hz; simp at hz)
  have hlo : (coalesce s (s.lo + 8 + total pre1 + psz)).2.lo = s.lo := coalesce_lo _ _
  have hkeep : ∀ a, s.lo + 8 + total pre1 ≤ a →
      a + 8 ≤ s.lo + 8 + total pre1 + (sz + psz + nsz) →
      (a + 8 ≤ s.lo + 8 + total pre1 + 8 ∨ s.lo + 8 + total pre1 + 24 ≤ a) →
      (a + 8 ≤ s.lo + 8 + total pre1 + (sz + psz) + 8 ∨
        s.lo + 8 + total pre1 + (sz + psz) + 24 ≤ a) →
      load64 (coalesce s (s.lo + 8 + total pre1 + psz)).2.mem a = load64 m2 a := by
    intro a ha1 ha2 ha3 ha4
    rw [hco]
    show load64 (MM.add _ _).mem a = _
    rw [hH4.add_load a (by rw [list_remove_lo, list_remove_lo]; exact ha1)
      (by rw [list_remove_lo, list_remove_lo]; exact ha2) ha3 (by intro z hz; simp at hz)]
    rw [hH3.remove_load hmem2 a (by rw [list_remove_lo]; exact ha1)
      (by rw [list_remove_lo]; exact ha2) (by
        intro z hz
        simp only [List.mem_singleton] at hz
        subst hz
        exact ha4)]
    exact hH2.remove_load hmem a ha1 ha2 (by
      intro z hz
      simp only [List.mem_cons, List.mem_singleton, List.not_mem_nil, or_false] at hz
      rcases hz with rfl | rfl
      · exact ha4
      · exact ha3)
  refine ⟨by rw [hco], ?_, ?_⟩
  · have hH6 : Hole (coalesce s (s.lo + 8 + total pre1 + psz)).2 pre1 (sz + psz + nsz) false
        post1 ((s.lo + 8 + total pre1) ::
          (fl.erase (s.lo + 8 + total pre1)).erase (s.lo + 8 + total pre1 + (sz + psz)))
        [s.lo + 8 + total pre1] := by
      rw [hco]; exact hH5
    have hcl := hH6.close [(sz + psz + nsz, false)] ?_ ?_ ?_ ?_
    · exact hcl
    · rw [hlo, hpa]
      simp only [Seg]
      refine ⟨?_, hs16, by omega, ?_, trivial⟩
      · rw [hkeep _ (by omega) (by omega) (by omega) (by omega), hl1]
      · intro _
        refine ⟨trivial, ?_⟩
        rw [hkeep _ (by omega) (by omega) (by omega) (by omega), hl2]
    · simp only [total]; omega
    · simp only [lastAlloc]
    · rw [hlo]
      simp [freeAddrs]
  · intro x hx
    rw [hco]
    show (MM.add _ _).mem x = _
    rw [hH4.add_owned (by rw [list_remove_lo, list_remove_lo])
      (by rw [list_remove_lo, list_remove_lo]
          show _ ≤ s.lo + 8 + total pre1 + (sz + psz + nsz); omega)
      (by rw [list_remove_lo, list_remove_lo]; exact hx),
      hH3.remove_owned hmem2 (by rw [list_remove_lo]; exact hx), hH2.remove_owned hmem hx]
    obtain ⟨_, h2, _, _⟩ := hA2.owned_facts hx
    exact hout x (by omega)

end coalesce2

/-! ## `coalesce` in general, `free`, `extend_heap`, `mm_init` -/

theorem owned_cons_free {a n x : Nat} {l : List (Nat × Bool)} :
    Owned a ((n, false) :: l) x ↔ Owned (a + n) l x := by
  unfold Owned
  simp [allocd]

theorem owned_snoc_free {a n x : Nat} {l : List (Nat × Bool)} :
    Owned a (l ++ [(n, false)]) x ↔ Owned a l x := by
  rw [owned_append]
  constructor
  · rintro (h | h)
    · exact h
    · exact absurd h owned_free_single
  · exact Or.inl

/-- `coalesce` on a block that was just marked free: the heap is well formed
again, the result contains the block, and no payload of an allocated block is
touched. -/
theorem coalesce_spec {s : Heap} {pre post : List (Nat × Bool)} {sz : Nat} {q : Bool}
    {fl : List Nat} (hH : Hole s pre sz q post fl [])
    (hhdr : load64 s.mem (s.lo + 8 + total pre) = pack sz false (lastAlloc true pre))
    (h16 : sz % 16 = 0) (h32 : 32 ≤ sz) :
    ∃ pre1 rsz post1 fl1,
      Repr (coalesce s (s.lo + 8 + total pre)).2 (pre1 ++ [(rsz, false)] ++ post1) fl1 ∧
      (coalesce s (s.lo + 8 + total pre)).1 = s.lo + 8 + total pre1 ∧
      (pre1 = pre ∨ ∃ psz, pre = pre1 ++ [(psz, false)]) ∧
      (post1 = post ∨ ∃ nsz, post = (nsz, false) :: post1) ∧
      total pre1 + rsz + total post1 = total pre + sz + total post ∧
      total pre1 ≤ total pre ∧ total pre + sz ≤ total pre1 + rsz ∧
      ∀ x, Owned (s.lo + 8) pre x ∨ Owned (s.lo + 8 + total pre + sz) post x →
        (coalesce s (s.lo + 8 + total pre)).2.mem x = s.mem x := by
  by_cases hp : lastAlloc true pre = true
  · by_cases hn : headAlloc post = true
    · obtain ⟨h1, h2, h3⟩ := coalesce_case1 hH hhdr h16 h32 hp hn
      exact ⟨pre, sz, post, _, h2, h1, Or.inl rfl, Or.inl rfl, rfl, le_refl _, le_refl _, h3⟩
    · obtain ⟨nsz, post1, rfl⟩ := headAlloc_false_split (by simpa using hn)
      obtain ⟨h1, h2, h3⟩ := coalesce_case2 hH hhdr h16 h32 hp
      refine ⟨pre, sz + nsz, post1, _, h2, h1, Or.inl rfl, Or.inr ⟨nsz, rfl⟩, ?_, le_refl _,
        by omega, ?_⟩
      · simp only [total]; omega
      · intro x hx
        apply h3
        rcases hx with hx | hx
        · exact Or.inl hx
        · right
          rw [owned_cons_free] at hx
          rw [show s.lo + 8 + total pre + (sz + nsz) = s.lo + 8 + total pre + sz + nsz by omega]
          exact hx
  · obtain ⟨pre1, psz, rfl⟩ := lastAlloc_false_split rfl (by simpa using hp)
    rw [lastAlloc_snoc] at hhdr
    rw [total_snoc] at hhdr ⊢
    simp only at hhdr ⊢
    rw [show s.lo + 8 + (total pre1 + psz) = s.lo + 8 + total pre1 + psz by omega] at hhdr ⊢
    by_cases hn : headAlloc post = true
    · obtain ⟨h1, h2, h3⟩ := coalesce_case3 hH hhdr h16 h32 hn
      refine ⟨pre1, sz + psz, post, _, h2, h1, Or.inr ⟨psz, rfl⟩, Or.inl rfl, by omega,
        by omega, by omega, ?_⟩
      intro x hx
      apply h3
      rcases hx with hx | hx
      · left; rw [owned_snoc_free] at hx; exact hx
      · right
        rw [show s.lo + 8 + total pre1 + (sz + psz) = s.lo + 8 + total pre1 + psz + sz by omega]
        exact hx
    · obtain ⟨nsz, post1, rfl⟩ := headAlloc_false_split (by simpa using hn)
      obtain ⟨h1, h2, h3⟩ := coalesce_case4 hH hhdr h16 h32
      refine ⟨pre1, sz + psz + nsz, post1, _, h2, h1, Or.inr ⟨psz, rfl⟩, Or.inr ⟨nsz, rfl⟩, ?_,
        by omega, by omega, ?_⟩
      · simp only [total]; omega
      · intro x hx
        apply h3
        rcases hx with hx | hx
        · left; rw [owned_snoc_free] at hx; exact hx
        · right
          rw [owned_cons_free] at hx
          rw [show s.lo + 8 + total pre1 + (sz + psz + nsz) =
            s.lo + 8 + total pre1 + psz + sz + nsz by omega]
          exact hx


theorem free_eq (s : Heap) (bp : Nat) : free s bp =
    if bp = 0 then s else
      (coalesce (write_footer (write_header s (payload_to_header bp)
        (get_size s (payload_to_header bp)) false (get_alloc_of_prev s (payload_to_header bp)))
        (payload_to_header bp) (get_size s (payload_to_header bp)) false)
        (payload_to_header bp)).2 := rfl

theorem free_lo (s : Heap) (bp : Nat) : (free s bp).lo = s.lo := by
  rw [free_eq]; split
  · rfl
  · rw [coalesce_lo, write_footer_lo, write_header_lo]

theorem free_brk (s : Heap) (bp : Nat) : (free s bp).brk = s.brk := by
  rw [free_eq]; split
  · rfl
  · rw [coalesce_brk, write_footer_brk, write_header_brk]

theorem free_limit (s : Heap) (bp : Nat) : (free s bp).limit = s.limit := by
  rw [free_eq]; split
  · rfl
  · rw [coalesce_limit, write_footer_limit, write_header_limit]

/-- The facts about an allocated block that `free` relies on. -/
theorem Repr.alloc_block {s : Heap} {pre post : List (Nat × Bool)} {sz : Nat} {fl : List Nat}
    (h : Repr s (pre ++ [(sz, true)] ++ post) fl) :
    load64 s.mem (s.lo + 8 + total pre) = pack sz true (lastAlloc true pre) ∧ sz % 16 = 0 ∧
    32 ≤ sz ∧ s.lo + 16 + total pre + sz + total post ≤ 2 ^ 64 ∧
    (s.lo + 8 + total pre) % 16 = 8 := by
  have hseg := h.seg
  rw [seg_append, seg_append] at hseg
  have h1 := hseg.1.2
  simp only [Seg] at h1
  obtain ⟨h2, h3, h4, _, _⟩ := h1
  have hb := h.brk_eq
  have hb2 := h.brk_le
  have hb3 := h.limit_le
  rw [total_append, total_append] at hb
  simp only [total] at hb
  have hal := h.lo_align
  have htm := total_mod (seg_sizes hseg.1.1)
  exact ⟨h2, h3, h4, by omega, by omega⟩

/-- `free` of the payload pointer of an allocated block. -/
theorem free_spec {s : Heap} {pre post : List (Nat × Bool)} {sz : Nat} {fl : List Nat}
    (h : Repr s (pre ++ [(sz, true)] ++ post) fl) :
    ∃ pre1 rsz post1 fl1,
      Repr (free s (s.lo + 8 + total pre + 8)) (pre1 ++ [(rsz, false)] ++ post1) fl1 ∧
      (pre1 = pre ∨ ∃ psz, pre = pre1 ++ [(psz, false)]) ∧
      (post1 = post ∨ ∃ nsz, post = (nsz, false) :: post1) ∧
      total pre1 + rsz + total post1 = total pre + sz + total post ∧
      total pre1 ≤ total pre ∧ total pre + sz ≤ total pre1 + rsz ∧
      ∀ x, Owned (s.lo + 8) pre x ∨ Owned (s.lo + 8 + total pre + sz) post x →
        (free s (s.lo + 8 + total pre + 8)).mem x = s.mem x := by
  obtain ⟨hhdr, h16, h32, hb, hmod⟩ := h.alloc_block
  have hH := h.open_at pre [(sz, true)] post
  simp only [total, lastAlloc, freeAddrs, Nat.add_zero, if_true] at hH
  have hpth : payload_to_header (s.lo + 8 + total pre + 8) = s.lo + 8 + total pre := by
    unfold payload_to_header; simp only [wsize]; omega
  have hs1 : load64 (write_header s (s.lo + 8 + total pre) sz false (lastAlloc true pre)).mem
      (s.lo + 8 + total pre) = pack sz false (lastAlloc true pre) :=
    load64_store64_eq _ _ _ (pack_lt _ _ h16 (by omega))
  have hfoot := write_footer_of sz false hs1 h16 (by omega) (by omega)
  obtain ⟨m2, hm2⟩ : ∃ m2 : Nat → Nat, m2 = store64 (store64 s.mem (s.lo + 8 + total pre)
      (pack sz false (lastAlloc true pre))) (s.lo + 8 + total pre + sz - 8)
      (pack sz false false) := ⟨_, rfl⟩
  have hfree : free s (s.lo + 8 + total pre + 8) =
      (coalesce { s with mem := m2 } (s.lo + 8 + total pre)).2 := by
    rw [free_eq, if_neg (by omega), hpth, get_size_of hhdr h16 (by omega),
      get_alloc_of_prev_of hhdr h16, hfoot, hm2]
    rfl
  have hout : ∀ x, x < s.lo + 8 + total pre ∨ s.lo + 8 + total pre + sz ≤ x →
      m2 x = s.mem x := by
    intro x hx
    rw [hm2, store64_outside _ _ _ _ (by omega), store64_outside _ _ _ _ (by omega)]
  have hl1 : load64 m2 (s.lo + 8 + total pre) = pack sz false (lastAlloc true pre) := by
    rw [hm2, load64_store64_disj _ _ _ _ (by omega),
      load64_store64_eq _ _ _ (pack_lt _ _ h16 (by omega))]
  clear hm2 hfoot hs1
  have hH2 : Hole { s with mem := m2 } pre sz true post fl [] :=
    hH.write m2 hout (by intro y hy; simp at hy)
  obtain ⟨pre1, rsz, post1, fl1, h1, _, h3, h4, h5, h6, h7, h8⟩ :=
    coalesce_spec hH2 hl1 h16 h32
  refine ⟨pre1, rsz, post1, fl1, by rw [hfree]; exact h1, h3, h4, h5, h6, h7, ?_⟩
  intro x hx
  rw [hfree, h8 x hx]
  obtain ⟨_, h2, _, _⟩ := hH.owned_facts hx
  exact hout x (by omega)

theorem round_up_id {size : Nat} (h16 : size % 16 = 0) (hlt : size < 2 ^ 64) :
    round_up size dsize = size := by
  simp only [round_up, dsize, wsize, Nat.reduceMul, Nat.reduceSub]
  omega

theorem extend_heap_refused (s : Heap) (size : Nat)
    (h : s.limit < s.brk + round_up size dsize) : extend_heap s size = (0, s) := by
  unfold extend_heap mem_sbrk
  simp only [if_neg (show ¬ s.brk + round_up size dsize ≤ s.limit by omega)]

/-- `extend_heap` on a well-formed heap when the provider grants the request:
the new span becomes a free block, merged with a trailing free block. -/
theorem extend_heap_spec {s : Heap} {bs : List (Nat × Bool)} {fl : List Nat} (h : Repr s bs fl)
    {size : Nat} (h16 : size % 16 = 0) (h32 : 32 ≤ size) (hlt : size < 2 ^ 64)
    (hle : s.brk + size ≤ s.limit) :
    ∃ pre1 rsz fl1,
      Repr (extend_heap s size).2 (pre1 ++ [(rsz, false)] ++ []) fl1 ∧
      (extend_heap s size).1 = s.lo + 8 + total pre1 ∧
      ((pre1 = bs ∧ rsz = size ∧ fl1 = (s.lo + 8 + total bs) :: fl) ∨
        ∃ psz, bs = pre1 ++ [(psz, false)] ∧ rsz = size + psz ∧
          fl1 = (s.lo + 8 + total pre1) :: fl.erase (s.lo + 8 + total pre1)) ∧
      (extend_heap s size).2.brk = s.brk + size ∧ (extend_heap s size).2.lo = s.lo ∧
      (extend_heap s size).2.limit = s.limit ∧
      ∀ x, Owned (s.lo + 8) bs x → (extend_heap s size).2.mem x = s.mem x := by
  have hbrk := h.brk_eq
  have hb2 := h.brk_le
  have hb3 := h.limit_le
  have hepi : (mem_heap_hi s + 2 ^ 64 - 7) % 2 ^ 64 = s.lo + 8 + total bs := by
    unfold mem_heap_hi; omega
  have hold : get_alloc_of_prev s (s.lo + 8 + total bs) = lastAlloc true bs :=
    get_alloc_of_prev_of h.epilogue (by decide)
  have hpth : payload_to_header s.brk = s.lo + 8 + total bs := by
    unfold payload_to_header; simp only [wsize]; omega
  obtain ⟨m2, hm2⟩ : ∃ m2 : Nat → Nat, m2 = store64 (store64 s.mem (s.lo + 8 + total bs)
      (pack size false (lastAlloc true bs))) (s.lo + 8 + total bs + size - 8)
      (pack size false false) := ⟨_, rfl⟩
  have hl1 : load64 m2 (s.lo + 8 + total bs) = pack size false (lastAlloc true bs) := by
    rw [hm2, load64_store64_disj _ _ _ _ (by omega),
      load64_store64_eq _ _ _ (pack_lt _ _ h16 (by omega))]
  have hl2 : load64 m2 (s.lo + 8 + total bs + size - 8) = pack size false false := by
    rw [hm2, load64_store64_eq _ _ _ (pack_lt _ _ h16 (by omega))]
  have hs1 : load64 (write_header { s with brk := s.brk + size } (s.lo + 8 + total bs) size false
      (lastAlloc true bs)).mem (s.lo + 8 + total bs) = pack size false (lastAlloc true bs) :=
    load64_store64_eq _ _ _ (pack_lt _ _ h16 (by omega))
  have hfoot := write_footer_of size false hs1 h16 (by omega) (by omega)
  have hs3 : load64 ({ s with brk := s.brk + size, mem := m2 } : Heap).mem (s.lo + 8 + total bs)
      = pack size false (lastAlloc true bs) := hl1
  have hnext := find_next_of hs3 h16 (by omega)
  obtain ⟨m3, hm3⟩ : ∃ m3 : Nat → Nat, m3 = store64 m2 (s.lo + 8 + total bs + size)
      (pack 0 true false) := ⟨_, rfl⟩
  have hfoot2 : write_footer (write_header { s with brk := s.brk + size } (s.lo + 8 + total bs)
      size false (lastAlloc true bs)) (s.lo + 8 + total bs) size false =
      { s with brk := s.brk + size, mem := m2 } := by
    rw [hfoot, hm2]; rfl
  have hext : extend_heap s size =
      coalesce { s with brk := s.brk + size, mem := m3 } (s.lo + 8 + total bs) := by
    unfold extend_heap mem_sbrk
    simp only [round_up_id h16 hlt, if_pos hle, hepi, hold, hpth, hfoot2, hnext, hm3]
    rfl
  clear hfoot2
  have hout : ∀ x, x < s.lo + 8 + total bs → m3 x = s.mem x := by
    intro x hx
    rw [hm3, hm2, store64_outside _ _ _ _ (by omega), store64_outside _ _ _ _ (by omega),
      store64_outside _ _ _ _ (by omega)]
  have hl1b : load64 m3 (s.lo + 8 + total bs) = pack size false (lastAlloc true bs) := by
    rw [hm3, load64_store64_disj _ _ _ _ (by omega), hl1]
  have hl3 : load64 m3 (s.lo + 8 + total bs + size) = pack 0 true false := by
    rw [hm3, load64_store64_eq _ _ _ (by decide)]
  clear hm3 hm2 hnext hs3 hfoot hs1
  have hsz := seg_sizes h.seg
  have hH : Hole { s with brk := s.brk + size, mem := m3 } bs size false [] fl [] := by
    refine ⟨h.lo_align, h.limit_le, hle, h.listp, ?_, ?_, ?_, trivial, ?_, ?_, ?_, ?_, ?_, h16⟩
    · show s.brk + size = s.lo + 16 + total bs + size + total []
      simp only [total]; omega
    · show load64 m3 s.lo = _
      rw [← h.prologue]
      exact load64_congr _ _ _ (fun x h1 h2 => hout x (by omega))
    · show Seg m3 (s.lo + 8) true bs
      exact seg_congr_range h.seg (fun x h1 h2 => hout x (by omega))
    · show load64 m3 (s.lo + 8 + total bs + size + total []) = _
      simp only [total, lastAlloc, Nat.add_zero]
      exact hl3
    · show Chain m3 0 s.root fl
      apply chain_congr h.chain
      intro y hy x hx1 hx2
      have := freeAddrs_bounds hsz (h.perm.mem_iff.mp hy)
      exact hout x (by omega)
    · show fl.Perm ([] ++ (freeAddrs (s.lo + 8) bs ++ freeAddrs _ []))
      simpa [freeAddrs] using h.perm
    · intro y hy; simp at hy
    · exact List.Pairwise.nil
  have hframe : ∀ x, Owned (s.lo + 8) bs x →
      (coalesce { s with brk := s.brk + size, mem := m3 } (s.lo + 8 + total bs)).2.mem x = m3 x →
      (extend_heap s size).2.mem x = s.mem x := by
    intro x hx he
    rw [hext, he]
    have := owned_range hsz hx
    exact hout x (by omega)
  by_cases hp : lastAlloc true bs = true
  · obtain ⟨h1, h2, h3⟩ := coalesce_case1 hH hl1b h16 h32 hp rfl
    refine ⟨bs, size, _, by rw [hext]; exact h2, by rw [hext]; exact h1, Or.inl ⟨rfl, rfl, rfl⟩,
      by rw [hext, coalesce_brk], by rw [hext, coalesce_lo], by rw [hext, coalesce_limit], ?_⟩
    intro x hx
    exact hframe x hx (h3 x (Or.inl hx))
  · obtain ⟨pre1, psz, rfl⟩ := lastAlloc_false_split rfl (by simpa using hp)
    rw [lastAlloc_snoc] at hl1b
    rw [total_snoc] at hl1b hext
    simp only at hl1b hext
    rw [show s.lo + 8 + (total pre1 + psz) = s.lo + 8 + total pre1 + psz by omega] at hl1b hext
    obtain ⟨h1, h2, h3⟩ := coalesce_case3 hH hl1b h16 h32 rfl
    refine ⟨pre1, size + psz, _, by rw [hext]; exact h2, by rw [hext]; exact h1,
      Or.inr ⟨psz, rfl, rfl, rfl⟩, by rw [hext, coalesce_brk], by rw [hext, coalesce_lo],
      by rw [hext, coalesce_limit], ?_⟩
    intro x hx
    have hx2 := hx
    rw [owned_snoc_free] at hx2
    have e := h3 x (Or.inl hx2)
    rw [hext, e]
    have := owned_range hsz hx
    rw [total_snoc] at this
    simp only at this
    have := hout x
    rw [total_snoc] at this
    exact this (by simp only; omega)

/-! ## `mm_init`, `find_fit`, `malloc` -/

/-- `mm_init` on an untouched provider with an empty free list. -/
theorem mm_init_spec {s : Heap} (hbrk : s.brk = s.lo) (hal : s.lo % 16 = 0) (hroot : s.root = 0)
    (hlim : s.limit ≤ 2 ^ 64) (hroom : s.lo + 2064 ≤ s.limit) :
    (mm_init s).1 = true ∧ Repr (mm_init s).2 [(2048, false)] [s.lo + 8] ∧
    (mm_init s).2.brk = s.lo + 2064 ∧ (mm_init s).2.lo = s.lo ∧
    (mm_init s).2.limit = s.limit := by
  obtain ⟨m2, hm2⟩ : ∃ m2 : Nat → Nat, m2 = store64 (store64 s.mem s.lo (pack 0 true true))
      (s.lo + 8) (pack 0 true true) := ⟨_, rfl⟩
  have hinit : mm_init s =
      (if (extend_heap { s with brk := s.lo + 16, mem := m2, heap_listp := s.lo + 8 }
          chunksize).1 = 0
        then (false, (extend_heap { s with brk := s.lo + 16, mem := m2, heap_listp := s.lo + 8 }
          chunksize).2)
        else (true, (extend_heap { s with brk := s.lo + 16, mem := m2, heap_listp := s.lo + 8 }
          chunksize).2)) := by
    unfold mm_init mem_sbrk
    simp only [wsize, Nat.reduceMul, hbrk, if_pos (show s.lo + 16 ≤ s.limit by omega), hm2]
  have hR : Repr { s with brk := s.lo + 16, mem := m2, heap_listp := s.lo + 8 } [] [] := by
    refine ⟨hal, hlim, ?_, rfl, ?_, ?_, trivial, ?_, hroot, List.Perm.refl _⟩
    · show s.lo + 16 ≤ s.limit; omega
    · show s.lo + 16 = s.lo + 16 + total []; simp [total]
    · show load64 m2 s.lo = _
      rw [hm2, load64_store64_disj _ _ _ _ (by omega), load64_store64_eq _ _ _ (by decide)]
    · show load64 m2 (s.lo + 8 + total []) = _
      simp only [total, lastAlloc, Nat.add_zero]
      rw [hm2, load64_store64_eq _ _ _ (by decide)]
  obtain ⟨pre1, rsz, fl1, h1, h2, h3, h4, h5, h6, _⟩ :=
    extend_heap_spec hR (show chunksize % 16 = 0 by decide) (by decide) (by decide)
      (by show s.lo + 16 + chunksize ≤ s.limit; simp only [chunksize]; omega)
  rcases h3 with ⟨rfl, rfl, rfl⟩ | ⟨psz, hbad, _⟩
  · have hne : ¬ (extend_heap { s with brk := s.lo + 16, mem := m2, heap_listp := s.lo + 8 }
        chunksize).1 = 0 := by
      rw [h2]; show ¬ s.lo + 8 + total [] = 0; omega
    rw [hinit, if_neg hne]
    refine ⟨rfl, ?_, ?_, h5, h6⟩
    · simpa [total, chunksize] using h1
    · show (extend_heap _ _).2.brk = _
      rw [h4]; show s.lo + 16 + chunksize = _; simp only [chunksize]; omega
  · exact absurd hbad (by simp)

/-- Every node of the free list is the start of a free block. -/
theorem freeAddrs_split {a x : Nat} {bs : List (Nat × Bool)} (h : x ∈ freeAddrs a bs) :
    ∃ pre csz post, bs = pre ++ [(csz, false)] ++ post ∧ x = a + total pre := by
  induction bs generalizing a with
  | nil => simp [freeAddrs] at h
  | cons b bs ih =>
    simp only [freeAddrs] at h
    by_cases hb : b.2 = true
    · rw [if_pos hb] at h
      obtain ⟨pre, csz, post, he, hx⟩ := ih h
      refine ⟨b :: pre, csz, post, by rw [he]; rfl, ?_⟩
      rw [hx]; simp only [total]; omega
    · rw [if_neg hb] at h
      rcases List.mem_cons.mp h with rfl | h
      · refine ⟨[], b.1, bs, ?_, by simp [total]⟩
        have : b = (b.1, false) := by
          cases b with
          | mk n al => simp only [Bool.not_eq_true] at hb; simp only at hb ⊢; rw [hb]
        rw [this]; rfl
      · obtain ⟨pre, csz, post, he, hx⟩ := ih h
        refine ⟨b :: pre, csz, post, by rw [he]; rfl, ?_⟩
        rw [hx]; simp only [total]; omega

theorem find_fit_loop_spec (s : Heap) (asize : Nat) (fl : List Nat) :
    ∀ (n p cur : Nat) (rest : List Nat) (best size_fit : Nat),
      Chain s.mem p cur rest → (∀ y ∈ rest, y ∈ fl) →
      (best = 0 ∨ (best ∈ fl ∧ asize ≤ get_size s best)) →
      (find_fit_loop s asize n cur best size_fit = 0 ∨
        (find_fit_loop s asize n cur best size_fit ∈ fl ∧
          asize ≤ get_size s (find_fit_loop s asize n cur best size_fit))) := by
  intro n
  induction n with
  | zero => intro p cur rest best size_fit _ _ hb; simpa [find_fit_loop] using hb
  | succ n ih =>
    intro p cur rest best size_fit hc hsub hb
    unfold find_fit_loop
    cases rest with
    | nil =>
      have : cur = 0 := hc
      simp only [this, if_true]
      exact hb
    | cons c rest1 =>
      obtain ⟨h1, h2, h3, h4⟩ := hc
      subst h1
      rw [if_neg h2]
      have hcfl : cur ∈ fl := hsub cur (List.mem_cons_self _ _)
      have hsub1 : ∀ y ∈ rest1, y ∈ fl := fun y hy => hsub y (List.mem_cons_of_mem _ hy)
      dsimp only
      split
      · rename_i heq
        right; exact ⟨hcfl, by omega⟩
      · split
        · rename_i hfit
          exact ih cur (blk_next s cur) rest1 cur (get_size s cur) h4 hsub1
            (Or.inr ⟨hcfl, hfit.1⟩)
        · exact ih cur (blk_next s cur) rest1 best size_fit h4 hsub1 hb

/-- `find_fit` returns `NULL` or a free-list node that is large enough. -/
theorem find_fit_spec {s : Heap} {fl : List Nat} (asize : Nat) (h : Chain s.mem 0 s.root fl) :
    find_fit s asize = 0 ∨ (find_fit s asize ∈ fl ∧ asize ≤ get_size s (find_fit s asize)) :=
  find_fit_loop_spec s asize fl 200 0 s.root fl 0 (2 ^ 64 - 1) h (fun _ hy => hy) (Or.inl rfl)

theorem max_chunk (asize : Nat) (h16 : asize % 16 = 0) (hlt : asize < 2 ^ 64) :
    max asize chunksize % 16 = 0 ∧ 32 ≤ max asize chunksize ∧ max asize chunksize < 2 ^ 64 ∧
    asize ≤ max asize chunksize ∧ 2048 ≤ max asize chunksize := by
  simp only [max, chunksize]
  split <;> omega

theorem malloc_eq (s : Heap) (size : Nat) (hlp : s.heap_listp ≠ 0) (hsz : size ≠ 0) :
    malloc s size =
      if find_fit s (adjust size) = 0 then
        (if (extend_heap s (max (adjust size) chunksize)).1 = 0 then
          (0, (extend_heap s (max (adjust size) chunksize)).2)
        else (header_to_payload (extend_heap s (max (adjust size) chunksize)).1,
          place (extend_heap s (max (adjust size) chunksize)).2
            (extend_heap s (max (adjust size) chunksize)).1 (adjust size)))
      else (header_to_payload (find_fit s (adjust size)),
        place s (find_fit s (adjust size)) (adjust size)) := by
  unfold malloc
  simp only [if_neg hlp, if_neg hsz]

/-- `place` on a free block of a well-formed heap, both cases at once. -/
theorem place_spec {s : Heap} {pre post : List (Nat × Bool)} {csz asize : Nat} {fl : List Nat}
    (h : Repr s (pre ++ [(csz, false)] ++ post) fl)
    (ha16 : asize % 16 = 0) (ha32 : 32 ≤ asize) (hle : asize ≤ csz) :
    ((asize + 32 ≤ csz ∧ ∃ fl2, Repr (place s (s.lo + 8 + total pre) asize)
        (pre ++ [(asize, true), (csz - asize, false)] ++ post) fl2) ∨
      (csz < asize + 32 ∧ ∃ fl2, Repr (place s (s.lo + 8 + total pre) asize)
        (pre ++ [(csz, true)] ++ post) fl2)) ∧
    ∀ x, Owned (s.lo + 8) pre x ∨ Owned (s.lo + 8 + total pre + csz) post x →
      (place s (s.lo + 8 + total pre) asize).mem x = s.mem x := by
  by_cases hsp : asize + 32 ≤ csz
  · obtain ⟨h1, h2⟩ := place_split h ha16 ha32 hsp
    exact ⟨Or.inl ⟨hsp, _, h1⟩, h2⟩
  · obtain ⟨h1, h2⟩ := place_whole h hle (by omega)
    exact ⟨Or.inr ⟨by omega, _, h1⟩, h2⟩

/-- `malloc` on a well-formed heap: either nothing fits and the provider
refuses, and the state is returned unchanged with `NULL`; or a free block of
the heap, possibly the one created by growing it, is placed. -/
theorem malloc_spec {s : Heap} {bs : List (Nat × Bool)} {fl : List Nat} (h : Repr s bs fl)
    {size : Nat} (hpos : 0 < size) :
    malloc s size = (0, s) ∨
    ∃ pre csz post,
      adjust size ≤ csz ∧
      (malloc s size).1 = s.lo + 8 + total pre + 8 ∧
      ((bs = pre ++ [(csz, false)] ++ post ∧ (malloc s size).2.brk = s.brk ∧
          find_fit s (adjust size) = s.lo + 8 + total pre) ∨
        (post = [] ∧ find_fit s (adjust size) = 0 ∧
          (malloc s size).2.brk = s.brk + max (adjust size) chunksize ∧
          s.brk + max (adjust size) chunksize ≤ s.limit ∧
          ((pre = bs ∧ csz = max (adjust size) chunksize) ∨
            ∃ psz, bs = pre ++ [(psz, false)] ∧ csz = max (adjust size) chunksize + psz))) ∧
      ((adjust size + 32 ≤ csz ∧ ∃ fl2, Repr (malloc s size).2
          (pre ++ [(adjust size, true), (csz - adjust size, false)] ++ post) fl2) ∨
        (csz < adjust size + 32 ∧ ∃ fl2, Repr (malloc s size).2
          (pre ++ [(csz, true)] ++ post) fl2)) ∧
      (malloc s size).2.lo = s.lo ∧ (malloc s size).2.limit = s.limit ∧
      ∀ x, Owned (s.lo + 8) bs x → (malloc s size).2.mem x = s.mem x := by
  obtain ⟨ha16, ha32, halt⟩ := adjust_bounds size
  obtain ⟨he16, he32, helt, hea, _⟩ := max_chunk (adjust size) ha16 halt
  have hlp : s.heap_listp ≠ 0 := by rw [h.listp]; omega
  rw [malloc_eq s size hlp (by omega)]
  rcases find_fit_spec (adjust size) h.chain with h0 | ⟨hfl, hfit⟩
  · rw [if_pos h0]
    by_cases hle : s.brk + max (adjust size) chunksize ≤ s.limit
    · obtain ⟨pre1, rsz, fl1, h1, h2, h3, h4, h5, h6, h7⟩ :=
        extend_heap_spec h he16 he32 helt hle
      have hrle : adjust size ≤ rsz := by
        rcases h3 with ⟨_, hr, _⟩ | ⟨psz, _, hr, _⟩ <;> omega
      obtain ⟨hhdr, hc16, hc32, hpa, hftr, hbnd, hbfl, hbmod⟩ := h1.free_block
      rw [h5] at hbnd
      rw [if_neg (by rw [h2]; omega), h2]
      have hpl := place_spec h1 ha16 ha32 hrle
      rw [h5] at hpl
      right
      refine ⟨pre1, rsz, [], hrle, ?_, Or.inr ⟨rfl, h0, ?_, hle, ?_⟩, hpl.1, ?_, ?_, ?_⟩
      · show header_to_payload _ = _
        unfold header_to_payload; simp only [wsize]; omega
      · show (place _ _ _).brk = _
        rw [place_brk, h4]
      · rcases h3 with ⟨hp, hr, _⟩ | ⟨psz, hp, hr, _⟩
        · exact Or.inl ⟨hp, hr⟩
        · exact Or.inr ⟨psz, hp, hr⟩
      · show (place _ _ _).lo = _
        rw [place_lo, h5]
      · show (place _ _ _).limit = _
        rw [place_limit, h6]
      · intro x hx
        show (place _ _ _).mem x = _
        rw [hpl.2 x, h7 x hx]
        left
        rcases h3 with ⟨hp, _, _⟩ | ⟨psz, hp, _, _⟩
        · rw [hp]; exact hx
        · rw [hp, owned_snoc_free] at hx; exact hx
    · left
      have := extend_heap_refused s (max (adjust size) chunksize)
        (by rw [round_up_id he16 helt]; omega)
      rw [this]
      simp
  · have hmem := h.perm.mem_iff.mp hfl
    obtain ⟨pre, csz, post, hbs, hb⟩ := freeAddrs_split hmem
    subst hbs
    obtain ⟨hhdr, hc16, hc32, hpa, hftr, hbnd, hbfl, hbmod⟩ := h.free_block
    have hgs : get_size s (s.lo + 8 + total pre) = csz := get_size_of hhdr hc16 (by omega)
    rw [hb, hgs] at hfit
    rw [if_neg (by rw [hb]; omega), hb]
    have hpl := place_spec h ha16 ha32 hfit
    right
    refine ⟨pre, csz, post, hfit, ?_, Or.inl ⟨rfl, ?_, rfl⟩, hpl.1, ?_, ?_, ?_⟩
    · show header_to_payload _ = _
      unfold header_to_payload; simp only [wsize]; omega
    · show (place _ _ _).brk = _
      rw [place_brk]
    · show (place _ _ _).lo = _
      rw [place_lo]
    · show (place _ _ _).limit = _
      rw [place_limit]
    · intro x hx
      show (place _ _ _).mem x = _
      apply hpl.2 x
      rw [owned_append, owned_append] at hx
      rcases hx with (hx | hx) | hx
      · exact Or.inl hx
      · exact absurd hx owned_free_single
      · right
        rw [total_append] at hx
        simp only [total] at hx
        rw [show s.lo + 8 + total pre + csz = s.lo + 8 + (total pre + (csz + 0)) by omega]
        exact hx

/-! ## The heap walk of a well-formed heap -/

theorem total_ge_length {bs : List (Nat × Bool)} (h : Sizes bs) : 32 * bs.length ≤ total bs := by
  induction bs with
  | nil => simp [total]
  | cons b bs ih =>
    rw [sizes_cons] at h
    have := ih h.2
    simp only [total, List.length_cons]; omega

theorem walk_eq {s : Heap} {bs : List (Nat × Bool)} :
    ∀ (fuel a : Nat) (pa : Bool), Seg s.mem a pa bs →
      load64 s.mem (a + total bs) = pack 0 true (lastAlloc pa bs) → a + total bs < 2 ^ 64 →
      bs.length < fuel → walk s fuel a = layout a bs := by
  induction bs with
  | nil =>
    intro fuel a pa _ he _ hf
    simp only [total, Nat.add_zero] at he
    cases fuel with
    | zero => simp at hf
    | succ n =>
      simp only [walk, layout, get_size_of he (by decide) (by decide), if_true]
  | cons b bs ih =>
    intro fuel a pa hs he hlt hf
    simp only [Seg] at hs
    obtain ⟨h1, h2, h3, _, h5⟩ := hs
    simp only [total] at he hlt
    cases fuel with
    | zero => simp at hf
    | succ n =>
      have hgs : get_size s a = b.1 := get_size_of h1 h2 (by omega)
      have hga : get_alloc s a = b.2 := get_alloc_of h1 h2
      have hfn : find_next s a = a + b.1 := find_next_of h1 h2 (by omega)
      simp only [walk, layout, hgs, hga, hfn, if_neg (show ¬ b.1 = 0 by omega)]
      rw [ih n (a + b.1) b.2 h5 (by rw [Nat.add_assoc]; exact he) (by omega)
        (by simp only [List.length_cons] at hf; omega)]

/-- The heap walk of a well-formed heap is the layout of its blocks. -/
theorem Repr.blocks {s : Heap} {bs : List (Nat × Bool)} {fl : List Nat} (h : Repr s bs fl) :
    heap_blocks s = layout (s.lo + 8) bs := by
  unfold heap_blocks
  rw [h.listp]
  have h1 := h.brk_eq
  have h2 := h.brk_le
  have h3 := h.limit_le
  have h4 := total_ge_length (seg_sizes h.seg)
  exact walk_eq _ _ true h.seg h.epilogue (by omega) (by omega)

theorem mem_allocd_iff {a x sz : Nat} {bs : List (Nat × Bool)} :
    (x, sz) ∈ allocd a bs ↔ (x, sz, true) ∈ layout a bs := by
  induction bs generalizing a with
  | nil => simp [allocd, layout]
  | cons b bs ih =>
    simp only [allocd, layout]
    cases hb : b.2
    · simp only [Bool.false_eq_true, if_false, List.mem_cons, Prod.mk.injEq, ih]
      constructor
      · exact Or.inr
      · rintro (⟨_, _, h⟩ | h)
        · exact absurd h (by decide)
        · exact h
    · simp only [if_true, List.mem_cons, Prod.mk.injEq, ih, and_true]

theorem mem_freeAddrs_iff {a x : Nat} {bs : List (Nat × Bool)} :
    x ∈ freeAddrs a bs ↔ ∃ sz, (x, sz, false) ∈ layout a bs := by
  induction bs generalizing a with
  | nil => simp [freeAddrs, layout]
  | cons b bs ih =>
    simp only [freeAddrs, layout]
    cases hb : b.2
    · simp only [Bool.false_eq_true, if_false, List.mem_cons, Prod.mk.injEq, ih, and_true]
      constructor
      · rintro (h | ⟨sz, h⟩)
        · exact ⟨b.1, Or.inl ⟨h, rfl⟩⟩
        · exact ⟨sz, Or.inr h⟩
      · rintro ⟨sz, ⟨h, _⟩ | h⟩
        · exact Or.inl h
        · exact Or.inr ⟨sz, h⟩
    · simp only [if_true, List.mem_cons, Prod.mk.injEq, ih]
      constructor
      · rintro ⟨sz, h⟩; exact ⟨sz, Or.inr h⟩
      · rintro ⟨sz, ⟨_, _, h⟩ | h⟩
        · exact absurd h (by decide)
        · exact ⟨sz, h⟩

theorem layout_split {a : Nat} {e : Nat × Nat × Bool} {bs : List (Nat × Bool)}
    (h : e ∈ layout a bs) :
    ∃ pre post, bs = pre ++ [(e.2.1, e.2.2)] ++ post ∧ e.1 = a + total pre := by
  induction bs generalizing a with
  | nil => simp [layout] at h
  | cons b bs ih =>
    simp only [layout] at h
    rcases List.mem_cons.mp h with rfl | h
    · exact ⟨[], bs, rfl, by simp [total]⟩
    · obtain ⟨pre, post, he, hx⟩ := ih h
      refine ⟨b :: pre, post, by rw [he]; rfl, ?_⟩
      rw [hx]; simp only [total]; omega

theorem layout_mem_mid (a : Nat) (pre post : List (Nat × Bool)) (b : Nat × Bool) :
    (a + total pre, b.1, b.2) ∈ layout a (pre ++ [b] ++ post) := by
  rw [layout_append, layout_append]
  simp [layout]

theorem layout_bounds {bs : List (Nat × Bool)} (h : Sizes bs) {a : Nat} {e : Nat × Nat × Bool}
    (he : e ∈ layout a bs) :
    a ≤ e.1 ∧ e.1 + e.2.1 ≤ a + total bs ∧ e.2.1 % 16 = 0 ∧ 32 ≤ e.2.1 ∧ e.1 % 16 = a % 16 := by
  obtain ⟨pre, post, hbs, hx⟩ := layout_split he
  subst hbs
  rw [sizes_append, sizes_append] at h
  have h1 := h.1.2 (e.2.1, e.2.2) (by simp)
  have h2 := total_mod h.1.1
  rw [total_append, total_append]
  simp only [total]
  simp only at h1
  omega

theorem layout_disjoint {bs : List (Nat × Bool)} (h : Sizes bs) {a : Nat}
    {e1 e2 : Nat × Nat × Bool} (h1 : e1 ∈ layout a bs) (h2 : e2 ∈ layout a bs) :
    e1 = e2 ∨ e1.1 + e1.2.1 ≤ e2.1 ∨ e2.1 + e2.2.1 ≤ e1.1 := by
  induction bs generalizing a with
  | nil => simp [layout] at h1
  | cons b bs ih =>
    rw [sizes_cons] at h
    simp only [layout] at h1 h2
    rcases List.mem_cons.mp h1 with rfl | h1 <;> rcases List.mem_cons.mp h2 with rfl | h2
    · exact Or.inl rfl
    · have := layout_bounds h.2 h2
      right; left; simp only; omega
    · have := layout_bounds h.2 h1
      right; right; simp only; omega
    · exact ih h.2 h1 h2

theorem tiling_layout (a : Nat) (bs : List (Nat × Bool)) :
    Tiling a (layout a bs) (a + total bs) := by
  induction bs generalizing a with
  | nil => simp [Tiling, layout, total]
  | cons b bs ih =>
    simp only [Tiling, layout, total]
    refine ⟨trivial, ?_⟩
    rw [← Nat.add_assoc]
    exact ih (a + b.1)

theorem lastState_layout (pa : Bool) (a : Nat) (bs : List (Nat × Bool)) :
    lastState pa (layout a bs) = lastAlloc pa bs := by
  induction bs generalizing a pa with
  | nil => rfl
  | cons b bs ih => simp only [lastState, layout, lastAlloc, ih]

theorem noAdjacentFree_layout {m : Nat → Nat} {a : Nat} {pa : Bool} {bs : List (Nat × Bool)}
    (h : Seg m a pa bs) : NoAdjacentFree (layout a bs) := by
  induction bs generalizing a pa with
  | nil => trivial
  | cons b bs ih =>
    simp only [Seg] at h
    cases bs with
    | nil => simp [layout, NoAdjacentFree]
    | cons c cs =>
      have h5 := h.2.2.2.2
      have := ih h5
      simp only [layout, NoAdjacentFree] at this ⊢
      refine ⟨?_, this⟩
      simp only [Seg] at h5
      rintro ⟨hb, hc⟩
      have := (h5.2.2.2.1 hc).1
      rw [hb] at this
      exact absurd this (by decide)

theorem prevBits_layout {s : Heap} {a : Nat} {pa : Bool} {bs : List (Nat × Bool)}
    (h : Seg s.mem a pa bs) : PrevBits s pa (layout a bs) := by
  induction bs generalizing a pa with
  | nil => trivial
  | cons b bs ih =>
    simp only [Seg] at h
    simp only [layout, PrevBits]
    exact ⟨get_alloc_of_prev_of h.1 h.2.1, ih h.2.2.2.2⟩

/-! ## Stores into payloads, and the result of `malloc` -/

theorem owned_cons {a x : Nat} {b : Nat × Bool} {bs : List (Nat × Bool)} :
    Owned a (b :: bs) x ↔ (b.2 = true ∧ a + 8 ≤ x ∧ x < a + b.1) ∨ Owned (a + b.1) bs x := by
  unfold Owned
  simp only [allocd]
  cases hb : b.2
  · simp
  · simp only [if_true, List.mem_cons, true_and]
    constructor
    · rintro ⟨p, hp | hp, h1⟩
      · left; rw [hp] at h1; exact h1
      · right; exact ⟨p, hp, h1⟩
    · rintro (h1 | ⟨p, hp, h1⟩)
      · exact ⟨(a, b.1), Or.inl rfl, h1⟩
      · exact ⟨p, Or.inr hp, h1⟩

/-- A run of blocks does not depend on the payload bytes of its allocated
blocks. -/
theorem seg_congr_owned {m m1 : Nat → Nat} {a : Nat} {pa : Bool} {bs : List (Nat × Bool)}
    (h : Seg m a pa bs)
    (hm : ∀ x, a ≤ x → x < a + total bs → ¬ Owned a bs x → m1 x = m x) :
    Seg m1 a pa bs := by
  induction bs generalizing a pa with
  | nil => trivial
  | cons b bs ih =>
    have hs := seg_sizes h
    rw [sizes_cons] at hs
    simp only [Seg] at h ⊢
    obtain ⟨h1, h2, h3, h4, h5⟩ := h
    simp only [total] at hm
    have hdr : load64 m1 a = load64 m a := by
      apply load64_congr
      intro x hx1 hx2
      apply hm x hx1 (by omega)
      rw [owned_cons]
      rintro (⟨_, h6, _⟩ | h6)
      · omega
      · have := owned_range hs.2 h6; omega
    refine ⟨by rw [hdr]; exact h1, h2, h3, ?_, ?_⟩
    · intro hf
      refine ⟨(h4 hf).1, ?_⟩
      rw [← (h4 hf).2]
      apply load64_congr
      intro x hx1 hx2
      apply hm x (by omega) (by omega)
      rw [owned_cons]
      rintro (⟨h6, _, _⟩ | h6)
      · rw [hf] at h6; exact absurd h6 (by decide)
      · have := owned_range hs.2 h6; omega
    · apply ih h5
      intro x hx1 hx2 hx3
      apply hm x (by omega) (by omega)
      rw [owned_cons]
      rintro (⟨_, _, h6⟩ | h6)
      · omega
      · exact hx3 h6

/-- Stores into payloads of allocated blocks keep the heap well formed. -/
theorem Repr.write_owned {s : Heap} {bs : List (Nat × Bool)} {fl : List Nat} (h : Repr s bs fl)
    (m1 : Nat → Nat) (hm : ∀ x, ¬ Owned (s.lo + 8) bs x → m1 x = s.mem x) :
    Repr { s with mem := m1 } bs fl := by
  have hsz := seg_sizes h.seg
  refine ⟨h.lo_align, h.limit_le, h.brk_le, h.listp, h.brk_eq, ?_, ?_, ?_, ?_, h.perm⟩
  · show load64 m1 s.lo = _
    rw [← h.prologue]
    apply load64_congr
    intro x h1 h2
    apply hm
    intro ho
    have := owned_range hsz ho
    omega
  · show Seg m1 (s.lo + 8) true bs
    exact seg_congr_owned h.seg (fun x _ _ hx => hm x hx)
  · show load64 m1 (s.lo + 8 + total bs) = _
    rw [← h.epilogue]
    apply load64_congr
    intro x h1 h2
    apply hm
    intro ho
    have := owned_range hsz ho
    omega
  · show Chain m1 0 s.root fl
    apply chain_congr h.chain
    intro y hy x hx1 hx2
    apply hm
    intro ho
    have := owned_not_field hsz ho (h.perm.mem_iff.mp hy)
    omega

theorem layout_mem_append {a : Nat} {l1 l2 : List (Nat × Bool)} {e : Nat × Nat × Bool} :
    e ∈ layout a (l1 ++ l2) ↔ e ∈ layout a l1 ∨ e ∈ layout (a + total l1) l2 := by
  rw [layout_append, List.mem_append]

/-- The block returned by a successful `malloc`. -/
theorem malloc_result {s : Heap} {bs : List (Nat × Bool)} {fl : List Nat} (h : Repr s bs fl)
    {size : Nat} (hpos : 0 < size) (hnn : (malloc s size).1 ≠ 0) :
    ∃ fl1 pre bsz post,
      Repr (malloc s size).2 (pre ++ [(bsz, true)] ++ post) fl1 ∧
      (malloc s size).1 = s.lo + 8 + total pre + 8 ∧ adjust size ≤ bsz ∧
      (∀ e ∈ layout (s.lo + 8) bs, e.2.2 = true →
        e ∈ layout (s.lo + 8) (pre ++ [(bsz, true)] ++ post)) ∧
      (∀ x, s.lo + 8 + total pre ≤ x → x < s.lo + 8 + total pre + bsz →
        (∃ e ∈ layout (s.lo + 8) bs, e.2.2 = false ∧ e.1 ≤ x ∧ x < e.1 + e.2.1) ∨
          s.brk - 8 ≤ x) ∧
      (malloc s size).2.lo = s.lo ∧ (malloc s size).2.limit = s.limit ∧
      s.brk ≤ (malloc s size).2.brk ∧
      ∀ x, Owned (s.lo + 8) bs x → (malloc s size).2.mem x = s.mem x := by
  rcases malloc_spec h hpos with h0 | ⟨pre, csz, post, hle, hp, horig, hpl, hlo, hlim, hfr⟩
  · rw [h0] at hnn; exact absurd rfl hnn
  · have hbrk := h.brk_eq
    -- the allocated blocks of the old heap and the origin of the bytes of the chosen block
    have hkeep : ∀ post1 : List (Nat × Bool), ∀ bsz : Nat,
        (∀ e, e ∈ layout (s.lo + 8 + total pre + csz) post →
          e ∈ layout (s.lo + 8 + total pre + bsz) post1) →
        ∀ e ∈ layout (s.lo + 8) bs, e.2.2 = true →
          e ∈ layout (s.lo + 8) (pre ++ [(bsz, true)] ++ post1) := by
      intro post1 bsz hpost e he hal
      rw [layout_mem_append, layout_mem_append]
      rcases horig with ⟨hbs, _, _⟩ | ⟨hpost0, _, _, _, hbs⟩
      · rw [hbs, layout_mem_append, layout_mem_append] at he
        rcases he with (he | he) | he
        · exact Or.inl (Or.inl he)
        · simp only [layout, List.mem_singleton] at he
          rw [he] at hal; exact absurd hal Bool.false_ne_true
        · right
          rw [total_append] at he ⊢
          simp only [total, Nat.add_zero] at he ⊢
          rw [← Nat.add_assoc] at he ⊢
          exact hpost e he
      · rcases hbs with ⟨hbs, _⟩ | ⟨psz, hbs, _⟩
        · rw [hbs]; exact Or.inl (Or.inl he)
        · rw [hbs, layout_mem_append] at he
          rcases he with he | he
          · exact Or.inl (Or.inl he)
          · simp only [layout, List.mem_singleton] at he
            rw [he] at hal; exact absurd hal Bool.false_ne_true
    have hfrom : ∀ bsz, bsz ≤ csz → ∀ x, s.lo + 8 + total pre ≤ x →
        x < s.lo + 8 + total pre + bsz →
        (∃ e ∈ layout (s.lo + 8) bs, e.2.2 = false ∧ e.1 ≤ x ∧ x < e.1 + e.2.1) ∨
          s.brk - 8 ≤ x := by
      intro bsz hb x hx1 hx2
      rcases horig with ⟨hbs, _, _⟩ | ⟨hpost0, _, _, _, hbs⟩
      · left
        refine ⟨(s.lo + 8 + total pre, csz, false), ?_, rfl, hx1, by simp only; omega⟩
        rw [hbs]
        exact layout_mem_mid (s.lo + 8) pre post (csz, false)
      · rcases hbs with ⟨hbs, _⟩ | ⟨psz, hbs, _⟩
        · right; rw [hbrk, ← hbs]; omega
        · by_cases hx3 : x < s.lo + 8 + total pre + psz
          · left
            refine ⟨(s.lo + 8 + total pre, psz, false), ?_, rfl, hx1, hx3⟩
            rw [hbs]
            have := layout_mem_mid (s.lo + 8) pre [] (psz, false)
            simpa using this
          · right
            rw [hbrk, hbs, total_snoc]
            simp only
            omega
    have hbrk2 : s.brk ≤ (malloc s size).2.brk := by
      rcases horig with ⟨_, hb, _⟩ | ⟨_, _, hb, _, _⟩ <;> omega
    rcases hpl with ⟨hsp, fl2, hR⟩ | ⟨hsp, fl2, hR⟩
    · refine ⟨fl2, pre, adjust size, (csz - adjust size, false) :: post, ?_, hp, le_refl _,
        ?_, hfrom _ (by omega), hlo, hlim, hbrk2, hfr⟩
      · have : pre ++ [(adjust size, true)] ++ (csz - adjust size, false) :: post =
            pre ++ [(adjust size, true), (csz - adjust size, false)] ++ post := by simp
        rw [this]; exact hR
      · apply hkeep
        · intro e he
          simp only [layout]
          right
          rw [show s.lo + 8 + total pre + adjust size + (csz - adjust size) =
            s.lo + 8 + total pre + csz by omega]
          exact he
    · refine ⟨fl2, pre, csz, post, hR, hp, hle, ?_, hfrom _ (le_refl _), hlo, hlim, hbrk2, hfr⟩
      apply hkeep
      · intro e he; exact he

/-! ## Well-formedness is invariant -/

theorem mm_init_true_room {s : Heap} (hbrk : s.brk = s.lo) (h : (mm_init s).1 = true) :
    s.lo + 2064 ≤ s.limit := by
  by_contra hc
  by_cases h16 : s.brk + 16 ≤ s.limit
  · obtain ⟨s4, hb4, hl4, hinit⟩ : ∃ s4 : Heap, s4.brk = s.brk + 16 ∧ s4.limit = s.limit ∧
        mm_init s = (if (extend_heap s4 chunksize).1 = 0 then (false, (extend_heap s4 chunksize).2)
          else (true, (extend_heap s4 chunksize).2)) := by
      refine ⟨{ s with
                brk := s.brk + 16
                mem := store64 (store64 s.mem s.brk (pack 0 true true)) (s.brk + 8) (pack 0 true true)
                heap_listp := s.brk + 8 }, rfl, rfl, ?_⟩
      unfold mm_init mem_sbrk
      simp only [wsize, Nat.reduceMul, if_pos h16]
    have href := extend_heap_refused s4 chunksize (by
      rw [round_up_id (by decide) (by decide), hb4, hl4]
      simp only [chunksize]; omega)
    rw [hinit, href] at h
    simp at h
  · have : mm_init s = (false, s) := by
      unfold mm_init mem_sbrk
      simp only [wsize, Nat.reduceMul, if_neg h16]
    rw [this] at h
    simp at h

theorem mm_init_wf {s : Heap} (hbrk : s.brk = s.lo) (hal : s.lo % 16 = 0) (hroot : s.root = 0)
    (hlim : s.limit ≤ 2 ^ 64) (h : (mm_init s).1 = true) : WF (mm_init s).2 :=
  ⟨_, _, (mm_init_spec hbrk hal hroot hlim (mm_init_true_room hbrk h)).2.1⟩

theorem malloc_zero {s : Heap} (h : s.heap_listp ≠ 0) : malloc s 0 = (0, s) := by
  unfold malloc
  simp only [if_neg h, if_true]

theorem malloc_wf {s : Heap} (h : WF s) (size : Nat) : WF (malloc s size).2 := by
  obtain ⟨bs, fl, hR⟩ := h
  by_cases hs : size = 0
  · subst hs
    rw [malloc_zero (by rw [hR.listp]; omega)]
    exact ⟨bs, fl, hR⟩
  · rcases malloc_spec hR (Nat.pos_of_ne_zero hs) with h0 | ⟨pre, csz, post, _, _, _, hpl, _⟩
    · rw [h0]; exact ⟨bs, fl, hR⟩
    · rcases hpl with ⟨_, fl2, h2⟩ | ⟨_, fl2, h2⟩
      · exact ⟨_, _, h2⟩
      · exact ⟨_, _, h2⟩

/-- A live pointer is the payload pointer of an allocated block of the
representation. -/
theorem Repr.live_split {s : Heap} {bs : List (Nat × Bool)} {fl : List Nat} (h : Repr s bs fl)
    {p : Nat} (hp : Live s p) :
    ∃ pre sz post, bs = pre ++ [(sz, true)] ++ post ∧ p = s.lo + 8 + total pre + 8 := by
  obtain ⟨h8, sz, hm⟩ := hp
  rw [h.blocks] at hm
  obtain ⟨pre, post, hbs, hx⟩ := layout_split hm
  simp only at hbs hx
  exact ⟨pre, sz, post, hbs, by omega⟩

theorem free_zero (s : Heap) : free s 0 = s := by
  rw [free_eq, if_pos rfl]

theorem free_wf {s : Heap} (h : WF s) {p : Nat} (hp : p = 0 ∨ Live s p) : WF (free s p) := by
  obtain ⟨bs, fl, hR⟩ := h
  rcases hp with rfl | hp
  · rw [free_zero]; exact ⟨bs, fl, hR⟩
  · obtain ⟨pre, sz, post, hbs, rfl⟩ := hR.live_split hp
    subst hbs
    obtain ⟨pre1, rsz, post1, fl1, h1, _⟩ := free_spec hR
    exact ⟨_, _, h1⟩

/-- The payload bytes of an allocated block are owned. -/
theorem owned_mid {a x sz : Nat} {pre post : List (Nat × Bool)}
    (h1 : a + total pre + 8 ≤ x) (h2 : x < a + total pre + sz) :
    Owned a (pre ++ [(sz, true)] ++ post) x := by
  rw [owned_append, owned_append]
  left; right
  rw [owned_cons]
  left
  exact ⟨rfl, h1, h2⟩

theorem store_wf {s : Heap} (h : WF s) {p x v : Nat} (hp : Live s p) (h1 : p ≤ x)
    (h2 : x < p + get_payload_size s (p - 8)) :
    WF { s with mem := fun y => if y = x then v else s.mem y } := by
  obtain ⟨bs, fl, hR⟩ := h
  obtain ⟨pre, sz, post, hbs, rfl⟩ := hR.live_split hp
  subst hbs
  obtain ⟨hhdr, h16, h32, hb, hmod⟩ := hR.alloc_block
  have hps : get_payload_size s (s.lo + 8 + total pre + 8 - 8) = sz - 8 := by
    unfold get_payload_size
    rw [show s.lo + 8 + total pre + 8 - 8 = s.lo + 8 + total pre by omega,
      get_size_of hhdr h16 (by omega)]
    simp only [wsize]; omega
  rw [hps] at h2
  refine ⟨_, _, hR.write_owned _ ?_⟩
  intro y hy
  have hne : y ≠ x := by
    rintro rfl
    exact hy (owned_mid (by omega) (by omega))
  simp only [if_neg hne]

theorem realloc_wf {s : Heap} (h : WF s) {p size : Nat} (hp : p = 0 ∨ Live s p)
    (hsz : size + 24 ≤ 2 ^ 64) : WF (realloc s p size).2 := by
  unfold realloc
  by_cases hs : size = 0
  · simp only [if_pos hs]
    exact free_wf h hp
  · simp only [if_neg hs]
    by_cases hp0 : p = 0
    · simp only [if_pos hp0]
      exact malloc_wf h size
    · simp only [if_neg hp0]
      by_cases hr : (malloc s size).1 = 0
      · simp only [if_pos hr]
        exact malloc_wf h size
      · simp only [if_neg hr]
        have hlive : Live s p := by
          rcases hp with hp | hp
          · exact absurd hp hp0
          · exact hp
        obtain ⟨bs, fl, hR⟩ := h
        obtain ⟨fl1, pre, bsz, post, hR1, hq, hle, hkeep, _, hlo, _, _, _⟩ :=
          malloc_result hR (Nat.pos_of_ne_zero hs) hr
        obtain ⟨had, _, hspec, _, _⟩ := adjust_spec size hsz
        have hcs : ∀ A : Nat, (if size < A then size else A) ≤ size := by
          intro A; split <;> omega
        have key : ∀ n, n ≤ size → WF (free { (malloc s size).2 with
            mem := memcpy (malloc s size).2.mem (malloc s size).1 p n } p) := by
          intro n hn
          -- the copy stays inside the new payload
          have hR2 : Repr { (malloc s size).2 with
              mem := memcpy (malloc s size).2.mem (malloc s size).1 p n }
              (pre ++ [(bsz, true)] ++ post) fl1 := by
            apply hR1.write_owned
            intro x hx
            unfold memcpy
            rw [if_neg]
            rintro ⟨hx1, hx2⟩
            apply hx
            rw [hlo]
            apply owned_mid <;> omega
          -- the old block is still allocated
          obtain ⟨h8, sz, hm⟩ := hlive
          rw [hR.blocks] at hm
          have hm2 := hkeep _ hm rfl
          refine free_wf ⟨_, _, hR2⟩ (Or.inr ⟨h8, sz, ?_⟩)
          rw [hR2.blocks]
          show _ ∈ layout ((malloc s size).2.lo + 8) _
          rw [hlo]
          exact hm2
        exact key _ (hcs _)

theorem calloc_wf {s : Heap} (h : WF s) {nmemb size : Nat} {r : Nat × Heap}
    (hsz : nmemb * size + 24 ≤ 2 ^ 64) (hr : calloc s nmemb size = .ok r) : WF r.2 := by
  unfold calloc at hr
  by_cases hn : nmemb = 0
  · simp only [if_pos hn] at hr
    exact absurd hr (by simp)
  · simp only [if_neg hn] at hr
    have hmod : nmemb * size % 2 ^ 64 = nmemb * size := Nat.mod_eq_of_lt (by omega)
    by_cases ho : calloc_overflowed nmemb size = true
    · simp only [if_pos ho, Except.ok.injEq] at hr
      rw [← hr]; exact h
    · simp only [if_neg ho, hmod] at hr
      by_cases hz : (malloc s (nmemb * size)).1 = 0
      · simp only [if_pos hz, Except.ok.injEq] at hr
        rw [← hr]
        exact malloc_wf h _
      · simp only [if_neg hz, Except.ok.injEq] at hr
        rw [← hr]
        obtain ⟨bs, fl, hR⟩ := h
        have hpos : 0 < nmemb * size := by
          by_contra hc
          have : nmemb * size = 0 := by omega
          rw [this, malloc_zero (by rw [hR.listp]; omega)] at hz
          exact hz rfl
        obtain ⟨fl1, pre, bsz, post, hR1, hq, hle, _, _, hlo, _, _, _⟩ :=
          malloc_result hR hpos hz
        obtain ⟨had, _, hspec, _, _⟩ := adjust_spec (nmemb * size) hsz
        refine ⟨_, fl1, hR1.write_owned _ ?_⟩
        intro x hx
        unfold memset
        rw [if_neg]
        rintro ⟨hx1, hx2⟩
        apply hx
        rw [hlo]
        apply owned_mid <;> omega

/-- Every reachable state is well formed. -/
theorem reachable_wf {s : Heap} (h : Reachable s) : WF s := by
  induction h with
  | init s hbrk hal hroot hlim hinit => exact mm_init_wf hbrk hal hroot hlim hinit
  | malloc s size _ ih => exact malloc_wf ih size
  | free s p _ hp ih => exact free_wf ih hp
  | realloc s p size _ hp hsz ih => exact realloc_wf ih hp hsz
  | calloc s nmemb size r _ hsz hr ih => exact calloc_wf ih hsz hr
  | store s p x v _ hp h1 h2 ih => exact store_wf ih hp h1 h2

/-! ## The invariants of a well-formed heap, read off the heap walk -/

theorem Repr.hi {s : Heap} {bs : List (Nat × Bool)} {fl : List Nat} (h : Repr s bs fl) :
    mem_heap_hi s = s.lo + 15 + total bs := by
  have h1 := h.brk_eq
  have h2 := h.brk_le
  have h3 := h.limit_le
  unfold mem_heap_hi; omega

theorem wf_no_adjacent_free {s : Heap} (h : WF s) : NoAdjacentFree (heap_blocks s) := by
  obtain ⟨bs, fl, hR⟩ := h
  rw [hR.blocks]
  exact noAdjacentFree_layout hR.seg

theorem wf_prev_alloc {s : Heap} (h : WF s) : PrevAllocOK s := by
  obtain ⟨bs, fl, hR⟩ := h
  unfold PrevAllocOK
  rw [hR.blocks, lastState_layout, hR.hi]
  refine ⟨prevBits_layout hR.seg, ?_⟩
  rw [show s.lo + 15 + total bs - 7 = s.lo + 8 + total bs by omega]
  exact get_alloc_of_prev_of hR.epilogue (by decide)

theorem sum_layout (a : Nat) (bs : List (Nat × Bool)) :
    ((layout a bs).map (fun e => e.2.1)).sum = total bs := by
  induction bs generalizing a with
  | nil => rfl
  | cons b bs ih => simp only [layout, List.map_cons, List.sum_cons, total, ih]

theorem wf_tiled {s : Heap} (h : WF s) : HeapTiled s := by
  obtain ⟨bs, fl, hR⟩ := h
  have hsz := seg_sizes hR.seg
  unfold HeapTiled
  rw [hR.blocks, hR.hi]
  simp only [mem_heap_lo]
  rw [show s.lo + 15 + total bs - 7 = s.lo + 8 + total bs by omega]
  refine ⟨get_size_of hR.prologue (by decide) (by decide), get_alloc_of hR.prologue (by decide),
    get_size_of hR.epilogue (by decide) (by decide), get_alloc_of hR.epilogue (by decide),
    hR.listp, ?_, tiling_layout _ _, ?_⟩
  · intro e he
    have := layout_bounds hsz he
    omega
  · rw [sum_layout]; omega

theorem chain_listFrom {s : Heap} {p c : Nat} {fl : List Nat} (h : Chain s.mem p c fl) :
    ListFrom s c fl := by
  induction fl generalizing p c with
  | nil => exact h
  | cons b fl ih => exact ⟨h.1, h.2.1, ih h.2.2.2⟩

theorem chain_links {s : Heap} {p c : Nat} {fl : List Nat} (h : Chain s.mem p c fl)
    (hp : p = 0 ∨ load64 s.mem (p + 16) = c) :
    ∀ n ∈ fl, (blk_next s n ≠ 0 → blk_prev s (blk_next s n) = n) ∧
      (blk_prev s n ≠ 0 → blk_next s (blk_prev s n) = n) := by
  induction fl generalizing p c with
  | nil => intro n hn; simp at hn
  | cons b fl ih =>
    obtain ⟨h1, h2, h3, h4⟩ := h
    subst h1
    intro n hn
    rcases List.mem_cons.mp hn with rfl | hn
    · constructor
      · intro hne
        unfold blk_next blk_prev at *
        cases fl with
        | nil => exact absurd h4 hne
        | cons d fl => rw [h4.1]; exact h4.2.2.1
      · intro hne
        unfold blk_next blk_prev at *
        rw [h3] at hne ⊢
        rcases hp with hp | hp
        · exact absurd hp hne
        · exact hp
    · exact ih h4 (Or.inr rfl) n hn

theorem length_freeAddrs (a : Nat) (bs : List (Nat × Bool)) :
    (freeAddrs a bs).length = ((layout a bs).filter (fun e => !e.2.2)).length := by
  induction bs generalizing a with
  | nil => rfl
  | cons b bs ih =>
    simp only [freeAddrs, layout]
    cases hb : b.2
    · simp [List.filter_cons, hb, ih]
    · simp [List.filter_cons, hb, ih]

theorem wf_free_list {s : Heap} (h : WF s) : FreeListOK s := by
  obtain ⟨bs, fl, hR⟩ := h
  have hsz := seg_sizes hR.seg
  refine ⟨fl, chain_listFrom hR.chain, ?_, ?_, ?_, ?_, chain_links hR.chain (Or.inl rfl)⟩
  · exact pairwise_sep_nodup (pairwise_sep_perm hR.perm (freeAddrs_pairwise hsz _))
  · intro a
    rw [hR.blocks, hR.perm.mem_iff, mem_freeAddrs_iff]
  · rw [hR.blocks, hR.perm.length_eq, length_freeAddrs]
  · intro hne
    have hc := hR.chain
    cases fl with
    | nil => exact absurd hc hne
    | cons b fl =>
      unfold blk_prev
      rw [hc.1]; exact hc.2.2.1

theorem extend_heap_wf {s : Heap} (h : WF s) {size : Nat} (h16 : size % 16 = 0)
    (h32 : 32 ≤ size) (hlt : size < 2 ^ 64) : WF (extend_heap s size).2 := by
  obtain ⟨bs, fl, hR⟩ := h
  by_cases hle : s.brk + size ≤ s.limit
  · obtain ⟨pre1, rsz, fl1, h1, _⟩ := extend_heap_spec hR h16 h32 hlt hle
    exact ⟨_, _, h1⟩
  · rw [extend_heap_refused s size (by rw [round_up_id h16 hlt]; omega)]
    exact ⟨bs, fl, hR⟩

theorem wf_aligned {s : Heap} (h : WF s) (size : Nat) : (malloc s size).1 % 16 = 0 := by
  obtain ⟨bs, fl, hR⟩ := h
  by_cases hs : size = 0
  · subst hs
    rw [malloc_zero (by rw [hR.listp]; omega)]
    rfl
  · by_cases hp : (malloc s size).1 = 0
    · rw [hp]
    · obtain ⟨fl1, pre, bsz, post, hR1, hq, _, _, _, hlo, _⟩ :=
        malloc_result hR (Nat.pos_of_ne_zero hs) hp
      obtain ⟨_, _, _, _, hmod⟩ := hR1.alloc_block
      rw [hlo] at hmod
      rw [hq]; omega

/-! ## The concrete sessions are reachable -/

theorem reachable_heap0 : Reachable heap0 :=
  Reachable.init fresh rfl (by decide) rfl (by decide) (by decide)

theorem wf_heap0 : WF heap0 := reachable_wf reachable_heap0

theorem reachable_heap1 : Reachable heap1 := Reachable.malloc heap0 100 reachable_heap0

theorem wf_heap1 : WF heap1 := reachable_wf reachable_heap1

theorem live_heap1 : Live heap1 4112 := ⟨by decide, 112, by decide⟩

theorem reachable_heap1_marked : Reachable heap1_marked :=
  Reachable.store _ 4112 4168 34
    (Reachable.store heap1 4112 4136 34 reachable_heap1 live_heap1 (by decide) (by decide))
    ⟨by decide, 112, by decide⟩ (by decide) (by decide)

theorem live_heap1_marked : Live heap1_marked 4112 := ⟨by decide, 112, by decide⟩

theorem reachable_heap2 : Reachable heap2 := Reachable.malloc heap1 100 reachable_heap1

theorem reachable_heap2_marked : Reachable heap2_marked :=
  Reachable.store _ 4224 4265 16
    (Reachable.store _ 4224 4264 32
      (Reachable.store _ 4112 4137 17
        (Reachable.store _ 4112 4136 8
          (Reachable.store heap2 4112 4128 50 reachable_heap2
            ⟨by decide, 112, by decide⟩ (by decide) (by decide))
          ⟨by decide, 112, by decide⟩ (by decide) (by decide))
        ⟨by decide, 112, by decide⟩ (by decide) (by decide))
      ⟨by decide, 112, by decide⟩ (by decide) (by decide))
    ⟨by decide, 112, by decide⟩ (by decide) (by decide)

theorem live_heap2_marked : Live heap2_marked 4224 := ⟨by decide, 112, by decide⟩

theorem reachable_tight0 : Reachable tight0 :=
  Reachable.init tight rfl (by decide) rfl (by decide) (by decide)

theorem listFrom_heap_s4 : ListFrom heap_s4 heap_s4.root [4104, 4168] :=
  ⟨by decide, by decide, by decide, by decide, show blk_next heap_s4 4168 = 0 by decide⟩

theorem wf_heap_s4 : WF heap_s4 :=
  free_wf (malloc_wf (malloc_wf wf_heap0 24) 24) (Or.inr ⟨by decide, 32, by decide⟩)

/-! ## Claims -/

/-- C1: non-overlap.  On a well-formed heap, a successful `malloc(size)` with
`size > 0` returns the payload pointer of a block of the new heap walk, every
byte of that block lay in a block that was free before the call or at or above
the old epilogue word (the grown span), and every block that was allocated
before the call is disjoint from it, is still on the walk with the same size
and alloc bit, and keeps its payload bytes. -/
theorem malloc_non_overlap (s : Heap) (size : Nat) (hwf : WF s) (hsz : 0 < size)
    (hp : (malloc s size).1 ≠ 0) :
    8 ≤ (malloc s size).1 ∧ ∃ bsz,
      ((malloc s size).1 - 8, bsz, true) ∈ heap_blocks (malloc s size).2 ∧
      get_size (malloc s size).2 ((malloc s size).1 - 8) = bsz ∧
      (∀ x, (malloc s size).1 - 8 ≤ x → x < (malloc s size).1 - 8 + bsz →
        (∃ e ∈ heap_blocks s, e.2.2 = false ∧ e.1 ≤ x ∧ x < e.1 + e.2.1) ∨ s.brk - 8 ≤ x) ∧
      ∀ e ∈ heap_blocks s, e.2.2 = true →
        (e.1 + e.2.1 ≤ (malloc s size).1 - 8 ∨ (malloc s size).1 - 8 + bsz ≤ e.1) ∧
        e ∈ heap_blocks (malloc s size).2 ∧
        get_size (malloc s size).2 e.1 = e.2.1 ∧ get_alloc (malloc s size).2 e.1 = true ∧
        ∀ x, e.1 + 8 ≤ x → x < e.1 + e.2.1 → (malloc s size).2.mem x = s.mem x := by
  obtain ⟨bs, fl, hR⟩ := hwf
  obtain ⟨fl1, pre, bsz, post, hR1, hq, hadj, hkeep, hfrom, hlo, hlim, hbrk, hframe⟩ :=
    malloc_result hR hsz hp
  have hsz0 := seg_sizes hR.seg
  have hsz1 := seg_sizes hR1.seg
  have hb1 : heap_blocks (malloc s size).2 =
      layout (s.lo + 8) (pre ++ [(bsz, true)] ++ post) := by rw [hR1.blocks, hlo]
  have hnew : (s.lo + 8 + total pre, bsz, true) ∈
      layout (s.lo + 8) (pre ++ [(bsz, true)] ++ post) := layout_mem_mid _ pre post (bsz, true)
  have hbn := layout_bounds hsz1 hnew
  simp only at hbn
  obtain ⟨hhdr, h16, h32, hb, hmod⟩ := hR1.alloc_block
  rw [hlo] at hhdr
  rw [hb1, hR.blocks, hq, show s.lo + 8 + total pre + 8 - 8 = s.lo + 8 + total pre by omega]
  refine ⟨by omega, bsz, hnew, get_size_of hhdr h16 (by omega), hfrom, ?_⟩
  intro e he hal
  have he1 := hkeep e he hal
  have hbe := layout_bounds hsz0 he
  refine ⟨?_, he1, ?_⟩
  · rcases layout_disjoint hsz1 he1 hnew with heq | hd | hd
    · exfalso
      have e1 : e.1 = s.lo + 8 + total pre := by rw [heq]
      rcases hfrom (s.lo + 8 + total pre) (Nat.le_refl _) (by omega) with
        ⟨e2, he2, hf2, h1, h2⟩ | hge
      · have hb2 := layout_bounds hsz0 he2
        rcases layout_disjoint hsz0 he he2 with h | h | h
        · rw [h] at hal; rw [hal] at hf2; exact Bool.noConfusion hf2
        · omega
        · omega
      · have := hR.brk_eq
        omega
    · left; exact hd
    · right; exact hd
  · obtain ⟨pre2, post2, hbs2, hx2⟩ := layout_split he1
    rw [hal] at hbs2
    have hR2 := hR1
    rw [hbs2] at hR2
    obtain ⟨hhdr2, h216, h232, hb2, _⟩ := hR2.alloc_block
    rw [hlo, ← hx2] at hhdr2
    refine ⟨get_size_of hhdr2 h216 (by omega), get_alloc_of hhdr2 h216, ?_⟩
    intro x hx1 hx2
    obtain ⟨pre0, post0, hbs0, hx0⟩ := layout_split he
    rw [hal] at hbs0
    apply hframe
    rw [hbs0]
    exact owned_mid (by omega) (by omega)

theorem malloc_non_overlap_witness :
    WF heap1 ∧ 0 < 24 ∧ (malloc heap1 24).1 ≠ 0 ∧ 8 ≤ (malloc heap1 24).1 ∧ ∃ bsz,
      ((malloc heap1 24).1 - 8, bsz, true) ∈ heap_blocks (malloc heap1 24).2 ∧
      get_size (malloc heap1 24).2 ((malloc heap1 24).1 - 8) = bsz ∧
      (∀ x, (malloc heap1 24).1 - 8 ≤ x → x < (malloc heap1 24).1 - 8 + bsz →
        (∃ e ∈ heap_blocks heap1, e.2.2 = false ∧ e.1 ≤ x ∧ x < e.1 + e.2.1) ∨
          heap1.brk - 8 ≤ x) ∧
      ∀ e ∈ heap_blocks heap1, e.2.2 = true →
        (e.1 + e.2.1 ≤ (malloc heap1 24).1 - 8 ∨ (malloc heap1 24).1 - 8 + bsz ≤ e.1) ∧
        e ∈ heap_blocks (malloc heap1 24).2 ∧
        get_size (malloc heap1 24).2 e.1 = e.2.1 ∧ get_alloc (malloc heap1 24).2 e.1 = true ∧
        ∀ x, e.1 + 8 ≤ x → x < e.1 + e.2.1 → (malloc heap1 24).2.mem x = heap1.mem x :=
  ⟨wf_heap1, by decide, by decide, malloc_non_overlap heap1 24 wf_heap1 (by decide) (by decide)⟩

/-- C2, evaluated at the failing request: `malloc(2^64 - 8)` on the initial
heap succeeds, the adjusted size wraps to 32, and the block handed out has 24
payload bytes, fewer than requested. -/
theorem malloc_huge_request_undersized :
    (malloc heap0 (2 ^ 64 - 8)).1 = 4112 ∧
    adjust (2 ^ 64 - 8) = 32 ∧
    get_size (malloc heap0 (2 ^ 64 - 8)).2 (payload_to_header 4112) = 32 ∧
    get_alloc (malloc heap0 (2 ^ 64 - 8)).2 (payload_to_header 4112) = true ∧
    get_payload_size (malloc heap0 (2 ^ 64 - 8)).2 (payload_to_header 4112) < 2 ^ 64 - 8 := by
  decide

/-- C3, evaluated at a failing session: after `p0 = malloc(100)`,
`p = malloc(100)` and five byte stores of the client into its own payloads,
`realloc(p, 2^64 - 8)` returns a 32-byte block and copies 104 bytes into it;
the next `malloc(40)` returns `4136`, which is not a multiple of 16. -/
theorem malloc_misaligned_after_wrapping_realloc :
    Reachable heap2_marked ∧ Live heap2_marked 4224 ∧
    (realloc heap2_marked 4224 (2 ^ 64 - 8)).1 = 4336 ∧
    (malloc (realloc heap2_marked 4224 (2 ^ 64 - 8)).2 40).1 = 4136 ∧
    (malloc (realloc heap2_marked 4224 (2 ^ 64 - 8)).2 40).1 % 16 ≠ 0 :=
  ⟨reachable_heap2_marked, live_heap2_marked, by decide, by decide, by decide⟩

/-- C4, evaluated at a failing session: after `p = malloc(100)` and two byte
stores of the client into its payload the heap is well-formed and has no two
adjacent free blocks; `realloc(p, 2^64 - 8)` then leaves the free blocks at
`4248` and `4280` next to each other on the heap walk. -/
theorem realloc_wrap_leaves_adjacent_free :
    Reachable heap1_marked ∧ WF heap1_marked ∧ NoAdjacentFree (heap_blocks heap1_marked) ∧
    Live heap1_marked 4112 ∧
    heap_blocks (realloc heap1_marked 4112 (2 ^ 64 - 8)).2 =
      [(4104, 112, false), (4216, 32, true), (4248, 32, false), (4280, 32, false)] ∧
    ¬ NoAdjacentFree (heap_blocks (realloc heap1_marked 4112 (2 ^ 64 - 8)).2) := by
  have hb : heap_blocks (realloc heap1_marked 4112 (2 ^ 64 - 8)).2 =
      [(4104, 112, false), (4216, 32, true), (4248, 32, false), (4280, 32, false)] := by decide
  refine ⟨reachable_heap1_marked, reachable_wf reachable_heap1_marked,
    wf_no_adjacent_free (reachable_wf reachable_heap1_marked), live_heap1_marked, hb, ?_⟩
  rw [hb]
  simp [NoAdjacentFree]

/-- C5: prev-alloc bit consistency.  On a well-formed heap, after `malloc`,
after `free` of a live pointer and after `extend_heap` with a legal block
size, and after a successful `mm_init` on an untouched provider, bit 1 of the
header of every block of the heap walk and of the epilogue equals the alloc
bit of the block before it, the prologue counting as allocated. -/
theorem prev_alloc_bits_preserved (s : Heap) (hwf : WF s) :
    (∀ size, PrevAllocOK (malloc s size).2) ∧
    (∀ p, Live s p → PrevAllocOK (free s p)) ∧
    (∀ size, size % 16 = 0 → 32 ≤ size → size < 2 ^ 64 →
      PrevAllocOK (extend_heap s size).2) ∧
    (∀ t : Heap, t.brk = t.lo → t.lo % 16 = 0 → t.root = 0 → t.limit ≤ 2 ^ 64 →
      (mm_init t).1 = true → PrevAllocOK (mm_init t).2) :=
  ⟨fun size => wf_prev_alloc (malloc_wf hwf size),
    fun _ hp => wf_prev_alloc (free_wf hwf (Or.inr hp)),
    fun _ h16 h32 hlt => wf_prev_alloc (extend_heap_wf hwf h16 h32 hlt),
    fun _ h1 h2 h3 h4 h5 => wf_prev_alloc (mm_init_wf h1 h2 h3 h4 h5)⟩

theorem prev_alloc_bits_preserved_witness :
    WF heap1 ∧ Live heap1 4112 ∧ PrevAllocOK (malloc heap1 24).2 ∧
    PrevAllocOK (free heap1 4112) ∧ PrevAllocOK (extend_heap heap1 4096).2 ∧
    PrevAllocOK (mm_init fresh).2 :=
  ⟨wf_heap1, live_heap1, (prev_alloc_bits_preserved heap1 wf_heap1).1 24,
    (prev_alloc_bits_preserved heap1 wf_heap1).2.1 4112 live_heap1,
    (prev_alloc_bits_preserved heap1 wf_heap1).2.2.1 4096 (by decide) (by decide) (by decide),
    (prev_alloc_bits_preserved heap1 wf_heap1).2.2.2 fresh rfl (by decide) rfl (by decide)
      (by decide)⟩

/-- C6: free-list consistency.  On a well-formed heap, after `malloc` and
after `free` of a live pointer, the walk from `root` via `next` is a finite
list without repetition whose nodes are exactly the free blocks of the heap
walk (so its length is the free-block count), `root.prev` is `NULL`, and
`n.next.prev = n`, `n.prev.next = n` hold for every node wherever the inner
pointer is not `NULL`. -/
theorem free_list_consistent (s : Heap) (hwf : WF s) :
    (∀ size, FreeListOK (malloc s size).2) ∧ ∀ p, Live s p → FreeListOK (free s p) :=
  ⟨fun size => wf_free_list (malloc_wf hwf size),
    fun _ hp => wf_free_list (free_wf hwf (Or.inr hp))⟩

theorem free_list_consistent_witness :
    WF heap1 ∧ Live heap1 4112 ∧ FreeListOK (malloc heap1 24).2 ∧
    FreeListOK (free heap1 4112) :=
  ⟨wf_heap1, live_heap1, (free_list_consistent heap1 wf_heap1).1 24,
    (free_list_consistent heap1 wf_heap1).2 4112 live_heap1⟩

/-- C7, evaluated at a failing session: after `p = malloc(100)` the heap is
tiled from `heap_lo + 8` to the epilogue; after `realloc(p, 2^64 - 8)` the
heap walk ends at `4248`, far below the epilogue word at `6152`, because the
header at `4248` was overwritten by the copy. -/
theorem realloc_wrap_breaks_tiling :
    Reachable heap1 ∧ HeapTiled heap1 ∧ Live heap1 4112 ∧
    (realloc heap1 4112 (2 ^ 64 - 8)).1 = 4224 ∧
    heap_blocks (realloc heap1 4112 (2 ^ 64 - 8)).2 = [(4104, 112, false), (4216, 32, true)] ∧
    mem_heap_hi (realloc heap1 4112 (2 ^ 64 - 8)).2 - 7 = 6152 ∧
    ¬ HeapTiled (realloc heap1 4112 (2 ^ 64 - 8)).2 := by
  have hb : heap_blocks (realloc heap1 4112 (2 ^ 64 - 8)).2 =
      [(4104, 112, false), (4216, 32, true)] := by decide
  have hlo : mem_heap_lo (realloc heap1 4112 (2 ^ 64 - 8)).2 + 8 = 4104 := by decide
  have hhi : mem_heap_hi (realloc heap1 4112 (2 ^ 64 - 8)).2 - 7 = 6152 := by decide
  refine ⟨reachable_heap1, wf_tiled wf_heap1, live_heap1, by decide, hb, hhi, ?_⟩
  intro h
  have ht := h.2.2.2.2.2.2.1
  rw [hb, hlo, hhi] at ht
  simp [Tiling] at ht

/-- C8: out-of-memory atomicity.  On an initialized heap, when `find_fit`
finds no block for the adjusted size and the provider refuses the growth,
`malloc(size)` returns `NULL` with the whole state unchanged, and so does
`realloc(p, size)` for every non-`NULL` `p`. -/
theorem malloc_oom_atomic (s : Heap) (size : Nat) (hinit : s.heap_listp ≠ 0) (hsz : 0 < size)
    (hfit : find_fit s (adjust size) = 0)
    (hrefuse : mem_sbrk s (round_up (max (adjust size) chunksize) dsize) = none) :
    malloc s size = (0, s) ∧ ∀ p, p ≠ 0 → realloc s p size = (0, s) := by
  have hm : malloc s size = (0, s) := by
    unfold malloc
    simp only [if_neg hinit, if_neg (show ¬ size = 0 by omega), hfit, if_true]
    unfold extend_heap
    simp only [hrefuse, if_true]
  refine ⟨hm, ?_⟩
  intro p hp
  unfold realloc
  simp only [if_neg (show ¬ size = 0 by omega), if_neg hp, hm, if_true]

theorem malloc_oom_atomic_witness :
    tight0.heap_listp ≠ 0 ∧ 0 < 4000 ∧ find_fit tight0 (adjust 4000) = 0 ∧
    malloc tight0 4000 = (0, tight0) ∧ ∀ p, p ≠ 0 → realloc tight0 p 4000 = (0, tight0) :=
  ⟨by decide, by decide, by decide,
    malloc_oom_atomic tight0 4000 (by decide) (by decide) (by decide) rfl⟩

/-- The wrapped product divided by `nmemb` differs from `sz` exactly on
overflow. -/
theorem calloc_overflowed_iff (nmemb sz : Nat) (hn : 0 < nmemb) :
    calloc_overflowed nmemb sz = true ↔ 2 ^ 64 ≤ nmemb * sz := by
  unfold calloc_overflowed
  simp only [bne_iff_ne, ne_eq]
  constructor
  · intro h
    by_contra hlt
    apply h
    rw [Nat.mod_eq_of_lt (by omega)]
    exact Nat.mul_div_cancel_left sz hn
  · intro h heq
    have h1 : nmemb * sz % 2 ^ 64 < nmemb * sz := by
      have := Nat.mod_lt (nmemb * sz) (show 0 < 2 ^ 64 by decide)
      omega
    have h2 : nmemb * sz % 2 ^ 64 / nmemb < sz := by
      rw [Nat.div_lt_iff_lt_mul hn]
      rw [Nat.mul_comm sz nmemb]; exact h1
    omega

/-- C9: the overflow test of `calloc`.  For `nmemb > 0` the test
`((nmemb * sz) mod 2^64) / nmemb != sz` is true exactly when the product
`nmemb * sz` is at least `2^64`; an overflowing request returns `NULL` with
the heap unchanged, and a non-overflowing one passes the test and goes on to
`malloc` and `memset`. -/
theorem calloc_overflow_check (nmemb sz : Nat) (hn : 0 < nmemb) :
    (calloc_overflowed nmemb sz = true ↔ 2 ^ 64 ≤ nmemb * sz) ∧
    (2 ^ 64 ≤ nmemb * sz → ∀ s, calloc s nmemb sz = .ok (0, s)) ∧
    (nmemb * sz < 2 ^ 64 → ∀ s, calloc s nmemb sz =
      .ok (if (malloc s (nmemb * sz)).1 = 0 then (0, (malloc s (nmemb * sz)).2)
           else ((malloc s (nmemb * sz)).1,
             { (malloc s (nmemb * sz)).2 with
               mem := memset (malloc s (nmemb * sz)).2.mem (malloc s (nmemb * sz)).1 0
                 (nmemb * sz) }))) := by
  have key := calloc_overflowed_iff nmemb sz hn
  refine ⟨key, ?_, ?_⟩
  · intro h s
    unfold calloc
    rw [if_neg (by omega), if_pos (key.mpr h)]
  · intro h s
    have hno : ¬ (calloc_overflowed nmemb sz = true) := fun hc => by
      have := key.mp hc; omega
    unfold calloc
    rw [if_neg (by omega), if_neg hno]
    simp only [Nat.mod_eq_of_lt h]
    split <;> rfl

theorem calloc_overflow_check_witness :
    0 < 2 ^ 64 - 1 ∧ calloc_overflowed (2 ^ 64 - 1) 2 = true ∧
      ∀ s, calloc s (2 ^ 64 - 1) 2 = .ok (0, s) :=
  ⟨by decide, (calloc_overflow_check (2 ^ 64 - 1) 2 (by decide)).1.mpr (by decide),
    (calloc_overflow_check (2 ^ 64 - 1) 2 (by decide)).2.1 (by decide)⟩

/-- C10, evaluated at the failing requests: with `nmemb = 0` the overflow
test of `calloc` divides by zero, whatever the heap and `sz`. -/
theorem calloc_zero_nmemb_faults (s : Heap) (sz : Nat) :
    calloc s 0 sz = .error Fault.division_by_zero := by
  unfold calloc; rfl

/-- C11, evaluated at a failing request: `p = malloc(100)` on the initial heap
gives `p = 4112`; `realloc(p, 2^64 - 8)` returns `q = 4224`, a block with 24
payload bytes, and the byte at `q + 32`, one of the first `min(100, 2^64 - 8)`
bytes, is `8` after the call while the byte at `p + 32` was `0` before it. -/
theorem realloc_wrap_loses_bytes :
    (malloc heap0 100).1 = 4112 ∧ Live heap1 4112 ∧
    (realloc heap1 4112 (2 ^ 64 - 8)).1 = 4224 ∧
    get_size (realloc heap1 4112 (2 ^ 64 - 8)).2 (payload_to_header 4224) = 32 ∧
    32 < min 100 (2 ^ 64 - 8) ∧
    heap1.mem (4112 + 32) = 0 ∧
    (realloc heap1 4112 (2 ^ 64 - 8)).2.mem (4224 + 32) = 8 :=
  ⟨by decide, live_heap1, by decide, by decide, by decide, by decide, by decide⟩

/-- C12: the degenerate cases of `realloc`.  For `n > 0`, `realloc(NULL, n)`
returns the pointer and leaves the state of `malloc(n)`; `realloc(p, 0)`
returns `NULL` and leaves the state of `free(p)`, for every `p`. -/
theorem realloc_degenerate (s : Heap) (p n : Nat) (hn : 0 < n) :
    realloc s 0 n = malloc s n ∧ realloc s p 0 = (0, free s p) := by
  constructor
  · unfold realloc
    rw [if_neg (by omega), if_pos rfl]
  · unfold realloc
    rw [if_pos rfl]

theorem realloc_degenerate_witness :
    0 < 24 ∧ realloc heap1 0 24 = malloc heap1 24 ∧
    realloc heap1 4112 0 = (0, free heap1 4112) :=
  ⟨by decide, realloc_degenerate heap1 4112 24 (by decide)⟩

/-- C13, evaluated at a failing input: `mm_init` on an empty provider heap
whose global `root` still holds `4216` from an earlier use.  `mm_init` returns
true but never writes `root`, so the new block at `4104` is linked in front of
the stale node and its `next` word is `4216`, not `NULL`.  The heap walk has
one free block while the free list has two nodes, and `mm_checkheap` returns
false.  The next `malloc(100)` takes the stale node and returns `4224`, inside
the block at `4104` that the walk still lists as free; a following
`malloc(2000)` returns `4112`, whose payload covers `4224`. -/
theorem mm_init_stale_root_kept :
    stale.brk = stale.lo ∧ stale.root = 4216 ∧ (mm_init stale).1 = true ∧
    (mm_init stale).2.root = 4104 ∧ blk_next (mm_init stale).2 4104 = 4216 ∧
    ¬ (blk_next (mm_init stale).2 (mm_init stale).2.root = 0) ∧
    heap_blocks (mm_init stale).2 = [(4104, 2048, false)] ∧
    blk_next (mm_init stale).2 4216 = 0 ∧
    mm_checkheap (mm_init stale).2 20 = some false ∧
    (malloc (mm_init stale).2 100).1 = 4224 ∧
    heap_blocks (malloc (mm_init stale).2 100).2 = [(4104, 2048, false)] ∧
    (malloc (malloc (mm_init stale).2 100).2 2000).1 = 4112 ∧
    4112 ≤ 4224 ∧ 4224 < 4112 + 2000 := by
  decide

/-- Sizes outside the scope of C17: for `s1 = 2^64 - 8` the spec's adjusted
size is `2^64`, while the code computes 32 (the wrap of C2).  With `s2 = 1`,
`a = 4112` and `b = 4144` get 32-byte blocks covering `[4104, 4168)`; after
both are freed the heap is one free block of 2048 bytes and
`c = malloc(s1 + s2)` returns `a`, but `[c, c + s1 + s2)` does not fit in the
64 bytes the two blocks covered. -/
theorem coalesced_alloc_wrap_escapes_span :
    adjust (2 ^ 64 - 8) + adjust 1 ≤ 2048 ∧ ¬ (adjusted_size (2 ^ 64 - 8) ≤ 2048) ∧
    (malloc heap0 (2 ^ 64 - 8)).1 = 4112 ∧
    (malloc (malloc heap0 (2 ^ 64 - 8)).2 1).1 = 4144 ∧
    heap_blocks (malloc (malloc heap0 (2 ^ 64 - 8)).2 1).2 =
      [(4104, 32, true), (4136, 32, true), (4168, 1984, false)] ∧
    heap_blocks (two_allocs_freed heap0 (2 ^ 64 - 8) 1) = [(4104, 2048, false)] ∧
    (malloc (two_allocs_freed heap0 (2 ^ 64 - 8) 1) (2 ^ 64 - 8 + 1)).1 = 4112 ∧
    ¬ (4112 + (2 ^ 64 - 8 + 1) ≤ 4168) := by
  decide

/-! ## `find_fit` is a bounded best fit -/

theorem get_size_le (s : Heap) (a : Nat) : get_size s a ≤ 2 ^ 64 - 16 := by
  unfold get_size extract_size
  exact Nat.and_le_right

theorem bestFit_of_none {s : Heap} {asize : Nat} {V : List Nat}
    (h : ∀ y ∈ V, get_size s y < asize) : BestFit s asize V 0 :=
  Or.inl ⟨rfl, h⟩

/-- The loop of `find_fit`, started after the nodes `vis` were visited without
an exact match and with `best_fit_block` the best of them, ends on the best
fit of `vis` followed by the next `n` nodes. -/
theorem find_fit_loop_best (s : Heap) (asize : Nat) :
    ∀ (n cur : Nat) (rest vis : List Nat) (best size_fit : Nat),
      ListFrom s cur rest →
      (∀ y ∈ vis, get_size s y ≠ asize) →
      ((best = 0 ∧ size_fit = 2 ^ 64 - 1 ∧ ∀ y ∈ vis, get_size s y < asize) ∨
        (best ≠ 0 ∧ size_fit = get_size s best ∧ ∃ pre post, vis = pre ++ best :: post ∧
          asize ≤ get_size s best ∧
          (∀ y ∈ vis, asize ≤ get_size s y → get_size s best ≤ get_size s y) ∧
          ∀ y ∈ pre, get_size s y ≠ get_size s best)) →
      BestFit s asize (vis ++ rest.take n) (find_fit_loop s asize n cur best size_fit) := by
  have fin : ∀ (vis : List Nat) (best size_fit : Nat),
      ((best = 0 ∧ size_fit = 2 ^ 64 - 1 ∧ ∀ y ∈ vis, get_size s y < asize) ∨
        (best ≠ 0 ∧ size_fit = get_size s best ∧ ∃ pre post, vis = pre ++ best :: post ∧
          asize ≤ get_size s best ∧
          (∀ y ∈ vis, asize ≤ get_size s y → get_size s best ≤ get_size s y) ∧
          ∀ y ∈ pre, get_size s y ≠ get_size s best)) → BestFit s asize vis best := by
    intro vis best size_fit h
    rcases h with ⟨h1, _, h3⟩ | ⟨h1, _, pre, post, h3, h4, h5, h6⟩
    · exact Or.inl ⟨h1, h3⟩
    · exact Or.inr ⟨h1, pre, post, h3, h4, h5, h6⟩
  intro n
  induction n with
  | zero =>
    intro cur rest vis best size_fit _ _ hinv
    simp only [List.take_zero, List.append_nil, find_fit_loop]
    exact fin vis best size_fit hinv
  | succ n ih =>
    intro cur rest vis best size_fit hl hne hinv
    cases rest with
    | nil =>
      have hc : cur = 0 := hl
      subst hc
      simp only [List.take_nil, List.append_nil, find_fit_loop, if_true]
      exact fin vis best size_fit hinv
    | cons b rest =>
      obtain ⟨hc, hb0, hl2⟩ := hl
      subst hc
      have hle := get_size_le s cur
      rw [List.take_succ_cons]
      unfold find_fit_loop
      rw [if_neg hb0]
      dsimp only
      by_cases hex : get_size s cur = asize
      · rw [if_pos hex]
        refine Or.inr ⟨hb0, vis, rest.take n, rfl, by omega, ?_, ?_⟩
        · intro y _ hy; omega
        · intro y hy; rw [hex]; exact hne y hy
      · rw [if_neg hex]
        have hV : vis ++ cur :: rest.take n = (vis ++ [cur]) ++ rest.take n := by
          rw [List.append_assoc]; rfl
        have hne2 : ∀ y ∈ vis ++ [cur], get_size s y ≠ asize := by
          intro y hy
          rcases List.mem_append.mp hy with hy | hy
          · exact hne y hy
          · rw [List.mem_singleton.mp hy]; exact hex
        by_cases hbt : asize ≤ get_size s cur ∧ get_size s cur < size_fit
        · rw [if_pos hbt, hV]
          apply ih _ _ _ _ _ hl2 hne2
          refine Or.inr ⟨hb0, rfl, vis, [], rfl, hbt.1, ?_, ?_⟩
          · intro y hy hfit
            rcases List.mem_append.mp hy with hy | hy
            · rcases hinv with ⟨_, _, h3⟩ | ⟨_, h2, _, _, _, _, h5, _⟩
              · have := h3 y hy; omega
              · have := h5 y hy hfit; omega
            · rw [List.mem_singleton.mp hy]
          · intro y hy heq
            rcases hinv with ⟨_, _, h3⟩ | ⟨_, h2, _, _, _, _, h5, _⟩
            · have := h3 y hy; omega
            · have := h5 y hy (by omega); omega
        · rw [if_neg hbt, hV]
          apply ih _ _ _ _ _ hl2 hne2
          rcases hinv with ⟨h1, h2, h3⟩ | ⟨h1, h2, pre, post, h3, h4, h5, h6⟩
          · refine Or.inl ⟨h1, h2, ?_⟩
            intro y hy
            rcases List.mem_append.mp hy with hy | hy
            · exact h3 y hy
            · rw [List.mem_singleton.mp hy]
              by_contra hc
              exact hbt ⟨by omega, by omega⟩
          · refine Or.inr ⟨h1, h2, pre, post ++ [cur], ?_, h4, ?_, h6⟩
            · rw [h3, List.append_assoc]; rfl
            · intro y hy hfit
              rcases List.mem_append.mp hy with hy | hy
              · exact h5 y hy hfit
              · rw [List.mem_singleton.mp hy] at hfit ⊢
                by_contra hc
                exact hbt ⟨hfit, by omega⟩

theorem find_fit_best {s : Heap} {fl : List Nat} (asize : Nat) (h : ListFrom s s.root fl) :
    BestFit s asize (fl.take 200) (find_fit s asize) := by
  have := find_fit_loop_best s asize 200 s.root fl [] 0 (2 ^ 64 - 1) h
    (by intro y hy; simp at hy) (Or.inl ⟨rfl, rfl, by intro y hy; simp at hy⟩)
  simpa using this

/-- C14: `find_fit` is a bounded best fit.  For a free list `fl` walked from
`root` to `NULL`, with `V` its first 200 nodes, `find_fit(asize)` is `NULL`
exactly when no node of `V` has size at least `asize`; otherwise it is a node
of `V` that fits, no fitting node of `V` is smaller, and no node before it in
`V` has the same size. -/
theorem find_fit_bounded_best_fit (s : Heap) (fl : List Nat) (asize : Nat)
    (hfl : ListFrom s s.root fl) :
    (find_fit s asize = 0 ↔ ∀ n ∈ fl.take 200, get_size s n < asize) ∧
    (find_fit s asize ≠ 0 →
      ∃ pre post, fl.take 200 = pre ++ find_fit s asize :: post ∧
        asize ≤ get_size s (find_fit s asize) ∧
        (∀ n ∈ fl.take 200, asize ≤ get_size s n →
          get_size s (find_fit s asize) ≤ get_size s n) ∧
        ∀ n ∈ pre, get_size s n ≠ get_size s (find_fit s asize)) := by
  have hB := find_fit_best asize hfl
  constructor
  · constructor
    · intro h0
      rcases hB with ⟨_, h2⟩ | ⟨h1, _⟩
      · exact h2
      · exact absurd h0 h1
    · intro hall
      rcases hB with ⟨h1, _⟩ | ⟨_, pre, post, h3, h4, _, _⟩
      · exact h1
      · have := hall (find_fit s asize) (by rw [h3]; simp)
        omega
  · intro hne
    rcases hB with ⟨h1, _⟩ | ⟨_, pre, post, h3, h4, h5, h6⟩
    · exact absurd h1 hne
    · exact ⟨pre, post, h3, h4, h5, h6⟩

theorem find_fit_bounded_best_fit_witness :
    ListFrom heap_s4 heap_s4.root [4104, 4168] ∧
    (find_fit heap_s4 48 = 0 ↔ ∀ n ∈ [4104, 4168].take 200, get_size heap_s4 n < 48) ∧
    (find_fit heap_s4 48 ≠ 0 →
      ∃ pre post, [4104, 4168].take 200 = pre ++ find_fit heap_s4 48 :: post ∧
        48 ≤ get_size heap_s4 (find_fit heap_s4 48) ∧
        (∀ n ∈ [4104, 4168].take 200, 48 ≤ get_size heap_s4 n →
          get_size heap_s4 (find_fit heap_s4 48) ≤ get_size heap_s4 n) ∧
        ∀ n ∈ pre, get_size heap_s4 n ≠ get_size heap_s4 (find_fit heap_s4 48)) :=
  ⟨listFrom_heap_s4, find_fit_bounded_best_fit heap_s4 [4104, 4168] 48 listFrom_heap_s4⟩

/-! ## Postconditions of `place` and `coalesce` -/

/-- The header after a block of a well-formed heap (a block header or the
epilogue) carries the block's allocation state in bit 1. -/
theorem Repr.after_block {s : Heap} {pre post : List (Nat × Bool)} {c : Nat} {a : Bool}
    {fl : List Nat} (h : Repr s (pre ++ [(c, a)] ++ post) fl) :
    get_alloc_of_prev s (s.lo + 8 + total pre + c) = a ∧
    get_alloc s (s.lo + 8 + total pre + c) = headAlloc post := by
  have hseg := h.seg
  rw [seg_append] at hseg
  have hep := h.epilogue
  rw [total_append, total_snoc, lastAlloc_append, lastAlloc_snoc] at hep
  rw [total_snoc, lastAlloc_snoc] at hseg
  simp only at hep hseg
  rw [show s.lo + 8 + (total pre + c) = s.lo + 8 + total pre + c by omega] at hseg
  cases post with
  | nil =>
    simp only [total, lastAlloc, Nat.add_zero] at hep
    rw [show s.lo + 8 + (total pre + c) = s.lo + 8 + total pre + c by omega] at hep
    exact ⟨get_alloc_of_prev_of hep (by decide), get_alloc_of hep (by decide)⟩
  | cons d post =>
    have h2 := hseg.2
    simp only [Seg] at h2
    exact ⟨get_alloc_of_prev_of h2.1 h2.2.1, get_alloc_of h2.1 h2.2.1⟩

theorem Repr.nodup {s : Heap} {bs : List (Nat × Bool)} {fl : List Nat} (h : Repr s bs fl) :
    fl.Nodup :=
  pairwise_sep_nodup (pairwise_sep_perm h.perm (freeAddrs_pairwise (seg_sizes h.seg) _))

theorem Repr.sum_blocks {s : Heap} {bs : List (Nat × Bool)} {fl : List Nat} (h : Repr s bs fl) :
    ((heap_blocks s).map (fun e => e.2.1)).sum = total bs := by
  rw [h.blocks, sum_layout]

/-- C20: postcondition of `place`.  For a free block `b` of size `csz` of a
well-formed heap and `asize` a multiple of 16 with `32 ≤ asize ≤ csz`: when
`csz - asize ≥ 32`, `b` becomes an allocated block of size `asize` with
prev-alloc 1 and `b + asize` a free block of size `csz - asize` with
prev-alloc 1, a matching footer, and a place in the free list; otherwise `b`
is allocated at size `csz` and bit 1 of the header after it is set.  In both
cases the heap stays well formed, `b` leaves the free list, every other node
stays, and the sum of the block sizes is unchanged. -/
theorem place_postcondition (s : Heap) (b csz asize : Nat) (hwf : WF s)
    (hb : (b, csz, false) ∈ heap_blocks s) (h16 : asize % 16 = 0) (h32 : 32 ≤ asize)
    (hle : asize ≤ csz) :
    WF (place s b asize) ∧
    (asize + 32 ≤ csz →
      get_size (place s b asize) b = asize ∧ get_alloc (place s b asize) b = true ∧
      get_alloc_of_prev (place s b asize) b = true ∧
      get_size (place s b asize) (b + asize) = csz - asize ∧
      get_alloc (place s b asize) (b + asize) = false ∧
      get_alloc_of_prev (place s b asize) (b + asize) = true ∧
      load64 (place s b asize).mem (b + csz - 8) = pack (csz - asize) false false ∧
      (b + asize, csz - asize, false) ∈ heap_blocks (place s b asize)) ∧
    (csz < asize + 32 →
      get_size (place s b asize) b = csz ∧ get_alloc (place s b asize) b = true ∧
      get_alloc_of_prev (place s b asize) b = true ∧
      get_alloc_of_prev (place s b asize) (b + csz) = true) ∧
    (∃ fl fl1, ListFrom s s.root fl ∧ ListFrom (place s b asize) (place s b asize).root fl1 ∧
      b ∈ fl ∧ b ∉ fl1 ∧ (∀ n ∈ fl, n ≠ b → n ∈ fl1) ∧
      (asize + 32 ≤ csz → b + asize ∈ fl1)) ∧
    ((heap_blocks (place s b asize)).map (fun e => e.2.1)).sum =
      ((heap_blocks s).map (fun e => e.2.1)).sum := by
  obtain ⟨bs, fl, hR⟩ := hwf
  rw [hR.blocks] at hb
  obtain ⟨pre, post, hbs, hx⟩ := layout_split hb
  simp only at hbs hx
  subst hbs
  subst hx
  obtain ⟨hhdr, hc16, hc32, hpa, hfoot, hbound, hmem, hmod⟩ := hR.free_block
  have hnd := hR.nodup
  by_cases hsp : asize + 32 ≤ csz
  · obtain ⟨hP, _⟩ := place_split hR h16 h32 hsp
    have hlo := place_lo s (s.lo + 8 + total pre) asize
    refine ⟨⟨_, _, hP⟩, ?_, fun hc => absurd hsp (by omega), ?_, ?_⟩
    · intro _
      have hP1 : Repr (place s (s.lo + 8 + total pre) asize)
          (pre ++ [(asize, true)] ++ ((csz - asize, false) :: post))
          ((s.lo + 8 + total pre + asize) :: fl.erase (s.lo + 8 + total pre)) := by
        have e : pre ++ [(asize, true)] ++ ((csz - asize, false) :: post) =
            pre ++ [(asize, true), (csz - asize, false)] ++ post := by simp
        rw [e]; exact hP
      have hP2 : Repr (place s (s.lo + 8 + total pre) asize)
          ((pre ++ [(asize, true)]) ++ [(csz - asize, false)] ++ post)
          ((s.lo + 8 + total pre + asize) :: fl.erase (s.lo + 8 + total pre)) := by
        have e : (pre ++ [(asize, true)]) ++ [(csz - asize, false)] ++ post =
            pre ++ [(asize, true), (csz - asize, false)] ++ post := by simp
        rw [e]; exact hP
      obtain ⟨ha1, _, _, _, _⟩ := hP1.alloc_block
      rw [hlo, hpa] at ha1
      obtain ⟨hf1, hf16, hf32, _, hf5, _, _, _⟩ := hP2.free_block
      rw [hlo, total_snoc] at hf1 hf5
      simp only at hf1 hf5
      rw [show s.lo + 8 + (total pre + asize) = s.lo + 8 + total pre + asize by omega] at hf1 hf5
      rw [show s.lo + 8 + total pre + asize + (csz - asize) - 8 = s.lo + 8 + total pre + csz - 8
        by omega] at hf5
      refine ⟨get_size_of ha1 h16 (by omega), get_alloc_of ha1 h16,
        get_alloc_of_prev_of ha1 h16, get_size_of hf1 hf16 (by omega), get_alloc_of hf1 hf16,
        get_alloc_of_prev_of hf1 hf16, hf5, ?_⟩
      rw [hP2.blocks, hlo]
      have := layout_mem_mid (s.lo + 8) (pre ++ [(asize, true)]) post (csz - asize, false)
      rw [total_snoc] at this
      simp only at this
      rw [show s.lo + 8 + (total pre + asize) = s.lo + 8 + total pre + asize by omega] at this
      exact this
    · refine ⟨fl, _, chain_listFrom hR.chain, chain_listFrom hP.chain, hmem, ?_, ?_, ?_⟩
      · intro hin
        rcases List.mem_cons.mp hin with h | h
        · omega
        · exact (List.Nodup.mem_erase_iff hnd).mp h |>.1 rfl
      · intro n hn hne
        exact List.mem_cons_of_mem _ ((List.mem_erase_of_ne hne).mpr hn)
      · intro _; exact List.mem_cons_self _ _
    · rw [hP.sum_blocks, hR.sum_blocks]
      simp only [total_append, total]
      omega
  · obtain ⟨hP, _⟩ := place_whole hR hle (by omega)
    have hlo := place_lo s (s.lo + 8 + total pre) asize
    refine ⟨⟨_, _, hP⟩, fun hc => absurd hc hsp, ?_, ?_, ?_⟩
    · intro _
      obtain ⟨ha1, _, _, _, _⟩ := hP.alloc_block
      rw [hlo, hpa] at ha1
      have hnx := hP.after_block.1
      rw [hlo] at hnx
      exact ⟨get_size_of ha1 hc16 (by omega), get_alloc_of ha1 hc16,
        get_alloc_of_prev_of ha1 hc16, hnx⟩
    · refine ⟨fl, _, chain_listFrom hR.chain, chain_listFrom hP.chain, hmem, ?_, ?_, ?_⟩
      · intro hin
        exact (List.Nodup.mem_erase_iff hnd).mp hin |>.1 rfl
      · intro n hn hne
        exact (List.mem_erase_of_ne hne).mpr hn
      · intro hc; exact absurd hc hsp
    · rw [hP.sum_blocks, hR.sum_blocks]
      simp only [total_append, total]

theorem place_postcondition_witness :
    WF heap0 ∧ (4104, 2048, false) ∈ heap_blocks heap0 ∧
    get_size (place heap0 4104 112) 4104 = 112 ∧
    (4104 + 112, 2048 - 112, false) ∈ heap_blocks (place heap0 4104 112) :=
  ⟨wf_heap0, by decide,
    ((place_postcondition heap0 4104 2048 112 wf_heap0 (by decide) (by decide) (by decide)
      (by decide)).2.1 (by decide)).1,
    ((place_postcondition heap0 4104 2048 112 wf_heap0 (by decide) (by decide) (by decide)
      (by decide)).2.1 (by decide)).2.2.2.2.2.2.2⟩

theorem Repr.free_next_alloc {s : Heap} {pre post : List (Nat × Bool)} {c : Nat}
    {fl : List Nat} (h : Repr s (pre ++ [(c, false)] ++ post) fl) : headAlloc post = true := by
  have hseg := h.seg
  rw [seg_append, lastAlloc_snoc] at hseg
  cases post with
  | nil => rfl
  | cons d post =>
    have h2 := hseg.2
    simp only [Seg] at h2
    simp only [headAlloc]
    cases hd : d.2
    · have := (h2.2.2.2.1 hd).1
      exact absurd this (by decide)
    · rfl

/-- What can be read off a well-formed heap whose free list starts with the
free block `r`. -/
theorem Repr.free_result {s : Heap} {pre post : List (Nat × Bool)} {rsz r : Nat}
    {t : List Nat} (h : Repr s (pre ++ [(rsz, false)] ++ post) (r :: t))
    (hr : r = s.lo + 8 + total pre) :
    get_size s r = rsz ∧ load64 s.mem r = pack rsz false true ∧
    load64 s.mem (r + rsz - 8) = pack rsz false false ∧
    s.root = r ∧ ListFrom s s.root (r :: t) ∧ r ∉ t ∧ find_next s r = r + rsz ∧
    get_alloc_of_prev s (r + rsz) = false ∧ get_alloc s (r + rsz) = true ∧
    get_alloc_of_prev s r = true := by
  obtain ⟨hhdr, h16, h32, hpa, hfoot, hbound, _, _⟩ := h.free_block
  obtain ⟨hn1, hn2⟩ := h.after_block
  rw [h.free_next_alloc] at hn2
  subst hr
  have hnd := h.nodup
  refine ⟨get_size_of hhdr h16 (by omega), hhdr, hfoot, h.chain.1, chain_listFrom h.chain,
    (List.nodup_cons.mp hnd).1, find_next_of hhdr h16 (by omega), hn1, hn2,
    get_alloc_of_prev_of hhdr h16⟩

theorem Hole.not_mem_span {s : Heap} {pre post : List (Nat × Bool)} {w : Nat} {q : Bool}
    {fl : List Nat} (h : Hole s pre w q post fl []) {y : Nat} (hy : y ∈ fl) :
    y + 32 ≤ s.lo + 8 + total pre ∨ s.lo + 8 + total pre + w ≤ y := by
  rcases h.mem_cases hy with h1 | h1 | h1
  · exact absurd h1.1 (by simp)
  · left; exact h1.2.2
  · right; exact h1.2.1

/-- C19: postcondition of `coalesce`.  The heap is well formed except for the
span of the block `b` (size `sz`), whose header has just been written as free
and which is in no free list.  Then `coalesce(b)` returns `r`, which is `b`
when bit 1 of `b`'s header is set and `prev(b)` otherwise; the size of `r` is
the size of `b` plus the sizes of the free physical neighbours; header and
footer of `r` carry that size with alloc 0; `r` is the head of the free list,
the merged neighbours are gone from it and all other nodes are kept; the
header after `r` has bit 1 cleared and alloc 1, and bit 1 of `r`'s header is
set; the heap is well formed again. -/
theorem coalesce_postcondition (s : Heap) (pre post : List (Nat × Bool)) (sz : Nat) (q : Bool)
    (fl : List Nat) (b : Nat) (hb : b = s.lo + 8 + total pre)
    (hH : Hole s pre sz q post fl [])
    (hhdr : load64 s.mem b = pack sz false (lastAlloc true pre))
    (h16 : sz % 16 = 0) (h32 : 32 ≤ sz) :
    WF (coalesce s b).2 ∧
    (coalesce s b).1 = (if get_alloc_of_prev s b = true then b else find_prev s b) ∧
    get_size (coalesce s b).2 (coalesce s b).1 =
      get_size s b +
        (if get_alloc s (find_next s b) = true then 0 else get_size s (find_next s b)) +
        (if get_alloc_of_prev s b = true then 0 else get_size s (find_prev s b)) ∧
    load64 (coalesce s b).2.mem (coalesce s b).1 =
      pack (get_size (coalesce s b).2 (coalesce s b).1) false true ∧
    load64 (coalesce s b).2.mem
        ((coalesce s b).1 + get_size (coalesce s b).2 (coalesce s b).1 - 8) =
      pack (get_size (coalesce s b).2 (coalesce s b).1) false false ∧
    (coalesce s b).2.root = (coalesce s b).1 ∧
    (∃ t, ListFrom (coalesce s b).2 (coalesce s b).2.root ((coalesce s b).1 :: t) ∧
      (coalesce s b).1 ∉ t ∧
      ∀ n, n ∈ t ↔ (n ∈ fl ∧ ¬ (get_alloc_of_prev s b = false ∧ n = find_prev s b) ∧
        ¬ (get_alloc s (find_next s b) = false ∧ n = find_next s b))) ∧
    get_alloc_of_prev (coalesce s b).2 (find_next (coalesce s b).2 (coalesce s b).1) = false ∧
    get_alloc (coalesce s b).2 (find_next (coalesce s b).2 (coalesce s b).1) = true ∧
    get_alloc_of_prev (coalesce s b).2 (coalesce s b).1 = true := by
  subst hb
  have hnd : fl.Nodup := pairwise_sep_nodup hH.fl_pairwise
  have hlo := coalesce_lo s (s.lo + 8 + total pre)
  -- the postcondition, read off the representation of the result
  have core : ∀ (cr : Nat × Heap) (pre1 post1 : List (Nat × Bool)) (rsz : Nat) (t : List Nat),
      Repr cr.2 (pre1 ++ [(rsz, false)] ++ post1) (cr.1 :: t) → cr.2.lo = s.lo →
      cr.1 = s.lo + 8 + total pre1 →
      WF cr.2 ∧ get_size cr.2 cr.1 = rsz ∧
      load64 cr.2.mem cr.1 = pack (get_size cr.2 cr.1) false true ∧
      load64 cr.2.mem (cr.1 + get_size cr.2 cr.1 - 8) = pack (get_size cr.2 cr.1) false false ∧
      cr.2.root = cr.1 ∧ ListFrom cr.2 cr.2.root (cr.1 :: t) ∧ cr.1 ∉ t ∧
      get_alloc_of_prev cr.2 (find_next cr.2 cr.1) = false ∧
      get_alloc cr.2 (find_next cr.2 cr.1) = true ∧ get_alloc_of_prev cr.2 cr.1 = true := by
    intro cr pre1 post1 rsz t hR hl hr
    obtain ⟨g1, g2, g3, g4, g5, g6, g7, g8, g9, g10⟩ := hR.free_result (by rw [hl]; exact hr)
    rw [g7, g1]
    exact ⟨⟨_, _, hR⟩, rfl, g2, g3, g4, g5, g6, g8, g9, g10⟩
  by_cases hp : lastAlloc true pre = true
  · obtain ⟨r1, r2, r3, r4⟩ := hH.coalesce_reads hhdr h16
    rw [hp] at r3
    rw [r1, r2, r3, r4]
    simp only [if_true]
    by_cases hn : headAlloc post = true
    · obtain ⟨h1, h2, _⟩ := coalesce_case1 hH hhdr h16 h32 hp hn
      generalize coalesce s (s.lo + 8 + total pre) = cr at h1 h2 hlo ⊢
      rw [← h1] at h2
      obtain ⟨c1, c2, c3, c4, c5, c6, c7, c8, c9, c10⟩ := core cr _ _ _ _ h2 hlo h1
      rw [hn]
      refine ⟨c1, h1, by rw [c2]; simp, c3, c4, c5, ⟨fl, c6, c7, ?_⟩, c8, c9, c10⟩
      intro n
      simp
    · have hn' : headAlloc post = false := by simpa using hn
      obtain ⟨nsz, post1, rfl⟩ := headAlloc_false_split hn'
      obtain ⟨nh, nh1, nh2, nh3, _, _, nh6⟩ := hH.next_header
      have hbd := hH.bounds
      simp only [total] at hbd
      have hns : get_size s (s.lo + 8 + total pre + sz) = nsz := by
        rw [get_size_of nh1 nh2 nh3]; exact nh6 _ _ rfl
      obtain ⟨h1, h2, _⟩ := coalesce_case2 hH hhdr h16 h32 hp
      generalize coalesce s (s.lo + 8 + total pre) = cr at h1 h2 hlo ⊢
      rw [← h1] at h2
      obtain ⟨c1, c2, c3, c4, c5, c6, c7, c8, c9, c10⟩ := core cr _ _ _ _ h2 hlo h1
      rw [hn', hns]
      refine ⟨c1, h1, by rw [c2]; simp, c3, c4, c5, ⟨_, c6, c7, ?_⟩, c8, c9, c10⟩
      intro n
      rw [h1, List.Nodup.mem_erase_iff hnd]
      simp
      exact and_comm
  · have hp' : lastAlloc true pre = false := by simpa using hp
    obtain ⟨pre1, psz, rfl⟩ := lastAlloc_false_split rfl hp'
    rw [lastAlloc_snoc] at hhdr
    rw [total_snoc] at hhdr hlo ⊢
    simp only at hhdr hlo ⊢
    rw [show s.lo + 8 + (total pre1 + psz) = s.lo + 8 + total pre1 + psz by omega] at hhdr hlo ⊢
    obtain ⟨r1, r2, r3, r4, r5, r6, _, _, _, _, _, _⟩ := hH.coalesce_reads_prev hhdr h16
    rw [r1, r2, r3, r4, r5, r6]
    simp only [Bool.false_eq_true, if_false]
    by_cases hn : headAlloc post = true
    · obtain ⟨h1, h2, _⟩ := coalesce_case3 hH hhdr h16 h32 hn
      generalize coalesce s (s.lo + 8 + total pre1 + psz) = cr at h1 h2 hlo ⊢
      rw [← h1] at h2
      obtain ⟨c1, c2, c3, c4, c5, c6, c7, c8, c9, c10⟩ := core cr _ _ _ _ h2 hlo h1
      rw [hn]
      refine ⟨c1, h1, by rw [c2]; simp, c3, c4, c5, ⟨_, c6, c7, ?_⟩, c8, c9, c10⟩
      intro n
      rw [h1, List.Nodup.mem_erase_iff hnd]
      simp
      exact and_comm
    · have hn' : headAlloc post = false := by simpa using hn
      obtain ⟨nsz, post1, rfl⟩ := headAlloc_false_split hn'
      obtain ⟨nh, nh1, nh2, nh3, _, _, nh6⟩ := hH.next_header
      have hbd := hH.bounds
      simp only [total, total_snoc] at hbd
      rw [total_snoc] at nh1
      simp only at nh1
      have hns : get_size s (s.lo + 8 + total pre1 + (sz + psz)) = nsz := by
        rw [show s.lo + 8 + total pre1 + (sz + psz) = s.lo + 8 + (total pre1 + psz) + sz by omega,
          get_size_of nh1 nh2 nh3]
        exact nh6 _ _ rfl
      obtain ⟨h1, h2, _⟩ := coalesce_case4 hH hhdr h16 h32
      generalize coalesce s (s.lo + 8 + total pre1 + psz) = cr at h1 h2 hlo ⊢
      rw [← h1] at h2
      obtain ⟨c1, c2, c3, c4, c5, c6, c7, c8, c9, c10⟩ := core cr _ _ _ _ h2 hlo h1
      rw [hn', hns]
      refine ⟨c1, h1, by rw [c2]; simp; omega, c3, c4, c5, ⟨_, c6, c7, ?_⟩, c8, c9, c10⟩
      intro n
      rw [h1, List.Nodup.mem_erase_iff (hnd.erase _), List.Nodup.mem_erase_iff hnd]
      simp
      exact ⟨fun ⟨a, b, c⟩ => ⟨c, b, a⟩, fun ⟨a, b, c⟩ => ⟨c, b, a⟩⟩

theorem hole_heap1_freeing : Hole heap1_freeing [] 112 true [(1936, false)] [4216] [] :=
  { lo_align := by decide
    limit_le := by decide
    brk_le := by decide
    listp := by decide
    brk_eq := by decide
    prologue := by decide
    segpre := trivial
    segpost := by simp only [Seg]; decide
    epilogue := by decide
    chain := by simp only [Chain]; decide
    perm := by decide
    exin := by intro y hy; simp at hy
    exsep := List.Pairwise.nil
    wmod := by decide }

theorem coalesce_postcondition_witness :
    Hole heap1_freeing [] 112 true [(1936, false)] [4216] [] ∧
    load64 heap1_freeing.mem 4104 = pack 112 false (lastAlloc true []) ∧
    WF (coalesce heap1_freeing 4104).2 ∧
    (coalesce heap1_freeing 4104).1 =
      (if get_alloc_of_prev heap1_freeing 4104 = true then 4104
       else find_prev heap1_freeing 4104) ∧
    get_size (coalesce heap1_freeing 4104).2 (coalesce heap1_freeing 4104).1 =
      get_size heap1_freeing 4104 +
        (if get_alloc heap1_freeing (find_next heap1_freeing 4104) = true then 0
         else get_size heap1_freeing (find_next heap1_freeing 4104)) +
        (if get_alloc_of_prev heap1_freeing 4104 = true then 0
         else get_size heap1_freeing (find_prev heap1_freeing 4104)) :=
  ⟨hole_heap1_freeing, by decide,
    (coalesce_postcondition heap1_freeing [] [(1936, false)] 112 true [4216] 4104 (by decide)
      hole_heap1_freeing (by decide) (by decide) (by decide)).1,
    (coalesce_postcondition heap1_freeing [] [(1936, false)] 112 true [4216] 4104 (by decide)
      hole_heap1_freeing (by decide) (by decide) (by decide)).2.1,
    (coalesce_postcondition heap1_freeing [] [(1936, false)] 112 true [4216] 4104 (by decide)
      hole_heap1_freeing (by decide) (by decide) (by decide)).2.2.1⟩

/-! ## `malloc` and `free` with the free list tracked -/

/-- `place` on a free block of a well-formed heap, with the resulting free
list. -/
theorem place_detail {s : Heap} {pre post : List (Nat × Bool)} {csz asize : Nat} {fl : List Nat}
    (h : Repr s (pre ++ [(csz, false)] ++ post) fl)
    (ha16 : asize % 16 = 0) (ha32 : 32 ≤ asize) (hle : asize ≤ csz) :
    (asize + 32 ≤ csz ∧ Repr (place s (s.lo + 8 + total pre) asize)
        (pre ++ [(asize, true), (csz - asize, false)] ++ post)
        ((s.lo + 8 + total pre + asize) :: fl.erase (s.lo + 8 + total pre))) ∨
    (csz < asize + 32 ∧ Repr (place s (s.lo + 8 + total pre) asize)
        (pre ++ [(csz, true)] ++ post) (fl.erase (s.lo + 8 + total pre))) := by
  by_cases hsp : asize + 32 ≤ csz
  · exact Or.inl ⟨hsp, (place_split h ha16 ha32 hsp).1⟩
  · exact Or.inr ⟨by omega, (place_whole h hle (by omega)).1⟩

/-- The three ways `malloc` proceeds on a well-formed heap: a fit is placed;
nothing fits and the provider refuses; nothing fits and the heap is extended
by `max(asize, chunksize)` bytes, the new block being placed. -/
theorem malloc_detail {s : Heap} {bs : List (Nat × Bool)} {fl : List Nat} (h : Repr s bs fl)
    {size : Nat} (hpos : 0 < size) :
    (find_fit s (adjust size) ≠ 0 ∧ ∃ pre csz post, bs = pre ++ [(csz, false)] ++ post ∧
      find_fit s (adjust size) = s.lo + 8 + total pre ∧ adjust size ≤ csz ∧
      malloc s size = (s.lo + 8 + total pre + 8,
        place s (s.lo + 8 + total pre) (adjust size))) ∨
    (find_fit s (adjust size) = 0 ∧ s.limit < s.brk + max (adjust size) chunksize ∧
      malloc s size = (0, s)) ∨
    (find_fit s (adjust size) = 0 ∧ s.brk + max (adjust size) chunksize ≤ s.limit ∧
      ∃ pre1 rsz fl1,
        Repr (extend_heap s (max (adjust size) chunksize)).2 (pre1 ++ [(rsz, false)] ++ []) fl1 ∧
        ((pre1 = bs ∧ rsz = max (adjust size) chunksize ∧ fl1 = (s.lo + 8 + total bs) :: fl) ∨
          ∃ psz, bs = pre1 ++ [(psz, false)] ∧ rsz = max (adjust size) chunksize + psz ∧
            fl1 = (s.lo + 8 + total pre1) :: fl.erase (s.lo + 8 + total pre1)) ∧
        (extend_heap s (max (adjust size) chunksize)).2.brk =
          s.brk + max (adjust size) chunksize ∧
        (extend_heap s (max (adjust size) chunksize)).2.lo = s.lo ∧
        (extend_heap s (max (adjust size) chunksize)).2.limit = s.limit ∧
        adjust size ≤ rsz ∧
        malloc s size = (s.lo + 8 + total pre1 + 8,
          place (extend_heap s (max (adjust size) chunksize)).2 (s.lo + 8 + total pre1)
            (adjust size))) := by
  obtain ⟨ha16, ha32, halt⟩ := adjust_bounds size
  obtain ⟨he16, he32, helt, hea, _⟩ := max_chunk (adjust size) ha16 halt
  have hlp : s.heap_listp ≠ 0 := by rw [h.listp]; omega
  rw [malloc_eq s size hlp (by omega)]
  rcases find_fit_spec (adjust size) h.chain with h0 | ⟨hfl, hfit⟩
  · right
    rw [if_pos h0]
    by_cases hle : s.brk + max (adjust size) chunksize ≤ s.limit
    · right
      obtain ⟨pre1, rsz, fl1, h1, h2, h3, h4, h5, h6, h7⟩ :=
        extend_heap_spec h he16 he32 helt hle
      have hrle : adjust size ≤ rsz := by
        rcases h3 with ⟨_, hr, _⟩ | ⟨psz, _, hr, _⟩ <;> omega
      obtain ⟨hhdr, hc16, hc32, hpa, hftr, hbnd, hbfl, hbmod⟩ := h1.free_block
      rw [h5] at hbnd
      rw [if_neg (by rw [h2]; omega), h2]
      refine ⟨h0, hle, pre1, rsz, fl1, h1, h3, h4, h5, h6, hrle, ?_⟩
      have : header_to_payload (s.lo + 8 + total pre1) = s.lo + 8 + total pre1 + 8 := by
        unfold header_to_payload; simp only [wsize]; omega
      rw [this]
    · left
      have := extend_heap_refused s (max (adjust size) chunksize)
        (by rw [round_up_id he16 helt]; omega)
      rw [this]
      exact ⟨h0, by omega, by simp⟩
  · left
    have hmem := h.perm.mem_iff.mp hfl
    obtain ⟨pre, csz, post, hbs, hb⟩ := freeAddrs_split hmem
    subst hbs
    obtain ⟨hhdr, hc16, hc32, hpa, hftr, hbnd, hbfl, hbmod⟩ := h.free_block
    have hgs : get_size s (s.lo + 8 + total pre) = csz := get_size_of hhdr hc16 (by omega)
    rw [hb, hgs] at hfit
    have hne : find_fit s (adjust size) ≠ 0 := by rw [hb]; omega
    rw [if_neg hne, hb]
    refine ⟨by omega, pre, csz, post, rfl, rfl, hfit, ?_⟩
    have : header_to_payload (s.lo + 8 + total pre) = s.lo + 8 + total pre + 8 := by
      unfold header_to_payload; simp only [wsize]; omega
    rw [this]

/-- `free` of an allocated block, up to the call of `coalesce`: header and
footer are rewritten as free and the heap is open at the block. -/
theorem free_as_coalesce {s : Heap} {pre post : List (Nat × Bool)} {sz : Nat} {fl : List Nat}
    (h : Repr s (pre ++ [(sz, true)] ++ post) fl) :
    ∃ m2 : Nat → Nat,
      free s (s.lo + 8 + total pre + 8) = (coalesce { s with mem := m2 } (s.lo + 8 + total pre)).2 ∧
      Hole { s with mem := m2 } pre sz true post fl [] ∧
      load64 m2 (s.lo + 8 + total pre) = pack sz false (lastAlloc true pre) ∧
      sz % 16 = 0 ∧ 32 ≤ sz ∧
      ∀ x, x < s.lo + 8 + total pre ∨ s.lo + 8 + total pre + sz ≤ x → m2 x = s.mem x := by
  obtain ⟨hhdr, h16, h32, hb, hmod⟩ := h.alloc_block
  have hH := h.open_at pre [(sz, true)] post
  simp only [total, lastAlloc, freeAddrs, Nat.add_zero, if_true] at hH
  have hpth : payload_to_header (s.lo + 8 + total pre + 8) = s.lo + 8 + total pre := by
    unfold payload_to_header; simp only [wsize]; omega
  have hs1 : load64 (write_header s (s.lo + 8 + total pre) sz false (lastAlloc true pre)).mem
      (s.lo + 8 + total pre) = pack sz false (lastAlloc true pre) :=
    load64_store64_eq _ _ _ (pack_lt _ _ h16 (by omega))
  have hfoot := write_footer_of sz false hs1 h16 (by omega) (by omega)
  obtain ⟨m2, hm2⟩ : ∃ m2 : Nat → Nat, m2 = store64 (store64 s.mem (s.lo + 8 + total pre)
      (pack sz false (lastAlloc true pre))) (s.lo + 8 + total pre + sz - 8)
      (pack sz false false) := ⟨_, rfl⟩
  have hfree : free s (s.lo + 8 + total pre + 8) =
      (coalesce { s with mem := m2 } (s.lo + 8 + total pre)).2 := by
    rw [free_eq, if_neg (by omega), hpth, get_size_of hhdr h16 (by omega),
      get_alloc_of_prev_of hhdr h16, hfoot, hm2]
    rfl
  have hout : ∀ x, x < s.lo + 8 + total pre ∨ s.lo + 8 + total pre + sz ≤ x →
      m2 x = s.mem x := by
    intro x hx
    rw [hm2, store64_outside _ _ _ _ (by omega), store64_outside _ _ _ _ (by omega)]
  have hl1 : load64 m2 (s.lo + 8 + total pre) = pack sz false (lastAlloc true pre) := by
    rw [hm2, load64_store64_disj _ _ _ _ (by omega),
      load64_store64_eq _ _ _ (pack_lt _ _ h16 (by omega))]
  exact ⟨m2, hfree, hH.write m2 hout (by intro y hy; simp at hy), hl1, h16, h32, hout⟩

/-- C18: heap growth policy.  On a well-formed heap with `size > 0`: when
`find_fit(asize)` finds a block, `malloc` places it and the heap bounds are
unchanged; when it returns `NULL`, the outcome is that of a provider request
for exactly `max(asize, 2048)` bytes: refused, `malloc` returns `NULL` and
the state is unchanged; granted, the break moves up by that amount, the
result is not `NULL`, and the new span is merged with a trailing free block
if there is one: when the old walk ends in a free block, that block is
replaced by the placed block, which starts at its address; when the old walk
is empty or ends in an allocated block, nothing is replaced and the placed
block starts at the old epilogue word.  The placed block and the remainder
split off it have, together, the size of the replaced block plus the growth;
every other block of the old walk is kept, and the block sizes sum to the old
sum plus the growth. -/
theorem malloc_growth_policy (s : Heap) (size : Nat) (hwf : WF s) (hsz : 0 < size) :
    (find_fit s (adjust size) ≠ 0 →
      (malloc s size).2.brk = s.brk ∧ (malloc s size).2.lo = s.lo ∧
      (malloc s size).1 = find_fit s (adjust size) + 8) ∧
    (find_fit s (adjust size) = 0 →
      round_up (max (adjust size) chunksize) dsize = max (adjust size) chunksize ∧
      (mem_sbrk s (max (adjust size) chunksize) = none → malloc s size = (0, s)) ∧
      (mem_sbrk s (max (adjust size) chunksize) ≠ none →
        (malloc s size).1 ≠ 0 ∧
        (malloc s size).2.brk = s.brk + max (adjust size) chunksize ∧
        (malloc s size).2.lo = s.lo ∧
        ∃ kept tail bsz rest,
          heap_blocks s = kept ++ tail ∧
          (tail = [] ∨ ∃ tsz, tail = [((malloc s size).1 - 8, tsz, false)]) ∧
          (lastState true (heap_blocks s) = false →
            ∃ tsz, tail = [((malloc s size).1 - 8, tsz, false)]) ∧
          (lastState true (heap_blocks s) = true →
            tail = [] ∧ (malloc s size).1 - 8 = mem_heap_hi s - 7) ∧
          heap_blocks (malloc s size).2 = kept ++ ((malloc s size).1 - 8, bsz, true) :: rest ∧
          (rest = [] ∨ ∃ rsz, rest = [((malloc s size).1 - 8 + bsz, rsz, false)]) ∧
          bsz + (rest.map (fun e => e.2.1)).sum =
            (tail.map (fun e => e.2.1)).sum + max (adjust size) chunksize ∧
          ((heap_blocks (malloc s size).2).map (fun e => e.2.1)).sum =
            ((heap_blocks s).map (fun e => e.2.1)).sum + max (adjust size) chunksize)) := by
  obtain ⟨bs, fl, hR⟩ := hwf
  obtain ⟨ha16, ha32, halt⟩ := adjust_bounds size
  obtain ⟨he16, he32, helt, hea, _⟩ := max_chunk (adjust size) ha16 halt
  have hsb : ∀ n, mem_sbrk s n = none ↔ s.limit < s.brk + n := by
    intro n
    unfold mem_sbrk
    by_cases hc : s.brk + n ≤ s.limit
    · rw [if_pos hc]; simp; omega
    · rw [if_neg hc]; simp; omega
  rcases malloc_detail hR hsz with ⟨hne, pre, csz, post, hbs, hff, hle, hm⟩ |
    ⟨h0, hlim, hm⟩ | ⟨h0, hlim, pre1, rsz, fl1, hR1, hsh, hbrk, hlo, _, hrle, hm⟩
  · refine ⟨fun _ => ?_, fun h0 => absurd h0 hne⟩
    rw [hm, hff]
    exact ⟨place_brk _ _ _, place_lo _ _ _, rfl⟩
  · refine ⟨fun hne => absurd h0 hne, fun _ => ⟨round_up_id he16 helt, fun _ => hm, fun hg => ?_⟩⟩
    exact absurd ((hsb _).mpr hlim) hg
  · refine ⟨fun hne => absurd h0 hne, fun _ => ⟨round_up_id he16 helt, fun hr => ?_, fun _ => ?_⟩⟩
    · have := (hsb _).mp hr; omega
    · rw [hm]
      simp only
      rw [show s.lo + 8 + total pre1 + 8 - 8 = s.lo + 8 + total pre1 by omega]
      have hpl := place_detail hR1 ha16 ha32 hrle
      rw [hlo] at hpl
      refine ⟨by omega, by rw [place_brk, hbrk], by rw [place_lo, hlo], layout (s.lo + 8) pre1, ?_⟩
      obtain ⟨_, _, _, hpa1, _⟩ := hR1.free_block
      have hls : lastState true (heap_blocks s) = lastAlloc true bs := by
        rw [hR.blocks, lastState_layout]
      have hhi := hR.hi
      have hold : ∃ tail, heap_blocks s = layout (s.lo + 8) pre1 ++ tail ∧
          (tail = [] ∨ ∃ tsz, tail = [(s.lo + 8 + total pre1, tsz, false)]) ∧
          (lastState true (heap_blocks s) = false →
            ∃ tsz, tail = [(s.lo + 8 + total pre1, tsz, false)]) ∧
          (lastState true (heap_blocks s) = true →
            tail = [] ∧ s.lo + 8 + total pre1 = mem_heap_hi s - 7) ∧
          (tail.map (fun e => e.2.1)).sum + max (adjust size) chunksize = rsz ∧
          total bs + max (adjust size) chunksize = total pre1 + rsz := by
        rcases hsh with ⟨hp, hr, _⟩ | ⟨psz, hp, hr, _⟩
        · refine ⟨[], ?_, Or.inl rfl, ?_, ?_, by rw [hr]; simp, by rw [hp, hr]⟩
          · rw [hR.blocks, hp]; simp
          · intro hf
            rw [hls, ← hp, hpa1] at hf
            exact absurd hf (by decide)
          · intro _
            refine ⟨rfl, ?_⟩
            rw [hhi, hp]; omega
        · refine ⟨[(s.lo + 8 + total pre1, psz, false)], ?_, Or.inr ⟨psz, rfl⟩,
            fun _ => ⟨psz, rfl⟩, ?_, ?_, ?_⟩
          · rw [hR.blocks, hp, layout_append]; simp [layout]
          · intro ht
            rw [hls, hp, lastAlloc_snoc] at ht
            simp at ht
          · rw [hr]; simp; omega
          · rw [hp, hr, total_snoc]; simp only; omega
      obtain ⟨tail, ht1, ht2, ht3, ht4, ht5, ht6⟩ := hold
      rcases hpl with ⟨hsp, hP⟩ | ⟨hsp, hP⟩
      · refine ⟨tail, adjust size, [(s.lo + 8 + total pre1 + adjust size, rsz - adjust size, false)],
          ht1, ht2, ht3, ht4, ?_, Or.inr ⟨_, rfl⟩, ?_, ?_⟩
        · rw [hP.blocks, place_lo, hlo, layout_append, layout_append]
          simp [layout]
        · rw [ht5]; simp; omega
        · rw [hP.sum_blocks, hR.sum_blocks]
          simp only [total_append, total]
          omega
      · refine ⟨tail, rsz, [], ht1, ht2, ht3, ht4, ?_, Or.inl rfl, ?_, ?_⟩
        · rw [hP.blocks, place_lo, hlo, layout_append, layout_append]
          simp [layout]
        · rw [ht5]; simp
        · rw [hP.sum_blocks, hR.sum_blocks]
          simp only [total_append, total]
          omega

theorem malloc_growth_policy_witness :
    WF heap_s4 ∧ 0 < 2040 ∧ find_fit heap_s4 (adjust 2040) = 0 ∧
    lastState true (heap_blocks heap_s4) = false ∧ (malloc heap_s4 2040).1 - 8 = 4168 ∧
    max (adjust 2040) chunksize = 2048 ∧
    (malloc heap_s4 2040).1 ≠ 0 ∧ (malloc heap_s4 2040).2.brk = heap_s4.brk + 2048 ∧
    heap_blocks heap_s4 = [(4104, 32, false), (4136, 32, true), (4168, 1984, false)] ∧
    heap_blocks (malloc heap_s4 2040).2 =
      [(4104, 32, false), (4136, 32, true), (4168, 2048, true), (6216, 1984, false)] ∧
    (malloc heap0 24).1 = 4112 ∧ (malloc heap0 24).2.brk = heap0.brk ∧
    heap_blocks (malloc heap0 24).2 = [(4104, 32, true), (4136, 2016, false)] ∧
    (round_up (max (adjust 2040) chunksize) dsize = max (adjust 2040) chunksize ∧
      (mem_sbrk heap_s4 (max (adjust 2040) chunksize) = none →
        malloc heap_s4 2040 = (0, heap_s4)) ∧
      (mem_sbrk heap_s4 (max (adjust 2040) chunksize) ≠ none →
        (malloc heap_s4 2040).1 ≠ 0 ∧
        (malloc heap_s4 2040).2.brk = heap_s4.brk + max (adjust 2040) chunksize ∧
        (malloc heap_s4 2040).2.lo = heap_s4.lo ∧
        ∃ kept tail bsz rest,
          heap_blocks heap_s4 = kept ++ tail ∧
          (tail = [] ∨ ∃ tsz, tail = [((malloc heap_s4 2040).1 - 8, tsz, false)]) ∧
          (lastState true (heap_blocks heap_s4) = false →
            ∃ tsz, tail = [((malloc heap_s4 2040).1 - 8, tsz, false)]) ∧
          (lastState true (heap_blocks heap_s4) = true →
            tail = [] ∧ (malloc heap_s4 2040).1 - 8 = mem_heap_hi heap_s4 - 7) ∧
          heap_blocks (malloc heap_s4 2040).2 =
            kept ++ ((malloc heap_s4 2040).1 - 8, bsz, true) :: rest ∧
          (rest = [] ∨ ∃ rsz, rest = [((malloc heap_s4 2040).1 - 8 + bsz, rsz, false)]) ∧
          bsz + (rest.map (fun e => e.2.1)).sum =
            (tail.map (fun e => e.2.1)).sum + max (adjust 2040) chunksize ∧
          ((heap_blocks (malloc heap_s4 2040).2).map (fun e => e.2.1)).sum =
            ((heap_blocks heap_s4).map (fun e => e.2.1)).sum + max (adjust 2040) chunksize)) :=
  ⟨wf_heap_s4, by decide, by decide, by decide, by decide, by decide, by decide, by decide,
    by decide, by decide, by decide, by decide, by decide,
    (malloc_growth_policy heap_s4 2040 wf_heap_s4 (by decide)).2 (by decide)⟩

/-! ## Reuse of a released block -/

theorem take_subset_take_succ (l : List Nat) (k : Nat) : l.take k ⊆ l.take (k + 1) := by
  induction l generalizing k with
  | nil => simp
  | cons a t ih =>
    cases k with
    | zero => simp
    | succ k =>
      rw [List.take_succ_cons, List.take_succ_cons]
      intro y hy
      rcases List.mem_cons.mp hy with h | h
      · rw [h]; exact List.mem_cons_self _ _
      · exact List.mem_cons_of_mem _ (ih k h)

theorem take_erase_subset (l : List Nat) (x k : Nat) : (l.erase x).take k ⊆ l.take (k + 1) := by
  induction l generalizing k with
  | nil => simp
  | cons a t ih =>
    by_cases hax : a = x
    · subst hax
      rw [List.erase_cons_head, List.take_succ_cons]
      intro y hy
      exact List.mem_cons_of_mem _ hy
    · rw [List.erase_cons_tail (by rw [beq_iff_eq]; exact hax)]
      cases k with
      | zero => simp
      | succ k =>
        rw [List.take_succ_cons, List.take_succ_cons]
        intro y hy
        rcases List.mem_cons.mp hy with h | h
        · rw [h]; exact List.mem_cons_self _ _
        · exact List.mem_cons_of_mem _ (ih k h)

/-- A head node that fits and is not beaten by any of the next 199 nodes is
what `find_fit` returns. -/
theorem find_fit_head {s : Heap} {x : Nat} {rest : List Nat} {asize : Nat}
    (hl : ListFrom s s.root (x :: rest)) (hfit : asize ≤ get_size s x)
    (hrest : ∀ n ∈ rest.take 199, asize ≤ get_size s n → get_size s x ≤ get_size s n) :
    find_fit s asize = x := by
  have hB := find_fit_best asize hl
  rw [List.take_succ_cons] at hB
  rcases hB with ⟨_, h2⟩ | ⟨_, pre, post, h3, h4, h5, h6⟩
  · have := h2 x (List.mem_cons_self _ _)
    omega
  · cases pre with
    | nil =>
      simp only [List.nil_append, List.cons.injEq] at h3
      exact h3.1.symm
    | cons a pre =>
      simp only [List.cons_append, List.cons.injEq] at h3
      obtain ⟨ha, hr⟩ := h3
      subst ha
      have hmem : find_fit s asize ∈ rest.take 199 := by rw [hr]; simp
      have h7 := hrest _ hmem h4
      have h8 := h5 x (List.mem_cons_self _ _) hfit
      have h9 := h6 x (List.mem_cons_self _ _)
      omega

theorem Repr.size_of_block {s : Heap} {bs : List (Nat × Bool)} {fl : List Nat} (h : Repr s bs fl)
    {e : Nat × Nat × Bool} (he : e ∈ layout (s.lo + 8) bs) : get_size s e.1 = e.2.1 := by
  obtain ⟨pre, post, hbs, hx⟩ := layout_split he
  subst hbs
  rw [hx]
  cases hal : e.2.2
  · rw [hal] at h
    obtain ⟨hhdr, h16, _, _, _, hb, _, _⟩ := h.free_block
    exact get_size_of hhdr h16 (by omega)
  · rw [hal] at h
    obtain ⟨hhdr, h16, _, hb, _⟩ := h.alloc_block
    exact get_size_of hhdr h16 (by omega)

/-- Placing in a free block and freeing the result restores the block
sequence and puts the block at the head of the free list. -/
theorem place_free_restores {s : Heap} {pre post : List (Nat × Bool)} {csz asize : Nat}
    {fl : List Nat} (h : Repr s (pre ++ [(csz, false)] ++ post) fl)
    (ha16 : asize % 16 = 0) (ha32 : 32 ≤ asize) (hle : asize ≤ csz) :
    Repr (free (place s (s.lo + 8 + total pre) asize) (s.lo + 8 + total pre + 8))
      (pre ++ [(csz, false)] ++ post) ((s.lo + 8 + total pre) :: fl.erase (s.lo + 8 + total pre)) := by
  obtain ⟨_, _, _, hpa, _, _, hmem, _⟩ := h.free_block
  have hnext := h.free_next_alloc
  have hnd := h.nodup
  have hlo := place_lo s (s.lo + 8 + total pre) asize
  rcases place_detail h ha16 ha32 hle with ⟨hsp, hP⟩ | ⟨hsp, hP⟩
  · have hP1 : Repr (place s (s.lo + 8 + total pre) asize)
        (pre ++ [(asize, true)] ++ ((csz - asize, false) :: post))
        ((s.lo + 8 + total pre + asize) :: fl.erase (s.lo + 8 + total pre)) := by
      have e : pre ++ [(asize, true)] ++ ((csz - asize, false) :: post) =
          pre ++ [(asize, true), (csz - asize, false)] ++ post := by simp
      rw [e]; exact hP
    obtain ⟨m2, hf, hH, hl1, h16, h32, _⟩ := free_as_coalesce hP1
    obtain ⟨_, c2, _⟩ := coalesce_case2 hH hl1 h16 h32 hpa
    simp only [hlo] at hf c2
    rw [hf]
    have e1 : asize + (csz - asize) = csz := by omega
    have e2 : ((s.lo + 8 + total pre + asize) :: fl.erase (s.lo + 8 + total pre)).erase
        (s.lo + 8 + total pre + asize) = fl.erase (s.lo + 8 + total pre) :=
      List.erase_cons_head _ _
    rw [e1, e2] at c2
    exact c2
  · obtain ⟨m2, hf, hH, hl1, h16, h32, _⟩ := free_as_coalesce hP
    obtain ⟨_, c2, _⟩ := coalesce_case1 hH hl1 h16 h32 hpa hnext
    simp only [hlo] at hf c2
    rw [hf]
    exact c2

/-- After `place` in a free block and `free` of the result, `malloc` of the
same size finds the block again, provided none of the first 199 other nodes
of the free list fits better. -/
theorem reuse_core {sb : Heap} {pre post : List (Nat × Bool)} {csz : Nat} {fl : List Nat}
    {size : Nat} (h : Repr sb (pre ++ [(csz, false)] ++ post) fl)
    (hle : adjust size ≤ csz) (hpos : 0 < size)
    (hcond : ∀ n ∈ (fl.erase (sb.lo + 8 + total pre)).take 199,
      adjust size ≤ get_size sb n → csz ≤ get_size sb n) :
    malloc (free (place sb (sb.lo + 8 + total pre) (adjust size)) (sb.lo + 8 + total pre + 8))
        size =
      (sb.lo + 8 + total pre + 8,
        place (free (place sb (sb.lo + 8 + total pre) (adjust size))
          (sb.lo + 8 + total pre + 8)) (sb.lo + 8 + total pre) (adjust size)) := by
  obtain ⟨ha16, ha32, halt⟩ := adjust_bounds size
  have hR2 := place_free_restores h ha16 ha32 hle
  generalize hs2 : free (place sb (sb.lo + 8 + total pre) (adjust size))
    (sb.lo + 8 + total pre + 8) = s2 at hR2 ⊢
  have hlo : s2.lo = sb.lo := by rw [← hs2, free_lo, place_lo]
  obtain ⟨hhdr, h16, _, _, _, hb, _, _⟩ := hR2.free_block
  rw [hlo] at hhdr hb
  have hsx : get_size s2 (sb.lo + 8 + total pre) = csz := get_size_of hhdr h16 (by omega)
  have hff : find_fit s2 (adjust size) = sb.lo + 8 + total pre := by
    apply find_fit_head (chain_listFrom hR2.chain) (by rw [hsx]; exact hle)
    intro n hn hfit
    have hn1 : n ∈ fl := List.mem_of_mem_erase (List.mem_of_mem_take hn)
    obtain ⟨c, hc⟩ := mem_freeAddrs_iff.mp (h.perm.mem_iff.mp hn1)
    have e1 : get_size sb n = c := h.size_of_block (e := (n, c, false)) hc
    have e2 : get_size s2 n = c := hR2.size_of_block (e := (n, c, false)) (by rw [hlo]; exact hc)
    rw [hsx, e2, ← e1]
    rw [e2, ← e1] at hfit
    exact hcond n hn hfit
  have hlp : s2.heap_listp ≠ 0 := by rw [hR2.listp]; omega
  rw [malloc_eq s2 size hlp (by omega), hff, if_neg (by omega)]
  have : header_to_payload (sb.lo + 8 + total pre) = sb.lo + 8 + total pre + 8 := by
    unfold header_to_payload; simp only [wsize]; omega
  rw [this]

/-- C16: reuse after release.  On a well-formed heap, when `p = malloc(size)`
with `size > 0` is not `NULL`, `free(p)` followed by `malloc(size)` returns
`p` again and does not move the break. -/
theorem malloc_free_malloc_reuses (s : Heap) (size : Nat) (hwf : WF s) (hsz : 0 < size)
    (hp : (malloc s size).1 ≠ 0) :
    (malloc (free (malloc s size).2 (malloc s size).1) size).1 = (malloc s size).1 ∧
    (malloc (free (malloc s size).2 (malloc s size).1) size).2.brk = (malloc s size).2.brk := by
  obtain ⟨bs, fl, hR⟩ := hwf
  have hB := find_fit_best (adjust size) (chain_listFrom hR.chain)
  rcases malloc_detail hR hsz with ⟨hne, pre, csz, post, hbs, hff, hle, hm⟩ |
    ⟨h0, hlim, hm⟩ | ⟨h0, hlim, pre1, rsz, fl1, hR1, hsh, hbrk, hlo, _, hrle, hm⟩
  · subst hbs
    obtain ⟨hhdr, h16, _, _, _, hb, _, _⟩ := hR.free_block
    have hsx : get_size s (s.lo + 8 + total pre) = csz := get_size_of hhdr h16 (by omega)
    have hcore := reuse_core hR hle hsz (by
      intro n hn hfit
      rcases hB with ⟨h1, _⟩ | ⟨_, _, _, _, _, h5, _⟩
      · exact absurd h1 hne
      · have := h5 n (take_erase_subset fl _ 199 hn) hfit
        rw [hff, hsx] at this
        exact this)
    rw [hm]
    simp only
    rw [hcore]
    exact ⟨rfl, by rw [place_brk, free_brk]⟩
  · rw [hm] at hp
    exact absurd rfl hp
  · generalize (extend_heap s (max (adjust size) chunksize)).2 = sb at hR1 hbrk hlo hm
    have hcore := reuse_core hR1 hrle hsz (by
      rw [hlo]
      intro n hn hfit
      exfalso
      rcases hB with ⟨_, h2⟩ | ⟨h1, _⟩
      · rcases hsh with ⟨hp1, _, hf1⟩ | ⟨psz, hp1, _, hf1⟩
        · subst hp1
          rw [hf1, List.erase_cons_head] at hn
          have hn1 := List.mem_of_mem_take hn
          obtain ⟨c, hc⟩ := mem_freeAddrs_iff.mp (hR.perm.mem_iff.mp hn1)
          have e1 : get_size s n = c := hR.size_of_block (e := (n, c, false)) hc
          have e2 : get_size sb n = c :=
            hR1.size_of_block (e := (n, c, false)) (by
              rw [hlo, layout_append, layout_append]
              exact List.mem_append_left _ (List.mem_append_left _ hc))
          have := h2 n (take_subset_take_succ fl 199 hn)
          omega
        · subst hp1
          rw [hf1, List.erase_cons_head] at hn
          have hn0 := List.mem_of_mem_take hn
          have hn1 := List.mem_of_mem_erase hn0
          have hne : n ≠ s.lo + 8 + total pre1 :=
            fun hc => ((List.Nodup.mem_erase_iff hR.nodup).mp hn0).1 hc
          obtain ⟨c, hc⟩ := mem_freeAddrs_iff.mp (hR.perm.mem_iff.mp hn1)
          have e1 : get_size s n = c := hR.size_of_block (e := (n, c, false)) hc
          rw [layout_append] at hc
          have hc1 : (n, c, false) ∈ layout (s.lo + 8) pre1 := by
            rcases List.mem_append.mp hc with h | h
            · exact h
            · simp only [layout, List.mem_singleton, Prod.mk.injEq] at h
              exact absurd h.1 hne
          have e2 : get_size sb n = c :=
            hR1.size_of_block (e := (n, c, false)) (by
              rw [hlo, layout_append, layout_append]
              exact List.mem_append_left _ (List.mem_append_left _ hc1))
          have := h2 n (take_erase_subset fl _ 199 hn)
          omega
      · exact absurd h0 h1)
    rw [hlo] at hcore
    rw [hm]
    simp only
    rw [hcore]
    exact ⟨rfl, by rw [place_brk, free_brk]⟩

theorem malloc_free_malloc_reuses_witness :
    WF heap0 ∧ 0 < 2000 ∧ (malloc heap0 2000).1 ≠ 0 ∧
    (malloc heap0 2000).1 = 4112 ∧
    (malloc (free (malloc heap0 2000).2 (malloc heap0 2000).1) 2000).1 = (malloc heap0 2000).1 ∧
    (malloc (free (malloc heap0 2000).2 (malloc heap0 2000).1) 2000).2.brk =
      (malloc heap0 2000).2.brk :=
  ⟨wf_heap0, by decide, by decide, by decide,
    malloc_free_malloc_reuses heap0 2000 wf_heap0 (by decide) (by decide)⟩

/-! ## `mm_init` computed directly -/

/-- `extend_heap` when the provider grants the request, as a call of
`coalesce` on the state with the new block and epilogue installed. -/
theorem extend_heap_eq (t : Heap) (size : Nat) (h16 : size % 16 = 0) (h32 : 32 ≤ size)
    (h8 : 8 ≤ t.brk) (hle : t.brk + size ≤ t.limit) (hlim : t.limit ≤ 2 ^ 64) :
    extend_heap t size =
      coalesce
        { t with
          brk := t.brk + size
          mem := store64 (store64 (store64 t.mem (t.brk - 8)
            (pack size false (get_alloc_of_prev t (t.brk - 8)))) (t.brk + size - 16)
            (pack size false false)) (t.brk + size - 8) (pack 0 true false) }
        (t.brk - 8) := by
  have hlt : size < 2 ^ 64 := by omega
  have hepi : (mem_heap_hi t + 2 ^ 64 - 7) % 2 ^ 64 = t.brk - 8 := by
    unfold mem_heap_hi; omega
  have hpth : payload_to_header t.brk = t.brk - 8 := by
    unfold payload_to_header; simp only [wsize]; omega
  have hs1 : load64 (write_header { t with brk := t.brk + size } (t.brk - 8) size false
      (get_alloc_of_prev t (t.brk - 8))).mem (t.brk - 8) =
      pack size false (get_alloc_of_prev t (t.brk - 8)) :=
    load64_store64_eq _ _ _ (pack_lt _ _ h16 (by omega))
  have hfoot := write_footer_of size false hs1 h16 (by omega) (by omega)
  have e1 : t.brk - 8 + size - 8 = t.brk + size - 16 := by omega
  rw [e1] at hfoot
  have hs3 : load64 ({ t with
      brk := t.brk + size
      mem := store64 (store64 t.mem (t.brk - 8)
        (pack size false (get_alloc_of_prev t (t.brk - 8)))) (t.brk + size - 16)
        (pack size false false) } : Heap).mem (t.brk - 8) =
      pack size false (get_alloc_of_prev t (t.brk - 8)) := by
    show load64 (store64 _ _ _) _ = _
    rw [load64_store64_disj _ _ _ _ (by omega),
      load64_store64_eq _ _ _ (pack_lt _ _ h16 (by omega))]
  have hnext := find_next_of hs3 h16 (by omega)
  have e2 : t.brk - 8 + size = t.brk + size - 8 := by omega
  rw [e2] at hnext
  have hfoot2 : write_footer (write_header { t with brk := t.brk + size } (t.brk - 8)
      size false (get_alloc_of_prev t (t.brk - 8))) (t.brk - 8) size false =
      { t with
        brk := t.brk + size
        mem := store64 (store64 t.mem (t.brk - 8)
          (pack size false (get_alloc_of_prev t (t.brk - 8)))) (t.brk + size - 16)
          (pack size false false) } := by
    rw [hfoot]; rfl
  unfold extend_heap mem_sbrk
  simp only [round_up_id h16 hlt, if_pos hle, hepi, hpth, hfoot2, hnext]
  rfl

/-- `coalesce` when both neighbours are allocated. -/
theorem coalesce_eq_case1 (s : Heap) (b : Nat) (hp : get_alloc_of_prev s b = true)
    (hn : get_alloc s (find_next s b) = true) :
    coalesce s b =
      (b, add (prev_make (write_footer (write_header s b (get_size s b) false true) b
        (get_size s b) false) (find_next s b) false) b) := by
  unfold coalesce
  simp only [hp, hn, and_self, if_true]

/-- `mm_init` when the provider grants both requests and `root` is `NULL`:
the resulting state, with the words it has written. -/
theorem mm_init_eq (s : Heap) (hroot : s.root = 0) (hroom : s.brk + 2064 ≤ s.limit)
    (hlim : s.limit ≤ 2 ^ 64) :
    ∃ m : Nat → Nat,
      mm_init s = (true, { s with
        mem := m
        brk := s.brk + 2064
        heap_listp := s.brk + 8
        root := s.brk + 8 }) ∧
      load64 m s.brk = pack 0 true true ∧ load64 m (s.brk + 8) = pack 2048 false true ∧
      load64 m (s.brk + 16) = 0 ∧ load64 m (s.brk + 24) = 0 ∧
      load64 m (s.brk + 2048) = pack 2048 false false ∧
      load64 m (s.brk + 2056) = pack 0 true false := by
  obtain ⟨m2, hm2⟩ : ∃ m2 : Nat → Nat, m2 = store64 (store64 s.mem s.brk (pack 0 true true))
      (s.brk + 8) (pack 0 true true) := ⟨_, rfl⟩
  have hinit : mm_init s =
      (if (extend_heap { s with brk := s.brk + 16, mem := m2, heap_listp := s.brk + 8 }
          chunksize).1 = 0
        then (false, (extend_heap { s with brk := s.brk + 16, mem := m2, heap_listp := s.brk + 8 }
          chunksize).2)
        else (true, (extend_heap { s with brk := s.brk + 16, mem := m2, heap_listp := s.brk + 8 }
          chunksize).2)) := by
    unfold mm_init mem_sbrk
    simp only [wsize, Nat.reduceMul, if_pos (show s.brk + 16 ≤ s.limit by omega), hm2]
  have hl2 : load64 m2 (s.brk + 8) = pack 0 true true := by
    rw [hm2, load64_store64_eq _ _ _ (by decide)]
  have hold : get_alloc_of_prev
      ({ s with brk := s.brk + 16, mem := m2, heap_listp := s.brk + 8 } : Heap)
      (s.brk + 16 - 8) = true := by
    rw [show s.brk + 16 - 8 = s.brk + 8 by omega]
    exact get_alloc_of_prev_of (s := { s with brk := s.brk + 16, mem := m2, heap_listp := s.brk + 8 })
      hl2 (by decide)
  obtain ⟨m5, hm5⟩ : ∃ m5 : Nat → Nat, m5 = store64 (store64 (store64 m2 (s.brk + 8)
      (pack 2048 false true)) (s.brk + 2048) (pack 2048 false false)) (s.brk + 2056)
      (pack 0 true false) := ⟨_, rfl⟩
  have hext : extend_heap { s with brk := s.brk + 16, mem := m2, heap_listp := s.brk + 8 }
      chunksize =
      coalesce { s with brk := s.brk + 2064, mem := m5, heap_listp := s.brk + 8 }
        (s.brk + 8) := by
    have key := extend_heap_eq
      ({ s with brk := s.brk + 16, mem := m2, heap_listp := s.brk + 8 } : Heap) chunksize
      (by decide) (by decide) (by show 8 ≤ s.brk + 16; omega)
      (by show s.brk + 16 + chunksize ≤ s.limit; simp only [chunksize]; omega) hlim
    rw [key, hold]
    show coalesce { s with
        brk := s.brk + 16 + chunksize
        mem := store64 (store64 (store64 m2 (s.brk + 16 - 8) (pack chunksize false true))
          (s.brk + 16 + chunksize - 16) (pack chunksize false false))
          (s.brk + 16 + chunksize - 8) (pack 0 true false)
        heap_listp := s.brk + 8 } (s.brk + 16 - 8) = _
    rw [show s.brk + 16 - 8 = s.brk + 8 by omega,
      show s.brk + 16 + chunksize - 16 = s.brk + 2048 by simp only [chunksize]; omega,
      show s.brk + 16 + chunksize - 8 = s.brk + 2056 by simp only [chunksize]; omega,
      show s.brk + 16 + chunksize = s.brk + 2064 by simp only [chunksize]; omega,
      show chunksize = 2048 by decide, hm5]
  have h5a : load64 m5 (s.brk + 8) = pack 2048 false true := by
    rw [hm5, load64_store64_disj _ _ _ _ (by omega), load64_store64_disj _ _ _ _ (by omega),
      load64_store64_eq _ _ _ (by decide)]
  have h5c : load64 m5 (s.brk + 2056) = pack 0 true false := by
    rw [hm5, load64_store64_eq _ _ _ (by decide)]
  obtain ⟨s5, hs5⟩ : ∃ s5 : Heap,
      s5 = { s with brk := s.brk + 2064, mem := m5, heap_listp := s.brk + 8 } := ⟨_, rfl⟩
  have hs5m : s5.mem = m5 := by rw [hs5]
  have hs5r : s5.root = 0 := by rw [hs5]; exact hroot
  rw [← hs5] at hext
  have g1 : load64 s5.mem (s.brk + 8) = pack 2048 false true := by rw [hs5m]; exact h5a
  have g2 : load64 s5.mem (s.brk + 2056) = pack 0 true false := by rw [hs5m]; exact h5c
  have hgs : get_size s5 (s.brk + 8) = 2048 := get_size_of g1 (by decide) (by decide)
  have hfn : find_next s5 (s.brk + 8) = s.brk + 2056 := by
    rw [find_next_of g1 (by decide) (by omega)]
  have hco := coalesce_eq_case1 s5 (s.brk + 8) (get_alloc_of_prev_of g1 (by decide))
    (by rw [hfn]; exact get_alloc_of g2 (by decide))
  rw [hgs, hfn] at hco
  have hw1 : load64 (write_header s5 (s.brk + 8) 2048 false true).mem (s.brk + 8) =
      pack 2048 false true := load64_store64_eq _ _ _ (by decide)
  rw [write_footer_of 2048 false hw1 (by decide) (by omega) (by omega)] at hco
  obtain ⟨m7, hm7⟩ : ∃ m7 : Nat → Nat, m7 = store64 (store64 m5 (s.brk + 8)
      (pack 2048 false true)) (s.brk + 2048) (pack 2048 false false) := ⟨_, rfl⟩
  have h7c : load64 m7 (s.brk + 2056) = pack 0 true false := by
    rw [hm7, load64_store64_disj _ _ _ _ (by omega), load64_store64_disj _ _ _ _ (by omega), h5c]
  obtain ⟨m, hm⟩ : ∃ m : Nat → Nat, m = store64 (store64 (store64 m7 (s.brk + 2056)
      (pack 0 true false)) (s.brk + 8 + 16) 0) (s.brk + 8 + 8) 0 := ⟨_, rfl⟩
  have hres : add (prev_make { write_header s5 (s.brk + 8) 2048 false true with
        mem := store64 (write_header s5 (s.brk + 8) 2048 false true).mem
          (s.brk + 8 + 2048 - 8) (pack 2048 false false) } (s.brk + 2056) false) (s.brk + 8) =
      { s with mem := m, brk := s.brk + 2064, heap_listp := s.brk + 8, root := s.brk + 8 } := by
    have hpm : prev_make { write_header s5 (s.brk + 8) 2048 false true with
        mem := store64 (write_header s5 (s.brk + 8) 2048 false true).mem
          (s.brk + 8 + 2048 - 8) (pack 2048 false false) } (s.brk + 2056) false =
        { s5 with mem := store64 m7 (s.brk + 2056) (pack 0 true false) } := by
      unfold prev_make write_header
      simp only [Bool.false_eq_true, if_false, hs5m]
      rw [show s.brk + 8 + 2048 - 8 = s.brk + 2048 by omega, ← hm7, h7c]
      rfl
    rw [hpm, add_eq]
    simp only [hs5r]
    rw [if_neg (by omega)]
    simp only [if_true]
    rw [hm, hs5]
  rw [hres] at hco
  refine ⟨m, ?_, ?_, ?_, ?_, ?_, ?_, ?_⟩
  · rw [hinit, hext, hco]
    rw [if_neg (by show ¬ s.brk + 8 = 0; omega)]
  · rw [hm, hm7, hm5, hm2]
    rw [load64_store64_disj _ _ _ _ (by omega), load64_store64_disj _ _ _ _ (by omega),
      load64_store64_disj _ _ _ _ (by omega), load64_store64_disj _ _ _ _ (by omega),
      load64_store64_disj _ _ _ _ (by omega), load64_store64_disj _ _ _ _ (by omega),
      load64_store64_disj _ _ _ _ (by omega), load64_store64_disj _ _ _ _ (by omega),
      load64_store64_disj _ _ _ _ (by omega), load64_store64_eq _ _ _ (by decide)]
  · rw [hm, hm7]
    rw [load64_store64_disj _ _ _ _ (by omega), load64_store64_disj _ _ _ _ (by omega),
      load64_store64_disj _ _ _ _ (by omega), load64_store64_disj _ _ _ _ (by omega),
      load64_store64_eq _ _ _ (by decide)]
  · rw [hm, show s.brk + 8 + 8 = s.brk + 16 by omega, load64_store64_eq _ _ _ (by decide)]
  · rw [hm, show s.brk + 8 + 16 = s.brk + 24 by omega,
      load64_store64_disj _ _ _ _ (by omega), load64_store64_eq _ _ _ (by decide)]
  · rw [hm, hm7]
    rw [load64_store64_disj _ _ _ _ (by omega), load64_store64_disj _ _ _ _ (by omega),
      load64_store64_disj _ _ _ _ (by omega), load64_store64_eq _ _ _ (by decide)]
  · rw [hm]
    rw [load64_store64_disj _ _ _ _ (by omega), load64_store64_disj _ _ _ _ (by omega),
      load64_store64_eq _ _ _ (by decide)]

theorem walk_succ (s : Heap) (fuel a : Nat) :
    walk s (fuel + 1) a =
      if get_size s a = 0 then []
      else (a, get_size s a, get_alloc s a) :: walk s fuel (find_next s a) := rfl

/-- The postcondition of `mm_init` when `root` is `NULL`: on an empty provider
heap with `root = NULL`, when the provider grants both requests `mm_init`
returns true and leaves the prologue `pack(0,1,1)` at `heap_lo`, one block on the
heap walk, free, of 2048 bytes at `heap_lo + 8` with header `pack(2048,0,1)`
and footer `pack(2048,0,0)`, the epilogue `pack(0,1,0)` at `heap_hi - 7`, and
a free list that consists of that block alone with `next` and `prev` both
`NULL`; when the provider refuses either request, `mm_init` returns false,
whatever `root` is. -/
theorem mm_init_postcondition (s : Heap) (hbrk : s.brk = s.lo) (hlim : s.limit ≤ 2 ^ 64) :
    (s.root = 0 → s.lo + 2064 ≤ s.limit →
      (mm_init s).1 = true ∧
      load64 (mm_init s).2.mem (mem_heap_lo (mm_init s).2) = pack 0 true true ∧
      (mm_init s).2.heap_listp = s.lo + 8 ∧
      heap_blocks (mm_init s).2 = [(s.lo + 8, 2048, false)] ∧
      load64 (mm_init s).2.mem (s.lo + 8) = pack 2048 false true ∧
      load64 (mm_init s).2.mem (s.lo + 8 + 2048 - 8) = pack 2048 false false ∧
      mem_heap_hi (mm_init s).2 - 7 = s.lo + 2056 ∧
      load64 (mm_init s).2.mem (mem_heap_hi (mm_init s).2 - 7) = pack 0 true false ∧
      (mm_init s).2.root = s.lo + 8 ∧
      blk_next (mm_init s).2 (s.lo + 8) = 0 ∧ blk_prev (mm_init s).2 (s.lo + 8) = 0 ∧
      ListFrom (mm_init s).2 (mm_init s).2.root [s.lo + 8]) ∧
    (s.limit < s.lo + 2064 → (mm_init s).1 = false) := by
  constructor
  · intro hroot hroom
    obtain ⟨m, he, l0, l1, l2, l3, l4, l5⟩ := mm_init_eq s hroot (by omega) hlim
    rw [hbrk] at he l0 l1 l2 l3 l4 l5
    obtain ⟨s1, hs1⟩ : ∃ s1 : Heap, s1 = { s with
        mem := m
        brk := s.lo + 2064
        heap_listp := s.lo + 8
        root := s.lo + 8 } := ⟨_, rfl⟩
    rw [← hs1] at he
    have em : s1.mem = m := by rw [hs1]
    have eb : s1.brk = s.lo + 2064 := by rw [hs1]
    have el : s1.lo = s.lo := by rw [hs1]
    have ep : s1.heap_listp = s.lo + 8 := by rw [hs1]
    have er : s1.root = s.lo + 8 := by rw [hs1]
    rw [← em] at l0 l1 l2 l3 l4 l5
    rw [he]
    simp only
    have hhi : mem_heap_hi s1 - 7 = s.lo + 2056 := by
      unfold mem_heap_hi; rw [eb]; omega
    have hnx : blk_next s1 (s.lo + 8) = 0 := by
      unfold blk_next
      rw [show s.lo + 8 + 16 = s.lo + 24 by omega]; exact l3
    have g1 : get_size s1 (s.lo + 8) = 2048 := get_size_of l1 (by decide) (by decide)
    have g2 : get_alloc s1 (s.lo + 8) = false := get_alloc_of l1 (by decide)
    have g3 : find_next s1 (s.lo + 8) = s.lo + 2056 := by
      rw [find_next_of l1 (by decide) (by omega)]
    have g4 : get_size s1 (s.lo + 2056) = 0 := get_size_of l5 (by decide) (by decide)
    have hl0 : load64 s1.mem (mem_heap_lo s1) = pack 0 true true := by
      unfold mem_heap_lo; rw [el]; exact l0
    refine ⟨trivial, hl0, ep, ?_, l1, ?_, hhi, ?_, er, hnx, ?_, ⟨er, by omega, hnx⟩⟩
    · unfold heap_blocks
      rw [eb, el, ep, show s.lo + 2064 - s.lo = 2062 + 1 + 1 by omega, walk_succ, g1,
        if_neg (by decide), g2, g3, walk_succ, g4, if_pos rfl]
    · rw [show s.lo + 8 + 2048 - 8 = s.lo + 2048 by omega]; exact l4
    · rw [hhi]; exact l5
    · unfold blk_prev
      rw [show s.lo + 8 + 8 = s.lo + 16 by omega]; exact l2
  · intro hno
    cases hr : (mm_init s).1
    · rfl
    · have := mm_init_true_room hbrk hr
      omega

theorem mm_init_postcondition_witness :
    fresh.brk = fresh.lo ∧ fresh.root = 0 ∧ (mm_init fresh).1 = true ∧
    heap_blocks (mm_init fresh).2 = [(fresh.lo + 8, 2048, false)] ∧
    tight.limit - 16 < tight.lo + 2064 ∧
    (mm_init { tight with limit := tight.limit - 16 }).1 = false :=
  ⟨rfl, rfl, ((mm_init_postcondition fresh rfl (by decide)).1 rfl (by decide)).1,
    ((mm_init_postcondition fresh rfl (by decide)).1 rfl (by decide)).2.2.2.1,
    by decide,
    (mm_init_postcondition { tight with limit := tight.limit - 16 } rfl (by decide)).2
      (by decide)⟩

/-! ## The heap checker -/

theorem walk_det {s : Heap} {a : Nat} {es1 es2 : List (Nat × Nat × Bool)}
    (h1 : Walk s a es1) (h2 : Walk s a es2) : es1 = es2 := by
  induction es1 generalizing a es2 with
  | nil =>
    cases es2 with
    | nil => rfl
    | cons e es => exact absurd h1 h2.1
  | cons e es ih =>
    cases es2 with
    | nil => exact absurd h2 h1.1
    | cons e2 es2 =>
      obtain ⟨_, h12, h13⟩ := h1
      obtain ⟨_, h22, h23⟩ := h2
      rw [h12, h22, ih h13 h23]

theorem walk_complete {s : Heap} :
    ∀ (fuel a : Nat), (walk s fuel a).length < fuel → Walk s a (walk s fuel a) := by
  intro fuel
  induction fuel with
  | zero => intro a h; simp at h
  | succ n ih =>
    intro a h
    rw [walk_succ] at h ⊢
    by_cases hz : get_size s a = 0
    · rw [if_pos hz]; exact hz
    · rw [if_neg hz] at h ⊢
      simp only [List.length_cons] at h
      exact ⟨hz, rfl, ih _ (by omega)⟩

theorem noAdj_head_congr {x y : Nat × Nat × Bool} (es : List (Nat × Nat × Bool))
    (h : x.2.2 = y.2.2) : NoAdjacentFree (x :: es) ↔ NoAdjacentFree (y :: es) := by
  cases es with
  | nil => simp [NoAdjacentFree]
  | cons e es => simp only [NoAdjacentFree, h]

theorem noAdj_tail {x : Nat × Nat × Bool} {es : List (Nat × Nat × Bool)}
    (h : NoAdjacentFree (x :: es)) : NoAdjacentFree es := by
  cases es with
  | nil => trivial
  | cons e es => exact h.2

theorem noAdj_alloc_head {x : Nat × Nat × Bool} (es : List (Nat × Nat × Bool))
    (hx : x.2.2 = true) : NoAdjacentFree (x :: es) ↔ NoAdjacentFree es := by
  cases es with
  | nil => simp [NoAdjacentFree]
  | cons e es => simp [NoAdjacentFree, hx]

/-- `check_adj_free_blocks` returning true: the walk is complete and has no
two consecutive free blocks, `prev_free` counting as a free block before it. -/
theorem check_adj_true {s : Heap} :
    ∀ (fuel a : Nat) (pf : Bool), check_adj_loop s fuel a pf = some true →
      ∃ es, Walk s a es ∧ NoAdjacentFree ((0, 0, !pf) :: es) := by
  intro fuel
  induction fuel with
  | zero => intro a pf h; simp [check_adj_loop] at h
  | succ n ih =>
    intro a pf h
    unfold check_adj_loop at h
    by_cases hz : get_size s a > 0
    · rw [if_pos hz] at h
      dsimp only at h
      by_cases hc : (!get_alloc s a && pf) = true
      · rw [if_pos hc] at h; simp at h
      · rw [if_neg hc] at h
        obtain ⟨es, hw, hn⟩ := ih _ _ h
        refine ⟨(a, get_size s a, get_alloc s a) :: es, ⟨by omega, rfl, hw⟩, ?_⟩
        refine ⟨?_, (noAdj_head_congr es (by simp)).mp hn⟩
        intro hboth
        apply hc
        simp only [Bool.not_eq_eq_eq_not, Bool.not_false] at hboth
        simp [hboth.1, hboth.2]
    · rw [if_neg hz] at h
      exact ⟨[], by show get_size s a = 0; omega, trivial⟩

/-- `check_adj_free_blocks` returning false: no complete walk without two
consecutive free blocks exists. -/
theorem check_adj_false {s : Heap} :
    ∀ (fuel a : Nat) (pf : Bool), check_adj_loop s fuel a pf = some false →
      ∀ es, Walk s a es → ¬ NoAdjacentFree ((0, 0, !pf) :: es) := by
  intro fuel
  induction fuel with
  | zero => intro a pf h; simp [check_adj_loop] at h
  | succ n ih =>
    intro a pf h es hw hn
    unfold check_adj_loop at h
    by_cases hz : get_size s a > 0
    · rw [if_pos hz] at h
      dsimp only at h
      cases es with
      | nil => have : get_size s a = 0 := hw; omega
      | cons e es =>
        obtain ⟨_, he, hw2⟩ := hw
        by_cases hc : (!get_alloc s a && pf) = true
        · apply hn.1
          simp only [Bool.and_eq_true, Bool.not_eq_eq_eq_not, Bool.not_true] at hc
          rw [he]
          simp [hc.1, hc.2]
        · rw [if_neg hc] at h
          refine ih _ _ h es hw2 ((noAdj_head_congr es ?_).mp hn.2)
          rw [he]; simp
    · rw [if_neg hz] at h
      simp at h

theorem check_adj_some {s : Heap} :
    ∀ (es : List (Nat × Nat × Bool)) (fuel a : Nat) (pf : Bool), Walk s a es →
      es.length < fuel → ∃ b, check_adj_loop s fuel a pf = some b := by
  intro es
  induction es with
  | nil =>
    intro fuel a pf hw hf
    cases fuel with
    | zero => simp at hf
    | succ n =>
      have hz : get_size s a = 0 := hw
      unfold check_adj_loop
      rw [if_neg (by omega)]
      exact ⟨true, rfl⟩
  | cons e es ih =>
    intro fuel a pf hw hf
    obtain ⟨hz, _, hw2⟩ := hw
    cases fuel with
    | zero => simp at hf
    | succ n =>
      unfold check_adj_loop
      rw [if_pos (by omega)]
      dsimp only
      by_cases hc : (!get_alloc s a && pf) = true
      · rw [if_pos hc]; exact ⟨false, rfl⟩
      · rw [if_neg hc]
        exact ih _ _ _ hw2 (by simp only [List.length_cons] at hf; omega)

theorem check_within_heap_iff (s : Heap) (p : Nat) :
    check_within_heap s p = true ↔ p ≤ mem_heap_hi s ∧ mem_heap_lo s ≤ p := by
  unfold check_within_heap
  simp

theorem check_alignment_iff (s : Heap) (a : Nat) :
    check_alignment_min_size s a = true ↔
      (a + 2 ^ 64 - 8) % 2 ^ 64 % 16 = 0 ∧ 32 ≤ get_size s a := by
  unfold check_alignment_min_size get_size
  simp [wsize, dsize, min_block_size]

theorem ptr_bad_iff (s : Heap) (n : Nat) :
    ((blk_next s n ≠ 0 ∧ check_within_heap s (blk_next s n) = false) ∨
      (blk_prev s n ≠ 0 ∧ check_within_heap s (blk_prev s n) = false)) ↔
    ¬ (NullOrInHeap s (blk_next s n) ∧ NullOrInHeap s (blk_prev s n)) := by
  have key : ∀ p, (p ≠ 0 ∧ check_within_heap s p = false) ↔ ¬ NullOrInHeap s p := by
    intro p
    unfold NullOrInHeap
    rw [← Bool.not_eq_true, check_within_heap_iff]
    constructor
    · rintro ⟨h1, h2⟩ h3; exact h2 (h3 h1)
    · intro h
      by_cases hp : p = 0
      · exact absurd (fun hne => absurd hp hne) h
      · exact ⟨hp, fun h2 => h (fun _ => h2)⟩
  rw [key, key]
  tauto

/-- `check_free_list` returning true. -/
theorem check_free_list_true {s : Heap} {exp : Nat} :
    ∀ (fuel cur cnt : Nat), cnt < 2 ^ 64 →
      check_free_list_loop s exp fuel cur cnt = some true →
      ∃ fl, ListFrom s cur fl ∧
        (∀ n ∈ fl, NullOrInHeap s (blk_next s n) ∧ NullOrInHeap s (blk_prev s n)) ∧
        (cnt + fl.length) % 2 ^ 64 = exp := by
  intro fuel
  induction fuel with
  | zero => intro cur cnt _ h; simp [check_free_list_loop] at h
  | succ k ih =>
    intro cur cnt hc h
    unfold check_free_list_loop at h
    by_cases h0 : cur = 0
    · rw [if_pos h0] at h
      simp only [Option.some.injEq, beq_iff_eq] at h
      refine ⟨[], h0, by intro n hn; simp at hn, ?_⟩
      simp only [List.length_nil, Nat.add_zero]
      omega
    · rw [if_neg h0] at h
      dsimp only at h
      by_cases hbad : (blk_next s cur ≠ 0 ∧ check_within_heap s (blk_next s cur) = false) ∨
          (blk_prev s cur ≠ 0 ∧ check_within_heap s (blk_prev s cur) = false)
      · rw [if_pos hbad] at h; simp at h
      · rw [if_neg hbad] at h
        obtain ⟨fl, h1, h2, h3⟩ := ih _ _ (Nat.mod_lt _ (by decide)) h
        refine ⟨cur :: fl, ⟨rfl, h0, h1⟩, ?_, ?_⟩
        · intro n hn
          rcases List.mem_cons.mp hn with rfl | hn
          · exact not_not.mp (fun hc2 => hbad ((ptr_bad_iff s n).mpr hc2))
          · exact h2 n hn
        · simp only [List.length_cons]
          omega

/-- `check_free_list` returning false. -/
theorem check_free_list_false {s : Heap} {exp : Nat} :
    ∀ (fuel cur cnt : Nat), cnt < 2 ^ 64 →
      check_free_list_loop s exp fuel cur cnt = some false →
      ∀ fl, ListFrom s cur fl →
        ¬ ((∀ n ∈ fl, NullOrInHeap s (blk_next s n) ∧ NullOrInHeap s (blk_prev s n)) ∧
          (cnt + fl.length) % 2 ^ 64 = exp) := by
  intro fuel
  induction fuel with
  | zero => intro cur cnt _ h; simp [check_free_list_loop] at h
  | succ k ih =>
    intro cur cnt hc h fl hl hgood
    unfold check_free_list_loop at h
    by_cases h0 : cur = 0
    · rw [if_pos h0] at h
      simp only [Option.some.injEq, beq_eq_false_iff_ne, ne_eq] at h
      cases fl with
      | nil =>
        have := hgood.2
        simp only [List.length_nil, Nat.add_zero] at this
        omega
      | cons b fl => exact hl.2.1 (by rw [← hl.1]; exact h0)
    · rw [if_neg h0] at h
      dsimp only at h
      cases fl with
      | nil => exact h0 hl
      | cons b fl =>
        obtain ⟨hb, _, hl2⟩ := hl
        subst hb
        by_cases hbad : (blk_next s cur ≠ 0 ∧ check_within_heap s (blk_next s cur) = false) ∨
            (blk_prev s cur ≠ 0 ∧ check_within_heap s (blk_prev s cur) = false)
        · exact (ptr_bad_iff s cur).mp hbad (hgood.1 cur (List.mem_cons_self _ _))
        · rw [if_neg hbad] at h
          refine ih _ _ (Nat.mod_lt _ (by decide)) h fl hl2 ⟨?_, ?_⟩
          · intro n hn; exact hgood.1 n (List.mem_cons_of_mem _ hn)
          · have := hgood.2
            simp only [List.length_cons] at this
            omega

theorem check_free_list_some {s : Heap} {exp : Nat} :
    ∀ (fl : List Nat) (fuel cur cnt : Nat), ListFrom s cur fl → fl.length < fuel →
      ∃ b, check_free_list_loop s exp fuel cur cnt = some b := by
  intro fl
  induction fl with
  | nil =>
    intro fuel cur cnt hl hf
    cases fuel with
    | zero => simp at hf
    | succ k =>
      have h0 : cur = 0 := hl
      unfold check_free_list_loop
      rw [if_pos h0]
      exact ⟨_, rfl⟩
  | cons b fl ih =>
    intro fuel cur cnt hl hf
    obtain ⟨hb, hb0, hl2⟩ := hl
    subst hb
    cases fuel with
    | zero => simp at hf
    | succ k =>
      unfold check_free_list_loop
      rw [if_neg hb0]
      dsimp only
      by_cases hbad : (blk_next s cur ≠ 0 ∧ check_within_heap s (blk_next s cur) = false) ∨
          (blk_prev s cur ≠ 0 ∧ check_within_heap s (blk_prev s cur) = false)
      · rw [if_pos hbad]; exact ⟨false, rfl⟩
      · rw [if_neg hbad]
        exact ih _ _ _ hl2 (by simp only [List.length_cons] at hf; omega)

theorem walk_nil_of_size {s : Heap} {a : Nat} {es : List (Nat × Nat × Bool)}
    (h : Walk s a es) (hz : get_size s a = 0) : es = [] := by
  cases es with
  | nil => rfl
  | cons e es => exact absurd hz h.1

/-- The block loop of `mm_checkheap` returning true. -/
theorem checkheap_loop_true {s : Heap} {inner : Nat} :
    ∀ (fuel cur cnt : Nat), cnt < 2 ^ 64 →
      mm_checkheap_loop s inner fuel cur cnt = some true →
      ∃ es fl, Walk s cur es ∧ NoAdjacentFree es ∧
        (∀ e ∈ es, e.1 ≤ mem_heap_hi s ∧ mem_heap_lo s ≤ e.1 ∧
          (e.1 + 2 ^ 64 - 8) % 2 ^ 64 % 16 = 0 ∧ 32 ≤ e.2.1) ∧
        ListFrom s s.root fl ∧
        (∀ n ∈ fl, NullOrInHeap s (blk_next s n) ∧ NullOrInHeap s (blk_prev s n)) ∧
        fl.length % 2 ^ 64 = (cnt + (es.filter (fun e => !e.2.2)).length) % 2 ^ 64 := by
  intro fuel
  induction fuel with
  | zero => intro cur cnt _ h; simp [mm_checkheap_loop] at h
  | succ k ih =>
    intro cur cnt hc h
    unfold mm_checkheap_loop at h
    by_cases hz : get_size s cur > 0
    · rw [if_pos hz] at h
      cases hadj : check_adj_free_blocks s inner cur with
      | none => rw [hadj] at h; simp at h
      | some b =>
        rw [hadj] at h
        cases b with
        | false => simp at h
        | true =>
          simp only at h
          by_cases hw : check_within_heap s cur = false
          · rw [if_pos hw] at h; simp at h
          · rw [if_neg hw] at h
            by_cases hal : check_alignment_min_size s cur = false
            · rw [if_pos hal] at h; simp at h
            · rw [if_neg hal] at h
              obtain ⟨es, fl, h1, h2, h3, h4, h5, h6⟩ := ih _ _ (by
                split
                · exact Nat.mod_lt _ (by decide)
                · exact hc) h
              obtain ⟨es0, hw0, hn0⟩ := check_adj_true _ _ _ hadj
              have he0 : es0 = (cur, get_size s cur, get_alloc s cur) :: es :=
                walk_det hw0 ⟨by omega, rfl, h1⟩
              rw [he0] at hn0
              have hwi := (check_within_heap_iff s cur).mp (by simpa using hw)
              have hai := (check_alignment_iff s cur).mp (by simpa using hal)
              refine ⟨(cur, get_size s cur, get_alloc s cur) :: es, fl, ⟨by omega, rfl, h1⟩,
                noAdj_tail hn0, ?_, h4, h5, ?_⟩
              · intro e he
                rcases List.mem_cons.mp he with rfl | he
                · exact ⟨hwi.1, hwi.2, hai.1, hai.2⟩
                · exact h3 e he
              · rw [h6]
                cases hga : get_alloc s cur
                · simp only [if_true, List.filter_cons, Bool.not_false, List.length_cons]
                  omega
                · simp [List.filter_cons]
    · rw [if_neg hz] at h
      cases hfl : check_free_list s inner s.root cnt with
      | none => rw [hfl] at h; simp at h
      | some b =>
        rw [hfl] at h
        cases b with
        | false => simp at h
        | true =>
          obtain ⟨fl, f1, f2, f3⟩ := check_free_list_true _ _ _ (by decide) hfl
          refine ⟨[], fl, by show get_size s cur = 0; omega, trivial,
            by intro e he; simp at he, f1, f2, ?_⟩
          simp only [List.filter_nil, List.length_nil, Nat.add_zero] at f3 ⊢
          omega

/-- The block loop of `mm_checkheap` returning false. -/
theorem checkheap_loop_false {s : Heap} {inner : Nat} :
    ∀ (fuel cur cnt : Nat), cnt < 2 ^ 64 →
      mm_checkheap_loop s inner fuel cur cnt = some false →
      ∀ es fl, Walk s cur es → ListFrom s s.root fl →
        ¬ (NoAdjacentFree es ∧
          (∀ e ∈ es, e.1 ≤ mem_heap_hi s ∧ mem_heap_lo s ≤ e.1 ∧
            (e.1 + 2 ^ 64 - 8) % 2 ^ 64 % 16 = 0 ∧ 32 ≤ e.2.1) ∧
          (∀ n ∈ fl, NullOrInHeap s (blk_next s n) ∧ NullOrInHeap s (blk_prev s n)) ∧
          fl.length % 2 ^ 64 = (cnt + (es.filter (fun e => !e.2.2)).length) % 2 ^ 64) := by
  intro fuel
  induction fuel with
  | zero => intro cur cnt _ h; simp [mm_checkheap_loop] at h
  | succ k ih =>
    intro cur cnt hc h es fl hwk hlf hgood
    obtain ⟨g1, g2, g3, g4⟩ := hgood
    unfold mm_checkheap_loop at h
    by_cases hz : get_size s cur > 0
    · rw [if_pos hz] at h
      cases es with
      | nil => have : get_size s cur = 0 := hwk; omega
      | cons e es =>
        obtain ⟨_, he, hwk2⟩ := hwk
        have hb := g2 e (List.mem_cons_self _ _)
        rw [he] at hb
        simp only at hb
        cases hadj : check_adj_free_blocks s inner cur with
        | none => rw [hadj] at h; simp at h
        | some b =>
          rw [hadj] at h
          cases b with
          | false =>
            refine check_adj_false _ _ _ hadj (e :: es) ⟨by omega, he, hwk2⟩ ?_
            exact (noAdj_alloc_head (e :: es) rfl).mpr g1
          | true =>
            simp only at h
            by_cases hw : check_within_heap s cur = false
            · have := (check_within_heap_iff s cur).mpr ⟨hb.1, hb.2.1⟩
              rw [hw] at this; exact absurd this (by decide)
            · rw [if_neg hw] at h
              by_cases hal : check_alignment_min_size s cur = false
              · have := (check_alignment_iff s cur).mpr ⟨hb.2.2.1, hb.2.2.2⟩
                rw [hal] at this; exact absurd this (by decide)
              · rw [if_neg hal] at h
                refine ih _ _ (by
                  split
                  · exact Nat.mod_lt _ (by decide)
                  · exact hc) h es fl hwk2 hlf ⟨noAdj_tail g1, ?_, g3, ?_⟩
                · intro e2 he2; exact g2 e2 (List.mem_cons_of_mem _ he2)
                · rw [g4, he]
                  cases hga : get_alloc s cur
                  · simp only [if_true, List.filter_cons, Bool.not_false, List.length_cons]
                    omega
                  · simp [List.filter_cons]
    · rw [if_neg hz] at h
      have hnil := walk_nil_of_size hwk (by omega)
      subst hnil
      cases hfl : check_free_list s inner s.root cnt with
      | none => rw [hfl] at h; simp at h
      | some b =>
        rw [hfl] at h
        cases b with
        | true => simp at h
        | false =>
          refine check_free_list_false _ _ _ (by decide) hfl fl hlf ⟨g3, ?_⟩
          simp only [List.filter_nil, List.length_nil, Nat.add_zero] at g4 ⊢
          omega

theorem checkheap_loop_some {s : Heap} {inner : Nat} {fl : List Nat}
    (hlf : ListFrom s s.root fl) (hfi : fl.length < inner) :
    ∀ (es : List (Nat × Nat × Bool)) (fuel cur cnt : Nat), Walk s cur es →
      es.length < fuel → es.length < inner →
      ∃ b, mm_checkheap_loop s inner fuel cur cnt = some b := by
  intro es
  induction es with
  | nil =>
    intro fuel cur cnt hw hf _
    cases fuel with
    | zero => simp at hf
    | succ k =>
      have hz : get_size s cur = 0 := hw
      unfold mm_checkheap_loop
      rw [if_neg (by omega)]
      obtain ⟨b, hb⟩ := @check_free_list_some s cnt fl inner s.root 0 hlf hfi
      unfold check_free_list
      rw [hb]
      cases b <;> exact ⟨_, rfl⟩
  | cons e es ih =>
    intro fuel cur cnt hw hf hi
    cases fuel with
    | zero => simp at hf
    | succ k =>
      have hw' := hw
      obtain ⟨hz, _, hw2⟩ := hw
      unfold mm_checkheap_loop
      rw [if_pos (by omega)]
      obtain ⟨b, hb⟩ := check_adj_some (e :: es) inner cur false hw' hi
      unfold check_adj_free_blocks
      rw [hb]
      cases b with
      | false => exact ⟨_, rfl⟩
      | true =>
        simp only
        by_cases hwi : check_within_heap s cur = false
        · rw [if_pos hwi]; exact ⟨_, rfl⟩
        · rw [if_neg hwi]
          by_cases hal : check_alignment_min_size s cur = false
          · rw [if_pos hal]; exact ⟨_, rfl⟩
          · rw [if_neg hal]
            exact ih _ _ _ hw2 (by simp only [List.length_cons] at hf; omega)
              (by simp only [List.length_cons] at hi; omega)

theorem check_block_iff (s : Heap) (x : Nat) :
    check_block s x = true ↔ get_size s x = 0 ∧ get_alloc s x = true := by
  unfold check_block get_size
  simp

theorem length_layout (a : Nat) (bs : List (Nat × Bool)) : (layout a bs).length = bs.length := by
  induction bs generalizing a with
  | nil => rfl
  | cons b bs ih => simp only [layout, List.length_cons, ih]

/-- `mm_checkheap` answers true exactly on the audited heaps. -/
theorem mm_checkheap_sound {s : Heap} {fuel : Nat} {b : Bool}
    (h : mm_checkheap s fuel = some b) : b = true ↔ Audited s := by
  unfold mm_checkheap at h
  dsimp only at h
  by_cases hs : (check_block s ((mem_heap_hi s + 2 ^ 64 - 7) % 2 ^ 64) &&
      check_block s (mem_heap_lo s)) = false
  · rw [if_pos hs] at h
    simp only [Option.some.injEq] at h
    subst h
    constructor
    · intro hc; exact absurd hc (by decide)
    · intro ha
      exfalso
      have e1 := (check_block_iff s _).mpr ha.1
      have e2 := (check_block_iff s _).mpr ha.2.1
      rw [e1, e2] at hs
      exact absurd hs (by decide)
  · rw [if_neg hs] at h
    have hs2 : check_block s ((mem_heap_hi s + 2 ^ 64 - 7) % 2 ^ 64) = true ∧
        check_block s (mem_heap_lo s) = true := by
      simpa using hs
    have s1 := (check_block_iff s _).mp hs2.1
    have s2 := (check_block_iff s _).mp hs2.2
    cases b with
    | true =>
      obtain ⟨es, fl, h1, h2, h3, h4, h5, h6⟩ := checkheap_loop_true _ _ _ (by decide) h
      simp only [Nat.zero_add] at h6
      exact ⟨fun _ => ⟨s1, s2, es, fl, h1, h2, h3, h4, h5, h6⟩, fun _ => rfl⟩
    | false =>
      constructor
      · intro hc; exact absurd hc (by decide)
      · rintro ⟨_, _, es, fl, h1, h2, h3, h4, h5, h6⟩
        exfalso
        exact checkheap_loop_false _ _ _ (by decide) h es fl h1 h4
          ⟨h2, h3, h5, by simp only [Nat.zero_add]; exact h6⟩

/-- On an audited heap the checker terminates, with answer true. -/
theorem audited_terminates {s : Heap} (h : Audited s) :
    ∃ fuel0, ∀ fuel, fuel0 ≤ fuel → mm_checkheap s fuel = some true := by
  have h' := h
  obtain ⟨s1, s2, es, fl, h1, h2, h3, h4, h5, h6⟩ := h
  refine ⟨es.length + fl.length + 1, ?_⟩
  intro fuel hf
  have hsome : ∃ b, mm_checkheap s fuel = some b := by
    unfold mm_checkheap
    dsimp only
    rw [(check_block_iff s _).mpr s1, (check_block_iff s _).mpr s2]
    rw [if_neg (by decide)]
    exact checkheap_loop_some h4 (by omega) es fuel s.heap_listp 0 h1 (by omega) (by omega)
  obtain ⟨b, hb⟩ := hsome
  rw [hb, (mm_checkheap_sound hb).mpr h']

/-- A well-formed heap passes the audit. -/
theorem wf_audited {s : Heap} (h : WF s) : Audited s := by
  obtain ⟨bs, fl, hR⟩ := h
  have hsz := seg_sizes hR.seg
  have hhi := hR.hi
  have hbrk := hR.brk_eq
  have hb2 := hR.brk_le
  have hb3 := hR.limit_le
  have hal := hR.lo_align
  have hepi : (mem_heap_hi s + 2 ^ 64 - 7) % 2 ^ 64 = s.lo + 8 + total bs := by
    rw [hhi]; omega
  have hpw := pairwise_sep_perm hR.perm (freeAddrs_pairwise hsz (s.lo + 8))
  have hin : ∀ n ∈ fl, n ≤ mem_heap_hi s ∧ mem_heap_lo s ≤ n := by
    intro n hn
    have := freeAddrs_bounds hsz (hR.perm.mem_iff.mp hn)
    unfold mem_heap_lo
    rw [hhi]; omega
  refine ⟨?_, ?_, heap_blocks s, fl, ?_, wf_no_adjacent_free ⟨bs, fl, hR⟩, ?_,
    chain_listFrom hR.chain, ?_, ?_⟩
  · rw [hepi]
    exact ⟨get_size_of hR.epilogue (by decide) (by decide), get_alloc_of hR.epilogue (by decide)⟩
  · exact ⟨get_size_of hR.prologue (by decide) (by decide), get_alloc_of hR.prologue (by decide)⟩
  · have hlen : (heap_blocks s).length < s.brk - s.lo := by
      rw [hR.blocks, length_layout]
      have := total_ge_length hsz
      omega
    unfold heap_blocks at hlen ⊢
    exact walk_complete _ _ hlen
  · intro e he
    rw [hR.blocks] at he
    have := layout_bounds hsz he
    unfold mem_heap_lo
    rw [hhi]
    omega
  · intro n hn
    constructor
    · intro hne
      rcases chain_next_mem hR.chain hn with h0 | hm
      · exact absurd h0 hne
      · exact hin _ hm
    · intro hne
      rcases chain_prev_mem hR.chain hpw hn with ⟨_, h0⟩ | ⟨hm, _⟩
      · exact absurd h0 hne
      · exact hin _ hm
  · rw [hR.blocks, hR.perm.length_eq, length_freeAddrs]

/-- `realloc` round trip for a request whose size adjustment does not wrap:
on a well-formed heap, for a live `p` and `0 < m` with `m + 24 ≤ 2^64`, when
`realloc(p, m)` returns `q ≠ NULL`, the first `min(k, m)` bytes at `q` are
the bytes that were at `p`, for every `k` up to the payload size of `p`'s
block. -/
theorem realloc_copies {s : Heap} (h : WF s) {p m k : Nat} (hp : Live s p) (hm0 : 0 < m)
    (hm : m + 24 ≤ 2 ^ 64) (hk : k ≤ get_payload_size s (p - 8))
    (hq : (realloc s p m).1 ≠ 0) :
    ∀ i, i < min k m → (realloc s p m).2.mem ((realloc s p m).1 + i) = s.mem (p + i) := by
  obtain ⟨bs, fl, hR⟩ := h
  have hp8 : 8 ≤ p := hp.1
  have hp' := hp
  obtain ⟨_, sz0, hmem0⟩ := hp'
  rw [hR.blocks] at hmem0
  obtain ⟨pre0, sz, post0, hbs, hpe⟩ := hR.live_split hp
  subst hbs
  obtain ⟨hhdr0, h016, h032, hb0, _⟩ := hR.alloc_block
  have hps : get_payload_size s (p - 8) = sz - 8 := by
    unfold get_payload_size
    rw [show p - 8 = s.lo + 8 + total pre0 by omega, get_size_of hhdr0 h016 (by omega)]
    simp only [wsize]; omega
  rw [hps] at hk
  have hsz0 : sz0 = sz := by
    have := hR.size_of_block (e := (p - 8, sz0, true)) hmem0
    simp only at this
    rw [show p - 8 = s.lo + 8 + total pre0 by omega, get_size_of hhdr0 h016 (by omega)] at this
    exact this.symm
  subst hsz0
  have hr : (malloc s m).1 ≠ 0 := by
    intro h0
    apply hq
    unfold realloc
    simp only [if_neg (show ¬ m = 0 by omega), if_neg (show ¬ p = 0 by omega), h0, if_true]
  obtain ⟨fl1, pre, bsz, post, hR1, hqe, hle, hkeep, hfrom, hlo, _, _, hfr⟩ :=
    malloc_result hR hm0 hr
  obtain ⟨_, _, hspec, _, _⟩ := adjust_spec m hm
  have hsz1 := seg_sizes hR1.seg
  have hszs := seg_sizes hR.seg
  -- the old block is still there
  have hm2 := hkeep _ hmem0 rfl
  obtain ⟨pre2, post2, hbs2, hx2⟩ := layout_split hm2
  simp only at hbs2 hx2
  have hR1' := hR1
  rw [hbs2] at hR1'
  obtain ⟨hhdr2, _, _, hb2, _⟩ := hR1'.alloc_block
  rw [hlo, ← hx2] at hhdr2
  have hps2 : get_payload_size (malloc s m).2 (payload_to_header p) = sz0 - 8 := by
    unfold get_payload_size payload_to_header
    simp only [wsize]
    rw [show (p + 2 ^ 64 - 8) % 2 ^ 64 = p - 8 by omega, get_size_of hhdr2 h016 (by omega)]
    omega
  -- the new block
  have hnew : (s.lo + 8 + total pre, bsz, true) ∈
      layout (s.lo + 8) (pre ++ [(bsz, true)] ++ post) := layout_mem_mid _ pre post (bsz, true)
  have hbn := layout_bounds hsz1 hnew
  simp only at hbn
  have hne : s.lo + 8 + total pre ≠ p - 8 := by
    intro heq
    have hbe := layout_bounds hszs hmem0
    simp only at hbe
    rcases hfrom (s.lo + 8 + total pre) (Nat.le_refl _) (by omega) with
      ⟨e2, he2, hf2, h1, h2⟩ | hge
    · have hb2' := layout_bounds hszs he2
      rcases layout_disjoint hszs hmem0 he2 with h | h | h
      · rw [← h] at hf2; simp at hf2
      · simp only at h; omega
      · simp only at h; omega
    · have := hR.brk_eq
      rw [total_append, total_append] at this hbe
      simp only [total] at this hbe
      omega
  -- the copy
  obtain ⟨c, hc⟩ : ∃ c, c = (if m < sz0 - 8 then m else sz0 - 8) := ⟨_, rfl⟩
  have hcm : c ≤ m := by rw [hc]; split <;> omega
  have hcs : c ≤ sz0 - 8 := by rw [hc]; split <;> omega
  have hmin : min k m ≤ c := by
    rw [hc]; split <;> omega
  have hreal : realloc s p m = ((malloc s m).1, free { (malloc s m).2 with
      mem := memcpy (malloc s m).2.mem (malloc s m).1 p c } p) := by
    unfold realloc
    simp only [if_neg (show ¬ m = 0 by omega), if_neg (show ¬ p = 0 by omega), if_neg hr, hps2,
      hc]
  have hR2 : Repr { (malloc s m).2 with
      mem := memcpy (malloc s m).2.mem (malloc s m).1 p c }
      (pre2 ++ [(sz0, true)] ++ post2) fl1 := by
    rw [← hbs2]
    apply hR1.write_owned
    intro x hx
    unfold memcpy
    rw [if_neg]
    rintro ⟨hx1, hx2'⟩
    apply hx
    rw [hlo]
    apply owned_mid <;> omega
  obtain ⟨_, _, _, _, _, _, _, _, _, _, hff⟩ := free_spec hR2
  have hpe2 : ({ (malloc s m).2 with
      mem := memcpy (malloc s m).2.mem (malloc s m).1 p c } : Heap).lo + 8 + total pre2 + 8 = p := by
    show (malloc s m).2.lo + 8 + total pre2 + 8 = p
    rw [hlo]; omega
  rw [hpe2] at hff
  intro i hi
  rw [hreal]
  simp only
  have hown : Owned (s.lo + 8) pre2 ((malloc s m).1 + i) ∨
      Owned (s.lo + 8 + total pre2 + sz0) post2 ((malloc s m).1 + i) := by
    rw [hbs2, layout_append, layout_append] at hnew
    rcases List.mem_append.mp hnew with h1 | h1
    · rcases List.mem_append.mp h1 with h2 | h2
      · left
        exact ⟨(s.lo + 8 + total pre, bsz), mem_allocd_iff.mpr h2, by simp only; omega,
          by simp only; omega⟩
      · simp only [layout, List.mem_singleton, Prod.mk.injEq] at h2
        omega
    · right
      rw [total_append] at h1
      simp only [total, Nat.add_zero] at h1
      rw [show s.lo + 8 + (total pre2 + sz0) = s.lo + 8 + total pre2 + sz0 by omega] at h1
      exact ⟨(s.lo + 8 + total pre, bsz), mem_allocd_iff.mpr h1, by simp only; omega,
        by simp only; omega⟩
  have hown' : Owned (({ (malloc s m).2 with
        mem := memcpy (malloc s m).2.mem (malloc s m).1 p c } : Heap).lo + 8) pre2
        ((malloc s m).1 + i) ∨
      Owned (({ (malloc s m).2 with
        mem := memcpy (malloc s m).2.mem (malloc s m).1 p c } : Heap).lo + 8 + total pre2 + sz0)
        post2 ((malloc s m).1 + i) := by
    show Owned ((malloc s m).2.lo + 8) pre2 _ ∨ Owned ((malloc s m).2.lo + 8 + total pre2 + sz0) post2 _
    rw [hlo]; exact hown
  rw [hff _ hown']
  show memcpy (malloc s m).2.mem (malloc s m).1 p c ((malloc s m).1 + i) = _
  unfold memcpy
  rw [if_pos ⟨by omega, by omega⟩, show (malloc s m).1 + i - (malloc s m).1 = i by omega]
  apply hfr
  exact owned_mid (by omega) (by omega)

/-- On a heap whose free list is the single free block at hand, `malloc` of a
size whose adjusted size fits places the request in that block. -/
theorem malloc_single_fit {s : Heap} {pre post : List (Nat × Bool)} {csz : Nat}
    (h : Repr s (pre ++ [(csz, false)] ++ post) [s.lo + 8 + total pre]) {size : Nat}
    (hpos : 0 < size) (hle : adjust size ≤ csz) :
    malloc s size =
      (s.lo + 8 + total pre + 8, place s (s.lo + 8 + total pre) (adjust size)) := by
  obtain ⟨ha16, ha32, halt⟩ := adjust_bounds size
  obtain ⟨hhdr, h16, _, _, _, hb, _, _⟩ := h.free_block
  have hsx : get_size s (s.lo + 8 + total pre) = csz := get_size_of hhdr h16 (by omega)
  have hff : find_fit s (adjust size) = s.lo + 8 + total pre := by
    apply find_fit_head (chain_listFrom h.chain) (by rw [hsx]; exact hle)
    intro n hn
    simp at hn
  have hlp : s.heap_listp ≠ 0 := by rw [h.listp]; omega
  rw [malloc_eq s size hlp (by omega), hff, if_neg (by omega)]
  have : header_to_payload (s.lo + 8 + total pre) = s.lo + 8 + total pre + 8 := by
    unfold header_to_payload; simp only [wsize]; omega
  rw [this]

/-- Adjacent frees coalesce, for sizes whose adjustment does not wrap: on a
heap that is one free block of 2048 bytes, with `0 < s1`, `0 < s2`,
`s1 + 24 ≤ 2^64`, `s2 + 24 ≤ 2^64` and `adjust s1 + adjust s2 ≤ 2048`, the
session `a = malloc(s1); b = malloc(s2); free(a); free(b)` gives two adjacent
allocated blocks of at least the adjusted sizes, then again one free block of
2048 bytes, and `malloc(s1 + s2)` returns `a` with `[a, a + s1 + s2)` inside
the span the two adjusted blocks covered. -/
theorem adjacent_frees_coalesce {s : Heap} (h : Repr s [(2048, false)] [s.lo + 8])
    {s1 s2 : Nat} (h1 : 0 < s1) (h2 : 0 < s2) (hw1 : s1 + 24 ≤ 2 ^ 64)
    (hw2 : s2 + 24 ≤ 2 ^ 64) (hsum : adjust s1 + adjust s2 ≤ 2048) :
    (malloc s s1).1 = s.lo + 16 ∧
    (malloc (malloc s s1).2 s2).1 = s.lo + 16 + adjust s1 ∧
    (∃ bsz rest flb, adjust s2 ≤ bsz ∧
      Repr (malloc (malloc s s1).2 s2).2 ((adjust s1, true) :: (bsz, true) :: rest) flb) ∧
    Repr (two_allocs_freed s s1 s2) [(2048, false)] [s.lo + 8] ∧
    (malloc (two_allocs_freed s s1 s2) (s1 + s2)).1 = (malloc s s1).1 ∧
    (malloc s s1).1 + (s1 + s2) ≤ s.lo + 8 + adjust s1 + adjust s2 ∧
    (malloc (malloc s s1).2 s2).2.lo = s.lo ∧ (two_allocs_freed s s1 s2).lo = s.lo := by
  obtain ⟨a16, a32, aS, _, _⟩ := adjust_spec s1 hw1
  obtain ⟨b16, b32, bS, _, _⟩ := adjust_spec s2 hw2
  have c2048 : adjust (s1 + s2) ≤ 2048 := by
    have e1 : s1 + s2 + 8 ≤ 2040 := by omega
    simp only [adjust, max, round_up, wsize, dsize, Nat.reduceMul, Nat.reduceSub]
    split_ifs <;> omega
  have h0 : Repr s ([] ++ [(2048, false)] ++ []) [s.lo + 8 + total []] := by
    simpa [total] using h
  have hm1 := malloc_single_fit h0 h1 (by omega)
  have hP1 := place_detail h0 a16 a32 (by omega)
  simp only [total, Nat.add_zero, List.nil_append, List.append_nil,
    List.erase_cons_head] at hm1 hP1
  rcases hP1 with ⟨_, hP⟩ | ⟨hc, _⟩
  swap
  · omega
  have hlo1 := place_lo s (s.lo + 8) (adjust s1)
  generalize place s (s.lo + 8) (adjust s1) = sa at hm1 hP hlo1
  -- the second request
  have hA : Repr sa ([(adjust s1, true)] ++ [(2048 - adjust s1, false)] ++ [])
      [sa.lo + 8 + total [(adjust s1, true)]] := by
    simpa [total, hlo1] using hP
  have hm2 := malloc_single_fit hA h2 (by omega)
  have hP2 := place_detail hA b16 b32 (by omega)
  simp only [total, Nat.add_zero, List.append_nil, List.erase_cons_head, hlo1] at hm2 hP2
  have hlo2 := place_lo sa (s.lo + 8 + adjust s1) (adjust s2)
  rw [hlo1] at hlo2
  generalize place sa (s.lo + 8 + adjust s1) (adjust s2) = sb at hm2 hP2 hlo2
  have hfin : ∀ sf : Heap, Repr sf [(2048, false)] [s.lo + 8] → sf.lo = s.lo →
      (malloc sf (s1 + s2)).1 = s.lo + 8 + 8 := by
    intro sf hF hlf
    have hF0 : Repr sf ([] ++ [(2048, false)] ++ []) [sf.lo + 8 + total []] := by
      simpa [total, hlf] using hF
    have hm3 := malloc_single_fit hF0 (by omega : 0 < s1 + s2) c2048
    simp only [total, Nat.add_zero, hlf] at hm3
    rw [hm3]
  have hblocks : ∃ bsz rest flb, adjust s2 ≤ bsz ∧
      Repr sb ((adjust s1, true) :: (bsz, true) :: rest) flb := by
    rcases hP2 with ⟨_, hQ⟩ | ⟨_, hQ⟩
    · exact ⟨adjust s2, [(2048 - adjust s1 - adjust s2, false)], _, le_refl _, by
        simpa using hQ⟩
    · exact ⟨2048 - adjust s1, [], _, by omega, by simpa using hQ⟩
  have hfreed : Repr (free (free sb (s.lo + 8 + 8)) (s.lo + 8 + adjust s1 + 8))
      [(2048, false)] [s.lo + 8] := by
    rcases hP2 with ⟨hsp, hQ⟩ | ⟨hsp, hQ⟩
    · -- b was split off the remainder: free(a) is case 1, free(b) is case 4
      have hQ1 : Repr sb ([] ++ [(adjust s1, true)] ++
          [(adjust s2, true), (2048 - adjust s1 - adjust s2, false)])
          [s.lo + 8 + adjust s1 + adjust s2] := by simpa using hQ
      obtain ⟨m2, hf, hH, hl1, h16, h32, _⟩ := free_as_coalesce hQ1
      obtain ⟨_, c1, _⟩ := coalesce_case1 hH hl1 h16 h32 rfl rfl
      dsimp only at c1
      simp only [total, Nat.add_zero] at hf c1
      have hf0 : free sb (s.lo + 8 + 8) = (coalesce { sb with mem := m2 } (sb.lo + 8)).2 := by
        rw [← hf, hlo2]
      rw [hf0]
      have hlo3 : (coalesce { sb with mem := m2 } (sb.lo + 8)).2.lo = s.lo := by
        rw [coalesce_lo]; exact hlo2
      generalize (coalesce { sb with mem := m2 } (sb.lo + 8)).2 = sc at c1 hlo3 ⊢
      rw [hlo2] at c1
      have hC : Repr sc (([] ++ [(adjust s1, false)]) ++ [(adjust s2, true)] ++
          [(2048 - adjust s1 - adjust s2, false)])
          [s.lo + 8, s.lo + 8 + adjust s1 + adjust s2] := by simpa using c1
      obtain ⟨m3, hf2, hH2, hl2, h16b, h32b, _⟩ := free_as_coalesce hC
      obtain ⟨_, c4, _⟩ := coalesce_case4 hH2
        (by simpa [total, total_append, lastAlloc] using hl2) h16b h32b
      dsimp only at c4
      simp only [total, total_append, Nat.add_zero, Nat.zero_add, List.nil_append] at hf2 c4
      have hf3 : free sc (s.lo + 8 + adjust s1 + 8) =
          (coalesce { sc with mem := m3 } (sc.lo + 8 + adjust s1)).2 := by
        rw [← hf2, hlo3]
      rw [hf3]
      generalize (coalesce { sc with mem := m3 } (sc.lo + 8 + adjust s1)).2 = sd at c4 ⊢
      rw [hlo3] at c4
      have e1 : adjust s2 + adjust s1 + (2048 - adjust s1 - adjust s2) = 2048 := by omega
      have e2 : (([s.lo + 8, s.lo + 8 + adjust s1 + adjust s2].erase (s.lo + 8)).erase
          (s.lo + 8 + (adjust s2 + adjust s1))) = [] := by
        rw [List.erase_cons_head, show s.lo + 8 + (adjust s2 + adjust s1) =
          s.lo + 8 + adjust s1 + adjust s2 by omega, List.erase_cons_head]
      rw [e1, e2] at c4
      exact c4
    · -- b took the whole remainder: free(a) is case 1, free(b) is case 3
      have hQ1 : Repr sb ([] ++ [(adjust s1, true)] ++ [(2048 - adjust s1, true)]) [] := by
        simpa using hQ
      obtain ⟨m2, hf, hH, hl1, h16, h32, _⟩ := free_as_coalesce hQ1
      obtain ⟨_, c1, _⟩ := coalesce_case1 hH hl1 h16 h32 rfl rfl
      dsimp only at c1
      simp only [total, Nat.add_zero] at hf c1
      have hf0 : free sb (s.lo + 8 + 8) = (coalesce { sb with mem := m2 } (sb.lo + 8)).2 := by
        rw [← hf, hlo2]
      rw [hf0]
      have hlo3 : (coalesce { sb with mem := m2 } (sb.lo + 8)).2.lo = s.lo := by
        rw [coalesce_lo]; exact hlo2
      generalize (coalesce { sb with mem := m2 } (sb.lo + 8)).2 = sc at c1 hlo3 ⊢
      rw [hlo2] at c1
      have hC : Repr sc (([] ++ [(adjust s1, false)]) ++ [(2048 - adjust s1, true)] ++ [])
          [s.lo + 8] := by simpa using c1
      obtain ⟨m3, hf2, hH2, hl2, h16b, h32b, _⟩ := free_as_coalesce hC
      obtain ⟨_, c3, _⟩ := coalesce_case3 hH2
        (by simpa [total, total_append, lastAlloc] using hl2) h16b h32b rfl
      dsimp only at c3
      simp only [total, total_append, Nat.add_zero, Nat.zero_add, List.nil_append,
        List.append_nil] at hf2 c3
      have hf3 : free sc (s.lo + 8 + adjust s1 + 8) =
          (coalesce { sc with mem := m3 } (sc.lo + 8 + adjust s1)).2 := by
        rw [← hf2, hlo3]
      rw [hf3]
      generalize (coalesce { sc with mem := m3 } (sc.lo + 8 + adjust s1)).2 = sd at c3 ⊢
      rw [hlo3] at c3
      have e1 : 2048 - adjust s1 + adjust s1 = 2048 := by omega
      rw [e1, List.erase_cons_head] at c3
      exact c3
  have hlof : (free (free sb (s.lo + 8 + 8)) (s.lo + 8 + adjust s1 + 8)).lo = s.lo := by
    rw [free_lo, free_lo]; exact hlo2
  have g1 : (malloc s s1).1 = s.lo + 8 + 8 := by rw [hm1]
  have g2 : (malloc s s1).2 = sa := by rw [hm1]
  have g3 : (malloc sa s2).1 = s.lo + 8 + adjust s1 + 8 := by rw [hm2]
  have g4 : (malloc sa s2).2 = sb := by rw [hm2]
  unfold two_allocs_freed
  rw [g2, g3, g4, g1]
  exact ⟨by omega, by omega, hblocks, hfreed, hfin _ hfreed hlof, by omega, hlo2, hlof⟩

/-! ## Adjacent frees on a freshly initialized heap -/

/-- The source's adjusted size agrees with the spec's when the spec's is
below `2 ^ 64`. -/
theorem adjust_eq_adjusted_size (size : Nat) (h : adjusted_size size < 2 ^ 64) :
    adjust size = adjusted_size size ∧ size + 8 ≤ adjusted_size size := by
  have hq : 16 * ((size + 8 + 15) / 16) < 2 ^ 64 := by
    simp only [adjusted_size, max] at h
    split_ifs at h <;> omega
  have h1 : size + 8 ≤ adjusted_size size := by
    simp only [adjusted_size, max]
    split_ifs <;> omega
  have h3 : size + 8 + 15 < 2 ^ 64 := by omega
  have h2 : (size + wsize) % 2 ^ 64 = size + 8 := by
    simp only [wsize]; omega
  refine ⟨?_, h1⟩
  unfold adjust
  rw [h2]
  simp only [adjusted_size, round_up, dsize, wsize, Nat.reduceMul, Nat.reduceSub]
  rw [Nat.mod_eq_of_lt h3, Nat.mod_eq_of_lt hq]

/-- C17: adjacent frees coalesce.  On a freshly initialized heap (a successful
`mm_init` on an untouched provider), for all sizes `s1, s2 > 0` whose adjusted
sizes sum to at most 2048: the adjusted sizes computed by the code are the
spec's; `a = malloc(s1)` and `b = malloc(s2)` get adjacent allocated blocks
at the start of the heap; after `free(a); free(b)` the heap again consists of
a single free block of 2048 bytes; and `c = malloc(s1 + s2)` returns `c = a`,
with `[c, c + s1 + s2)` inside the span from the start of `a`'s block to the
end of `b`'s block. -/
theorem adjacent_frees_reunite (s : Heap) (s1 s2 : Nat)
    (hbrk : s.brk = s.lo) (hal : s.lo % 16 = 0) (hroot : s.root = 0) (hlim : s.limit ≤ 2 ^ 64)
    (hinit : (mm_init s).1 = true) (h1 : 0 < s1) (h2 : 0 < s2)
    (hsum : adjusted_size s1 + adjusted_size s2 ≤ 2048) :
    adjust s1 = adjusted_size s1 ∧ adjust s2 = adjusted_size s2 ∧
    heap_blocks (mm_init s).2 = [(s.lo + 8, 2048, false)] ∧
    (malloc (mm_init s).2 s1).1 ≠ 0 ∧ (malloc (malloc (mm_init s).2 s1).2 s2).1 ≠ 0 ∧
    (∃ bsz rest, adjust s2 ≤ bsz ∧
      heap_blocks (malloc (malloc (mm_init s).2 s1).2 s2).2 =
        ((malloc (mm_init s).2 s1).1 - 8, adjust s1, true) ::
          ((malloc (malloc (mm_init s).2 s1).2 s2).1 - 8, bsz, true) :: rest ∧
      (malloc (malloc (mm_init s).2 s1).2 s2).1 - 8 =
        (malloc (mm_init s).2 s1).1 - 8 + adjust s1 ∧
      (malloc (mm_init s).2 s1).1 - 8 ≤
        (malloc (two_allocs_freed (mm_init s).2 s1 s2) (s1 + s2)).1 ∧
      (malloc (two_allocs_freed (mm_init s).2 s1 s2) (s1 + s2)).1 + (s1 + s2) ≤
        (malloc (malloc (mm_init s).2 s1).2 s2).1 - 8 + bsz) ∧
    heap_blocks (two_allocs_freed (mm_init s).2 s1 s2) = [(s.lo + 8, 2048, false)] ∧
    (malloc (two_allocs_freed (mm_init s).2 s1 s2) (s1 + s2)).1 =
      (malloc (mm_init s).2 s1).1 := by
  obtain ⟨e1, g1⟩ := adjust_eq_adjusted_size s1 (by
    have : 32 ≤ adjusted_size s2 := by simp only [adjusted_size, max]; split_ifs <;> omega
    omega)
  obtain ⟨e2, g2⟩ := adjust_eq_adjusted_size s2 (by
    have : 32 ≤ adjusted_size s1 := by simp only [adjusted_size, max]; split_ifs <;> omega
    omega)
  obtain ⟨_, hR0, _, hlo0, _⟩ :=
    mm_init_spec hbrk hal hroot hlim (mm_init_true_room hbrk hinit)
  generalize (mm_init s).2 = s0 at hR0 hlo0 ⊢
  rw [← hlo0] at hR0 ⊢
  obtain ⟨ha, hb, ⟨bsz, rest, flb, hbsz, hRb⟩, hRf, hc, hle, hlob, hlof⟩ :=
    adjacent_frees_coalesce hR0 h1 h2 (by omega) (by omega) (by rw [e1, e2]; exact hsum)
  refine ⟨e1, e2, ?_, by omega, by omega, ⟨bsz, layout (s0.lo + 8 + adjust s1 + bsz) rest,
    hbsz, ?_, by omega, by omega, by omega⟩, ?_, hc⟩
  · rw [hR0.blocks]; simp [layout]
  · rw [hRb.blocks, hlob, ha, hb]
    simp only [layout]
    rw [show s0.lo + 16 - 8 = s0.lo + 8 by omega,
      show s0.lo + 16 + adjust s1 - 8 = s0.lo + 8 + adjust s1 by omega]
  · rw [hRf.blocks, hlof]; simp [layout]

theorem adjacent_frees_reunite_witness :
    fresh.brk = fresh.lo ∧ fresh.lo % 16 = 0 ∧ fresh.root = 0 ∧ fresh.limit ≤ 2 ^ 64 ∧
    (mm_init fresh).1 = true ∧ 0 < 100 ∧ adjusted_size 100 + adjusted_size 100 ≤ 2048 ∧
    (malloc (mm_init fresh).2 100).1 = 4112 ∧
    (malloc (malloc (mm_init fresh).2 100).2 100).1 = 4224 ∧
    heap_blocks (malloc (malloc (mm_init fresh).2 100).2 100).2 =
      [(4104, 112, true), (4216, 112, true), (4328, 1824, false)] ∧
    (malloc (two_allocs_freed (mm_init fresh).2 100 100) (100 + 100)).1 = 4112 ∧
    heap_blocks (two_allocs_freed (mm_init fresh).2 100 100) = [(fresh.lo + 8, 2048, false)] ∧
    (malloc (two_allocs_freed (mm_init fresh).2 100 100) (100 + 100)).1 =
      (malloc (mm_init fresh).2 100).1 :=
  ⟨rfl, by decide, rfl, by decide, by decide, by decide, by decide, by decide, by decide,
    by decide, by decide,
    (adjacent_frees_reunite fresh 100 100 rfl (by decide) rfl (by decide) (by decide)
      (by decide) (by decide) (by decide)).2.2.2.2.2.2⟩

/-! ## Free-list field layout -/

/-- The free list of the representation invariant is the list read with
`next` at offset 16 and `prev` at offset 8 of the block. -/
theorem chain_linkedAt {m : Nat → Nat} {p c : Nat} {fl : List Nat} :
    Chain m p c fl ↔ LinkedAt m 16 8 p c fl := by
  induction fl generalizing p c with
  | nil => exact Iff.rfl
  | cons b fl ih =>
    simp only [Chain, LinkedAt]
    rw [ih]

/-- C23, the claim fails: the word at `b + 8` is the `prev` pointer and the
word at `b + 16` the `next` pointer.  `add(4104)` on a list with root `4216`
leaves `NULL` at `4104 + 8` and the old root at `4104 + 16`.  In the session
`a = malloc(24); b = malloc(24); free(a)` the old root is `4168`, `free`
inserts `4104`, and afterwards the word at `4104 + 8` is `NULL` and the word at
`4104 + 16` is `4168`; `find_fit` reaches the node `4168` from the root
`4104`, and read with `next` at offset 8 and `prev` at offset 16 there is no
list from `root` at all. -/
theorem free_list_next_is_at_offset_16 :
    heap1_freeing.root = 4216 ∧
    load64 (add heap1_freeing 4104).mem (4104 + 8) = 0 ∧
    load64 (add heap1_freeing 4104).mem (4104 + 16) = 4216 ∧
    ¬ (load64 (add heap1_freeing 4104).mem (4104 + 8) = heap1_freeing.root ∧
      load64 (add heap1_freeing 4104).mem (4104 + 16) = 0) ∧
    (malloc (malloc heap0 24).2 24).2.root = 4168 ∧
    heap_blocks heap_s4 = [(4104, 32, false), (4136, 32, true), (4168, 1984, false)] ∧
    heap_s4.root = 4104 ∧
    load64 heap_s4.mem (4104 + 8) = 0 ∧ load64 heap_s4.mem (4104 + 16) = 4168 ∧
    find_fit heap_s4 1984 = 4168 ∧
    ¬ ∃ fl, LinkedAt heap_s4.mem 8 16 0 heap_s4.root fl := by
  refine ⟨by decide, by decide, by decide, by decide, by decide, by decide, by decide,
    by decide, by decide, by decide, ?_⟩
  rintro ⟨fl, h⟩
  cases fl with
  | nil => exact absurd (show heap_s4.root = 0 from h) (by decide)
  | cons b fl =>
    obtain ⟨h1, _, h3, _⟩ := h
    subst h1
    exact absurd h3 (by decide)

/-- C23 (amended): free-list pointer layout.  In every free block `b` of a
well-formed heap the `prev` pointer is the word at payload offset 0 (address
`b + 8`) and the `next` pointer the word at payload offset `W` (address
`b + 16`): read with these offsets the list from `root` is doubly linked and
its nodes are exactly the free blocks of the heap walk.  After `add(b)` onto a
non-empty list with old root `r`, the word at `b + 16` is `r`, the word at
`b + 8` is `NULL`, the word at `r + 8` is `b`, and `root = b`. -/
theorem free_list_pointer_layout (s : Heap) (b : Nat) :
    (WF s → ∃ fl, LinkedAt s.mem 16 8 0 s.root fl ∧
      ∀ a, a ∈ fl ↔ ∃ sz, (a, sz, false) ∈ heap_blocks s) ∧
    (b ≠ s.root → s.root ≠ 0 → s.root < 2 ^ 64 → b < 2 ^ 64 →
      (s.root + 16 ≤ b ∨ b + 16 ≤ s.root) →
      load64 (add s b).mem (b + 16) = s.root ∧ load64 (add s b).mem (b + 8) = 0 ∧
      load64 (add s b).mem (s.root + 8) = b ∧ (add s b).root = b) := by
  constructor
  · rintro ⟨bs, fl, hR⟩
    refine ⟨fl, chain_linkedAt.mp hR.chain, ?_⟩
    intro a
    rw [hR.blocks, hR.perm.mem_iff, mem_freeAddrs_iff]
  · intro hne hr hlt hb hsep
    rw [add_eq, if_neg hne, if_neg hr]
    refine ⟨?_, ?_, ?_, rfl⟩
    · show load64 (store64 (store64 (store64 s.mem (b + 16) s.root) (s.root + 8) b)
        (b + 8) 0) (b + 16) = s.root
      rw [load64_store64_disj _ _ _ _ (by omega), load64_store64_disj _ _ _ _ (by omega),
        load64_store64_eq _ _ _ hlt]
    · exact load64_store64_zero _ _
    · show load64 (store64 (store64 (store64 s.mem (b + 16) s.root) (s.root + 8) b)
        (b + 8) 0) (s.root + 8) = b
      rw [load64_store64_disj _ _ _ _ (by omega), load64_store64_eq _ _ _ hb]

theorem free_list_pointer_layout_witness :
    WF heap_s4 ∧
    (∃ fl, LinkedAt heap_s4.mem 16 8 0 heap_s4.root fl ∧
      ∀ a, a ∈ fl ↔ ∃ sz, (a, sz, false) ∈ heap_blocks heap_s4) ∧
    4104 ≠ heap1_freeing.root ∧ heap1_freeing.root ≠ 0 ∧ heap1_freeing.root < 2 ^ 64 ∧
    4104 < 2 ^ 64 ∧ (heap1_freeing.root + 16 ≤ 4104 ∨ 4104 + 16 ≤ heap1_freeing.root) ∧
    load64 (add heap1_freeing 4104).mem (4104 + 16) = heap1_freeing.root ∧
    load64 (add heap1_freeing 4104).mem (4104 + 8) = 0 ∧
    load64 (add heap1_freeing 4104).mem (heap1_freeing.root + 8) = 4104 ∧
    (add heap1_freeing 4104).root = 4104 :=
  ⟨wf_heap_s4, (free_list_pointer_layout heap_s4 0).1 wf_heap_s4, by decide, by decide,
    by decide, by decide, by decide,
    (free_list_pointer_layout heap1_freeing 4104).2 (by decide) (by decide) (by decide)
      (by decide) (by decide)⟩

/-! ## The checker at the end of `malloc` -/

/-- On every state reached by calls whose size does not wrap, the heap checker
run at the end of a `malloc` returns true, given enough fuel. -/
theorem malloc_checkheap_reachable {s : Heap} (h : Reachable s) (size : Nat) :
    ∃ fuel0, ∀ fuel, fuel0 ≤ fuel → mm_checkheap (malloc s size).2 fuel = some true :=
  audited_terminates (wf_audited (malloc_wf (reachable_wf h) size))

/-- C21, evaluated at a failing session: `p = malloc(100)` on the initial heap,
then `realloc(p, 2^64 - 8)`, then `malloc(24)`, which succeeds and returns
`4112`.  The heap walk then has one free block, the free list from `root` has
the two nodes `4136` and `4248`, and `mm_checkheap` returns false, whatever
the fuel. -/
theorem checkheap_false_after_wrapping_realloc :
    Reachable heap1 ∧ Live heap1 4112 ∧
    (realloc heap1 4112 (2 ^ 64 - 8)).1 = 4224 ∧
    (malloc heap_wrapped 24).1 = 4112 ∧
    heap_blocks (malloc heap_wrapped 24).2 =
      [(4104, 32, true), (4136, 80, false), (4216, 32, true)] ∧
    (malloc heap_wrapped 24).2.root = 4136 ∧
    blk_next (malloc heap_wrapped 24).2 4136 = 4248 ∧
    blk_next (malloc heap_wrapped 24).2 4248 = 0 ∧
    check_free_list (malloc heap_wrapped 24).2 20 4136 1 = some false ∧
    mm_checkheap (malloc heap_wrapped 24).2 20 = some false ∧
    ∀ fuel, mm_checkheap (malloc heap_wrapped 24).2 fuel ≠ some true := by
  have hc : mm_checkheap (malloc heap_wrapped 24).2 20 = some false := by decide
  refine ⟨reachable_heap1, live_heap1, by decide, by decide, by decide, by decide, by decide,
    by decide, by decide, hc, ?_⟩
  intro fuel h
  have h1 : Audited (malloc heap_wrapped 24).2 := (mm_checkheap_sound h).mp rfl
  exact absurd ((mm_checkheap_sound hc).mpr h1) (by decide)

/-! ## Lazy initialisation when the provider refuses -/

theorem find_fit_null_root (s : Heap) (asize : Nat) (h : s.root = 0) : find_fit s asize = 0 := by
  unfold find_fit
  rw [h]
  rfl

theorem find_fit_reads_null_root (s : Heap) (asize : Nat) (h : s.root = 0) :
    find_fit_reads s asize = [] := by
  unfold find_fit_reads
  rw [h]
  rfl

theorem extend_heap_reads_refused (s : Heap) (size : Nat)
    (h : s.limit < s.brk + round_up size dsize) :
    extend_heap_reads s size = [(mem_heap_hi s + 2 ^ 64 - 7) % 2 ^ 64] := by
  unfold extend_heap_reads mem_sbrk
  simp only [if_neg (show ¬ s.brk + round_up size dsize ≤ s.limit by omega)]

/-- `malloc` on a state with `root = NULL` whose provider cannot grant 2048
bytes: `NULL`, the state unchanged, and one word read, at
`mem_heap_hi() - 7`. -/
theorem malloc_refused_core (s : Heap) (hl : s.heap_listp ≠ 0 ∨ mm_init s = (false, s))
    (hr : s.root = 0) (hroom : s.limit < s.brk + 2048) {size : Nat} (hpos : 0 < size) :
    malloc s size = (0, s) ∧
    (extend_heap s (max (adjust size) chunksize)).1 = 0 ∧
    find_fit_reads s (adjust size) ++ extend_heap_reads s (max (adjust size) chunksize) =
      [(mem_heap_hi s + 2 ^ 64 - 7) % 2 ^ 64] := by
  obtain ⟨ha16, ha32, halt⟩ := adjust_bounds size
  obtain ⟨he16, he32, helt, hea, he2048⟩ := max_chunk (adjust size) ha16 halt
  have href : s.limit < s.brk + round_up (max (adjust size) chunksize) dsize := by
    rw [round_up_id he16 helt]; omega
  have hs1 : (if s.heap_listp = 0 then (mm_init s).2 else s) = s := by
    rcases hl with h | h
    · rw [if_neg h]
    · rw [h]; simp
  refine ⟨?_, by rw [extend_heap_refused s _ href], ?_⟩
  · unfold malloc
    simp only [hs1, if_neg (show ¬ size = 0 by omega), find_fit_null_root s _ hr, if_true,
      extend_heap_refused s _ href]
  · rw [find_fit_reads_null_root s _ hr, extend_heap_reads_refused s _ href, List.nil_append]

/-- Lazy initialisation when the provider grants nothing: `mm_init` fails
without touching the state, `malloc(size)` returns `NULL` for every
`size > 0` and leaves the state as it was, and it reads exactly one word, the
one at `mem_heap_hi() - 7`. -/
theorem malloc_refused_empty {s : Heap} (hl : s.heap_listp = 0) (hr : s.root = 0)
    (h16 : s.limit < s.brk + 16) {size : Nat} (hpos : 0 < size) :
    mm_init s = (false, s) ∧ malloc s size = (0, s) ∧
    malloc_reads s size = [(mem_heap_hi s + 2 ^ 64 - 7) % 2 ^ 64] := by
  have hinit : mm_init s = (false, s) := by
    unfold mm_init mem_sbrk
    simp only [wsize, Nat.reduceMul, if_neg (show ¬ s.brk + 16 ≤ s.limit by omega)]
  have hreads0 : mm_init_reads s = [] := by
    unfold mm_init_reads mem_sbrk
    simp only [wsize, Nat.reduceMul, if_neg (show ¬ s.brk + 16 ≤ s.limit by omega)]
  obtain ⟨hm, hm1, hrd⟩ := malloc_refused_core s (Or.inr hinit) hr (by omega) hpos
  refine ⟨hinit, hm, ?_⟩
  unfold malloc_reads
  simp only [hl, if_true, hinit, hreads0, if_neg (show ¬ size = 0 by omega),
    find_fit_null_root s _ hr, List.nil_append]
  rw [if_pos hm1]
  exact hrd

/-- Lazy initialisation when the provider grants the first 16 bytes but not
the first chunk: `mm_init` fails after writing prologue and epilogue,
`malloc(size)` returns `NULL` for every `size > 0`, memory is changed only in
the 16 bytes granted, and the two words read are the epilogue word at
`mem_heap_hi() - 7`, inside the heap. -/
theorem malloc_refused_partial {s : Heap} (hl : s.heap_listp = 0) (hr : s.root = 0)
    (hlim : s.limit ≤ 2 ^ 64) (h16 : s.brk + 16 ≤ s.limit) (hroom : s.limit < s.brk + 2064)
    {size : Nat} (hpos : 0 < size) :
    (mm_init s).1 = false ∧ (malloc s size).1 = 0 ∧ (malloc s size).2 = (mm_init s).2 ∧
    (malloc s size).2.brk = s.brk + 16 ∧ (malloc s size).2.lo = s.lo ∧
    (∀ x, x < s.brk ∨ s.brk + 16 ≤ x → (malloc s size).2.mem x = s.mem x) ∧
    malloc_reads s size = [s.brk + 8, s.brk + 8] := by
  obtain ⟨s4, hs4⟩ : ∃ s4 : Heap, s4 = { s with
      brk := s.brk + 16
      mem := store64 (store64 s.mem s.brk (pack 0 true true)) (s.brk + 8) (pack 0 true true)
      heap_listp := s.brk + 8 } := ⟨_, rfl⟩
  have hb4 : s4.brk = s.brk + 16 := by rw [hs4]
  have hl4 : s4.limit = s.limit := by rw [hs4]
  have hr4 : s4.root = 0 := by rw [hs4]; exact hr
  have hp4 : s4.heap_listp ≠ 0 := by rw [hs4]; show s.brk + 8 ≠ 0; omega
  have hlo4 : s4.lo = s.lo := by rw [hs4]
  have hm4 : ∀ x, x < s.brk ∨ s.brk + 16 ≤ x → s4.mem x = s.mem x := by
    intro x hx
    rw [hs4]
    show store64 (store64 s.mem s.brk (pack 0 true true)) (s.brk + 8) (pack 0 true true) x = _
    rw [store64_outside _ _ _ _ (by omega), store64_outside _ _ _ _ (by omega)]
  have hhi4 : (mem_heap_hi s4 + 2 ^ 64 - 7) % 2 ^ 64 = s.brk + 8 := by
    unfold mem_heap_hi; rw [hb4]; omega
  have href : s4.limit < s4.brk + round_up chunksize dsize := by
    rw [round_up_id (by decide) (by decide), hb4, hl4]
    simp only [chunksize]; omega
  have hinit : mm_init s = (false, s4) := by
    have h1 : mm_init s = (if (extend_heap s4 chunksize).1 = 0
        then (false, (extend_heap s4 chunksize).2) else (true, (extend_heap s4 chunksize).2)) := by
      rw [hs4]
      unfold mm_init mem_sbrk
      simp only [wsize, Nat.reduceMul, if_pos h16]
    rw [h1, extend_heap_refused s4 chunksize href]
    simp
  have hreads0 : mm_init_reads s = [s.brk + 8] := by
    have h1 : mm_init_reads s = extend_heap_reads s4 chunksize := by
      rw [hs4]
      unfold mm_init_reads mem_sbrk
      simp only [wsize, Nat.reduceMul, if_pos h16]
    rw [h1, extend_heap_reads_refused s4 chunksize href, hhi4]
  obtain ⟨hm, hx1, hrd⟩ :=
    malloc_refused_core s4 (Or.inl hp4) hr4 (by rw [hb4, hl4]; omega) hpos
  have hmal : malloc s size = (0, s4) := by
    have h1 : malloc s size = malloc s4 size := by
      unfold malloc
      simp only [hl, if_true, hinit, if_neg hp4]
    rw [h1, hm]
  have hm1 : (malloc s size).1 = 0 := by rw [hmal]
  refine ⟨by rw [hinit], hm1, by rw [hmal, hinit], by rw [hmal]; exact hb4,
    by rw [hmal]; exact hlo4, by rw [hmal]; exact hm4, ?_⟩
  rw [hhi4] at hrd
  unfold malloc_reads
  simp only [hl, if_true, hinit, hreads0, if_neg (show ¬ size = 0 by omega),
    find_fit_null_root s4 _ hr4]
  rw [if_pos hx1, List.append_assoc, hrd]
  rfl

/-- C22, evaluated at a failing input: the heap is not initialized and the
provider grants nothing.  `mm_init` fails, `malloc(1)` discards that result,
runs `find_fit` and `extend_heap`, and returns `NULL`; on the way
`extend_heap` reads the word at `mem_heap_hi() - 7 = 4088`, which lies below
`mem_heap_lo() = 4096`, outside the (empty) heap. -/
theorem malloc_uninit_reads_below_heap :
    refusing.heap_listp = 0 ∧ refusing.root = 0 ∧ refusing.brk = refusing.lo ∧
    mem_sbrk refusing 16 = none ∧ (mm_init refusing).1 = false ∧
    (malloc refusing 1).1 = 0 ∧
    extend_heap_reads (mm_init refusing).2 (max (adjust 1) chunksize) = [4088] ∧
    malloc_reads refusing 1 = [4088] ∧
    mem_heap_lo refusing = 4096 ∧ mem_heap_hi refusing = 4095 ∧
    mem_heap_lo (malloc refusing 1).2 = 4096 ∧ mem_heap_hi (malloc refusing 1).2 = 4095 ∧
    ¬ (mem_heap_lo refusing ≤ 4088) ∧
    (mm_init grudging).1 = false ∧ (malloc grudging 1).1 = 0 ∧
    malloc_reads grudging 1 = [4104, 4104] ∧ mem_heap_hi (malloc grudging 1).2 = 4111 :=
  ⟨rfl, rfl, rfl, rfl, by decide, by decide, by decide, by decide, by decide, by decide,
    by decide, by decide, by decide, by decide, by decide, by decide, by decide⟩

end MM
